import Mathlib

/-!
biorbd: rigid-body core (`src/RigidBody/Joints.cpp`) and static optimization
(`src/Muscles/StaticOptimization.cpp`)

A shallow embedding of the kinematic-tree bookkeeping, the generalized-velocity
mapping, the DoF-subtree construction, the dynamics entry points, the
mass-matrix inverse, the copies and the rotation Jacobian of
`rigidbody::Joints`, and of `run` and `finalSolution` of
`muscles::StaticOptimization`, together with the properties the specification
states about them.

Conventions used throughout:

* `utils::Scalar` is embedded as `ℚ` (exact arithmetic);
* `size_t` counters are embedded as `Nat`; the only place where the source
  relies on unsigned wrap-around (`nbQddot() - nbRoot()`) is embedded with an
  explicit reduction modulo `2 ^ 64`;
* `utils::Error::check (cond, msg)` throws when `cond` is false; it is embedded
  as `Except String`, the message being the one of the source.
-/

namespace biorbd

/-! ## Scalars, errors -/

/-- The scalar type `utils::Scalar`, in exact arithmetic. -/
abbrev Scalar := ℚ

/-- The `utils::Error::check (cond, message)` of the source: throws `message`
when `cond` is false. -/
def Error.check (cond : Bool) (message : String) : Except String Unit :=
  if cond then Except.ok () else Except.error message

/-- Value of `std::numeric_limits<unsigned int>::max()`. -/
def UINT_MAX : Nat := 2 ^ 32 - 1

/-! ## Segments -/

/-- The part of `rigidbody::SegmentCharacteristics` read by `Joints.cpp`. -/
structure SegmentCharacteristics where
  mMass : Scalar
deriving DecidableEq

/-- What the constructor of `rigidbody::Segment` derives from the translation
and rotation sequences of a segment: the values later returned by
`nbDofTrans()`, `nbDof()`, `nbQ()`, `nbQdot()`, `nbQddot()` and
`isRotationAQuaternion()`. -/
structure SegmentDof where
  nbDofTrans : Nat
  nbDof : Nat
  nbQ : Nat
  nbQdot : Nat
  nbQddot : Nat
  isRotationAQuaternion : Bool
deriving DecidableEq

/-- A `rigidbody::Segment`, as far as `Joints.cpp` reads it. -/
structure Segment where
  name : String
  parentName : String
  dof : SegmentDof
  characteristics : SegmentCharacteristics
deriving DecidableEq

namespace Segment

def nbDofTrans (s : Segment) : Nat := s.dof.nbDofTrans
def nbDof (s : Segment) : Nat := s.dof.nbDof
def nbQ (s : Segment) : Nat := s.dof.nbQ
def nbQdot (s : Segment) : Nat := s.dof.nbQdot
def nbQddot (s : Segment) : Nat := s.dof.nbQddot
def isRotationAQuaternion (s : Segment) : Bool := s.dof.isRotationAQuaternion

/-- Modelled from the spec: `Segment::updateCharacteristics` (`Segment.cpp` is
not among the sources). The spec says that the characteristics of a segment
"may be updated in place": the segment keeps its name, parent and DoFs, and
holds the supplied characteristics afterwards. -/
def updateCharacteristics (s : Segment) (characteristics : SegmentCharacteristics) : Segment :=
  { s with characteristics := characteristics }

end Segment

/-! ## The model `rigidbody::Joints` -/

/-- The members of `rigidbody::Joints` (the `shared_ptr` fields are embedded by
the value they point to), and the body-name registry of the inherited
`RigidBodyDynamics::Model` that `GetBodyId` searches. -/
structure Joints where
  mBodyNameMap : List String
  m_segments : List Segment
  m_nbRoot : Nat
  m_nbDof : Nat
  m_nbQ : Nat
  m_nbQdot : Nat
  m_nbQddot : Nat
  m_nRotAQuat : Nat
  m_isKinematicsComputed : Bool
  m_totalMass : Scalar
deriving DecidableEq

namespace Joints

/-- The default constructor `Joints::Joints()`: every counter is 0, no segment,
zero total mass. The inherited model registers the base body under the name
`"ROOT"`. -/
def new : Joints :=
  { mBodyNameMap := ["ROOT"]
    m_segments := []
    m_nbRoot := 0
    m_nbDof := 0
    m_nbQ := 0
    m_nbQdot := 0
    m_nbQddot := 0
    m_nRotAQuat := 0
    m_isKinematicsComputed := false
    m_totalMass := 0 }

def nbDof (m : Joints) : Nat := m.m_nbDof
def nbQ (m : Joints) : Nat := m.m_nbQ
def nbQdot (m : Joints) : Nat := m.m_nbQdot
def nbQddot (m : Joints) : Nat := m.m_nbQddot
def nbRoot (m : Joints) : Nat := m.m_nbRoot
def nbQuat (m : Joints) : Nat := m.m_nRotAQuat
def nbGeneralizedTorque (m : Joints) : Nat := m.nbQddot
def mass (m : Joints) : Scalar := m.m_totalMass
def nbSegment (m : Joints) : Nat := m.m_segments.length
def segments (m : Joints) : List Segment := m.m_segments

/-- The inherited `GetBodyId`: the id registered for a body name, and
`UINT_MAX` when the name is not registered. -/
def GetBodyId (m : Joints) (bodyName : String) : Nat :=
  if bodyName ∈ m.mBodyNameMap then m.mBodyNameMap.indexOf bodyName else UINT_MAX

/-- Modelled from the spec: the constructor of `rigidbody::Segment`
(`Segment.cpp` is not among the sources). It is given the model, the names, the
sequences (here: the DoF counts `dof` they determine) and the characteristics;
it yields the segment holding them and registers the segment as a body of the
model under its name. -/
def constructSegment (m : Joints) (segmentName parentName : String) (dof : SegmentDof)
    (characteristics : SegmentCharacteristics) : Segment × Joints :=
  ({ name := segmentName, parentName := parentName, dof := dof,
     characteristics := characteristics },
   { m with mBodyNameMap := m.mBodyNameMap ++ [segmentName] })

/-- The overload of `Joints::AddSegment` taking a translation and a rotation
sequence (lines 143-177). Returns the value returned by the source together
with the model after the call. -/
def AddSegment (m : Joints) (segmentName parentName : String) (dof : SegmentDof)
    (characteristics : SegmentCharacteristics) : Nat × Joints :=
  let (tp, m0) := constructSegment m segmentName parentName dof characteristics
  let m1 := if m0.GetBodyId parentName = UINT_MAX
    then { m0 with m_nbRoot := m0.m_nbRoot + tp.nbDof } else m0
  let m2 := { m1 with m_nbDof := m1.m_nbDof + tp.nbDof }
  let m3 := { m2 with m_nbQ := m2.m_nbQ + tp.nbQ }
  let m4 := { m3 with m_nbQdot := m3.m_nbQdot + tp.nbQdot }
  let m5 := { m4 with m_nbQddot := m4.m_nbQddot + tp.nbQddot }
  let m6 := if tp.isRotationAQuaternion
    then { m5 with m_nRotAQuat := m5.m_nRotAQuat + 1 } else m5
  let m7 := { m6 with m_totalMass := m6.m_totalMass + characteristics.mMass }
  (0, { m7 with m_segments := m7.m_segments ++ [tp] })

/-- The overload of `Joints::AddSegment` taking only a rotation sequence `seqR`
(lines 178-203). -/
def AddSegment_seqR (m : Joints) (segmentName parentName : String) (dof : SegmentDof)
    (characteristics : SegmentCharacteristics) : Nat × Joints :=
  let (tp, m0) := constructSegment m segmentName parentName dof characteristics
  let m1 := if m0.GetBodyId parentName = UINT_MAX
    then { m0 with m_nbRoot := m0.m_nbRoot + tp.nbDof } else m0
  let m2 := { m1 with m_nbDof := m1.m_nbDof + tp.nbDof }
  let m3 := { m2 with m_totalMass := m2.m_totalMass + characteristics.mMass }
  (0, { m3 with m_segments := m3.m_segments ++ [tp] })

/-- `Joints::updateSegmentCharacteristics` (lines 216-223): the index is
checked, then the segment updates its characteristics. -/
def updateSegmentCharacteristics (m : Joints) (idx : Nat)
    (characteristics : SegmentCharacteristics) : Except String Joints := do
  Error.check (idx < m.m_segments.length) "Asked for a wrong segment (out of range)"
  pure { m with m_segments := m.m_segments.modify (·.updateCharacteristics characteristics) idx }

/-- One build-time call on a model. -/
inductive BuildCall where
  | addSegment (segmentName parentName : String) (dof : SegmentDof)
      (characteristics : SegmentCharacteristics)
  | addSegment_seqR (segmentName parentName : String) (dof : SegmentDof)
      (characteristics : SegmentCharacteristics)
  | updateSegmentCharacteristics (idx : Nat) (characteristics : SegmentCharacteristics)

/-- State of the model after one build-time call; a call that throws leaves the
model as it was. -/
def applyCall (m : Joints) : BuildCall → Joints
  | .addSegment n p d c => (m.AddSegment n p d c).2
  | .addSegment_seqR n p d c => (m.AddSegment_seqR n p d c).2
  | .updateSegmentCharacteristics idx c =>
    match m.updateSegmentCharacteristics idx c with
    | .ok m1 => m1
    | .error _ => m

/-- State of the model after a sequence of build-time calls, first call first. -/
def applyCalls (m : Joints) (calls : List BuildCall) : Joints :=
  calls.foldl applyCall m

/-- Two calls used as a concrete example: a quaternion segment with three
translations added through the first overload, and a segment with three
rotations added through the second. -/
def exampleAdds : List BuildCall :=
  [BuildCall.addSegment "Pelvis" "root" ⟨3, 6, 7, 6, 6, true⟩ ⟨10⟩,
   BuildCall.addSegment_seqR "Thigh" "Pelvis" ⟨0, 3, 3, 3, 3, false⟩ ⟨5⟩]

/-- Sum of the masses held by the segments' characteristics. -/
def segmentsMass (m : Joints) : Scalar :=
  (m.m_segments.map (fun s => s.characteristics.mMass)).sum

end Joints

/-- The dimension relations a segment satisfies: as many accelerations as
velocities, and one more coordinate than velocities exactly for a quaternion. -/
def SegmentDof.Consistent (d : SegmentDof) : Prop :=
  d.nbQddot = d.nbQdot ∧ d.nbQ = d.nbQdot + (if d.isRotationAQuaternion then 1 else 0)

/-- A build-time call is an `AddSegment` (either overload) of a consistent segment. -/
def Joints.BuildCall.IsConsistentAdd : Joints.BuildCall → Prop
  | .addSegment _ _ d _ => d.Consistent
  | .addSegment_seqR _ _ d _ => d.Consistent
  | .updateSegmentCharacteristics _ _ => False

/-! ## Vectors (`utils::Vector` and its subclasses)

A vector is a list of scalars. Reading or writing outside the vector is an
assertion failure of the linear-algebra backend, embedded as `none`. -/

/-- The coefficient access `v(i)`; the index is a signed integer in the source. -/
def coeff {α : Type} (v : List α) (i : Int) : Option α :=
  if 0 ≤ i then v.get? i.toNat else none

/-- Reading `v.block(start, 0, len, 1)`. -/
def block {α : Type} (v : List α) (start len : Nat) : Option (List α) :=
  if start + len ≤ v.length then some ((v.drop start).take len) else none

/-- The assignment `dst.block(start, 0, src.size(), 1) = src`. -/
def setBlock {α : Type} (dst : List α) (start : Nat) (src : List α) : Option (List α) :=
  if start + src.length ≤ dst.length
  then some (dst.take start ++ src ++ dst.drop (start + src.length))
  else none

/-- The assignment `dst(i) = x`. -/
def setCoeff {α : Type} (dst : List α) (i : Int) (x : α) : Option (List α) :=
  if 0 ≤ i ∧ i.toNat < dst.length then some (dst.set i.toNat x) else none

/-! ## `computeQdot` -/

/-- A `utils::Quaternion`: scalar part `w`, vector part `x y z`, and the
stabilization gain it carries. -/
structure Quaternion where
  w : Scalar
  x : Scalar
  y : Scalar
  z : Scalar
  kStab : Scalar
deriving DecidableEq

/-- The constructor `Quaternion(w, v, kStab)` from a scalar and a 3-vector. -/
def Quaternion.ofScalarVector (w : Scalar) (v : List Scalar) (kStab : Scalar) : Quaternion :=
  ⟨w, v.getD 0 0, v.getD 1 0, v.getD 2 0, kStab⟩

/-- The block `quat.block(1, 0, 3, 1)`: the vector part. -/
def Quaternion.vectorPart (q : Quaternion) : List Scalar := [q.x, q.y, q.z]

namespace Joints

/-- The condition `!m_nRotAQuat` of `computeQdot` (line 1238) is applied to the
`shared_ptr` and not to the counter it points to. Every constructor of `Joints`
allocates the counter (lines 43, 59), so the pointer is never null. -/
def m_nRotAQuat_isNull (_m : Joints) : Bool := false

/-- The loop of `computeQdot` over the segments (lines 1244-1271), started at
the segment list `segs` with the counters `cmpQuat`, `cmpDof` and the output
vector `QDotOut`. A slot of the output is `none` as long as nothing was written
to it. `derivate` is `Quaternion::derivate` (`Quaternion.cpp` is not among the
sources): from a quaternion and an angular velocity, the quaternion holding the
time derivative. -/
def computeQdotLoop (derivate : Quaternion → List Scalar → Quaternion) (nRotAQuat : Nat)
    (Q QDot : List Scalar) (k_stab : Scalar) :
    List Segment → Nat → Nat → List (Option Scalar) → Option (List (Option Scalar))
  | [], _, _, QDotOut => some QDotOut
  | segment_i :: rest, cmpQuat, cmpDof, QDotOut =>
    if segment_i.isRotationAQuaternion then do
      let w ← coeff Q ((Q.length : Int) - ((nRotAQuat + cmpQuat : Nat) : Int))
      let v ← block Q (cmpDof + segment_i.nbDofTrans) 3
      let quat_tp := Quaternion.ofScalarVector w v k_stab
      let trans ← block QDot cmpDof segment_i.nbDofTrans
      let out1 ← setBlock QDotOut cmpDof (trans.map some)
      let omega ← block QDot (cmpDof + segment_i.nbDofTrans) 3
      let quat_d := derivate quat_tp omega
      let out2 ← setBlock out1 (cmpDof + segment_i.nbDofTrans) (quat_d.vectorPart.map some)
      let out3 ← setCoeff out2 ((Q.length : Int) - ((nRotAQuat + cmpQuat : Nat) : Int))
        (some quat_d.w)
      computeQdotLoop derivate nRotAQuat Q QDot k_stab rest (cmpQuat + 1)
        (cmpDof + segment_i.nbDof) out3
    else do
      let b ← block QDot cmpDof segment_i.nbDof
      let out1 ← setBlock QDotOut cmpDof (b.map some)
      computeQdotLoop derivate nRotAQuat Q QDot k_stab rest cmpQuat
        (cmpDof + segment_i.nbDof) out1

/-- `Joints::computeQdot` (lines 1231-1273). The output vector is created with
`Q.size()` slots holding nothing yet. -/
def computeQdot (m : Joints) (derivate : Quaternion → List Scalar → Quaternion)
    (Q QDot : List Scalar) (k_stab : Scalar) : Option (List (Option Scalar)) :=
  if m.m_nRotAQuat_isNull then some (QDot.map some)
  else computeQdotLoop derivate m.m_nRotAQuat Q QDot k_stab m.m_segments 0 0
    (List.replicate Q.length none)

/-- Sum of the DoF counts of the segments of the model. -/
def segmentsDof (m : Joints) : Nat := (m.m_segments.map Segment.nbDof).sum

/-- A model with two quaternion segments without translations, both added
through the first overload of `AddSegment`. -/
def twoQuaternions : Joints :=
  Joints.new.applyCalls
    [BuildCall.addSegment "Pelvis" "root" ⟨0, 3, 4, 3, 3, true⟩ ⟨1⟩,
     BuildCall.addSegment "Thorax" "Pelvis" ⟨0, 3, 4, 3, 3, true⟩ ⟨1⟩]

end Joints

/-! ## The kinematic tree of the inherited `RigidBodyDynamics::Model`

Body 0 is the fixed base. `lambda[i]` is the parent of body `i`, `mu[i]` the
list of its children, `mJoints[i].q_index` the index of the first coordinate of
the joint that carries body `i`. The source indexes these vectors without
checks; an index outside a vector does not occur in a well-formed model, and
the embedding reads a default value there. -/

/-- The topology members of `RigidBodyDynamics::Model` read by `Joints.cpp`. -/
structure Model where
  lambda : List Nat
  mu : List (List Nat)
  mJoints_q_index : List Nat
  dof_count : Nat
deriving DecidableEq

namespace Model

/-- The access `mJoints[i].q_index`. -/
def q_index (m : Model) (i : Nat) : Nat := m.mJoints_q_index.getD i 0

/-- The access `lambda[i]`. -/
def parent (m : Model) (i : Nat) : Nat := m.lambda.getD i 0

/-- The access `mu[i]`. -/
def children (m : Model) (i : Nat) : List Nat := m.mu.getD i []

/-- The loop over the children in `recursiveDofSubTrees` (lines 341-349):
`recurse` is the recursive call, `idx` the body whose children are visited. -/
def recursiveDofSubTrees.childLoop
    (recurse : List (List Nat) → Nat → Option (List (List Nat))) (idx : Nat) :
    List Nat → List (List Nat) → Option (List (List Nat))
  | [], subTrees_filled => some subTrees_filled
  | cur_child_id :: rest, subTrees_filled => do
    let filled ← recurse subTrees_filled cur_child_id
    let subTree_child := filled.getD cur_child_id []
    recursiveDofSubTrees.childLoop recurse idx rest (filled.modify (· ++ subTree_child) idx)

/-- `Joints::recursiveDofSubTrees` (lines 328-353). The recursion of the source
is bounded here by `fuel`, the number of nested calls allowed; `none` means
that the bound was reached. -/
def recursiveDofSubTrees (m : Model) :
    Nat → List (List Nat) → Nat → Option (List (List Nat))
  | 0, _, _ => none
  | fuel + 1, subTrees, idx =>
    recursiveDofSubTrees.childLoop (recursiveDofSubTrees m fuel) idx (m.children idx)
      (subTrees.modify (· ++ [m.q_index idx]) idx)

/-- The loop of `getDofSubTrees` (lines 309-319) that appends the non-empty
lists of `subTrees_temp_filled` to those of `subTrees`. -/
def getDofSubTrees.merge (subTrees subTrees_temp_filled : List (List Nat)) (size : Nat) :
    List (List Nat) :=
  (List.range size).foldl (fun st j =>
    if (subTrees_temp_filled.getD j []).isEmpty then st
    else st.modify (· ++ subTrees_temp_filled.getD j []) j) subTrees

/-- The loop of `getDofSubTrees` over the bodies without parent (lines 299-321). -/
def getDofSubTrees.rootLoop (m : Model) (fuel : Nat) :
    List Nat → List (List Nat) → Option (List (List Nat))
  | [], subTrees => some subTrees
  | dof_id :: rest, subTrees => do
    let subTrees_temp := List.replicate m.mu.length ([] : List Nat)
    let subTrees_temp_filled ← m.recursiveDofSubTrees fuel subTrees_temp dof_id
    getDofSubTrees.rootLoop m fuel rest
      (getDofSubTrees.merge subTrees subTrees_temp_filled subTrees_temp.length)

/-- `Joints::getDofSubTrees` (lines 281-326), with the bound `fuel` on the
depth of the recursion of `recursiveDofSubTrees`. -/
def getDofSubTrees (m : Model) (fuel : Nat) : Option (List (List Nat)) := do
  let subTrees := List.replicate m.mu.length ([] : List Nat)
  let dof_with_no_parent_id := (List.range' 1 (m.mu.length - 1)).filter (fun i => m.parent i = 0)
  let subTrees ← getDofSubTrees.rootLoop m fuel dof_with_no_parent_id subTrees
  pure subTrees.tail

/-- A well-formed tree: `lambda` and `mu` have one entry per body, the base is
its own parent, every other body has a parent of smaller id, and `mu[i]` lists,
each once, exactly the bodies whose parent is `i`. -/
structure WellFormed (m : Model) : Prop where
  size_eq : m.lambda.length = m.mu.length
  size_pos : 0 < m.mu.length
  parent_base : m.parent 0 = 0
  parent_lt : ∀ i, 0 < i → i < m.mu.length → m.parent i < i
  mem_children : ∀ i c, i < m.mu.length →
    (c ∈ m.children i ↔ 0 < c ∧ c < m.mu.length ∧ m.parent c = i)
  nodup_children : ∀ i, i < m.mu.length → (m.children i).Nodup

/-- The depth-first list of the subtree of body `i`: the coordinate index of
`i`, then the lists of its children, in stored order. `fuel` bounds the depth. -/
def depthFirst (m : Model) : Nat → Nat → List Nat
  | 0, _ => []
  | fuel + 1, i => m.q_index i :: (m.children i).flatMap (depthFirst m fuel)

/-- Body `j` is body `i` or one of its descendants: `i` is reached from `j` by
going up to the parent some number of times. -/
def IsInSubtree (m : Model) (i j : Nat) : Prop := ∃ k : Nat, (m.parent)^[k] j = i

/-- A tree with four movable bodies: body 1 on the base, bodies 2 and 3 on
body 1, body 4 on body 2. -/
def exampleTree : Model :=
  { lambda := [0, 0, 1, 1, 2]
    mu := [[1], [2, 3], [4], [], []]
    mJoints_q_index := [0, 0, 1, 2, 3]
    dof_count := 4 }

end Model

/-! ## Spatial algebra and dense matrices -/

/-- A 6-D spatial vector (`RigidBodyDynamics::Math::SpatialVector`). -/
abbrev SpatialVector := Fin 6 → Scalar

/-- A 6×6 spatial matrix (`RigidBodyDynamics::Math::SpatialMatrix`). -/
abbrev SpatialMatrix := Matrix (Fin 6) (Fin 6) Scalar

/-- A dense matrix (`utils::Matrix`, `RigidBodyDynamics::Math::MatrixNd`): its
dimensions and its coefficients. Coefficients outside the dimensions are not
part of the matrix. -/
structure DenseMatrix where
  rows : Nat
  cols : Nat
  coeff : Nat → Nat → Scalar

namespace DenseMatrix

/-- The block `A.block(startRow, startCol, blockRows, blockCols)`; a block that
leaves the matrix is an assertion failure of the backend (`none`). -/
def block (A : DenseMatrix) (startRow startCol blockRows blockCols : Nat) : Option DenseMatrix :=
  if startRow + blockRows ≤ A.rows ∧ startCol + blockCols ≤ A.cols
  then some ⟨blockRows, blockCols, fun i j => A.coeff (startRow + i) (startCol + j)⟩
  else none

/-- The product of a matrix and a vector, entry `i`. -/
def mulVecAt (A : DenseMatrix) (x : List Scalar) (i : Nat) : Scalar :=
  ((List.range A.cols).map (fun k => A.coeff i k * x.getD k 0)).sum

/-- The product of two matrices, entry `(i, j)`. -/
def mulAt (A B : DenseMatrix) (i j : Nat) : Scalar :=
  ((List.range A.cols).map (fun k => A.coeff i k * B.coeff k j)).sum

/-- A symmetric positive definite matrix. -/
def IsPosDef (A : DenseMatrix) : Prop :=
  A.rows = A.cols ∧ (∀ i j, A.coeff i j = A.coeff j i) ∧
  ∀ x : Nat → Scalar, (∃ i, i < A.rows ∧ x i ≠ 0) →
    0 < ((List.range A.rows).map (fun i =>
      ((List.range A.cols).map (fun k => x i * A.coeff i k * x k)).sum)).sum

end DenseMatrix

/-- The assignment `M(i, j) = x` on the coefficients of a matrix. -/
def setEntry {α : Type} (M : Nat → Nat → α) (i j : Nat) (x : α) : Nat → Nat → α :=
  fun a b => if a = i ∧ b = j then x else M a b

/-- The assignment `v[i] = x` on the entries of a vector of objects. -/
def setAt {α : Type} (v : Nat → α) (i : Nat) (x : α) : Nat → α :=
  fun a => if a = i then x else v a

/-! ## The dynamic members of the inherited `RigidBodyDynamics::Model` -/

/-- The per-body members of `RigidBodyDynamics::Model` read and written by
`massMatrixInverse`: the motion subspace `S[i]`, the rigid-body inertia `I[i]`
(as a spatial matrix) and the transform from the parent `X_lambda[i]` (as
given by `toMatrix()`), which the kinematics update maintains, and the work
buffers `IA`, `U`, `d`. -/
structure ModelData where
  S : Nat → SpatialVector
  I : Nat → SpatialMatrix
  X_lambda : Nat → SpatialMatrix
  IA : Nat → SpatialMatrix
  U : Nat → SpatialVector
  d : Nat → Scalar

/-- The functions of the external library RBDL called by the embedded code.
`UpdateKinematicsCustom` recomputes the kinematic members from the generalized
coordinates, velocities and accelerations it is given. `InverseDynamics` gives
the value it writes at each index of the torque vector it is handed. None of
them throws. -/
structure Rbdl where
  UpdateKinematicsCustom :
    ModelData → Option (List Scalar) → Option (List Scalar) → Option (List Scalar) → ModelData
  InverseDynamics :
    ModelData → List Scalar → List Scalar → List Scalar → List SpatialVector →
      (Nat → Scalar) × ModelData

/-- The external linear solver `A.llt().solve(b)` (Cholesky decomposition of
the backend). -/
abbrev LinearSolver := DenseMatrix → List Scalar → List Scalar

/-- The contract of the Cholesky solver for systems of size `n`: on a
symmetric positive definite matrix it returns the solution of the system. -/
def LinearSolver.SolvesPosDef (solve : LinearSolver) (n : Nat) : Prop :=
  ∀ (A : DenseMatrix) (b : List Scalar), A.rows = n → A.IsPosDef → b.length = n →
    (solve A b).length = n ∧ ∀ i, i < n → A.mulVecAt (solve A b) i = b.getD i 0

/-- A `rigidbody::ExternalForceSet` (`ExternalForceSet.cpp` is not among the
sources): what `computeRbdlSpatialVectors (Q, QDot, updateKin)` returns, one
spatial force per body, with the members of the model after the call, or the
error it throws. The last argument is `none` when the call leaves `updateKin`
to its default. -/
structure ExternalForceSet where
  computeRbdlSpatialVectors :
    ModelData → List Scalar → List Scalar → Option Bool →
      Except String (List SpatialVector × ModelData)

namespace Model

/-- The number of bodies `mBodies.size()`, base included: the inherited model
keeps `mBodies`, `lambda` and `mu` of the same size. -/
def mBodies_size (m : Model) : Nat := m.mu.length

end Model

/-- Modelled from the spec: the set `ExternalForceSet forceSet(model)` built by
the overloads without external forces. The spec describes the set as yielding
"one spatial force per body"; a set to which no force was added yields the zero
force for every body and does not fail. -/
def ExternalForceSet.empty (m : Model) : ExternalForceSet :=
  { computeRbdlSpatialVectors := fun md _ _ _ =>
      Except.ok (List.replicate m.mBodies_size (fun _ => 0), md) }

/-- The subtraction `a - b` of two `size_t`: the difference when `b ≤ a`, and
the wrapped value `2 ^ 64 - (b - a)` otherwise. -/
def sizeSub (a b : Nat) : Nat := if b ≤ a then a - b else 2 ^ 64 - (b - a) % 2 ^ 64

namespace Joints

/-- One of the four checks of `checkGeneralizedDimensions`: nothing is checked
for a null pointer (`none`); otherwise the size of the vector is compared with
the expected one. -/
def checkSize (v : Option (List Scalar)) (expected : Nat) (message : String) :
    Except String Unit :=
  match v with
  | none => Except.ok ()
  | some v => Error.check (v.length == expected)
      (message ++ "expected " ++ toString expected ++ " got " ++ toString v.length)

/-- `Joints::checkGeneralizedDimensions` (lines 1680-1713), in a build where
`SKIP_ASSERT` is not defined. A null pointer is embedded as `none`. -/
def checkGeneralizedDimensions (j : Joints) (Q Qdot Qddot torque : Option (List Scalar)) :
    Except String Unit := do
  checkSize Q j.nbQ "Wrong size for the Generalized Coordiates, "
  checkSize Qdot j.nbQdot "Wrong size for the Generalized Velocities, "
  checkSize Qddot j.nbQddot "Wrong size for the Generalized Accelerations, "
  checkSize torque j.nbGeneralizedTorque "Wrong size for the Generalized Torques, "

/-- `Joints::UpdateKinematicsCustom` (lines 1577-1584): the dimensions are
checked, then the kinematics update of RBDL runs. -/
def UpdateKinematicsCustom (rbdl : Rbdl) (j : Joints) (d : ModelData)
    (Q Qdot Qddot : Option (List Scalar)) : Except String ModelData := do
  j.checkGeneralizedDimensions Q Qdot Qddot none
  pure (rbdl.UpdateKinematicsCustom d Q Qdot Qddot)

end Joints

open Matrix

/-! ## The mass matrix and its inverse -/

namespace Model

/-- Modelled from the spec: the walk of the composite rigid-body algorithm from
a body towards the base (`CompositeRigidBodyAlgorithm` belongs to the external
library RBDL). The spec: the matrix entries are read off "as the inner product
of motion subspaces transformed through the inertia". `F` is the force
`Ic[i] * S[i]` of body `i` expressed in the frame of body `j`; each step moves
it to the parent of `j` and writes the two symmetric entries. `fuel` bounds the
number of steps. -/
def CompositeRigidBodyAlgorithm.walk (m : Model) (md : ModelData) (dof_index_i : Nat) :
    Nat → SpatialVector → Nat → (Nat → Nat → Scalar) → (Nat → Nat → Scalar)
  | 0, _, _, H => H
  | fuel + 1, F, j, H =>
    if m.parent j ≠ 0 then
      let F1 := (md.X_lambda j)ᵀ *ᵥ F
      let j1 := m.parent j
      let H1 := setEntry H dof_index_i (m.q_index j1) (F1 ⬝ᵥ md.S j1)
      let H2 := setEntry H1 (m.q_index j1) dof_index_i (H1 dof_index_i (m.q_index j1))
      CompositeRigidBodyAlgorithm.walk m md dof_index_i fuel F1 j1 H2
    else H

/-- Modelled from the spec: the step of the composite rigid-body algorithm for
body `i`. The spec: "for each body from leaves to root, accumulate composite
spatial inertia into its parent, and read off matrix entries". -/
def CompositeRigidBodyAlgorithm.body (m : Model) (md : ModelData)
    (st : (Nat → SpatialMatrix) × (Nat → Nat → Scalar)) (i : Nat) :
    (Nat → SpatialMatrix) × (Nat → Nat → Scalar) :=
  let Ic1 := if m.parent i ≠ 0
    then setAt st.1 (m.parent i)
      (st.1 (m.parent i) + (md.X_lambda i)ᵀ * st.1 i * md.X_lambda i)
    else st.1
  let F := Ic1 i *ᵥ md.S i
  let H1 := setEntry st.2 (m.q_index i) (m.q_index i) (md.S i ⬝ᵥ F)
  (Ic1, CompositeRigidBodyAlgorithm.walk m md (m.q_index i) i F i H1)

/-- Modelled from the spec: `RigidBodyDynamics::CompositeRigidBodyAlgorithm`
on the current kinematic members, filling the matrix `H` it is handed. The
composite inertias start as the rigid-body inertias and the bodies are visited
from the last one to the first. -/
def CompositeRigidBodyAlgorithm (m : Model) (md : ModelData) (H : Nat → Nat → Scalar) :
    Nat → Nat → Scalar :=
  ((List.range' 1 (m.mBodies_size - 1)).reverse.foldl
    (CompositeRigidBodyAlgorithm.body m md) (md.I, H)).2

end Model

/-- The matrices and buffers `massMatrixInverse` works on: the result `Minv`,
the vector `F` of 6×n matrices (`F q j` is column `j` of `F[q]`), and the
members `IA`, `U`, `d` of the model. -/
structure MinvWork where
  Minv : Nat → Nat → Scalar
  F : Nat → Nat → SpatialVector
  IA : Nat → SpatialMatrix
  U : Nat → SpatialVector
  d : Nat → Scalar

namespace Joints

/-- `Joints::massMatrix` (lines 669-680): a zero `nbQ()`×`nbQ()` matrix is
handed to the composite rigid-body algorithm of RBDL, which first updates the
kinematics when `updateKin` is set. -/
def massMatrix (rbdl : Rbdl) (j : Joints) (m : Model) (md : ModelData) (Q : List Scalar)
    (updateKin : Bool) : DenseMatrix × ModelData :=
  let md1 := if updateKin then rbdl.UpdateKinematicsCustom md (some Q) none none else md
  (⟨j.nbQ, j.nbQ, m.CompositeRigidBodyAlgorithm md1 (fun _ _ => 0)⟩, md1)

/-- The body of the backward pass of `massMatrixInverse` (lines 716-755) for
body `i`. -/
def massMatrixInverse.backwardBody (m : Model) (md : ModelData) (subTrees : List (List Nat))
    (w : MinvWork) (i : Nat) : MinvWork :=
  let q_index_i := m.q_index i
  let sub_tree := subTrees.getD q_index_i []
  let U_i := w.IA i *ᵥ md.S i
  let d_i := md.S i ⬝ᵥ U_i
  let Minv1 := setEntry w.Minv q_index_i q_index_i (1 / d_i)
  let Minv2 := sub_tree.foldl (fun M c =>
    setEntry M q_index_i c (M q_index_i c - 1 / d_i * (md.S i ⬝ᵥ w.F q_index_i c))) Minv1
  let lambda := m.parent i
  let lambda_q_i := m.q_index lambda
  if lambda ≠ 0 then
    let F1 := sub_tree.foldl (fun F c =>
      let Fa := setEntry F q_index_i c (F q_index_i c + Minv2 q_index_i c • U_i)
      setEntry Fa lambda_q_i c (Fa lambda_q_i c + (md.X_lambda i)ᵀ *ᵥ Fa q_index_i c)) w.F
    let Ia := w.IA i - Matrix.vecMulVec U_i (fun k => U_i k / d_i)
    let IA1 := setAt w.IA lambda (w.IA lambda + (md.X_lambda i)ᵀ * Ia * md.X_lambda i)
    ⟨Minv2, F1, IA1, setAt w.U i U_i, setAt w.d i d_i⟩
  else
    ⟨Minv2, w.F, w.IA, setAt w.U i U_i, setAt w.d i d_i⟩

/-- The body of the second forward pass of `massMatrixInverse` (lines 759-790)
for body `i`. -/
def massMatrixInverse.forwardBody (m : Model) (md : ModelData) (w : MinvWork) (i : Nat) :
    MinvWork :=
  let q_index_i := m.q_index i
  let lambda := m.parent i
  let lambda_q_i := m.q_index lambda
  let X_lambda := md.X_lambda i
  let columns := List.range' q_index_i (m.dof_count - q_index_i)
  let Minv1 := if lambda ≠ 0
    then columns.foldl (fun M j =>
      setEntry M q_index_i j
        (M q_index_i j - 1 / w.d i * ((w.U i ᵥ* X_lambda) ⬝ᵥ w.F lambda_q_i j))) w.Minv
    else w.Minv
  let F1 := columns.foldl (fun F j =>
    setEntry F q_index_i j (Minv1 q_index_i j • md.S i)) w.F
  let F2 := if lambda ≠ 0
    then columns.foldl (fun F j =>
      setEntry F q_index_i j (F q_index_i j + X_lambda *ᵥ F lambda_q_i j)) F1
    else F1
  ⟨Minv1, F2, w.IA, w.U, w.d⟩

/-- The last loop of `massMatrixInverse` (lines 793-801): the upper triangle is
copied into the lower one. -/
def massMatrixInverse.mirror (dof_count : Nat) (Minv : Nat → Nat → Scalar) :
    Nat → Nat → Scalar :=
  (List.range dof_count).foldl (fun M j =>
    (List.range dof_count).foldl (fun M1 i =>
      if j < i then setEntry M1 i j (M1 j i) else M1) M) Minv

/-- The three passes and the final copy of `massMatrixInverse` (lines 697-801),
from the kinematic members `md` and the subtrees. -/
def massMatrixInverse.passes (m : Model) (md : ModelData) (subTrees : List (List Nat)) :
    MinvWork :=
  let IA1 := (List.range' 1 (m.mBodies_size - 1)).foldl (fun IA i => setAt IA i (md.I i)) md.IA
  let w0 : MinvWork := ⟨fun _ _ => 0, fun _ _ => 0, IA1, md.U, md.d⟩
  let w1 := (List.range' 1 (m.mBodies_size - 1)).reverse.foldl
    (massMatrixInverse.backwardBody m md subTrees) w0
  let w2 := (List.range' 1 (m.mBodies_size - 1)).foldl (massMatrixInverse.forwardBody m md) w1
  { w2 with Minv := massMatrixInverse.mirror m.dof_count w2.Minv }

/-- `Joints::massMatrixInverse` (lines 682-804). The result is an error thrown
by the dimension check of the kinematics update, or `none` when the recursion
bound `fuel` of `getDofSubTrees` was reached, or the matrix with the members of
the model after the call. -/
def massMatrixInverse (rbdl : Rbdl) (j : Joints) (m : Model) (md : ModelData)
    (Q : List Scalar) (updateKin : Bool) (fuel : Nat) :
    Except String (Option (DenseMatrix × ModelData)) := do
  let md1 ← if updateKin then j.UpdateKinematicsCustom rbdl md (some Q) none none else pure md
  match m.getDofSubTrees fuel with
  | none => pure none
  | some subTrees =>
    let w := massMatrixInverse.passes m md1 subTrees
    pure (some (⟨m.dof_count, m.dof_count, w.Minv⟩, { md1 with IA := w.IA, U := w.U, d := w.d }))

/-! ## Inverse and forward dynamics -/

/-- `Joints::InverseDynamics` with an external force set (lines 1317-1328). -/
def InverseDynamics (rbdl : Rbdl) (j : Joints) (md : ModelData)
    (Q QDot QDDot : List Scalar) (externalForces : ExternalForceSet) :
    Except String (List Scalar × ModelData) := do
  let (fExt, md1) ← externalForces.computeRbdlSpatialVectors md Q QDot none
  let (Tau, md2) := rbdl.InverseDynamics md1 Q QDot QDDot fExt
  pure ((List.range j.nbGeneralizedTorque).map Tau, md2)

/-- `Joints::InverseDynamics` without external forces (lines 1308-1316). -/
def InverseDynamics_noForces (rbdl : Rbdl) (j : Joints) (m : Model) (md : ModelData)
    (Q QDot QDDot : List Scalar) : Except String (List Scalar × ModelData) :=
  j.InverseDynamics rbdl md Q QDot QDDot (ExternalForceSet.empty m)

/-- The part of `ForwardDynamicsFreeFloatingBase` after the two checks (lines
1383-1401). `none` stands for an assertion failure of the backend (a block
outside its vector or matrix). Every slot of the local vector `QDDot` is
written before it is read, so its initial content (unspecified in the source)
is taken to be zero. -/
def ForwardDynamicsFreeFloatingBase.compute (rbdl : Rbdl) (llt_solve : LinearSolver)
    (j : Joints) (m : Model) (md : ModelData) (Q QDot QJointsDDot : List Scalar) :
    Except String (Option (List Scalar)) × ModelData :=
  let QDDot0 : List Scalar := List.replicate j.nbQddot 0
  let (M, md1) := j.massMatrix rbdl m md Q true
  match M.block 0 0 j.nbRoot j.nbRoot,
      setBlock QDDot0 0 (List.replicate j.nbRoot 0) with
  | some massMatrixRoot, some QDDot1 =>
    if QJointsDDot.length = sizeSub j.nbQddot j.nbRoot then
      match setBlock QDDot1 j.nbRoot QJointsDDot with
      | some QDDot =>
        match j.InverseDynamics_noForces rbdl m md1 Q QDot QDDot with
        | .error e => (.error e, md1)
        | .ok (MassMatrixNlEffects, md2) =>
          match block MassMatrixNlEffects 0 j.nbRoot with
          | some b => (.ok (some (llt_solve massMatrixRoot (b.map (fun x => -x)))), md2)
          | none => (.ok none, md2)
      | none => (.ok none, md1)
    else (.ok none, md1)
  | _, _ => (.ok none, md1)

/-- `Joints::ForwardDynamicsFreeFloatingBase` (lines 1372-1402): the result
(an error thrown, an assertion failure of the backend, or the root
accelerations) and the members of the model after the call. -/
def ForwardDynamicsFreeFloatingBase (rbdl : Rbdl) (llt_solve : LinearSolver)
    (j : Joints) (m : Model) (md : ModelData) (Q QDot QJointsDDot : List Scalar) :
    Except String (Option (List Scalar)) × ModelData :=
  match Error.check (QJointsDDot.length == sizeSub j.nbQddot j.nbRoot)
      "Size of QDDotJ must be equal to number of QDDot - number of root coordinates." with
  | .error e => (.error e, md)
  | .ok _ =>
    match Error.check (decide (j.nbRoot > 0))
        "Must have a least one degree of freedom on root." with
    | .error e => (.error e, md)
    | .ok _ =>
      ForwardDynamicsFreeFloatingBase.compute rbdl llt_solve j m md Q QDot QJointsDDot

end Joints

/-! ## A model with one degree of freedom, used as a concrete example -/

namespace Example1

/-- One segment with one translation, attached to the base. -/
def joints : Joints := (Joints.new.AddSegment "Pelvis" "root" ⟨1, 1, 1, 1, 1, false⟩ ⟨1⟩).2

/-- The tree of the example: one movable body on the base. -/
def model : Model :=
  { lambda := [0, 0]
    mu := [[1], []]
    mJoints_q_index := [0, 0]
    dof_count := 1 }

/-- Kinematic members of the example: unit motion subspace along the first
axis, identity inertia and transform. -/
def data : ModelData :=
  { S := fun _ => Pi.single 0 1
    I := fun _ => 1
    X_lambda := fun _ => 1
    IA := fun _ => 0
    U := fun _ => 0
    d := fun _ => 0 }

/-- A stand-in for RBDL in the example: the kinematics update leaves the
members as they are and the inverse dynamics writes 3 in every torque. -/
def rbdl : Rbdl :=
  { UpdateKinematicsCustom := fun md _ _ _ => md
    InverseDynamics := fun md _ _ _ _ => (fun _ => 3, md) }

/-- A solver for systems of size 1. -/
def solve : LinearSolver := fun A b => [b.getD 0 0 / A.coeff 0 0]

end Example1

/-! ## Quantities of the recursions, used to state what the passes compute

These definitions are not part of the source: they name the quantities of the
articulated-body and Newton-Euler recursions over the tree, body by body. -/

namespace Model

/-- The bodies attached to body `k`. -/
def childSet (m : Model) (k : Nat) : Finset Nat :=
  (Finset.range m.mu.length).filter (fun c => 0 < c ∧ m.parent c = k)

/-- The spatial acceleration of body `k` when the joint accelerations are `x`
(zero velocity, no gravity): that of the parent, transformed, plus the own
joint's. The base does not move. -/
def bodyAcc (m : Model) (md : ModelData) (x : Nat → Scalar) (k : Nat) : SpatialVector :=
  if h : 0 < k ∧ m.parent k < k then
    md.X_lambda k *ᵥ bodyAcc m md x (m.parent k) + x k • md.S k
  else 0
termination_by k
decreasing_by exact h.2

/-- The spatial force transmitted through the joint of body `k` when the joint
accelerations are `x`: the inertial force of the body plus the forces
transmitted to its children. -/
def bodyForce (m : Model) (md : ModelData) (x : Nat → Scalar) (k : Nat) : SpatialVector :=
  md.I k *ᵥ m.bodyAcc md x k
    + ∑ c in Finset.range m.mu.length,
        if h : k < c ∧ c < m.mu.length ∧ m.parent c = k then
          (md.X_lambda c)ᵀ *ᵥ bodyForce m md x c
        else 0
termination_by m.mu.length - k
decreasing_by omega

/-- The composite inertia of body `k`: its own inertia plus the composite
inertias of its children, transformed. -/
def compositeInertia (m : Model) (md : ModelData) (k : Nat) : SpatialMatrix :=
  md.I k
    + ∑ c in Finset.range m.mu.length,
        if h : k < c ∧ c < m.mu.length ∧ m.parent c = k then
          (md.X_lambda c)ᵀ * compositeInertia m md c * md.X_lambda c
        else 0
termination_by m.mu.length - k
decreasing_by omega

/-- The acceleration of body `k` in the forward recursion of the
articulated-body algorithm for column `col`: `Minv1`, `U`, `d` are the values
left by the backward pass. -/
def abaAcc (m : Model) (md : ModelData) (Minv1 : Nat → Nat → Scalar) (U : Nat → SpatialVector)
    (d : Nat → Scalar) (col : Nat) (k : Nat) : SpatialVector :=
  if h : 0 < k ∧ m.parent k < k then
    md.X_lambda k *ᵥ abaAcc m md Minv1 U d col (m.parent k)
      + (Minv1 (k - 1) col
          - 1 / d k * (U k ⬝ᵥ (md.X_lambda k *ᵥ abaAcc m md Minv1 U d col (m.parent k))))
        • md.S k
  else 0
termination_by k
decreasing_by all_goals exact h.2

/-- The joint acceleration of body `k` in the forward recursion of the
articulated-body algorithm for column `col`. -/
def abaQdd (m : Model) (md : ModelData) (Minv1 : Nat → Nat → Scalar) (U : Nat → SpatialVector)
    (d : Nat → Scalar) (col : Nat) (k : Nat) : Scalar :=
  Minv1 (k - 1) col
    - 1 / d k * (U k ⬝ᵥ (md.X_lambda k *ᵥ m.abaAcc md Minv1 U d col (m.parent k)))

/-- The entry of the joint-space inertia matrix for the bodies `a` and `b`: the
joint force at `a` for a unit joint acceleration of `b`. -/
def massEntry (m : Model) (md : ModelData) (a b : Nat) : Scalar :=
  md.S a ⬝ᵥ m.bodyForce md (fun i => if i = b then 1 else 0) a

/-- The state of the composite rigid-body algorithm once the bodies above `i`
have been visited: the composite inertias of these bodies are complete, those
of the other bodies hold the contributions of the children already visited, and
the entries of the matrix for the pairs with a visited body are written. -/
structure CrbaInvariant (m : Model) (md : ModelData) (i : Nat)
    (st : (Nat → SpatialMatrix) × (Nat → Nat → Scalar)) : Prop where
  pending : ∀ k, 0 < k → k ≤ i →
    st.1 k = md.I k + ∑ c in (m.childSet k).filter (fun c => i < c),
      (md.X_lambda c)ᵀ * m.compositeInertia md c * md.X_lambda c
  done : ∀ k, i < k → k < m.mu.length → st.1 k = m.compositeInertia md k
  entries : ∀ a b, 0 < a → a < m.mu.length → 0 < b → b < m.mu.length →
    st.2 (a - 1) (b - 1) = if i < max a b then m.massEntry md a b else 0

/-- The numbering of the joints of a model whose joints all have one degree of
freedom: body `k` moves coordinate `k - 1`, and there are as many coordinates
as movable bodies. -/
structure SingleDofJoints (m : Model) : Prop where
  q_index_eq : ∀ k, 0 < k → k < m.mu.length → m.q_index k = k - 1
  dof_count_eq : m.dof_count = m.mu.length - 1

/-- The state of the backward pass of `massMatrixInverse` once the bodies above
`i` have been visited: for these bodies `U`, `d` and the row of `Minv` are
final; the articulated inertia and the force buffer of every body hold the
contributions of the children already visited; the rows of `F` vanish outside
the subtree of their body and the rows of `Minv` of the other bodies are still
zero. -/
structure BackwardInvariant (m : Model) (md : ModelData) (i : Nat) (w : MinvWork) : Prop where
  U_eq : ∀ k, i < k → k < m.mu.length → w.U k = w.IA k *ᵥ md.S k
  d_eq : ∀ k, i < k → k < m.mu.length → w.d k = md.S k ⬝ᵥ w.U k
  IA_eq : ∀ k, 0 < k → k < m.mu.length →
    w.IA k = md.I k + ∑ c in (m.childSet k).filter (fun c => i < c),
      (md.X_lambda c)ᵀ * (w.IA c - Matrix.vecMulVec (w.U c) (fun t => w.U c t / w.d c))
        * md.X_lambda c
  F_eq : ∀ k b, 0 < k → k < m.mu.length →
    w.F (k - 1) b = (∑ c in (m.childSet k).filter (fun c => i < c),
        (md.X_lambda c)ᵀ *ᵥ w.F (c - 1) b)
      + if i < k ∧ m.parent k ≠ 0 then w.Minv (k - 1) b • w.U k else 0
  F_zero : ∀ k b, 0 < k → k < m.mu.length → ¬ m.IsInSubtree k (b + 1) → w.F (k - 1) b = 0
  Minv_eq : ∀ k b, i < k → k < m.mu.length →
    w.Minv (k - 1) b = ((if k - 1 = b then 1 else 0)
      - md.S k ⬝ᵥ ∑ c in m.childSet k, (md.X_lambda c)ᵀ *ᵥ w.F (c - 1) b) / w.d k
  Minv_pending : ∀ k b, 0 < k → k ≤ i → w.Minv (k - 1) b = 0

/-- The state of the second forward pass of `massMatrixInverse` once the bodies
below `i` have been visited, `w1` being the state left by the backward pass:
`U`, `d`, `IA` are untouched; for a visited body the row of `Minv` from the
diagonal on holds the joint accelerations of the forward recursion and the row
of `F` the accelerations of the body; the other rows of `Minv` are untouched. -/
structure ForwardInvariant (m : Model) (md : ModelData) (w1 : MinvWork) (i : Nat)
    (w : MinvWork) : Prop where
  U_eq : w.U = w1.U
  d_eq : w.d = w1.d
  IA_eq : w.IA = w1.IA
  done : ∀ k j, 0 < k → k < i → k - 1 ≤ j → j < m.dof_count →
    w.Minv (k - 1) j = m.abaQdd md w1.Minv w1.U w1.d j k ∧
    w.F (k - 1) j = m.abaAcc md w1.Minv w1.U w1.d j k
  pending : ∀ k j, i ≤ k → w.Minv (k - 1) j = w1.Minv (k - 1) j

end Model

/-- A symmetric positive semi-definite spatial matrix: what the spatial inertia
of a rigid body is, the inertia of a massless body included. -/
def IsSpatialInertia (A : SpatialMatrix) : Prop :=
  Aᵀ = A ∧ ∀ v : SpatialVector, 0 ≤ v ⬝ᵥ (A *ᵥ v)

/-- A non-singular square matrix: only the zero vector is sent to zero. -/
def DenseMatrix.IsNonsingular (A : DenseMatrix) : Prop :=
  ∀ x : List Scalar, x.length = A.cols → (∀ i, i < A.rows → A.mulVecAt x i = 0) →
    ∀ k, k < A.cols → x.getD k 0 = 0

/-- The two dimension relations of a model. -/
def Joints.DimensionInvariant (m : Joints) : Prop :=
  m.nbQddot = m.nbQdot ∧ m.nbQ = m.nbQdot + m.nbQuat

/-! ## A branching model with four degrees of freedom, used as a concrete example -/

namespace Example4

/-- Four segments with one translation each: a trunk on the base, two segments
on the trunk and one more on the first of them (the tree `Model.exampleTree`). -/
def joints : Joints :=
  ((((Joints.new.AddSegment "Pelvis" "root" ⟨1, 1, 1, 1, 1, false⟩ ⟨1⟩).2.AddSegment
    "Thorax" "Pelvis" ⟨1, 1, 1, 1, 1, false⟩ ⟨1⟩).2.AddSegment
    "Thigh" "Pelvis" ⟨1, 1, 1, 1, 1, false⟩ ⟨1⟩).2.AddSegment
    "Head" "Thorax" ⟨1, 1, 1, 1, 1, false⟩ ⟨1⟩).2

end Example4

/-! ## Access to the segments -/

/-- The `static_cast<int>` of a `size_t`: the reduction to 32 bits, read in
two's complement. -/
def toInt32 (n : Nat) : Int :=
  if n % 2 ^ 32 < 2 ^ 31 then ((n % 2 ^ 32 : Nat) : Int)
  else ((n % 2 ^ 32 : Nat) : Int) - 2 ^ 32

/-- The `static_cast<size_t>` of an `int`: the reduction modulo `2 ^ 64`. -/
def toSizeT (x : Int) : Nat := (x % 2 ^ 64).toNat

namespace Joints

/-- `Joints::segment (size_t idx)` (lines 225-231): the index is checked, then
the vector of segments is read at `idx`. -/
def segment (m : Joints) (idx : Nat) : Except String Segment :=
  if h : idx < m.m_segments.length then Except.ok (m.m_segments.get ⟨idx, h⟩)
  else Except.error "Asked for a wrong segment (out of range)"

/-- The loop of `Joints::getBodyBiorbdId` from index `i` on, over the segments
not yet visited. -/
def getBodyBiorbdId.loop (segmentName : String) : List Segment → Nat → Int
  | [], _ => -1
  | s :: rest, i =>
    if s.name = segmentName then toInt32 i else getBodyBiorbdId.loop segmentName rest (i + 1)

/-- `Joints::getBodyBiorbdId` (lines 249-257): the index, as an `int`, of the
first segment whose name compares equal to `segmentName`, and -1 when there is
none. Names are C strings: `c_str ()` gives the name back. -/
def getBodyBiorbdId (m : Joints) (segmentName : String) : Int :=
  getBodyBiorbdId.loop segmentName m.m_segments 0

/-- `Joints::segment (const utils::String& name)` (lines 233-237). -/
def segment_name (m : Joints) (name : String) : Except String Segment :=
  m.segment (toSizeT (m.getBodyBiorbdId name))

end Joints

/-! ## Centre of mass -/

/-- A position or another vector with three components (`utils::Vector3d`,
`rigidbody::NodeSegment`). -/
abbrev Vector3d := Fin 3 → Scalar

/-- The kinematic queries of the external library RBDL used by the centre of
mass: `CalcBodyToBaseCoordinates md Q s updateKin` stands for the call
`RigidBodyDynamics::CalcBodyToBaseCoordinates (*this, Q, s.id (),
s.characteristics ().mCenterOfMass, updateKin)` for the segment `s`: the
position it returns and the members of the model after the call (it updates the
kinematics itself when `updateKin` is set). It does not throw. -/
structure RbdlKinematics where
  CalcBodyToBaseCoordinates : ModelData → List Scalar → Segment → Bool → Vector3d × ModelData

namespace Joints

/-- `Joints::CoMbySegment (Q, idx, updateKin)` (lines 883-894): the index is
checked, then RBDL gives the position of the centre of mass of the segment in
the base frame. -/
def CoMbySegment_idx (kin : RbdlKinematics) (m : Joints) (md : ModelData) (Q : List Scalar)
    (idx : Nat) (updateKin : Bool) : Except String Vector3d × ModelData :=
  if h : idx < m.m_segments.length then
    ((Except.ok (kin.CalcBodyToBaseCoordinates md Q (m.m_segments.get ⟨idx, h⟩) updateKin).1),
      (kin.CalcBodyToBaseCoordinates md Q (m.m_segments.get ⟨idx, h⟩) updateKin).2)
  else (Except.error "Choosen segment doesn't exist", md)

/-- The loop of `Joints::CoMbySegment (Q, updateKin)` over the indices still to
visit: the position of each segment is appended to `out`, and `updateKin` is
cleared after the first call. -/
def CoMbySegment.loop (kin : RbdlKinematics) (m : Joints) (Q : List Scalar) :
    List Nat → Bool → ModelData → List Vector3d → Except String (List Vector3d) × ModelData
  | [], _, md, out => (Except.ok out, md)
  | i :: rest, updateKin, md, out =>
    match m.CoMbySegment_idx kin md Q i updateKin with
    | (Except.error e, md1) => (Except.error e, md1)
    | (Except.ok c, md1) => CoMbySegment.loop kin m Q rest false md1 (out ++ [c])

/-- `Joints::CoMbySegment (Q, updateKin)` (lines 858-868). -/
def CoMbySegment (kin : RbdlKinematics) (m : Joints) (md : ModelData) (Q : List Scalar)
    (updateKin : Bool) : Except String (List Vector3d) × ModelData :=
  CoMbySegment.loop kin m Q (List.range m.m_segments.length) updateKin md []

/-- The mass `(*m_segments)[i].characteristics ().mMass` read by `CoM`; the
index is below the number of segments whenever the code reads it. -/
def segmentMass (m : Joints) (i : Nat) : Scalar :=
  ((m.m_segments[i]?).map (fun s => s.characteristics.mMass)).getD 0

/-- `Joints::CoM` (lines 642-659): the positions of the segments are weighted
by the masses of the segments and summed, and the sum is divided by `mass ()`.
No check is made on the total mass. -/
def CoM (kin : RbdlKinematics) (m : Joints) (md : ModelData) (Q : List Scalar)
    (updateKin : Bool) : Except String Vector3d × ModelData :=
  match m.CoMbySegment kin md Q updateKin with
  | (Except.error e, md1) => (Except.error e, md1)
  | (Except.ok com_segment, md1) =>
    let com : Vector3d := (List.range com_segment.length).foldl
      (fun com i => com + m.segmentMass i • com_segment.getD i 0) 0
    (Except.ok (fun k => com k / m.mass), md1)

end Joints

namespace Example1

/-- A stand-in for the kinematic queries of RBDL in the examples: every
segment has its centre of mass at `(1, 2, 3)` and the members of the model are
left as they are. -/
def kinematics : RbdlKinematics :=
  { CalcBodyToBaseCoordinates := fun md _ _ _ => (![1, 2, 3], md) }

/-- One segment without mass, attached to the base. -/
def masslessJoints : Joints :=
  (Joints.new.AddSegment "Pelvis" "root" ⟨1, 1, 1, 1, 1, false⟩ ⟨0⟩).2

end Example1

/-! ## Contact impulses -/

/-- The contact collaborator `rigidbody::Contacts` (not among the sources),
which the model reaches by `dynamic_cast<rigidbody::Contacts*> (this)`:
`getConstraints ()` gives the constraint set of the model and `nbContacts ()`
the number of contacts of a set. `CS` is the type of a constraint set. -/
structure Contacts (CS : Type) where
  getConstraints : CS
  nbContacts : CS → Nat

/-- The function `RigidBodyDynamics::ComputeConstraintImpulsesDirect` of the
external library RBDL: from the members of the model, `Q`, `QDotPre` and the
constraint set, the value it writes at each index of `QDotPost` and the members
of the model after the call. -/
abbrev RbdlImpulses (CS : Type) :=
  ModelData → List Scalar → List Scalar → CS → (Nat → Scalar) × ModelData

namespace Joints

/-- `Joints::ComputeConstraintImpulsesDirect` (lines 1476-1491): without
contact the pre-impact velocity is returned; otherwise RBDL fills a velocity of
size `nbQdot ()`. -/
def ComputeConstraintImpulsesDirect {CS : Type} (impulses : RbdlImpulses CS)
    (contacts : Contacts CS) (j : Joints) (md : ModelData) (Q QDotPre : List Scalar) :
    List Scalar × ModelData :=
  if contacts.nbContacts contacts.getConstraints = 0 then (QDotPre, md)
  else
    ((List.range j.nbQdot).map (impulses md Q QDotPre contacts.getConstraints).1,
      (impulses md Q QDotPre contacts.getConstraints).2)

end Joints

namespace Example1

/-- A constraint set of the examples is the number of its contacts; the model
has none. -/
def contacts : Contacts Nat :=
  { getConstraints := 0
    nbContacts := fun n => n }

/-- A stand-in for the impulse computation of RBDL in the examples. -/
def impulses : RbdlImpulses Nat := fun md _ _ _ => (fun _ => 0, md)

end Example1

/-! ## Forward dynamics, the model without segment -/

/-- The function `RigidBodyDynamics::ForwardDynamics` of the external library
RBDL: from the members of the model, `Q`, `QDot`, `Tau` and the spatial forces,
the value it writes at each index of `QDDot` and the members of the model after
the call. It does not throw. -/
abbrev RbdlForwardDynamics :=
  ModelData → List Scalar → List Scalar → List Scalar → List SpatialVector →
    (Nat → Scalar) × ModelData

namespace Joints

/-- `Joints::ForwardDynamics` with an external force set (lines 1359-1370): the
acceleration vector has the size `nbQddot ()` of the model. -/
def ForwardDynamics (fd : RbdlForwardDynamics) (j : Joints) (md : ModelData)
    (Q QDot Tau : List Scalar) (externalForces : ExternalForceSet) :
    Except String (List Scalar × ModelData) := do
  let (fExt, md1) ← externalForces.computeRbdlSpatialVectors md Q QDot (some true)
  let (QDDot, md2) := fd md1 Q QDot Tau fExt
  pure ((List.range j.nbQddot).map QDDot, md2)

/-- `Joints::ForwardDynamics` without external forces (lines 1350-1358). -/
def ForwardDynamics_noForces (fd : RbdlForwardDynamics) (j : Joints) (m : Model)
    (md : ModelData) (Q QDot Tau : List Scalar) : Except String (List Scalar × ModelData) :=
  j.ForwardDynamics fd md Q QDot Tau (ExternalForceSet.empty m)

end Joints

/-- The tree of a model without segment: the base body alone, which is its own
parent and has no child, as the inherited `RigidBodyDynamics::Model` is before
any body is added. -/
def Model.base : Model :=
  { lambda := [0]
    mu := [[]]
    mJoints_q_index := [0]
    dof_count := 0 }

/-- A stand-in for the forward dynamics of RBDL in the examples. -/
def Example1.forwardDynamics : RbdlForwardDynamics := fun md _ _ _ _ => (fun _ => 0, md)

/-! ## Projected markers -/

/-- The marker collaborator `rigidbody::Markers` (not among the sources), which
the model reaches by `dynamic_cast<rigidbody::Markers&> (*this)`, with what the
loop of `projectPoint` asks of a `rigidbody::NodeSegment` (the type `N`):
`nbMarkers ()`, `marker (i)`, `nbAxesToRemove ()` of a node;
`applyRT_globalJCS md tp v` stands for `v.applyRT (globalJCS (tp.parent
()).transpose ())` on the current kinematics, and `marker_projected md Q n
updateKin` for `Markers::marker (Q, n, true, updateKin)`, which
`projectPoint (Q, n, updateKin)` (lines 497-504) returns. -/
structure Markers (N : Type) where
  nbMarkers : Nat
  marker : Nat → N
  nbAxesToRemove : N → Nat
  applyRT_globalJCS : ModelData → N → N → N
  marker_projected : ModelData → List Scalar → N → Bool → N × ModelData

namespace Joints

/-- The loop of `projectPoint` (lines 452-464) over the markers still to visit,
each with the point of `v` of the same index. -/
def projectPoint.loop {N : Type} (marks : Markers N) (Q : List Scalar) :
    List (Nat × N) → ModelData → List N → List N × ModelData
  | [], md, out => (out, md)
  | (i, vi) :: rest, md, out =>
    if marks.nbAxesToRemove (marks.marker i) ≠ 0 then
      projectPoint.loop marks Q rest
        (marks.marker_projected md Q (marks.applyRT_globalJCS md (marks.marker i) vi) false).2
        (out ++
          [(marks.marker_projected md Q (marks.applyRT_globalJCS md (marks.marker i) vi)
            false).1])
    else projectPoint.loop marks Q rest md (out ++ [vi])

/-- `Joints::projectPoint (Q, v, updateKin)` for a vector of points (lines
430-465): the kinematics is updated when asked, then the number of points is
compared with the number of markers, then each point is projected. The result
comes with the members of the model after the call. -/
def projectPoint {N : Type} (rbdl : Rbdl) (marks : Markers N) (j : Joints) (md : ModelData)
    (Q : List Scalar) (v : List N) (updateKin : Bool) : Except String (List N) × ModelData :=
  match (if updateKin then j.UpdateKinematicsCustom rbdl md (some Q) none none
      else Except.ok md) with
  | Except.error e => (Except.error e, md)
  | Except.ok md1 =>
    match Error.check (marks.nbMarkers == v.length)
        "Number of marker must be equal to number of Vector3d" with
    | Except.error e => (Except.error e, md1)
    | Except.ok _ =>
      (Except.ok (projectPoint.loop marks Q ((List.range marks.nbMarkers).zip v) md1 []).1,
        (projectPoint.loop marks Q ((List.range marks.nbMarkers).zip v) md1 []).2)

end Joints

namespace Example1

/-- A stand-in for RBDL whose kinematics update depends on `Q`: the transform
from the parent becomes the first coordinate times the identity. -/
def rbdlMoving : Rbdl :=
  { UpdateKinematicsCustom := fun md Q _ _ =>
      { md with X_lambda := fun _ => ((Q.getD []).getD 0 0) • (1 : SpatialMatrix) }
    InverseDynamics := fun md _ _ _ _ => (fun _ => 3, md) }

/-- A marker set with one marker, without axis to remove. -/
def markers : Markers Vector3d :=
  { nbMarkers := 1
    marker := fun _ => 0
    nbAxesToRemove := fun _ => 0
    applyRT_globalJCS := fun _ _ v => v
    marker_projected := fun md _ n _ => (n, md) }

end Example1

/-! ## Body inertia and angular velocity -/

/-- A 3×3 matrix (`utils::Matrix3d`). -/
abbrev Matrix3d := Matrix (Fin 3) (Fin 3) Scalar

/-- The function `RigidBodyDynamics::Utils::CalcCenterOfMass` of the external
library RBDL, as `bodyAngularVelocity` calls it: from the members of the model,
`Q`, `Qdot`, the optional `Qddot` and `updateKin`, the mass, the centre of mass
and the angular momentum it writes, and the members of the model after the
call. It does not throw. -/
abbrev RbdlCalcCenterOfMass :=
  ModelData → List Scalar → List Scalar → Option (List Scalar) → Bool →
    (Scalar × Vector3d × Vector3d) × ModelData

/-- What `bodyInertia` uses of the spatial algebra of RBDL, on the 6×6
representation of a `SpatialRigidBodyInertia`: its members `h` and `m`, and the
transform `Xtrans (r)` of a translation. -/
structure SpatialAlgebra where
  h : SpatialMatrix → Vector3d
  m : SpatialMatrix → Scalar
  Xtrans : Vector3d → SpatialMatrix

/-- The external solver `A.colPivHouseholderQr ().solve (b)` of the backend for
3×3 systems: it returns a vector for every matrix. -/
abbrev QrSolver := Matrix3d → Vector3d → Vector3d

namespace Joints

/-- The body of the loop of `bodyInertia` (lines 1506-1515) for body `i`: the
composite inertia of the body is handed to its parent, or to the total when the
parent is the base. As in the other passes, `X.applyTranspose (I)` is
`Xᵀ I X` on the 6×6 representation. -/
def bodyInertia.body (m : Model) (md : ModelData)
    (st : (Nat → SpatialMatrix) × SpatialMatrix) (i : Nat) :
    (Nat → SpatialMatrix) × SpatialMatrix :=
  if m.parent i ≠ 0 then
    (setAt st.1 (m.parent i)
      (st.1 (m.parent i) + (md.X_lambda i)ᵀ * st.1 i * md.X_lambda i), st.2)
  else (st.1, st.2 + (md.X_lambda i)ᵀ * st.1 i * md.X_lambda i)

/-- `Joints::bodyInertia` (lines 1493-1520). The buffer `Ic` is overwritten by
`I` for every movable body before it is read and the entry of the base is never
read, so the loop starts from `I`; `Itot` starts as the zero inertia. The
result is the upper left 3×3 block of the total inertia moved to the centre of
mass `Itot.h / Itot.m`. -/
def bodyInertia (rbdl : Rbdl) (alg : SpatialAlgebra) (j : Joints) (m : Model) (md : ModelData)
    (q : List Scalar) (updateKin : Bool) : Except String (Matrix3d × ModelData) := do
  let md1 ← if updateKin then j.UpdateKinematicsCustom rbdl md (some q) none none else pure md
  let st := (List.range' 1 (m.mBodies_size - 1)).reverse.foldl (bodyInertia.body m md1)
    (md1.I, 0)
  let Itot := st.2
  let com : Vector3d := fun k => alg.h Itot k / alg.m Itot
  let shifted := (alg.Xtrans (-com))ᵀ * Itot * alg.Xtrans (-com)
  pure (fun a b => shifted (Fin.castLE (by decide) a) (Fin.castLE (by decide) b), md1)

/-- `Joints::bodyAngularVelocity` (lines 1522-1549): RBDL gives the angular
momentum, `bodyInertia` the inertia about the centre of mass, and the QR solver
of the backend the angular velocity. The result comes with the members of the
model after the call. -/
def bodyAngularVelocity (rbdl : Rbdl) (calcCenterOfMass : RbdlCalcCenterOfMass)
    (alg : SpatialAlgebra) (qr_solve : QrSolver) (j : Joints) (m : Model) (md : ModelData)
    (Q Qdot : List Scalar) (updateKin : Bool) : Except String Vector3d × ModelData :=
  match j.bodyInertia rbdl alg m (calcCenterOfMass md Q Qdot none updateKin).2 Q updateKin with
  | Except.error e => (Except.error e, (calcCenterOfMass md Q Qdot none updateKin).2)
  | Except.ok (body_inertia, md2) =>
    (Except.ok (qr_solve body_inertia (calcCenterOfMass md Q Qdot none updateKin).1.2.2), md2)

end Joints

namespace Example1

/-- Kinematic members of a model whose body has no inertia: the mass matrix is
the zero matrix. -/
def dataMassless : ModelData :=
  { S := fun _ => Pi.single 0 1
    I := fun _ => 0
    X_lambda := fun _ => 1
    IA := fun _ => 0
    U := fun _ => 0
    d := fun _ => 0 }

end Example1

namespace Example1

/-- A stand-in for `CalcCenterOfMass` of RBDL in the examples. -/
def calcCenterOfMass : RbdlCalcCenterOfMass := fun md _ _ _ _ => ((0, 0, 0), md)

/-- A stand-in for the spatial algebra of RBDL in the examples. -/
def algebra : SpatialAlgebra :=
  { h := fun _ => 0
    m := fun _ => 0
    Xtrans := fun _ => 1 }

/-- A stand-in for the QR solver in the examples. -/
def qr_solve : QrSolver := fun _ b => b

end Example1

namespace Joints

/-- The state of `massMatrixInverse` at the end of the second forward pass
(line 791), before the upper triangle is copied into the lower one: the three
passes of `massMatrixInverse.passes` without the final copy. -/
def massMatrixInverse.recursion (m : Model) (md : ModelData) (subTrees : List (List Nat)) :
    MinvWork :=
  (List.range' 1 (m.mBodies_size - 1)).foldl (massMatrixInverse.forwardBody m md)
    ((List.range' 1 (m.mBodies_size - 1)).reverse.foldl
      (massMatrixInverse.backwardBody m md subTrees)
      ⟨fun _ _ => 0, fun _ _ => 0,
        (List.range' 1 (m.mBodies_size - 1)).foldl (fun IA i => setAt IA i (md.I i)) md.IA,
        md.U, md.d⟩)

end Joints

/-- The tree of a model with one movable body, attached to the base by a joint
with one degree of freedom; `q0` is the value of `mJoints[0].q_index`, the
entry of the base. -/
def Model.oneBody (q0 : Nat) : Model :=
  { lambda := [0, 0]
    mu := [[1], []]
    mJoints_q_index := [q0, 0]
    dof_count := 1 }

namespace Model

/-- The number of steps from body `j` up to the base, counted along `lambda`;
`fuel` bounds the walk. Not part of the source: it measures the depth at which
`recursiveDofSubTrees` reaches a body. -/
def bodyDepth.walk (m : Model) : Nat → Nat → Nat
  | 0, _ => 0
  | fuel + 1, j => if j = 0 then 0 else bodyDepth.walk m fuel (m.parent j) + 1

/-- The depth of body `j` in the tree: 0 for the base, 1 for a body attached to
the base, and so on. -/
def bodyDepth (m : Model) (j : Nat) : Nat := bodyDepth.walk m j j

/-- The depth of the tree: the largest depth of a body. -/
def treeDepth (m : Model) : Nat := ((List.range m.mu.length).map m.bodyDepth).foldl max 0

end Model

/-- The list `sub_tree` that the backward pass of `massMatrixInverse` iterates
over for body `i` (lines 718-719): `subTrees[mJoints[i].q_index]`. An index
past the end of `subTrees`, undefined in the source, reads the empty list. -/
def Joints.massMatrixInverse.sub_tree (m : Model) (subTrees : List (List Nat)) (i : Nat) :
    List Nat :=
  subTrees.getD (m.q_index i) []

/-- A tree with two movable bodies in a chain, the first on a joint with three
degrees of freedom (coordinates 0 to 2), the second on a joint with one
(coordinate 3). -/
def Model.sphericalChain : Model :=
  { lambda := [0, 0, 1]
    mu := [[1], [2], []]
    mJoints_q_index := [0, 0, 3]
    dof_count := 4 }

/-! ## Static optimization (`src/Muscles/StaticOptimization.cpp`) -/

/-- The `utils::Error::error (cond, message)` used by `StaticOptimization.cpp`:
throws `message` when `cond` is false. -/
def Error.error (cond : Bool) (message : String) : Except String Unit :=
  if cond then Except.ok () else Except.error message

namespace muscles

/-- One problem `StaticOptimizationIpopt` (the class is not among the sources):
the data of the frame it was constructed with, the activation guess, whether it
is the linearized variant, and the final solution it currently holds. -/
structure StaticOptimizationIpopt where
  Q : List Scalar
  Qdot : List Scalar
  tauTarget : List Scalar
  activationInit : List Scalar
  linearized : Bool
  m_finalSolution : List Scalar

/-- The external optimizer of one call of `run`: whether `app->Initialize ()`
returns `Solve_Succeeded`, the final solution that `app->OptimizeTNLP` leaves
in a problem, and the final solution a problem holds when constructed. -/
structure IpoptApplication where
  Initialize : Bool
  OptimizeTNLP : StaticOptimizationIpopt → List Scalar
  initialSolution : List Scalar

/-- The members of `muscles::StaticOptimization` that `run` and `finalSolution`
read and write. -/
structure StaticOptimization where
  m_allQ : List (List Scalar)
  m_allQdot : List (List Scalar)
  m_allTauTarget : List (List Scalar)
  m_initialActivationGuess : List Scalar
  m_staticOptimProblem : List StaticOptimizationIpopt
  m_alreadyRun : Bool

namespace StaticOptimization

/-- The activation guess set by the constructors that take a vector (lines
29-35 and 78-84): 0.01 for each of the `nbMuscleTotal` muscles when the vector
is empty, the vector otherwise. -/
def initialGuess (nbMuscleTotal : Nat) (initialActivationGuess : List Scalar) : List Scalar :=
  if initialActivationGuess.length = 0 then List.replicate nbMuscleTotal (1 / 100)
  else initialActivationGuess

/-- The constructor for one frame with a vector guess (lines 10-36). -/
def new (nbMuscleTotal : Nat) (Q Qdot tauTarget initialActivationGuess : List Scalar) :
    StaticOptimization :=
  { m_allQ := [Q]
    m_allQdot := [Qdot]
    m_allTauTarget := [tauTarget]
    m_initialActivationGuess := initialGuess nbMuscleTotal initialActivationGuess
    m_staticOptimProblem := []
    m_alreadyRun := false }

/-- The constructor for several frames with a vector guess (lines 62-85). -/
def new_all (nbMuscleTotal : Nat) (allQ allQdot allTauTarget : List (List Scalar))
    (initialActivationGuess : List Scalar) : StaticOptimization :=
  { m_allQ := allQ
    m_allQdot := allQdot
    m_allTauTarget := allTauTarget
    m_initialActivationGuess := initialGuess nbMuscleTotal initialActivationGuess
    m_staticOptimProblem := []
    m_alreadyRun := false }

/-- The body of the loop of `run` (lines 128-147) for frame `i`: a problem is
appended for the frame, the problem of index `i` is optimized, and its final
solution becomes the next guess. `none` stands for a read past the end of a
vector, undefined in the source. -/
def run.step (app : IpoptApplication) (LinearizedState : Bool) (s : StaticOptimization)
    (i : Nat) : Option StaticOptimization := do
  let Q ← s.m_allQ[i]?
  let Qdot ← s.m_allQdot[i]?
  let tauTarget ← s.m_allTauTarget[i]?
  let problems := s.m_staticOptimProblem ++
    [⟨Q, Qdot, tauTarget, s.m_initialActivationGuess, LinearizedState, app.initialSolution⟩]
  let p ← problems[i]?
  let solved : StaticOptimizationIpopt := { p with m_finalSolution := app.OptimizeTNLP p }
  pure { s with
    m_staticOptimProblem := problems.set i solved
    m_initialActivationGuess := solved.m_finalSolution }

/-- `StaticOptimization::run` (lines 113-150): the object after the call, or
the error thrown when the optimizer fails to initialize. -/
def run (app : IpoptApplication) (s : StaticOptimization) (LinearizedState : Bool) :
    Except String (Option StaticOptimization) := do
  Error.error app.Initialize "Ipopt initialization failed"
  pure (((List.range s.m_allQ.length).foldlM (run.step app LinearizedState) s).map
    (fun s1 => { s1 with m_alreadyRun := true }))

/-- The loop of `finalSolution ()` (lines 159-161) over the frames still to
visit: the final solution of the problem of each index is appended to `res`;
`none` stands for a read past the end of the vector of problems. -/
def finalSolution.loop (s : StaticOptimization) :
    List Nat → List (List Scalar) → Option (List (List Scalar))
  | [], res => some res
  | i :: rest, res =>
    match s.m_staticOptimProblem[i]? with
    | none => none
    | some p => finalSolution.loop s rest (res ++ [p.m_finalSolution])

/-- `StaticOptimization::finalSolution ()` (lines 152-165). -/
def finalSolution (s : StaticOptimization) : Except String (Option (List (List Scalar))) :=
  if !s.m_alreadyRun then do
    Error.error false ("Problem has not been ran through the optimization process yet, " ++
      "you should optimize it first to get the optimized solution")
    pure (some [])
  else
    pure (finalSolution.loop s (List.range s.m_allQ.length) [])

/-- The problems of the frames are stored in frame order: the problem of an
index below the number of frames was constructed with the data of the frame of
that index. -/
def FramesInOrder (s : StaticOptimization) : Prop :=
  ∀ i p, i < s.m_allQ.length → s.m_staticOptimProblem[i]? = some p →
    s.m_allQ[i]? = some p.Q ∧ s.m_allQdot[i]? = some p.Qdot ∧
      s.m_allTauTarget[i]? = some p.tauTarget

/-- `StaticOptimization::finalSolution (unsigned int index)` (lines 167-177). -/
def finalSolution_index (s : StaticOptimization) (index : Nat) :
    Except String (Option (List Scalar)) :=
  if !s.m_alreadyRun then do
    Error.error false ("Problem has not been ran through the optimization process yet, " ++
      "you should optimize it first to get the optimized solution")
    pure (some [])
  else
    pure ((s.m_staticOptimProblem[index]?).map (fun p => p.m_finalSolution))

/-- The object after a sequence of calls of `run`, each with its optimizer and
its flag, and whether one of these calls has completed. A call that throws
leaves the object as it was. -/
def history : StaticOptimization → List (IpoptApplication × Bool) →
    Option (StaticOptimization × Bool)
  | s, [] => some (s, false)
  | s, (app, LinearizedState) :: rest =>
    match s.run app LinearizedState with
    | Except.error _ => history s rest
    | Except.ok none => none
    | Except.ok (some s1) => (history s1 rest).map (fun r => (r.1, true))

end StaticOptimization

end muscles

/-! ## Copies of a model: the cells behind the `shared_ptr` members

The members of `rigidbody::Joints` are `std::shared_ptr`s. To tell a copy that
shares the cells from one that owns its own, the cells are embedded as a heap
and an object as the addresses it holds. The inherited
`RigidBodyDynamics::Model` is held by value. -/

/-- The cells that `shared_ptr` members point to, by address and by type of
content, with the next free address: `std::make_shared` takes it. -/
structure Heap where
  segmentCells : Nat → List Segment
  sizeCells : Nat → Nat
  boolCells : Nat → Bool
  scalarCells : Nat → Scalar
  next : Nat

namespace Heap

def setSegments (h : Heap) (a : Nat) (v : List Segment) : Heap :=
  { h with segmentCells := setAt h.segmentCells a v }

def setSize (h : Heap) (a : Nat) (v : Nat) : Heap :=
  { h with sizeCells := setAt h.sizeCells a v }

def setBool (h : Heap) (a : Nat) (v : Bool) : Heap :=
  { h with boolCells := setAt h.boolCells a v }

def setScalar (h : Heap) (a : Nat) (v : Scalar) : Heap :=
  { h with scalarCells := setAt h.scalarCells a v }

/-- A heap in which no cell has been taken yet. -/
def empty : Heap :=
  { segmentCells := fun _ => []
    sizeCells := fun _ => 0
    boolCells := fun _ => false
    scalarCells := fun _ => 0
    next := 0 }

end Heap

/-- Modelled from the spec: `Segment::DeepCopy` (`Segment.cpp` is not among the
sources). The spec describes a deep copy as "an independent,
mutated-independently instance": the copy holds the same values and shares
nothing with the segment; segments are values here. -/
def Segment.DeepCopy (s : Segment) : Segment := s

/-- A `rigidbody::Joints` object: the body-name registry of the inherited model,
held by value, and the addresses held by its `shared_ptr` members. -/
structure JointsObject where
  mBodyNameMap : List String
  m_segments : Nat
  m_nbRoot : Nat
  m_nbDof : Nat
  m_nbQ : Nat
  m_nbQdot : Nat
  m_nbQddot : Nat
  m_nRotAQuat : Nat
  m_isKinematicsComputed : Nat
  m_totalMass : Nat
deriving DecidableEq

namespace JointsObject

/-- The values of the members of an object, read through its pointers. -/
def read (h : Heap) (o : JointsObject) : Joints :=
  { mBodyNameMap := o.mBodyNameMap
    m_segments := h.segmentCells o.m_segments
    m_nbRoot := h.sizeCells o.m_nbRoot
    m_nbDof := h.sizeCells o.m_nbDof
    m_nbQ := h.sizeCells o.m_nbQ
    m_nbQdot := h.sizeCells o.m_nbQdot
    m_nbQddot := h.sizeCells o.m_nbQddot
    m_nRotAQuat := h.sizeCells o.m_nRotAQuat
    m_isKinematicsComputed := h.boolCells o.m_isKinematicsComputed
    m_totalMass := h.scalarCells o.m_totalMass }

/-- The addresses of the cells of an object. -/
def cells (o : JointsObject) : List Nat :=
  [o.m_segments, o.m_nbRoot, o.m_nbDof, o.m_nbQ, o.m_nbQdot, o.m_nbQddot, o.m_nRotAQuat,
    o.m_isKinematicsComputed, o.m_totalMass]

/-- An object as the constructors make it: its cells are taken cells of the
heap and no two of its members point to the same cell. -/
def Allocated (h : Heap) (o : JointsObject) : Prop :=
  o.cells.Nodup ∧ ∀ a ∈ o.cells, a < h.next

/-- The default constructor `Joints::Joints ()` (lines 35-49): each member
gets a cell of its own, holding zero. -/
def new (h : Heap) : JointsObject × Heap :=
  ({ mBodyNameMap := ["ROOT"]
     m_segments := h.next
     m_nbRoot := h.next + 1
     m_nbDof := h.next + 2
     m_nbQ := h.next + 3
     m_nbQdot := h.next + 4
     m_nbQddot := h.next + 5
     m_nRotAQuat := h.next + 6
     m_isKinematicsComputed := h.next + 7
     m_totalMass := h.next + 8 },
   { segmentCells := setAt h.segmentCells h.next []
     sizeCells := setAt (setAt (setAt (setAt (setAt (setAt h.sizeCells (h.next + 1) 0)
       (h.next + 2) 0) (h.next + 3) 0) (h.next + 4) 0) (h.next + 5) 0) (h.next + 6) 0
     boolCells := setAt h.boolCells (h.next + 7) false
     scalarCells := setAt h.scalarCells (h.next + 8) 0
     next := h.next + 9 })

/-- The copy constructor `Joints::Joints (const Joints&)` (lines 51-64): the
inherited model is copied and every pointer is copied, so the new object points
to the cells of `other`. -/
def copy (other : JointsObject) : JointsObject := other

/-- `void Joints::DeepCopy (const Joints& other)` (lines 78-93): the inherited
model is assigned, then the content of each cell of `other` is written into the
cell of the same member of this object, the segments one by one through
`Segment::DeepCopy`. -/
def DeepCopy_from (h : Heap) (this other : JointsObject) : Heap × JointsObject :=
  let h1 := h.setSegments this.m_segments
    ((h.segmentCells other.m_segments).map Segment.DeepCopy)
  let h2 := h1.setSize this.m_nbRoot (h1.sizeCells other.m_nbRoot)
  let h3 := h2.setSize this.m_nbDof (h2.sizeCells other.m_nbDof)
  let h4 := h3.setSize this.m_nbQ (h3.sizeCells other.m_nbQ)
  let h5 := h4.setSize this.m_nbQdot (h4.sizeCells other.m_nbQdot)
  let h6 := h5.setSize this.m_nbQddot (h5.sizeCells other.m_nbQddot)
  let h7 := h6.setSize this.m_nRotAQuat (h6.sizeCells other.m_nRotAQuat)
  let h8 := h7.setBool this.m_isKinematicsComputed (h7.boolCells other.m_isKinematicsComputed)
  let h9 := h8.setScalar this.m_totalMass (h8.scalarCells other.m_totalMass)
  (h9, { this with mBodyNameMap := other.mBodyNameMap })

/-- `Joints Joints::DeepCopy () const` (lines 71-76): a fresh object is
constructed, filled from this one, and returned by value (through the copy
constructor, which keeps the cells of the fresh object). -/
def DeepCopy (h : Heap) (this : JointsObject) : JointsObject × Heap :=
  let (copy, h1) := JointsObject.new h
  let (h2, copy1) := DeepCopy_from h1 copy this
  (copy1.copy, h2)

/-- The inherited `GetBodyId` on the registry of an object. -/
def GetBodyId (o : JointsObject) (bodyName : String) : Nat :=
  if bodyName ∈ o.mBodyNameMap then o.mBodyNameMap.indexOf bodyName else UINT_MAX

/-- `Joints::AddSegment`, first overload (lines 143-177), through the pointers:
each statement reads and writes the cell of the member it names. -/
def AddSegment (h : Heap) (o : JointsObject) (segmentName parentName : String)
    (dof : SegmentDof) (characteristics : SegmentCharacteristics) :
    Nat × Heap × JointsObject :=
  let tp : Segment := ⟨segmentName, parentName, dof, characteristics⟩
  let o0 := { o with mBodyNameMap := o.mBodyNameMap ++ [segmentName] }
  let h1 := if o0.GetBodyId parentName = UINT_MAX
    then h.setSize o.m_nbRoot (h.sizeCells o.m_nbRoot + tp.nbDof) else h
  let h2 := h1.setSize o.m_nbDof (h1.sizeCells o.m_nbDof + tp.nbDof)
  let h3 := h2.setSize o.m_nbQ (h2.sizeCells o.m_nbQ + tp.nbQ)
  let h4 := h3.setSize o.m_nbQdot (h3.sizeCells o.m_nbQdot + tp.nbQdot)
  let h5 := h4.setSize o.m_nbQddot (h4.sizeCells o.m_nbQddot + tp.nbQddot)
  let h6 := if tp.isRotationAQuaternion
    then h5.setSize o.m_nRotAQuat (h5.sizeCells o.m_nRotAQuat + 1) else h5
  let h7 := h6.setScalar o.m_totalMass (h6.scalarCells o.m_totalMass + characteristics.mMass)
  let h8 := h7.setSegments o.m_segments (h7.segmentCells o.m_segments ++ [tp])
  (0, h8, o0)

/-- `Joints::AddSegment`, rotation-only overload (lines 178-203), through the
pointers. -/
def AddSegment_seqR (h : Heap) (o : JointsObject) (segmentName parentName : String)
    (dof : SegmentDof) (characteristics : SegmentCharacteristics) :
    Nat × Heap × JointsObject :=
  let tp : Segment := ⟨segmentName, parentName, dof, characteristics⟩
  let o0 := { o with mBodyNameMap := o.mBodyNameMap ++ [segmentName] }
  let h1 := if o0.GetBodyId parentName = UINT_MAX
    then h.setSize o.m_nbRoot (h.sizeCells o.m_nbRoot + tp.nbDof) else h
  let h2 := h1.setSize o.m_nbDof (h1.sizeCells o.m_nbDof + tp.nbDof)
  let h3 := h2.setScalar o.m_totalMass (h2.scalarCells o.m_totalMass + characteristics.mMass)
  let h4 := h3.setSegments o.m_segments (h3.segmentCells o.m_segments ++ [tp])
  (0, h4, o0)

/-- `Joints::updateSegmentCharacteristics` (lines 216-223), through the
pointer to the segments. -/
def updateSegmentCharacteristics (h : Heap) (o : JointsObject) (idx : Nat)
    (characteristics : SegmentCharacteristics) : Except String Heap := do
  Error.check (idx < (h.segmentCells o.m_segments).length)
    "Asked for a wrong segment (out of range)"
  pure (h.setSegments o.m_segments
    ((h.segmentCells o.m_segments).modify (·.updateCharacteristics characteristics) idx))

/-- The heap and the object after one build-time call on the object; a call
that throws leaves them as they were. -/
def applyCall (h : Heap) (o : JointsObject) : Joints.BuildCall → Heap × JointsObject
  | .addSegment n p d c => (o.AddSegment h n p d c).2
  | .addSegment_seqR n p d c => (o.AddSegment_seqR h n p d c).2
  | .updateSegmentCharacteristics idx c =>
    match o.updateSegmentCharacteristics h idx c with
    | .ok h1 => (h1, o)
    | .error _ => (h, o)

end JointsObject

/-- The heap and two objects after a sequence of build-time calls, each made
on the first object (`true`) or on the second (`false`). -/
def applyCallsOnTwo : Heap × JointsObject × JointsObject → List (Bool × Joints.BuildCall) →
    Heap × JointsObject × JointsObject
  | st, [] => st
  | (h, a, b), (true, call) :: rest =>
    applyCallsOnTwo ((a.applyCall h call).1, (a.applyCall h call).2, b) rest
  | (h, a, b), (false, call) :: rest =>
    applyCallsOnTwo ((b.applyCall h call).1, a, (b.applyCall h call).2) rest

/-- The calls of a tagged sequence made on the object of the given tag. -/
def callsOn (side : Bool) (calls : List (Bool × Joints.BuildCall)) : List Joints.BuildCall :=
  (calls.filter (fun c => c.1 == side)).map Prod.snd

namespace Example1

/-- The example model as an object in an empty heap: constructed, then given
the segment `Pelvis`. -/
def object : Heap × JointsObject :=
  ((JointsObject.new Heap.empty).1.AddSegment (JointsObject.new Heap.empty).2
    "Pelvis" "root" ⟨1, 1, 1, 1, 1, false⟩ ⟨1⟩).2

end Example1

/-! ## The Jacobian of the rotation matrix of a segment -/

/-- The `RigidBodyDynamics::Math::SpatialTransform` of the external library
RBDL: a rotation `E` and a translation `r`. -/
structure SpatialTransform where
  E : Matrix3d
  r : Vector3d

namespace SpatialTransform

/-- The `SpatialTransform::inverse ()` of RBDL: `(Eᵀ, -E r)`. -/
def inverse (X : SpatialTransform) : SpatialTransform := ⟨X.Eᵀ, -(X.E *ᵥ X.r)⟩

/-- The `SpatialTransform::apply (v)` of RBDL on a spatial motion vector: the
angular part is rotated, and the linear part is rotated once `r × ω` has been
taken off. -/
def apply (X : SpatialTransform) (v : SpatialVector) : SpatialVector :=
  let v_rxw : Vector3d :=
    ![v 3 - X.r 1 * v 2 + X.r 2 * v 1,
      v 4 - X.r 2 * v 0 + X.r 0 * v 2,
      v 5 - X.r 0 * v 1 + X.r 1 * v 0]
  ![X.E 0 0 * v 0 + X.E 0 1 * v 1 + X.E 0 2 * v 2,
    X.E 1 0 * v 0 + X.E 1 1 * v 1 + X.E 1 2 * v 2,
    X.E 2 0 * v 0 + X.E 2 1 * v 1 + X.E 2 2 * v 2,
    X.E 0 0 * v_rxw 0 + X.E 0 1 * v_rxw 1 + X.E 0 2 * v_rxw 2,
    X.E 1 0 * v_rxw 0 + X.E 1 1 * v_rxw 1 + X.E 1 2 * v_rxw 2,
    X.E 2 0 * v_rxw 0 + X.E 2 1 * v_rxw 1 + X.E 2 2 * v_rxw 2]

/-- The product `X1 * X2` of RBDL: `(E1 E2, r2 + E2ᵀ r1)`. -/
def mul (X1 X2 : SpatialTransform) : SpatialTransform :=
  ⟨X1.E * X2.E, X2.r + X2.Eᵀ *ᵥ X1.r⟩

/-- The `SpatialTransform::toMatrix ()` of RBDL: the blocks `E`, `0`,
`-E r×`, `E`. -/
def toMatrix (X : SpatialTransform) : SpatialMatrix :=
  Matrix.reindex finSumFinEquiv finSumFinEquiv
    (Matrix.fromBlocks X.E 0
      (-(X.E * !![0, -X.r 2, X.r 1; X.r 2, 0, -X.r 0; -X.r 1, X.r 0, 0])) X.E)

end SpatialTransform

/-- The assignment `G.block (startRow, startCol, blockRows, blockCols) = B`;
`none` stands for a block outside the matrix (an assertion failure of the
backend). -/
def DenseMatrix.setBlock (G : DenseMatrix) (startRow startCol blockRows blockCols : Nat)
    (B : Fin blockRows → Fin blockCols → Scalar) : Option DenseMatrix :=
  if startRow + blockRows ≤ G.rows ∧ startCol + blockCols ≤ G.cols then
    some ⟨G.rows, G.cols, fun i j =>
      if h : startRow ≤ i ∧ i < startRow + blockRows ∧ startCol ≤ j ∧ j < startCol + blockCols
      then B ⟨i - startRow, by omega⟩ ⟨j - startCol, by omega⟩ else G.coeff i j⟩
  else none

/-- What `CalcMatRotJacobian` and `JacobianSegmentRotMat` read of the inherited
model and of the segments beside `lambda`, `mJoints[i].q_index` and `S`:
`qdot_size`, the transform `X_base[i]` of the current kinematics, the number of
DoFs `mJoints[i].mDoFCount` of a joint and the motion subspace `multdof3_S[i]`
of a joint with three DoFs, the fixed bodies, the orientation that
`RigidBodyDynamics::CalcBodyWorldOrientation (model, Q, id, false)` returns, and
the id `Segment::id ()` of a segment. -/
structure RbdlRotation where
  qdot_size : Nat
  X_base : ModelData → Nat → SpatialTransform
  mDoFCount : Nat → Nat
  multdof3_S : Nat → Matrix (Fin 6) (Fin 3) Scalar
  IsFixedBodyId : Nat → Bool
  fixed_body_discriminator : Nat
  mFixedBodies_mMovableParent : Nat → Nat
  CalcBodyWorldOrientation : ModelData → List Scalar → Nat → Matrix3d
  segment_id : Segment → Nat

namespace Joints

/-- The members of the model once the kinematics has been updated, when asked
to (`if (updateKin) UpdateKinematicsCustom (&Q, nullptr, nullptr)`) and the
dimension check passes. -/
def kinematics (rbdl : Rbdl) (md : ModelData) (Q : List Scalar) (updateKin : Bool) :
    ModelData :=
  if updateKin then rbdl.UpdateKinematicsCustom md (some Q) none none else md

/-- The test of `CalcMatRotJacobian` (line 1636) under which joint `j`
contributes: none of the three linear components of `S[j]` is 1. -/
def CalcMatRotJacobian.contributes (md : ModelData) (j : Nat) : Prop :=
  md.S j 3 ≠ 1 ∧ md.S j 4 ≠ 1 ∧ md.S j 5 ≠ 1

instance (md : ModelData) (j : Nat) : Decidable (CalcMatRotJacobian.contributes md j) := by
  unfold CalcMatRotJacobian.contributes
  infer_instance

/-- The number of columns written for joint `j` (lines 1642-1648). -/
def CalcMatRotJacobian.width (rm : RbdlRotation) (j : Nat) : Nat :=
  if rm.mDoFCount j = 3 then 3 else 1

/-- The loop `while (j != 0)` of `CalcMatRotJacobian` (lines 1630-1651) for
the axis `iAxes`, from body `j` towards the base. `fuel` bounds the number of
bodies visited; `none` stands for the bound reached or for a block outside
`G`. -/
def CalcMatRotJacobian.walk (m : Model) (md : ModelData) (rm : RbdlRotation)
    (point_trans : SpatialTransform) (iAxes : Nat) : Nat → Nat → DenseMatrix → Option DenseMatrix
  | 0, j, G => if j = 0 then some G else none
  | fuel + 1, j, G =>
    if j = 0 then some G
    else
      let q_index := m.q_index j
      let written : Option DenseMatrix :=
        if CalcMatRotJacobian.contributes md j then
          let X_base : SpatialTransform := ⟨(rm.X_base md j).E, 0⟩
          if rm.mDoFCount j = 3 then
            G.setBlock (iAxes * 3) q_index 3 3 (fun a b =>
              ((point_trans.mul X_base.inverse).toMatrix * rm.multdof3_S j) (Fin.natAdd 3 a) b)
          else
            G.setBlock (iAxes * 3) q_index 3 1 (fun a _ =>
              point_trans.apply (X_base.inverse.apply (md.S j)) (Fin.natAdd 3 a))
        else some G
      match written with
      | none => none
      | some G1 => CalcMatRotJacobian.walk m md rm point_trans iAxes fuel (m.parent j) G1

/-- The body from which the loop of `CalcMatRotJacobian` starts (lines
1621-1626): the segment's body, or its movable parent when it is a fixed
body. -/
def CalcMatRotJacobian.reference_body_id (rm : RbdlRotation) (segmentIdx : Nat) : Nat :=
  if rm.IsFixedBodyId segmentIdx
  then rm.mFixedBodies_mMovableParent (segmentIdx - rm.fixed_body_discriminator)
  else segmentIdx

/-- The body of the loop over the three axes of `CalcMatRotJacobian` (lines
1611-1652). -/
def CalcMatRotJacobian.axis (m : Model) (md : ModelData) (rm : RbdlRotation)
    (Q : List Scalar) (segmentIdx : Nat) (rotation : Matrix3d) (fuel : Nat)
    (G : DenseMatrix) (iAxes : Fin 3) : Option DenseMatrix :=
  let bodyMatRot := (rm.CalcBodyWorldOrientation md Q segmentIdx)ᵀ
  let point_trans : SpatialTransform :=
    ⟨1, (bodyMatRot * rotation) *ᵥ (Pi.single iAxes 1)⟩
  CalcMatRotJacobian.walk m md rm point_trans iAxes.val fuel
    (CalcMatRotJacobian.reference_body_id rm segmentIdx) G

/-- `Joints::CalcMatRotJacobian` (lines 1586-1653): the matrix `G` after the
call with the members of the model, an error thrown by the kinematics update,
or `none` for a failed assertion, a block outside `G` or the bound reached. -/
def CalcMatRotJacobian (rbdl : Rbdl) (rm : RbdlRotation) (j : Joints) (m : Model)
    (md : ModelData) (Q : List Scalar) (segmentIdx : Nat) (rotation : Matrix3d)
    (G : DenseMatrix) (updateKin : Bool) (fuel : Nat) :
    Except String (Option (DenseMatrix × ModelData)) := do
  let md1 ← if updateKin then j.UpdateKinematicsCustom rbdl md (some Q) none none else pure md
  if G.rows = 9 ∧ G.cols = rm.qdot_size then
    pure (([0, 1, 2] : List (Fin 3)).foldlM
      (CalcMatRotJacobian.axis m md1 rm Q segmentIdx rotation fuel) G |>.map (fun G1 => (G1, md1)))
  else pure none

/-- `Joints::getBodyBiorbdIdToRbdlId` (lines 275-279): the id of the segment of
the given index, read without a check (`none` past the end). -/
def getBodyBiorbdIdToRbdlId (rm : RbdlRotation) (j : Joints) (idx : Int) : Option Nat :=
  (j.m_segments[toSizeT idx]?).map rm.segment_id

/-- `Joints::JacobianSegmentRotMat` (lines 1655-1677): `CalcMatRotJacobian`
with the identity rotation on a zero matrix of 9 rows and `nbQ ()` columns. -/
def JacobianSegmentRotMat (rbdl : Rbdl) (rm : RbdlRotation) (j : Joints) (m : Model)
    (md : ModelData) (Q : List Scalar) (biorbdSegmentIdx : Nat) (updateKin : Bool) (fuel : Nat) :
    Except String (Option (DenseMatrix × ModelData)) :=
  match j.getBodyBiorbdIdToRbdlId rm (toInt32 biorbdSegmentIdx) with
  | none => pure none
  | some segmentIdx =>
    j.CalcMatRotJacobian rbdl rm m md Q segmentIdx 1 ⟨9, j.nbQ, fun _ _ => 0⟩ updateKin fuel

end Joints

namespace Example1

/-- Kinematic members of a model whose body slides along the direction
`(0, 3/5, 4/5)` of its joint frame: a motion subspace without angular part, of
unit length, along no coordinate axis. -/
def dataOblique : ModelData :=
  { S := fun _ => ![0, 0, 0, 0, 3 / 5, 4 / 5]
    I := fun _ => 1
    X_lambda := fun _ => 1
    IA := fun _ => 0
    U := fun _ => 0
    d := fun _ => 0 }

/-- The members read by the rotation Jacobian in the example: joints with one
DoF, no fixed body, every frame aligned with the base, every segment carried
by body 1. -/
def rotation : RbdlRotation :=
  { qdot_size := 1
    X_base := fun _ _ => ⟨1, 0⟩
    mDoFCount := fun _ => 1
    multdof3_S := fun _ => 0
    IsFixedBodyId := fun _ => false
    fixed_body_discriminator := UINT_MAX / 2
    mFixedBodies_mMovableParent := fun _ => 0
    CalcBodyWorldOrientation := fun _ _ _ => 1
    segment_id := fun _ => 1 }

end Example1

/-- Kinematic members of a model whose body slides along the first axis of its
joint frame: the motion subspace `(0, 0, 0, 1, 0, 0)`. -/
def Example1.dataTranslation : ModelData :=
  { S := fun _ => Pi.single 3 1
    I := fun _ => 1
    X_lambda := fun _ => 1
    IA := fun _ => 0
    U := fun _ => 0
    d := fun _ => 0 }

/-! ## A model built through both overloads of `AddSegment` -/

namespace Example2

/-- Two segments with one DoF each in a chain: `Pelvis` added through the
first overload of `AddSegment`, `Thorax` added under it through the
rotation-only overload. -/
def joints : Joints :=
  ((Joints.new.AddSegment "Pelvis" "root" ⟨1, 1, 1, 1, 1, false⟩ ⟨1⟩).2.AddSegment_seqR
    "Thorax" "Pelvis" ⟨0, 1, 1, 1, 1, false⟩ ⟨1⟩).2

/-- The tree of the inherited model for these two segments: body 1 on the
base, body 2 on body 1, one coordinate each. -/
def model : Model :=
  { lambda := [0, 0, 1]
    mu := [[1], [2], []]
    mJoints_q_index := [0, 0, 1]
    dof_count := 2 }

end Example2

namespace Joints

/-- What the translation-and-rotation overload of `AddSegment` does to the
counters, the mass and the segment list. -/
theorem AddSegment_effect (m : Joints) (n p : String) (d : SegmentDof)
    (c : SegmentCharacteristics) :
    let m1 := (m.AddSegment n p d c).2
    m1.nbDof = m.nbDof + d.nbDof ∧ m1.nbQ = m.nbQ + d.nbQ ∧
    m1.nbQdot = m.nbQdot + d.nbQdot ∧ m1.nbQddot = m.nbQddot + d.nbQddot ∧
    m1.nbQuat = m.nbQuat + (if d.isRotationAQuaternion then 1 else 0) ∧
    m1.mass = m.mass + c.mMass ∧
    m1.m_segments = m.m_segments ++ [⟨n, p, d, c⟩] := by
  cases hq : d.isRotationAQuaternion <;>
    simp [AddSegment, constructSegment, nbDof, nbQ, nbQdot, nbQddot, nbQuat, mass,
      Segment.nbDof, Segment.nbQ, Segment.nbQdot, Segment.nbQddot,
      Segment.isRotationAQuaternion, hq] <;>
    split <;> simp

/-- What the rotation-only overload of `AddSegment` does: `nbQ`, `nbQdot`,
`nbQddot` and `nbQuat` are left as they were. -/
theorem AddSegment_seqR_effect (m : Joints) (n p : String) (d : SegmentDof)
    (c : SegmentCharacteristics) :
    let m1 := (m.AddSegment_seqR n p d c).2
    m1.nbDof = m.nbDof + d.nbDof ∧ m1.nbQ = m.nbQ ∧
    m1.nbQdot = m.nbQdot ∧ m1.nbQddot = m.nbQddot ∧
    m1.nbQuat = m.nbQuat ∧
    m1.mass = m.mass + c.mMass ∧
    m1.m_segments = m.m_segments ++ [⟨n, p, d, c⟩] := by
  simp [AddSegment_seqR, constructSegment, nbDof, nbQ, nbQdot, nbQddot, nbQuat, mass,
      Segment.nbDof]
  split <;> simp

/-- C2, evaluated on the rotation-only overload: adding to a fresh model a
quaternion segment with 3 DoFs, 4 coordinates, 3 velocities and 3 accelerations
raises `nbDof` to 3, `mass` to 1 and `nbSegment` to 1, but leaves `nbQ`,
`nbQdot`, `nbQddot` and `nbQuat` at 0. -/
theorem AddSegment_seqR_skips_coordinate_counts :
    (Joints.new.AddSegment_seqR "Pelvis" "root" ⟨0, 3, 4, 3, 3, true⟩ ⟨1⟩).2.nbDof = 3 ∧
    (Joints.new.AddSegment_seqR "Pelvis" "root" ⟨0, 3, 4, 3, 3, true⟩ ⟨1⟩).2.mass = 1 ∧
    (Joints.new.AddSegment_seqR "Pelvis" "root" ⟨0, 3, 4, 3, 3, true⟩ ⟨1⟩).2.nbSegment = 1 ∧
    (Joints.new.AddSegment_seqR "Pelvis" "root" ⟨0, 3, 4, 3, 3, true⟩ ⟨1⟩).2.nbQ = 0 ∧
    (Joints.new.AddSegment_seqR "Pelvis" "root" ⟨0, 3, 4, 3, 3, true⟩ ⟨1⟩).2.nbQdot = 0 ∧
    (Joints.new.AddSegment_seqR "Pelvis" "root" ⟨0, 3, 4, 3, 3, true⟩ ⟨1⟩).2.nbQddot = 0 ∧
    (Joints.new.AddSegment_seqR "Pelvis" "root" ⟨0, 3, 4, 3, 3, true⟩ ⟨1⟩).2.nbQuat = 0 := by
  obtain ⟨h1, h2, h3, h4, h5, h6, h7⟩ :=
    AddSegment_seqR_effect Joints.new "Pelvis" "root" ⟨0, 3, 4, 3, 3, true⟩ ⟨1⟩
  refine ⟨h1, ?_, ?_, h2, h3, h4, h5⟩
  · rw [h6]; simp [mass, Joints.new]
  · simp only [nbSegment]; rw [h7]; rfl

theorem DimensionInvariant_applyCall (m : Joints) (call : BuildCall)
    (hm : m.DimensionInvariant) (hc : call.IsConsistentAdd) :
    (m.applyCall call).DimensionInvariant := by
  cases call with
  | addSegment n p d c =>
    obtain ⟨-, h2, h3, h4, h5, -, -⟩ := AddSegment_effect m n p d c
    obtain ⟨hd1, hd2⟩ := hc
    obtain ⟨hm1, hm2⟩ := hm
    refine ⟨?_, ?_⟩
    · show (m.AddSegment n p d c).2.nbQddot = (m.AddSegment n p d c).2.nbQdot
      rw [h4, h3, hm1, hd1]
    · show (m.AddSegment n p d c).2.nbQ
        = (m.AddSegment n p d c).2.nbQdot + (m.AddSegment n p d c).2.nbQuat
      rw [h2, h3, h5, hm2, hd2]; omega
  | addSegment_seqR n p d c =>
    obtain ⟨-, h2, h3, h4, h5, -, -⟩ := AddSegment_seqR_effect m n p d c
    obtain ⟨hm1, hm2⟩ := hm
    refine ⟨?_, ?_⟩
    · show (m.AddSegment_seqR n p d c).2.nbQddot = (m.AddSegment_seqR n p d c).2.nbQdot
      rw [h4, h3, hm1]
    · show (m.AddSegment_seqR n p d c).2.nbQ
        = (m.AddSegment_seqR n p d c).2.nbQdot + (m.AddSegment_seqR n p d c).2.nbQuat
      rw [h2, h3, h5, hm2]
  | updateSegmentCharacteristics idx c => exact absurd hc (by simp [BuildCall.IsConsistentAdd])

theorem DimensionInvariant_applyCalls (calls : List BuildCall) :
    ∀ m : Joints, m.DimensionInvariant → (∀ c ∈ calls, c.IsConsistentAdd) →
      (m.applyCalls calls).DimensionInvariant := by
  induction calls with
  | nil => intro m hm _; exact hm
  | cons c cs ih =>
    intro m hm hc
    have h1 := DimensionInvariant_applyCall m c hm (hc c (List.mem_cons_self _ _))
    exact ih (m.applyCall c) h1 (fun x hx => hc x (List.mem_cons_of_mem _ hx))

/-- C3: in every model obtained from a freshly constructed one by a sequence of
`AddSegment` calls (either overload) of consistent segments, `nbQddot = nbQdot`
and `nbQ = nbQdot + nbQuat`. -/
theorem reachable_dimension_invariant (calls : List BuildCall)
    (h : ∀ c ∈ calls, c.IsConsistentAdd) :
    (Joints.new.applyCalls calls).nbQddot = (Joints.new.applyCalls calls).nbQdot ∧
    (Joints.new.applyCalls calls).nbQ
      = (Joints.new.applyCalls calls).nbQdot + (Joints.new.applyCalls calls).nbQuat :=
  DimensionInvariant_applyCalls calls Joints.new ⟨rfl, rfl⟩ h

/-- Witness of C3: a quaternion segment added through the first overload and a
plain segment added through the second. -/
theorem reachable_dimension_invariant_witness :
    (∀ c ∈ exampleAdds, c.IsConsistentAdd) ∧
    (Joints.new.applyCalls exampleAdds).nbQddot = (Joints.new.applyCalls exampleAdds).nbQdot ∧
    (Joints.new.applyCalls exampleAdds).nbQ
      = (Joints.new.applyCalls exampleAdds).nbQdot + (Joints.new.applyCalls exampleAdds).nbQuat :=
  have hc : ∀ c ∈ exampleAdds, c.IsConsistentAdd := by
    intro c hc
    simp only [exampleAdds, List.mem_cons, List.mem_singleton, List.not_mem_nil, or_false] at hc
    rcases hc with rfl | rfl <;> simp [BuildCall.IsConsistentAdd, SegmentDof.Consistent]
  ⟨hc, reachable_dimension_invariant exampleAdds hc⟩

/-- A call of `updateSegmentCharacteristics` with a valid index replaces the
characteristics of that segment and nothing else: `mass()` is as before. -/
theorem updateSegmentCharacteristics_effect (m : Joints) (idx : Nat)
    (c : SegmentCharacteristics) (h : idx < m.m_segments.length) :
    m.updateSegmentCharacteristics idx c
      = .ok { m with m_segments := m.m_segments.modify (·.updateCharacteristics c) idx } := by
  simp [updateSegmentCharacteristics, Error.check, h, bind, Except.bind, pure, Except.pure]

/-- C4, evaluated: a segment of mass 1 is added to a fresh model, then its
characteristics are replaced by characteristics of mass 2. The segments then
hold a mass of 2 in total, while `mass()` still returns 1. -/
theorem mass_stale_after_updateSegmentCharacteristics :
    (Joints.new.applyCalls
      [BuildCall.addSegment "Pelvis" "root" ⟨3, 6, 6, 6, 6, false⟩ ⟨1⟩,
       BuildCall.updateSegmentCharacteristics 0 ⟨2⟩]).mass = 1 ∧
    (Joints.new.applyCalls
      [BuildCall.addSegment "Pelvis" "root" ⟨3, 6, 6, 6, 6, false⟩ ⟨1⟩,
       BuildCall.updateSegmentCharacteristics 0 ⟨2⟩]).segmentsMass = 2 := by
  obtain ⟨-, -, -, -, -, hmass, hseg⟩ :=
    AddSegment_effect Joints.new "Pelvis" "root" ⟨3, 6, 6, 6, 6, false⟩ ⟨1⟩
  simp only at hmass hseg
  have hseg1 : (Joints.new.AddSegment "Pelvis" "root" ⟨3, 6, 6, 6, 6, false⟩ ⟨1⟩).2.m_segments
      = [⟨"Pelvis", "root", ⟨3, 6, 6, 6, 6, false⟩, ⟨1⟩⟩] := by
    rw [hseg]; rfl
  have hlen : 0 < (Joints.new.AddSegment "Pelvis" "root" ⟨3, 6, 6, 6, 6, false⟩
      ⟨1⟩).2.m_segments.length := by
    rw [hseg1]; decide
  have hupd := updateSegmentCharacteristics_effect
    (Joints.new.AddSegment "Pelvis" "root" ⟨3, 6, 6, 6, 6, false⟩ ⟨1⟩).2 0 ⟨2⟩ hlen
  have hrun : Joints.new.applyCalls
      [BuildCall.addSegment "Pelvis" "root" ⟨3, 6, 6, 6, 6, false⟩ ⟨1⟩,
       BuildCall.updateSegmentCharacteristics 0 ⟨2⟩]
      = { (Joints.new.AddSegment "Pelvis" "root" ⟨3, 6, 6, 6, 6, false⟩ ⟨1⟩).2 with
          m_segments := [⟨"Pelvis", "root", ⟨3, 6, 6, 6, 6, false⟩, ⟨2⟩⟩] } := by
    simp only [applyCalls, List.foldl, applyCall, hupd, hseg1]
    rfl
  rw [hrun]
  constructor
  · show (Joints.new.AddSegment "Pelvis" "root" ⟨3, 6, 6, 6, 6, false⟩ ⟨1⟩).2.mass = 1
    rw [hmass]; simp [mass, Joints.new]
  · simp [segmentsMass]

end Joints

/-! ### `computeQdot` -/

namespace Joints

theorem map_modify_of_invariant {α β : Type} (g : α → β) (f : α → α) (h : ∀ a, g (f a) = g a) :
    ∀ (l : List α) (idx : Nat), (l.modify f idx).map g = l.map g := by
  intro l
  induction l with
  | nil => intro idx; cases idx <;> rfl
  | cons a l ih =>
    intro idx
    cases idx with
    | zero => simp [List.modify, List.modifyHead, h]
    | succ k => simpa [List.modify] using ih k

/-- Each build-time call keeps `nbDof()` equal to the sum of the DoF counts of
the segments. -/
theorem nbDof_applyCall (m : Joints) (call : BuildCall) (hm : m.nbDof = m.segmentsDof) :
    (m.applyCall call).nbDof = (m.applyCall call).segmentsDof := by
  cases call with
  | addSegment n p d c =>
    obtain ⟨h1, -, -, -, -, -, h7⟩ := AddSegment_effect m n p d c
    show (m.AddSegment n p d c).2.nbDof = (m.AddSegment n p d c).2.segmentsDof
    rw [h1, segmentsDof, h7, hm]
    simp [segmentsDof, Segment.nbDof]
  | addSegment_seqR n p d c =>
    obtain ⟨h1, -, -, -, -, -, h7⟩ := AddSegment_seqR_effect m n p d c
    show (m.AddSegment_seqR n p d c).2.nbDof = (m.AddSegment_seqR n p d c).2.segmentsDof
    rw [h1, segmentsDof, h7, hm]
    simp [segmentsDof, Segment.nbDof]
  | updateSegmentCharacteristics idx c =>
    by_cases h : idx < m.m_segments.length
    · simp only [applyCall, updateSegmentCharacteristics_effect m idx c h]
      show m.nbDof = _
      rw [hm, segmentsDof, segmentsDof]
      exact congrArg List.sum (map_modify_of_invariant Segment.nbDof
        (·.updateCharacteristics c) (fun _ => rfl) m.m_segments idx).symm
    · have : m.updateSegmentCharacteristics idx c
          = .error "Asked for a wrong segment (out of range)" := by
        simp [updateSegmentCharacteristics, Error.check, h, bind, Except.bind]
      simp only [applyCall, this]
      exact hm

theorem nbDof_applyCalls (calls : List BuildCall) :
    ∀ m : Joints, m.nbDof = m.segmentsDof →
      (m.applyCalls calls).nbDof = (m.applyCalls calls).segmentsDof := by
  induction calls with
  | nil => intro m hm; exact hm
  | cons c cs ih => intro m hm; exact ih (m.applyCall c) (nbDof_applyCall m c hm)

theorem block_eq_some {α : Type} (v : List α) (start len : Nat) (h : start + len ≤ v.length) :
    block v start len = some ((v.drop start).take len) := by
  simp [block, h]

/-- The loop of `computeQdot` over segments none of which is a quaternion: when
the first `cmpDof` slots of the output already hold the first `cmpDof` entries
of `QDot`, the loop ends with the output holding the entries of `QDot` up to
the DoFs of the segments it went through. -/
theorem computeQdotLoop_no_quaternion (derivate : Quaternion → List Scalar → Quaternion)
    (nRotAQuat : Nat) (Q QDot : List Scalar) (k_stab : Scalar) :
    ∀ (segs : List Segment), (∀ s ∈ segs, s.isRotationAQuaternion = false) →
    ∀ (cmpQuat cmpDof : Nat) (rest : List (Option Scalar)),
      cmpDof + (segs.map Segment.nbDof).sum ≤ QDot.length →
      rest.length = QDot.length - cmpDof →
      ∃ rest1 : List (Option Scalar),
        rest1.length = QDot.length - (cmpDof + (segs.map Segment.nbDof).sum) ∧
        computeQdotLoop derivate nRotAQuat Q QDot k_stab segs cmpQuat cmpDof
            ((QDot.take cmpDof).map some ++ rest)
          = some ((QDot.take (cmpDof + (segs.map Segment.nbDof).sum)).map some ++ rest1) := by
  intro segs
  induction segs with
  | nil =>
    intro _ cmpQuat cmpDof rest _ hrest
    exact ⟨rest, by simpa using hrest, by simp [computeQdotLoop]⟩
  | cons s segs ih =>
    intro hq cmpQuat cmpDof rest hle hrest
    have hs : s.isRotationAQuaternion = false := hq s (List.mem_cons_self _ _)
    have hsum : ((s :: segs).map Segment.nbDof).sum = s.nbDof + (segs.map Segment.nbDof).sum := by
      simp
    rw [hsum] at hle
    have hle1 : cmpDof + s.nbDof ≤ QDot.length := by omega
    have hlen : ((QDot.take cmpDof).map some).length = cmpDof := by
      rw [List.length_map, List.length_take]; omega
    have hl2 : (((QDot.drop cmpDof).take s.nbDof).map some).length = s.nbDof := by
      rw [List.length_map, List.length_take, List.length_drop]; omega
    have hset : setBlock ((QDot.take cmpDof).map some ++ rest) cmpDof
        (((QDot.drop cmpDof).take s.nbDof).map some)
        = some ((QDot.take (cmpDof + s.nbDof)).map some ++ rest.drop s.nbDof) := by
      have hd : List.drop (cmpDof + s.nbDof) ((QDot.take cmpDof).map some ++ rest)
          = rest.drop s.nbDof := by
        have := @List.drop_append _ ((QDot.take cmpDof).map some) rest s.nbDof
        rwa [hlen] at this
      unfold setBlock
      rw [hl2, if_pos (by rw [List.length_append, hlen, hrest]; omega), List.take_left' hlen,
        hd, List.take_add, List.map_append]
    obtain ⟨rest1, hr1, hrun⟩ := ih (fun x hx => hq x (List.mem_cons_of_mem _ hx)) cmpQuat
      (cmpDof + s.nbDof) (rest.drop s.nbDof) (by omega) (by simp; omega)
    refine ⟨rest1, by rw [hsum]; omega, ?_⟩
    rw [hsum, ← Nat.add_assoc, ← hrun]
    simp only [computeQdotLoop, hs, Bool.false_eq_true, if_false]
    rw [block_eq_some QDot cmpDof s.nbDof hle1]
    simp only [Option.bind_eq_bind, Option.some_bind, hset]

/-- C9: in a model built by any sequence of build-time calls that holds no
quaternion-parameterized segment and in which `nbQ() = nbDof()`, `computeQdot`
applied to `Q` and `QDot` of length `nbQ()` returns `QDot`, every component
written, whatever the stabilization gain. -/
theorem computeQdot_no_quaternion (calls : List BuildCall)
    (derivate : Quaternion → List Scalar → Quaternion)
    (Q QDot : List Scalar) (k_stab : Scalar)
    (hquat : ∀ s ∈ (Joints.new.applyCalls calls).m_segments, s.isRotationAQuaternion = false)
    (hdof : (Joints.new.applyCalls calls).nbQ = (Joints.new.applyCalls calls).nbDof)
    (hQ : Q.length = (Joints.new.applyCalls calls).nbQ)
    (hQDot : QDot.length = (Joints.new.applyCalls calls).nbQ) :
    (Joints.new.applyCalls calls).computeQdot derivate Q QDot k_stab = some (QDot.map some) := by
  have hsum := nbDof_applyCalls calls Joints.new rfl
  rw [← hdof, ← hQDot] at hsum
  obtain ⟨rest1, hr1, hrun⟩ := computeQdotLoop_no_quaternion derivate
    (Joints.new.applyCalls calls).m_nRotAQuat Q QDot k_stab
    (Joints.new.applyCalls calls).m_segments hquat 0 0 (List.replicate Q.length none)
    (by rw [Nat.zero_add]; exact le_of_eq hsum.symm) (by simp [hQ, hQDot])
  have hnil : rest1 = [] := by
    apply List.eq_nil_of_length_eq_zero
    rw [hr1, Nat.zero_add]
    show QDot.length - (Joints.new.applyCalls calls).segmentsDof = 0
    omega
  simp only [List.take_zero, List.map_nil, List.nil_append, Nat.zero_add] at hrun
  unfold computeQdot
  simp only [m_nRotAQuat_isNull, Bool.false_eq_true, if_false]
  rw [hrun, hnil, List.append_nil]
  have : (List.map Segment.nbDof (Joints.new.applyCalls calls).m_segments).sum = QDot.length :=
    hsum.symm
  rw [this, List.take_length]

/-- Witness of C9: one segment with three translations and three rotations. -/
theorem computeQdot_no_quaternion_witness :
    (Joints.new.applyCalls
        [BuildCall.addSegment "Pelvis" "root" ⟨3, 6, 6, 6, 6, false⟩ ⟨1⟩]).computeQdot
      (fun q _ => q) [0, 0, 0, 0, 0, 0] [1, 2, 3, 4, 5, 6] 1
      = some [some 1, some 2, some 3, some 4, some 5, some 6] :=
  computeQdot_no_quaternion
    [BuildCall.addSegment "Pelvis" "root" ⟨3, 6, 6, 6, 6, false⟩ ⟨1⟩]
    (fun q _ => q) [0, 0, 0, 0, 0, 0] [1, 2, 3, 4, 5, 6] 1
    (by decide) (by decide) (by decide) (by decide)

/-- C10, evaluated on a model with two quaternion segments (`nbQ() = 8`,
`nbQuat() = 2`): the scalar of the first quaternion is read from slot 6 and its
derivative written to slot 6, but the scalar of the second quaternion is read
from slot 5 (not 7) and its derivative is written to slot 5, over the last
vector component; slot 7 is never written. -/
theorem computeQdot_two_quaternions (derivate : Quaternion → List Scalar → Quaternion)
    (q0 q1 q2 q3 q4 q5 q6 q7 v0 v1 v2 v3 v4 v5 v6 v7 k : Scalar) :
    twoQuaternions.nbQ = 8 ∧ twoQuaternions.nbQuat = 2 ∧
    twoQuaternions.computeQdot derivate [q0, q1, q2, q3, q4, q5, q6, q7]
        [v0, v1, v2, v3, v4, v5, v6, v7] k
      = some [some (derivate ⟨q6, q0, q1, q2, k⟩ [v0, v1, v2]).x,
              some (derivate ⟨q6, q0, q1, q2, k⟩ [v0, v1, v2]).y,
              some (derivate ⟨q6, q0, q1, q2, k⟩ [v0, v1, v2]).z,
              some (derivate ⟨q5, q3, q4, q5, k⟩ [v3, v4, v5]).x,
              some (derivate ⟨q5, q3, q4, q5, k⟩ [v3, v4, v5]).y,
              some (derivate ⟨q5, q3, q4, q5, k⟩ [v3, v4, v5]).w,
              some (derivate ⟨q6, q0, q1, q2, k⟩ [v0, v1, v2]).w,
              none] := by
  refine ⟨by decide, by decide, ?_⟩
  rfl

end Joints

/-! ### The DoF subtrees -/

namespace Model

/-- The list stored at position `j` of a vector of lists. -/
theorem getD_modify (f : List Nat → List Nat) (st : List (List Nat)) (i j : Nat) :
    (st.modify f i).getD j [] = if i = j ∧ j < st.length then f (st.getD j []) else st.getD j [] := by
  rw [List.getD_eq_getElem?_getD, List.getD_eq_getElem?_getD, List.getElem?_modify]
  by_cases hj : j < st.length
  · rw [List.getElem?_eq_getElem hj]
    by_cases hij : i = j <;> simp [hij, hj]
  · rw [List.getElem?_eq_none (by omega)]
    simp [hj]

theorem getD_of_length_le (st : List (List Nat)) (j : Nat) (h : st.length ≤ j) :
    st.getD j [] = [] := by
  rw [List.getD_eq_getElem?_getD, List.getElem?_eq_none h]; rfl

theorem parent_of_length_le (m : Model) (hwf : m.WellFormed) (j : Nat) (h : m.mu.length ≤ j) :
    m.parent j = 0 := by
  unfold parent
  rw [List.getD_eq_getElem?_getD, List.getElem?_eq_none (by rw [hwf.size_eq]; exact h)]; rfl

theorem parent_le (m : Model) (hwf : m.WellFormed) (j : Nat) : m.parent j ≤ j := by
  rcases Nat.eq_zero_or_pos j with h0 | h0
  · rw [h0, hwf.parent_base]
  · by_cases hj : j < m.mu.length
    · exact Nat.le_of_lt (hwf.parent_lt j h0 hj)
    · rw [parent_of_length_le m hwf j (by omega)]; exact Nat.zero_le _

theorem iterate_parent_le (m : Model) (hwf : m.WellFormed) (k j : Nat) :
    (m.parent)^[k] j ≤ j := by
  induction k with
  | zero => exact Nat.le_refl _
  | succ k ih =>
    rw [Function.iterate_succ_apply']
    exact Nat.le_trans (parent_le m hwf _) ih

theorem IsInSubtree.le {m : Model} (hwf : m.WellFormed) {i j : Nat} (h : m.IsInSubtree i j) :
    i ≤ j := by
  obtain ⟨k, hk⟩ := h
  rw [← hk]; exact iterate_parent_le m hwf k j

theorem IsInSubtree.refl (m : Model) (i : Nat) : m.IsInSubtree i i := ⟨0, rfl⟩

/-- A body in the subtree of a movable body is a movable body of the model. -/
theorem IsInSubtree.lt_size {m : Model} (hwf : m.WellFormed) {i j : Nat} (hi : 0 < i)
    (hiN : i < m.mu.length) (h : m.IsInSubtree i j) : j < m.mu.length := by
  obtain ⟨k, hk⟩ := h
  by_contra hj
  cases k with
  | zero => simp at hk; omega
  | succ k =>
    rw [Function.iterate_succ_apply, parent_of_length_le m hwf j (by omega)] at hk
    have := iterate_parent_le m hwf k 0
    omega

theorem child_gt {m : Model} (hwf : m.WellFormed) {i c : Nat} (hi : i < m.mu.length)
    (hc : c ∈ m.children i) : i < c ∧ c < m.mu.length ∧ 0 < c ∧ m.parent c = i := by
  obtain ⟨h0, hN, hp⟩ := (hwf.mem_children i c hi).1 hc
  have := hwf.parent_lt c h0 hN
  exact ⟨by omega, hN, h0, hp⟩

/-- The subtree of a body is the body and the subtrees of its children. -/
theorem isInSubtree_iff {m : Model} (hwf : m.WellFormed) {i j : Nat} (hi0 : 0 < i)
    (hi : i < m.mu.length) :
    m.IsInSubtree i j ↔ j = i ∨ ∃ c ∈ m.children i, m.IsInSubtree c j := by
  constructor
  · rintro ⟨k, hk⟩
    induction k generalizing j with
    | zero => left; simpa using hk
    | succ k ih =>
      rw [Function.iterate_succ_apply] at hk
      rcases ih hk with h | ⟨c, hc, hsub⟩
      · by_cases hji : j = i
        · left; exact hji
        · right
          refine ⟨j, ?_, IsInSubtree.refl m j⟩
          have hj0 : 0 < j := by
            rcases Nat.eq_zero_or_pos j with h0 | h0
            · rw [h0, hwf.parent_base] at h; omega
            · exact h0
          have hjN : j < m.mu.length := by
            by_contra hjN
            rw [parent_of_length_le m hwf j (by omega)] at h
            omega
          exact (hwf.mem_children i j hi).2 ⟨hj0, hjN, h⟩
      · right
        obtain ⟨k2, hk2⟩ := hsub
        exact ⟨c, hc, k2 + 1, by rw [Function.iterate_succ_apply]; exact hk2⟩
  · rintro (h | ⟨c, hc, k, hk⟩)
    · rw [h]; exact IsInSubtree.refl m i
    · refine ⟨k + 1, ?_⟩
      rw [Function.iterate_succ_apply', hk]
      exact (child_gt hwf hi hc).2.2.2

/-- Two different bodies with the same parent have disjoint subtrees. -/
theorem subtree_disjoint {m : Model} (hwf : m.WellFormed) {c1 c2 j : Nat}
    (h1 : 0 < c1 ∧ c1 < m.mu.length) (h2 : 0 < c2 ∧ c2 < m.mu.length)
    (hp : m.parent c1 = m.parent c2) (hne : c1 ≠ c2)
    (hs1 : m.IsInSubtree c1 j) (hs2 : m.IsInSubtree c2 j) : False := by
  obtain ⟨k1, hk1⟩ := hs1
  obtain ⟨k2, hk2⟩ := hs2
  have key : ∀ (a b ka kb : Nat), 0 < a → a < m.mu.length → 0 < b → b < m.mu.length →
      m.parent a = m.parent b → (m.parent)^[ka] j = a → (m.parent)^[kb] j = b → ka < kb →
      False := by
    intro a b ka kb ha haN hb hbN hpar hka hkb hlt
    obtain ⟨d, rfl⟩ : ∃ d, kb = (d + 1) + ka := ⟨kb - ka - 1, by omega⟩
    rw [Function.iterate_add_apply, hka, Function.iterate_succ_apply, hpar] at hkb
    have h3 := iterate_parent_le m hwf d (m.parent b)
    have h4 := hwf.parent_lt b hb hbN
    omega
  rcases Nat.lt_trichotomy k1 k2 with h | h | h
  · exact key c1 c2 k1 k2 h1.1 h1.2 h2.1 h2.2 hp hk1 hk2 h
  · rw [h] at hk1; exact hne (hk1.symm.trans hk2)
  · exact key c2 c1 k2 k1 h2.1 h2.2 h1.1 h1.2 hp.symm hk2 hk1 h

/-- Once the bound covers the bodies below `i`, the depth-first list of `i`
does not depend on the bound. -/
theorem depthFirst_stable {m : Model} (hwf : m.WellFormed) :
    ∀ (f g i : Nat), i < m.mu.length → m.mu.length - i ≤ f → m.mu.length - i ≤ g →
      m.depthFirst f i = m.depthFirst g i := by
  intro f
  induction f with
  | zero => intro g i hi hf _; omega
  | succ f ih =>
    intro g i hi hf hg
    cases g with
    | zero => omega
    | succ g =>
      simp only [depthFirst]
      congr 1
      apply List.flatMap_congr
      intro c hc
      obtain ⟨hlt, hcN, -, -⟩ := child_gt hwf hi hc
      exact ih g c hcN (by omega) (by omega)

theorem depthFirst_eq {m : Model} (hwf : m.WellFormed) (i : Nat) (hi : i < m.mu.length) :
    m.depthFirst m.mu.length i
      = m.q_index i :: (m.children i).flatMap (m.depthFirst m.mu.length) := by
  obtain ⟨n, hn⟩ : ∃ n, m.mu.length = n + 1 := ⟨m.mu.length - 1, by have := hwf.size_pos; omega⟩
  rw [hn]
  simp only [depthFirst]
  congr 1
  apply List.flatMap_congr
  intro c hc
  obtain ⟨hlt, hcN, -, -⟩ := child_gt hwf hi hc
  exact depthFirst_stable hwf n (n + 1) c hcN (by omega) (by omega)

/-- The loop over the children of `idx`, for a recursive call `recurse` that
fills the subtree of each child with the depth-first lists and changes nothing
else: the loop fills the subtrees of all children and appends their lists, in
stored order, to the list of `idx`. -/
theorem childLoop_spec {m : Model} (hwf : m.WellFormed)
    (recurse : List (List Nat) → Nat → Option (List (List Nat)))
    (idx : Nat) (st : List (List Nat)) (hidx : idx < m.mu.length)
    (hrec : ∀ c sf, c ∈ m.children idx → sf.length = m.mu.length →
        (∀ j, m.IsInSubtree c j → sf.getD j [] = []) →
        ∃ sf1, recurse sf c = some sf1 ∧ sf1.length = m.mu.length ∧
          (∀ j, m.IsInSubtree c j → sf1.getD j [] = m.depthFirst m.mu.length j) ∧
          (∀ j, ¬ m.IsInSubtree c j → sf1.getD j [] = sf.getD j []))
    (hst : ∀ j, (∃ c ∈ m.children idx, m.IsInSubtree c j) → st.getD j [] = []) :
    ∀ (cs pre : List Nat) (sf : List (List Nat)), pre ++ cs = m.children idx →
      sf.length = m.mu.length →
      sf.getD idx [] = m.q_index idx :: pre.flatMap (m.depthFirst m.mu.length) →
      (∀ c ∈ pre, ∀ j, m.IsInSubtree c j → sf.getD j [] = m.depthFirst m.mu.length j) →
      (∀ j, j ≠ idx → (∀ c ∈ pre, ¬ m.IsInSubtree c j) → sf.getD j [] = st.getD j []) →
      ∃ sf1, recursiveDofSubTrees.childLoop recurse idx cs sf = some sf1 ∧
        sf1.length = m.mu.length ∧
        sf1.getD idx []
          = m.q_index idx :: (m.children idx).flatMap (m.depthFirst m.mu.length) ∧
        (∀ c ∈ m.children idx, ∀ j, m.IsInSubtree c j →
          sf1.getD j [] = m.depthFirst m.mu.length j) ∧
        (∀ j, j ≠ idx → (∀ c ∈ m.children idx, ¬ m.IsInSubtree c j) →
          sf1.getD j [] = st.getD j []) := by
  intro cs
  induction cs with
  | nil =>
    intro pre sf hpre hlen hidxv hdone hother
    rw [List.append_nil] at hpre
    subst hpre
    exact ⟨sf, rfl, hlen, hidxv, hdone, hother⟩
  | cons c cs ih =>
    intro pre sf hpre hlen hidxv hdone hother
    have hc : c ∈ m.children idx := by rw [← hpre]; simp
    obtain ⟨hlt, hcN, hc0, hcp⟩ := child_gt hwf hidx hc
    have hnodup : (pre ++ c :: cs).Nodup := by rw [hpre]; exact hwf.nodup_children idx hidx
    have hcpre : ∀ c1 ∈ pre, c1 ≠ c := by
      intro c1 hc1 heq
      rw [List.nodup_append] at hnodup
      exact hnodup.2.2 hc1 (by rw [heq]; exact List.mem_cons_self _ _)
    have hdisj : ∀ c1 ∈ pre, ∀ j, m.IsInSubtree c j → ¬ m.IsInSubtree c1 j := by
      intro c1 hc1 j hj hj1
      have hc1m : c1 ∈ m.children idx := by rw [← hpre]; simp [hc1]
      obtain ⟨-, hc1N, hc10, hc1p⟩ := child_gt hwf hidx hc1m
      exact subtree_disjoint hwf ⟨hc10, hc1N⟩ ⟨hc0, hcN⟩ (hc1p.trans hcp.symm)
        (hcpre c1 hc1) hj1 hj
    have hne : ∀ j, m.IsInSubtree c j → j ≠ idx := by
      intro j hj heq
      have := IsInSubtree.le hwf hj
      omega
    obtain ⟨filled, hrun, hflen, hfin, hfout⟩ := hrec c sf hc hlen (by
      intro j hj
      rw [hother j (hne j hj) (fun c1 hc1 => hdisj c1 hc1 j hj)]
      exact hst j ⟨c, hc, hj⟩)
    obtain ⟨sf1, hloop, h1, h2, h3, h4⟩ := ih (pre ++ [c])
      (filled.modify (· ++ filled.getD c []) idx)
      (by rw [List.append_assoc]; exact hpre)
      (by rw [List.length_modify]; exact hflen)
      (by
        rw [getD_modify, if_pos ⟨rfl, by omega⟩,
          hfout idx (fun h => hne idx h rfl), hidxv, hfin c (IsInSubtree.refl m c),
          List.flatMap_append]
        simp)
      (by
        intro c1 hc1 j hj
        have hjne : idx ≠ j := by
          rcases List.mem_append.1 hc1 with h | h
          · have hc1m : c1 ∈ m.children idx := by rw [← hpre]; simp [h]
            have := IsInSubtree.le hwf hj
            have := (child_gt hwf hidx hc1m).1
            omega
          · rw [List.mem_singleton] at h
            rw [h] at hj
            exact fun h => hne j hj h.symm
        rw [getD_modify, if_neg (fun h => hjne h.1)]
        rcases List.mem_append.1 hc1 with h | h
        · rw [hfout j (fun hcj => hdisj c1 h j hcj hj)]
          exact hdone c1 h j hj
        · rw [List.mem_singleton] at h
          rw [h] at hj
          exact hfin j hj)
      (by
        intro j hj hnot
        rw [getD_modify, if_neg (fun h => hj h.1.symm),
          hfout j (hnot c (by simp))]
        exact hother j hj (fun c1 hc1 => hnot c1 (by simp [hc1])))
    refine ⟨sf1, ?_, h1, h2, h3, h4⟩
    simp only [recursiveDofSubTrees.childLoop, hrun, Option.bind_eq_bind, Option.some_bind]
    exact hloop

/-- The recursion `recursiveDofSubTrees` on a well-formed tree, started at a
movable body `idx` whose subtree holds empty lists: with a bound of at least the
number of bodies from `idx` on, it returns; the subtree of `idx` then holds the
depth-first lists and every other list is unchanged. -/
theorem recursiveDofSubTrees_spec {m : Model} (hwf : m.WellFormed) :
    ∀ (fuel idx : Nat) (st : List (List Nat)), 0 < idx → idx < m.mu.length →
      m.mu.length - idx ≤ fuel → st.length = m.mu.length →
      (∀ j, m.IsInSubtree idx j → st.getD j [] = []) →
      ∃ st1, m.recursiveDofSubTrees fuel st idx = some st1 ∧ st1.length = m.mu.length ∧
        (∀ j, m.IsInSubtree idx j → st1.getD j [] = m.depthFirst m.mu.length j) ∧
        (∀ j, ¬ m.IsInSubtree idx j → st1.getD j [] = st.getD j []) := by
  intro fuel
  induction fuel with
  | zero => intro idx st _ hidx hfuel; omega
  | succ fuel ih =>
    intro idx st hidx0 hidx hfuel hlen hempty
    have hsub := fun j => isInSubtree_iff (j := j) hwf hidx0 hidx
    obtain ⟨st1, hrun, h1, h2, h3, h4⟩ := childLoop_spec hwf (m.recursiveDofSubTrees fuel) idx
      (st.modify (· ++ [m.q_index idx]) idx) hidx
      (by
        intro c sf hc hsflen hsf
        obtain ⟨hlt, hcN, hc0, -⟩ := child_gt hwf hidx hc
        exact ih c sf hc0 hcN (by omega) hsflen hsf)
      (by
        rintro j ⟨c, hc, hj⟩
        have hle := IsInSubtree.le hwf hj
        have := (child_gt hwf hidx hc).1
        rw [getD_modify, if_neg (by omega)]
        exact hempty j ((hsub j).2 (Or.inr ⟨c, hc, hj⟩)))
      (m.children idx) [] (st.modify (· ++ [m.q_index idx]) idx) rfl
      (by rw [List.length_modify]; exact hlen)
      (by
        rw [getD_modify, if_pos ⟨rfl, by omega⟩, hempty idx (IsInSubtree.refl m idx)]
        rfl)
      (by intro c hc; simp at hc)
      (by intro j _ _; rfl)
    refine ⟨st1, hrun, h1, ?_, ?_⟩
    · intro j hj
      rcases (hsub j).1 hj with h | ⟨c, hc, hcj⟩
      · rw [h, h2, depthFirst_eq hwf idx hidx]
      · exact h3 c hc j hcj
    · intro j hj
      have hne : j ≠ idx := fun h => hj (by rw [h]; exact IsInSubtree.refl m idx)
      rw [h4 j hne (fun c hc hcj => hj ((hsub j).2 (Or.inr ⟨c, hc, hcj⟩))),
        getD_modify, if_neg (fun h => hne h.1.symm)]

/-- The merge loop of `getDofSubTrees` appends, position by position, the lists
of its second argument to those of the first. -/
theorem merge_spec (st filled : List (List Nat)) (size : Nat) (hst : st.length = size) :
    (getDofSubTrees.merge st filled size).length = size ∧
    ∀ j, (getDofSubTrees.merge st filled size).getD j []
      = if j < size then st.getD j [] ++ filled.getD j [] else st.getD j [] := by
  have key : ∀ k, k ≤ size →
      ((List.range k).foldl (fun st j =>
        if (filled.getD j []).isEmpty then st
        else st.modify (· ++ filled.getD j []) j) st).length = size ∧
      ∀ j, ((List.range k).foldl (fun st j =>
        if (filled.getD j []).isEmpty then st
        else st.modify (· ++ filled.getD j []) j) st).getD j []
        = if j < k then st.getD j [] ++ filled.getD j [] else st.getD j [] := by
    intro k
    induction k with
    | zero => intro _; exact ⟨hst, fun j => by simp⟩
    | succ k ih =>
      intro hk
      obtain ⟨hl, hv⟩ := ih (by omega)
      rw [List.range_succ, List.foldl_append]
      simp only [List.foldl_cons, List.foldl_nil]
      by_cases he : (filled.getD k []).isEmpty
      · rw [if_pos he]
        refine ⟨hl, fun j => ?_⟩
        rw [hv j]
        by_cases hjk : j = k
        · have : filled.getD k [] = [] := List.isEmpty_iff.1 he
          rw [hjk, if_neg (by omega), if_pos (by omega), this, List.append_nil]
        · by_cases hlt : j < k
          · rw [if_pos hlt, if_pos (by omega)]
          · rw [if_neg hlt, if_neg (by omega)]
      · rw [if_neg he]
        refine ⟨by rw [List.length_modify]; exact hl, fun j => ?_⟩
        rw [getD_modify, hl, hv j]
        by_cases hjk : j = k
        · rw [hjk, if_pos ⟨rfl, by omega⟩, if_neg (by omega), if_pos (by omega)]
        · rw [if_neg (fun h => hjk h.1.symm)]
          by_cases hlt : j < k
          · rw [if_pos hlt, if_pos (by omega)]
          · rw [if_neg hlt, if_neg (by omega)]
  exact key size (Nat.le_refl _)

/-- Every movable body lies in the subtree of a body attached to the base. -/
theorem exists_root {m : Model} (hwf : m.WellFormed) :
    ∀ j, 0 < j → j < m.mu.length →
      ∃ r, 0 < r ∧ r < m.mu.length ∧ m.parent r = 0 ∧ m.IsInSubtree r j := by
  intro j
  induction j using Nat.strong_induction_on with
  | _ j ih =>
    intro hj0 hjN
    by_cases hp : m.parent j = 0
    · exact ⟨j, hj0, hjN, hp, IsInSubtree.refl m j⟩
    · have hlt := hwf.parent_lt j hj0 hjN
      obtain ⟨r, hr0, hrN, hrp, k, hk⟩ := ih (m.parent j) hlt (by omega) (by omega)
      exact ⟨r, hr0, hrN, hrp, k + 1, by rw [Function.iterate_succ_apply]; exact hk⟩

/-- The loop of `getDofSubTrees` over the bodies attached to the base. -/
theorem rootLoop_spec {m : Model} (hwf : m.WellFormed) (fuel : Nat)
    (hfuel : m.mu.length ≤ fuel) (roots : List Nat) (hnodup : roots.Nodup)
    (hroots : ∀ r ∈ roots, 0 < r ∧ r < m.mu.length ∧ m.parent r = 0) :
    ∀ (rs pre : List Nat) (st : List (List Nat)), pre ++ rs = roots →
      st.length = m.mu.length →
      (∀ j, (∃ r ∈ pre, m.IsInSubtree r j) → st.getD j [] = m.depthFirst m.mu.length j) →
      (∀ j, (∀ r ∈ pre, ¬ m.IsInSubtree r j) → st.getD j [] = []) →
      ∃ st1, getDofSubTrees.rootLoop m fuel rs st = some st1 ∧ st1.length = m.mu.length ∧
        (∀ j, (∃ r ∈ roots, m.IsInSubtree r j) →
          st1.getD j [] = m.depthFirst m.mu.length j) ∧
        (∀ j, (∀ r ∈ roots, ¬ m.IsInSubtree r j) → st1.getD j [] = []) := by
  intro rs
  induction rs with
  | nil =>
    intro pre st hpre hlen hin hout
    rw [List.append_nil] at hpre
    subst hpre
    exact ⟨st, rfl, hlen, hin, hout⟩
  | cons r rs ih =>
    intro pre st hpre hlen hin hout
    have hr : r ∈ roots := by rw [← hpre]; simp
    obtain ⟨hr0, hrN, hrp⟩ := hroots r hr
    have hnd : (pre ++ r :: rs).Nodup := by rw [hpre]; exact hnodup
    have hdisj : ∀ r1 ∈ pre, ∀ j, m.IsInSubtree r j → ¬ m.IsInSubtree r1 j := by
      intro r1 hr1 j hj hj1
      have hr1m : r1 ∈ roots := by rw [← hpre]; simp [hr1]
      obtain ⟨h10, h1N, h1p⟩ := hroots r1 hr1m
      rw [List.nodup_append] at hnd
      exact subtree_disjoint hwf ⟨h10, h1N⟩ ⟨hr0, hrN⟩ (h1p.trans hrp.symm)
        (fun h => hnd.2.2 hr1 (by rw [h]; exact List.mem_cons_self _ _)) hj1 hj
    obtain ⟨filled, hrun, hflen, hfin, hfout⟩ := recursiveDofSubTrees_spec hwf fuel r
      (List.replicate m.mu.length []) hr0 hrN (by omega) (by simp)
      (by
        intro j _
        rw [List.getD_eq_getElem?_getD]
        by_cases hj : j < m.mu.length
        · rw [List.getElem?_eq_getElem (by simpa using hj)]; simp
        · rw [List.getElem?_eq_none (by simpa using hj)]; rfl)
    have hfempty : ∀ j, ¬ m.IsInSubtree r j → filled.getD j [] = [] := by
      intro j hj
      rw [hfout j hj, List.getD_eq_getElem?_getD]
      by_cases hj : j < m.mu.length
      · rw [List.getElem?_eq_getElem (by simpa using hj)]; simp
      · rw [List.getElem?_eq_none (by simpa using hj)]; rfl
    obtain ⟨hml, hmv⟩ := merge_spec st filled m.mu.length hlen
    have hmv1 : ∀ j, (getDofSubTrees.merge st filled m.mu.length).getD j []
        = st.getD j [] ++ filled.getD j [] := by
      intro j
      rw [hmv j]
      by_cases hj : j < m.mu.length
      · rw [if_pos hj]
      · rw [if_neg hj, getD_of_length_le filled j (by omega), List.append_nil]
    obtain ⟨st1, hloop, h1, h2, h3⟩ := ih (pre ++ [r])
      (getDofSubTrees.merge st filled m.mu.length)
      (by rw [List.append_assoc]; exact hpre) hml
      (by
        rintro j ⟨r1, hr1, hj⟩
        rw [hmv1 j]
        rcases List.mem_append.1 hr1 with h | h
        · rw [hin j ⟨r1, h, hj⟩, hfempty j (fun hrj => hdisj r1 h j hrj hj), List.append_nil]
        · rw [List.mem_singleton] at h
          rw [h] at hj
          rw [hout j (fun r2 hr2 => hdisj r2 hr2 j hj), hfin j hj, List.nil_append])
      (by
        intro j hj
        rw [hmv1 j, hout j (fun r1 hr1 => hj r1 (by simp [hr1])),
          hfempty j (hj r (by simp)), List.append_nil])
    refine ⟨st1, ?_, h1, h2, h3⟩
    simp only [getDofSubTrees.rootLoop, List.length_replicate, hrun, Option.bind_eq_bind,
      Option.some_bind]
    exact hloop

/-- The depth-first list of a body contains the depth-first list of every body
of its subtree. -/
theorem depthFirst_subset {m : Model} (hwf : m.WellFormed) (i : Nat) (hi0 : 0 < i)
    (hi : i < m.mu.length) :
    ∀ (k j : Nat), (m.parent)^[k] j = i →
      ∀ q ∈ m.depthFirst m.mu.length j, q ∈ m.depthFirst m.mu.length i := by
  intro k
  induction k with
  | zero => intro j hj q hq; rw [Function.iterate_zero, id] at hj; rw [← hj]; exact hq
  | succ k ih =>
    intro j hj q hq
    have hjsub : m.IsInSubtree i j := ⟨k + 1, hj⟩
    rw [Function.iterate_succ_apply] at hj
    have hjN := IsInSubtree.lt_size hwf hi0 hi hjsub
    have hj0 : 0 < j := by have := IsInSubtree.le hwf hjsub; omega
    have hpN : m.parent j < m.mu.length := by have := hwf.parent_lt j hj0 hjN; omega
    apply ih (m.parent j) hj
    rw [depthFirst_eq hwf _ hpN]
    apply List.mem_cons_of_mem
    rw [List.mem_flatMap]
    exact ⟨j, (hwf.mem_children (m.parent j) j hpN).2 ⟨hj0, hjN, rfl⟩, hq⟩

theorem getD_tail (l : List (List Nat)) (k : Nat) : l.tail.getD k [] = l.getD (k + 1) [] := by
  cases l with
  | nil => rfl
  | cons a l => rfl

/-- On a well-formed tree, with a recursion bound of at least the number of
bodies, `getDofSubTrees` returns one list per movable body, the depth-first list
of that body. -/
theorem getDofSubTrees_eq_depthFirst {m : Model} (hwf : m.WellFormed) (fuel : Nat)
    (hfuel : m.mu.length ≤ fuel) :
    ∃ subTrees, m.getDofSubTrees fuel = some subTrees ∧
      subTrees.length = m.mu.length - 1 ∧
      ∀ i, 0 < i → i < m.mu.length →
        subTrees.getD (i - 1) [] = m.depthFirst m.mu.length i := by
  have hmem : ∀ r ∈ (List.range' 1 (m.mu.length - 1)).filter (fun i => m.parent i = 0),
      0 < r ∧ r < m.mu.length ∧ m.parent r = 0 := by
    intro r hr
    rw [List.mem_filter, List.mem_range'_1] at hr
    refine ⟨by omega, by omega, by simpa using hr.2⟩
  obtain ⟨st1, hrun, hlen, hin, -⟩ := rootLoop_spec hwf fuel hfuel
    ((List.range' 1 (m.mu.length - 1)).filter (fun i => m.parent i = 0))
    ((List.nodup_range' 1 (m.mu.length - 1)).filter _) hmem
    ((List.range' 1 (m.mu.length - 1)).filter (fun i => m.parent i = 0)) []
    (List.replicate m.mu.length []) rfl (by simp)
    (by rintro j ⟨r, hr, -⟩; simp at hr)
    (by
      intro j _
      rw [List.getD_eq_getElem?_getD]
      by_cases hj : j < m.mu.length
      · rw [List.getElem?_eq_getElem (by simpa using hj)]; simp
      · rw [List.getElem?_eq_none (by simpa using hj)]; rfl)
  refine ⟨st1.tail, ?_, by rw [List.length_tail, hlen], ?_⟩
  · simp only [getDofSubTrees, hrun, Option.bind_eq_bind, Option.some_bind]; rfl
  · intro i hi0 hiN
    obtain ⟨r, hr0, hrN, hrp, hsub⟩ := exists_root hwf i hi0 hiN
    rw [getD_tail, Nat.sub_add_cancel hi0]
    apply hin i ⟨r, ?_, hsub⟩
    rw [List.mem_filter, List.mem_range'_1]
    exact ⟨⟨by omega, by omega⟩, by simpa using hrp⟩

/-- C5: on a well-formed tree, with a recursion bound of at least the number of
bodies, `getDofSubTrees` returns one list per movable body; the list of body
`i` (position `i - 1`) is the coordinate index of `i` followed by the lists of
the children of `i` in stored order (depth-first order, a DoF before its
descendants), so it starts with its own index, and it contains every index of
the list of every body in the subtree of `i`. -/
theorem getDofSubTrees_depthFirst (m : Model) (hwf : m.WellFormed) (fuel : Nat)
    (hfuel : m.mu.length ≤ fuel) :
    ∃ subTrees, m.getDofSubTrees fuel = some subTrees ∧
      subTrees.length = m.mu.length - 1 ∧
      (∀ i, 0 < i → i < m.mu.length →
        subTrees.getD (i - 1) []
          = m.q_index i :: (m.children i).flatMap (fun c => subTrees.getD (c - 1) [])) ∧
      (∀ i, 0 < i → i < m.mu.length →
        (subTrees.getD (i - 1) []).head? = some (m.q_index i)) ∧
      (∀ i j, 0 < i → i < m.mu.length → m.IsInSubtree i j →
        ∀ q ∈ subTrees.getD (j - 1) [], q ∈ subTrees.getD (i - 1) []) := by
  obtain ⟨subTrees, hrun, hlen, hval⟩ := getDofSubTrees_eq_depthFirst hwf fuel hfuel
  refine ⟨subTrees, hrun, hlen, ?_, ?_, ?_⟩
  · intro i hi0 hiN
    rw [hval i hi0 hiN, depthFirst_eq hwf i hiN]
    congr 1
    apply List.flatMap_congr
    intro c hc
    obtain ⟨-, hcN, hc0, -⟩ := child_gt hwf hiN hc
    exact (hval c hc0 hcN).symm
  · intro i hi0 hiN
    rw [hval i hi0 hiN, depthFirst_eq hwf i hiN]; rfl
  · intro i j hi0 hiN hsub q hq
    have hjN := IsInSubtree.lt_size hwf hi0 hiN hsub
    have hj0 : 0 < j := by have := IsInSubtree.le hwf hsub; omega
    rw [hval i hi0 hiN]
    rw [hval j hj0 hjN] at hq
    obtain ⟨k, hk⟩ := hsub
    exact depthFirst_subset hwf i hi0 hiN k j hk q hq

theorem exampleTree_wellFormed : exampleTree.WellFormed where
  size_eq := by decide
  size_pos := by decide
  parent_base := by decide
  parent_lt := by
    intro i h0 hN
    have hN5 : i < 5 := hN
    interval_cases i <;> decide
  mem_children := by
    intro i c hi
    have hi5 : i < 5 := hi
    constructor
    · intro hc
      interval_cases i <;> simp [children, exampleTree] at hc
      · subst hc; decide
      · rcases hc with rfl | rfl <;> decide
      · subst hc; decide
    · rintro ⟨h0, hN, hp⟩
      have hc5 : c < 5 := hN
      interval_cases c <;> simp [parent, exampleTree] at hp <;> subst hp <;> decide
  nodup_children := by
    intro i hi
    have hi5 : i < 5 := hi
    interval_cases i <;> decide

/-- Witness of C5: the example tree with four movable bodies. -/
theorem getDofSubTrees_depthFirst_witness :
    exampleTree.WellFormed ∧ exampleTree.mu.length ≤ 5 ∧
    ∃ subTrees, exampleTree.getDofSubTrees 5 = some subTrees ∧
      subTrees.length = exampleTree.mu.length - 1 ∧
      (∀ i, 0 < i → i < exampleTree.mu.length →
        subTrees.getD (i - 1) []
          = exampleTree.q_index i
            :: (exampleTree.children i).flatMap (fun c => subTrees.getD (c - 1) [])) ∧
      (∀ i, 0 < i → i < exampleTree.mu.length →
        (subTrees.getD (i - 1) []).head? = some (exampleTree.q_index i)) ∧
      (∀ i j, 0 < i → i < exampleTree.mu.length → exampleTree.IsInSubtree i j →
        ∀ q ∈ subTrees.getD (j - 1) [], q ∈ subTrees.getD (i - 1) []) :=
  ⟨exampleTree_wellFormed, by decide,
    getDofSubTrees_depthFirst exampleTree exampleTree_wellFormed 5 (by decide)⟩

end Model

/-! ### Dynamics entry points -/

namespace Joints

/-- The overload of `InverseDynamics` without external forces performs the call
of RBDL and nothing else: it never throws. -/
theorem InverseDynamics_noForces_eq (rbdl : Rbdl) (j : Joints) (m : Model) (md : ModelData)
    (Q QDot QDDot : List Scalar) :
    j.InverseDynamics_noForces rbdl m md Q QDot QDDot
      = .ok ((List.range j.nbGeneralizedTorque).map
          (rbdl.InverseDynamics md Q QDot QDDot (List.replicate m.mBodies_size (fun _ => 0))).1,
        (rbdl.InverseDynamics md Q QDot QDDot (List.replicate m.mBodies_size (fun _ => 0))).2) := by
  rfl

theorem compute_ne_error (rbdl : Rbdl) (llt_solve : LinearSolver) (j : Joints) (m : Model)
    (md : ModelData) (Q QDot QJointsDDot : List Scalar) (e : String) :
    (ForwardDynamicsFreeFloatingBase.compute rbdl llt_solve j m md Q QDot QJointsDDot).1
      ≠ .error e := by
  unfold ForwardDynamicsFreeFloatingBase.compute
  simp only [InverseDynamics_noForces_eq]
  split
  · split
    · split
      · split <;> simp
      · simp
    · simp
  · simp

/-- C6: `ForwardDynamicsFreeFloatingBase` throws exactly when the size of
`QJointsDDot` differs from `nbQddot() - nbRoot()` (computed on `size_t`) or
`nbRoot()` is 0; the size is checked first; and in both cases the members of
the model are those before the call. -/
theorem ForwardDynamicsFreeFloatingBase_throws_iff (rbdl : Rbdl) (llt_solve : LinearSolver)
    (j : Joints) (m : Model) (md : ModelData) (Q QDot QJointsDDot : List Scalar) :
    ((∃ e, (j.ForwardDynamicsFreeFloatingBase rbdl llt_solve m md Q QDot QJointsDDot).1
        = .error e)
      ↔ (QJointsDDot.length ≠ sizeSub j.nbQddot j.nbRoot ∨ j.nbRoot = 0)) ∧
    (QJointsDDot.length ≠ sizeSub j.nbQddot j.nbRoot →
      j.ForwardDynamicsFreeFloatingBase rbdl llt_solve m md Q QDot QJointsDDot
        = (.error
            "Size of QDDotJ must be equal to number of QDDot - number of root coordinates.",
          md)) ∧
    (QJointsDDot.length = sizeSub j.nbQddot j.nbRoot → j.nbRoot = 0 →
      j.ForwardDynamicsFreeFloatingBase rbdl llt_solve m md Q QDot QJointsDDot
        = (.error "Must have a least one degree of freedom on root.", md)) := by
  have hA : QJointsDDot.length ≠ sizeSub j.nbQddot j.nbRoot →
      j.ForwardDynamicsFreeFloatingBase rbdl llt_solve m md Q QDot QJointsDDot
        = (.error
            "Size of QDDotJ must be equal to number of QDDot - number of root coordinates.",
          md) := by
    intro h
    simp [ForwardDynamicsFreeFloatingBase, Error.check, h]
  have hB : QJointsDDot.length = sizeSub j.nbQddot j.nbRoot → j.nbRoot = 0 →
      j.ForwardDynamicsFreeFloatingBase rbdl llt_solve m md Q QDot QJointsDDot
        = (.error "Must have a least one degree of freedom on root.", md) := by
    intro h h0
    simp [ForwardDynamicsFreeFloatingBase, Error.check, h, h0]
  refine ⟨⟨?_, ?_⟩, hA, hB⟩
  · rintro ⟨e, he⟩
    by_contra hcon
    rw [not_or] at hcon
    obtain ⟨h1, h2⟩ := hcon
    have h1 : QJointsDDot.length = sizeSub j.nbQddot j.nbRoot := not_not.1 h1
    have h2 : 0 < j.nbRoot := Nat.pos_of_ne_zero h2
    simp only [ForwardDynamicsFreeFloatingBase, Error.check, h1, beq_self_eq_true, if_true,
      gt_iff_lt, h2, decide_True] at he
    exact compute_ne_error rbdl llt_solve j m md Q QDot QJointsDDot e he
  · intro h
    by_cases h1 : QJointsDDot.length = sizeSub j.nbQddot j.nbRoot
    · rcases h with h | h
      · exact absurd h1 h
      · exact ⟨_, by rw [hB h1 h]⟩
    · exact ⟨_, by rw [hA h1]⟩

/-- C8, evaluated: on a freshly constructed model (`nbQddot() = 0`),
`InverseDynamics` called with an acceleration vector of size 1 does not throw,
whatever RBDL computes; and for every model and every external force set,
whether `InverseDynamics` throws does not depend on the acceleration vector. -/
theorem InverseDynamics_never_checks_QDDot (rbdl : Rbdl) (md : ModelData) :
    (∃ r, Joints.new.InverseDynamics_noForces rbdl ⟨[0], [[]], [0], 0⟩ md [] [] [1] = .ok r) ∧
    ∀ (j : Joints) (Q QDot QDDot QDDot1 : List Scalar) (externalForces : ExternalForceSet),
      (∃ e, j.InverseDynamics rbdl md Q QDot QDDot externalForces = .error e)
        ↔ (∃ e, j.InverseDynamics rbdl md Q QDot QDDot1 externalForces = .error e) := by
  refine ⟨⟨_, InverseDynamics_noForces_eq _ _ _ _ _ _ _⟩, ?_⟩
  intro j Q QDot QDDot QDDot1 externalForces
  unfold InverseDynamics
  cases h : externalForces.computeRbdlSpatialVectors md Q QDot none with
  | error e => simp [bind, Except.bind]
  | ok r => simp [bind, Except.bind, pure, Except.pure]

theorem sizeSub_of_le (a b : Nat) (h : b ≤ a) : sizeSub a b = a - b := by
  simp [sizeSub, h]

/-- C7: when the two checks pass (the size of `QJointsDDot` is
`nbQddot() - nbRoot()`, and `nbRoot() > 0`), the root block of the mass matrix
is positive definite and the external solver honours its contract,
`ForwardDynamicsFreeFloatingBase` returns a vector `x` of length `nbRoot()`
with `M_rr · x = - Tau_bias[0..nbRoot)`, where `M_rr` is the top-left block of
`massMatrix(Q)` and `Tau_bias` is `InverseDynamics (Q, QDot, Qddot_partial)`
for `Qddot_partial` made of `nbRoot()` zeros followed by `QJointsDDot`. -/
theorem ForwardDynamicsFreeFloatingBase_solves (rbdl : Rbdl) (llt_solve : LinearSolver)
    (j : Joints) (m : Model) (md : ModelData) (Q QDot QJointsDDot : List Scalar)
    (hsolve : llt_solve.SolvesPosDef j.nbRoot)
    (hsize : QJointsDDot.length + j.nbRoot = j.nbQddot)
    (hroot : 0 < j.nbRoot)
    (hM : ∃ Mrr, (j.massMatrix rbdl m md Q true).1.block 0 0 j.nbRoot j.nbRoot = some Mrr ∧
      Mrr.IsPosDef) :
    ∃ x Tau_bias md2,
      (j.ForwardDynamicsFreeFloatingBase rbdl llt_solve m md Q QDot QJointsDDot).1
        = .ok (some x) ∧
      x.length = j.nbRoot ∧
      j.InverseDynamics_noForces rbdl m (j.massMatrix rbdl m md Q true).2 Q QDot
        (List.replicate j.nbRoot 0 ++ QJointsDDot) = .ok (Tau_bias, md2) ∧
      ∀ i, i < j.nbRoot →
        ((List.range j.nbRoot).map (fun k =>
          (j.massMatrix rbdl m md Q true).1.coeff i k * x.getD k 0)).sum
          = - Tau_bias.getD i 0 := by
  obtain ⟨Mrr, hblock, hpd⟩ := hM
  have hle : j.nbRoot ≤ j.nbQddot := by omega
  have hcheck : QJointsDDot.length = sizeSub j.nbQddot j.nbRoot := by
    rw [sizeSub_of_le _ _ hle]; omega
  -- the two block assignments build `Qddot_partial`
  have hset1 : setBlock (List.replicate j.nbQddot (0 : Scalar)) 0 (List.replicate j.nbRoot 0)
      = some (List.replicate j.nbRoot 0 ++ List.replicate (j.nbQddot - j.nbRoot) 0) := by
    unfold setBlock
    rw [if_pos (by simp; omega)]
    simp
  have hset2 : setBlock (List.replicate j.nbRoot (0 : Scalar)
        ++ List.replicate (j.nbQddot - j.nbRoot) 0) j.nbRoot QJointsDDot
      = some (List.replicate j.nbRoot 0 ++ QJointsDDot) := by
    unfold setBlock
    rw [if_pos (by simp; omega)]
    have h1 : List.take j.nbRoot (List.replicate j.nbRoot (0 : Scalar)
        ++ List.replicate (j.nbQddot - j.nbRoot) 0) = List.replicate j.nbRoot 0 :=
      List.take_left' (by simp)
    have h2 : List.drop (j.nbRoot + QJointsDDot.length) (List.replicate j.nbRoot (0 : Scalar)
        ++ List.replicate (j.nbQddot - j.nbRoot) 0) = [] := by
      apply List.drop_of_length_le
      simp; omega
    rw [h1, h2, List.append_nil]
  have hID := InverseDynamics_noForces_eq rbdl j m (j.massMatrix rbdl m md Q true).2 Q QDot
    (List.replicate j.nbRoot 0 ++ QJointsDDot)
  have hTaulen : ((List.range j.nbGeneralizedTorque).map
      (rbdl.InverseDynamics (j.massMatrix rbdl m md Q true).2 Q QDot
        (List.replicate j.nbRoot 0 ++ QJointsDDot)
        (List.replicate m.mBodies_size (fun _ => 0))).1).length = j.nbQddot := by
    simp [nbGeneralizedTorque]
  have hb := block_eq_some ((List.range j.nbGeneralizedTorque).map
      (rbdl.InverseDynamics (j.massMatrix rbdl m md Q true).2 Q QDot
        (List.replicate j.nbRoot 0 ++ QJointsDDot)
        (List.replicate m.mBodies_size (fun _ => 0))).1) 0 j.nbRoot (by rw [hTaulen]; omega)
  have hrun : (j.ForwardDynamicsFreeFloatingBase rbdl llt_solve m md Q QDot QJointsDDot).1
      = .ok (some (llt_solve Mrr ((((List.range j.nbGeneralizedTorque).map
          (rbdl.InverseDynamics (j.massMatrix rbdl m md Q true).2 Q QDot
            (List.replicate j.nbRoot 0 ++ QJointsDDot)
            (List.replicate m.mBodies_size (fun _ => 0))).1).take j.nbRoot).map
              (fun x => -x)))) := by
    simp only [ForwardDynamicsFreeFloatingBase, Error.check, hcheck, beq_self_eq_true, if_true,
      gt_iff_lt, hroot, decide_True, ForwardDynamicsFreeFloatingBase.compute, hblock, hset1,
      hset2, hID, hb, List.drop_zero]
  have hrows : Mrr.rows = j.nbRoot := by
    unfold DenseMatrix.block at hblock
    split at hblock
    · cases hblock; rfl
    · cases hblock
  have hcols : Mrr.cols = j.nbRoot := by rw [← hpd.1, hrows]
  have hcoeff : ∀ i k, Mrr.coeff i k = (j.massMatrix rbdl m md Q true).1.coeff i k := by
    intro i k
    unfold DenseMatrix.block at hblock
    split at hblock
    · cases hblock; simp
    · cases hblock
  obtain ⟨hxlen, hx⟩ := hsolve Mrr ((((List.range j.nbGeneralizedTorque).map
      (rbdl.InverseDynamics (j.massMatrix rbdl m md Q true).2 Q QDot
        (List.replicate j.nbRoot 0 ++ QJointsDDot)
        (List.replicate m.mBodies_size (fun _ => 0))).1).take j.nbRoot).map (fun x => -x))
    hrows hpd (by rw [List.length_map, List.length_take, hTaulen]; omega)
  refine ⟨_, _, _, hrun, hxlen, hID, ?_⟩
  intro i hi
  have := hx i hi
  unfold DenseMatrix.mulVecAt at this
  rw [hcols] at this
  simp only [hcoeff] at this
  rw [this]
  rw [List.getD_eq_getElem?_getD, List.getD_eq_getElem?_getD, List.getElem?_map,
    List.getElem?_take_of_lt hi]
  cases h : ((List.range j.nbGeneralizedTorque).map
      (rbdl.InverseDynamics (j.massMatrix rbdl m md Q true).2 Q QDot
        (List.replicate j.nbRoot 0 ++ QJointsDDot)
        (List.replicate m.mBodies_size (fun _ => 0))).1)[i]? with
  | none =>
    rw [List.getElem?_eq_none_iff, hTaulen] at h
    omega
  | some v => simp

end Joints

namespace Example1

theorem joints_counts : joints.nbRoot = 1 ∧ joints.nbQ = 1 ∧ joints.nbQddot = 1 := by
  decide

theorem massMatrix_coeff :
    (joints.massMatrix rbdl model data [0] true).1
      = ⟨1, 1, setEntry (fun _ _ => 0) 0 0 1⟩ := by
  have h : (joints.massMatrix rbdl model data [0] true).1.coeff
      = setEntry (fun _ _ => 0) 0 0 1 := by
    simp [Joints.massMatrix, rbdl, Model.CompositeRigidBodyAlgorithm,
      Model.CompositeRigidBodyAlgorithm.body, Model.CompositeRigidBodyAlgorithm.walk,
      Model.mBodies_size, model, Model.parent, Model.q_index, data, List.range']
  unfold Joints.massMatrix at h ⊢
  simp only [joints_counts.2.1] at h ⊢
  rw [h]

theorem solve_solvesPosDef : solve.SolvesPosDef 1 := by
  intro A b hrows hpd hb
  obtain ⟨hsq, -, hpos⟩ := hpd
  have hcols : A.cols = 1 := by rw [← hsq, hrows]
  have hr : List.range 1 = [0] := rfl
  have h00 : 0 < A.coeff 0 0 := by
    have := hpos (fun i => if i = 0 then 1 else 0) ⟨0, by rw [hrows]; decide, by simp⟩
    simpa [hrows, hcols, hr] using this
  refine ⟨rfl, ?_⟩
  intro i hi
  have hi0 : i = 0 := by omega
  subst hi0
  simp only [DenseMatrix.mulVecAt, hcols, solve, hr]
  simp
  field_simp

end Example1

namespace Joints

/-- Witness of C7: the model with one degree of freedom, no joint
acceleration, and a solver for systems of size 1. -/
theorem ForwardDynamicsFreeFloatingBase_solves_witness :
    ∃ x Tau_bias md2,
      (Example1.joints.ForwardDynamicsFreeFloatingBase Example1.rbdl Example1.solve
          Example1.model Example1.data [0] [0] []).1 = .ok (some x) ∧
      x.length = Example1.joints.nbRoot ∧
      Example1.joints.InverseDynamics_noForces Example1.rbdl Example1.model
        (Example1.joints.massMatrix Example1.rbdl Example1.model Example1.data [0] true).2
        [0] [0] (List.replicate Example1.joints.nbRoot 0 ++ []) = .ok (Tau_bias, md2) ∧
      ∀ i, i < Example1.joints.nbRoot →
        ((List.range Example1.joints.nbRoot).map (fun k =>
          (Example1.joints.massMatrix Example1.rbdl Example1.model Example1.data [0]
            true).1.coeff i k * x.getD k 0)).sum
          = - Tau_bias.getD i 0 :=
  ForwardDynamicsFreeFloatingBase_solves Example1.rbdl Example1.solve Example1.joints
    Example1.model Example1.data [0] [0] []
    (by rw [Example1.joints_counts.1]; exact Example1.solve_solvesPosDef)
    (by rw [Example1.joints_counts.1, Example1.joints_counts.2.2]; rfl)
    (by rw [Example1.joints_counts.1]; decide)
    (by
      rw [Example1.joints_counts.1, Example1.massMatrix_coeff]
      refine ⟨⟨1, 1, fun i k => setEntry (fun _ _ => 0) 0 0 1 (0 + i) (0 + k)⟩, rfl, rfl, ?_, ?_⟩
      · intro i k
        simp only [setEntry, Nat.zero_add]
        by_cases hi : i = 0 <;> by_cases hk : k = 0 <;> simp [hi, hk]
      · rintro x ⟨i, hi, hx⟩
        have hi0 : i = 0 := by
          have : i < 1 := hi
          omega
        subst hi0
        have hr : List.range 1 = [0] := rfl
        simp [setEntry, hr]
        exact hx)

end Joints

/-! ### The mass matrix and its inverse: recursions over the tree -/

namespace Model

theorem mem_childSet {m : Model} {k c : Nat} :
    c ∈ m.childSet k ↔ c < m.mu.length ∧ 0 < c ∧ m.parent c = k := by
  simp [childSet]

theorem childSet_gt {m : Model} (hwf : m.WellFormed) {k c : Nat} (hc : c ∈ m.childSet k) :
    k < c := by
  obtain ⟨hN, h0, hp⟩ := mem_childSet.1 hc
  have := hwf.parent_lt c h0 hN
  omega

theorem bodyAcc_zero (m : Model) (md : ModelData) (x : Nat → Scalar) :
    m.bodyAcc md x 0 = 0 := by
  rw [bodyAcc]; simp

theorem bodyAcc_pos {m : Model} (hwf : m.WellFormed) (md : ModelData) (x : Nat → Scalar)
    {k : Nat} (h0 : 0 < k) (hN : k < m.mu.length) :
    m.bodyAcc md x k = md.X_lambda k *ᵥ m.bodyAcc md x (m.parent k) + x k • md.S k := by
  rw [bodyAcc, dif_pos ⟨h0, hwf.parent_lt k h0 hN⟩]

theorem sum_children_eq {α : Type} [AddCommMonoid α] {m : Model} (hwf : m.WellFormed) (k : Nat)
    (g : Nat → α) :
    (∑ c in Finset.range m.mu.length,
        if k < c ∧ c < m.mu.length ∧ m.parent c = k then g c else 0)
      = ∑ c in m.childSet k, g c := by
  rw [childSet, Finset.sum_filter]
  apply Finset.sum_congr rfl
  intro c hc
  rw [Finset.mem_range] at hc
  by_cases h : 0 < c ∧ m.parent c = k
  · have := hwf.parent_lt c h.1 hc
    rw [if_pos h, if_pos ⟨by omega, hc, h.2⟩]
  · rw [if_neg h, if_neg]
    rintro ⟨h1, -, h3⟩
    exact h ⟨by omega, h3⟩

theorem bodyForce_eq {m : Model} (hwf : m.WellFormed) (md : ModelData) (x : Nat → Scalar)
    (k : Nat) :
    m.bodyForce md x k
      = md.I k *ᵥ m.bodyAcc md x k
        + ∑ c in m.childSet k, (md.X_lambda c)ᵀ *ᵥ m.bodyForce md x c := by
  rw [bodyForce, ← sum_children_eq hwf k]
  rfl

theorem compositeInertia_eq {m : Model} (hwf : m.WellFormed) (md : ModelData) (k : Nat) :
    m.compositeInertia md k
      = md.I k
        + ∑ c in m.childSet k, (md.X_lambda c)ᵀ * m.compositeInertia md c * md.X_lambda c := by
  rw [compositeInertia, ← sum_children_eq hwf k]
  rfl

/-- Induction from the leaves to the base: a property of the bodies that holds
for a body as soon as it holds for its children holds for every body. -/
theorem induction_up {m : Model} (hwf : m.WellFormed) (P : Nat → Prop)
    (hstep : ∀ k, k < m.mu.length → (∀ c ∈ m.childSet k, P c) → P k) :
    ∀ k, k < m.mu.length → P k := by
  have key : ∀ t k, k < m.mu.length → m.mu.length - k ≤ t → P k := by
    intro t
    induction t with
    | zero => intro k hk ht; omega
    | succ t ih =>
      intro k hk ht
      apply hstep k hk
      intro c hc
      have := childSet_gt hwf hc
      exact ih c (mem_childSet.1 hc).1 (by omega)
  intro k hk
  exact key (m.mu.length - k) k hk (Nat.le_refl _)

theorem isInSubtree_child {m : Model} {b k c : Nat} (h : m.IsInSubtree b k)
    (hc : m.parent c = k) : m.IsInSubtree b c := by
  obtain ⟨t, ht⟩ := h
  exact ⟨t + 1, by rw [Function.iterate_succ_apply, hc, ht]⟩

/-- The unit joint acceleration of body `b`. -/
theorem bodyAcc_unit_eq_zero {m : Model} (hwf : m.WellFormed) (md : ModelData) (b : Nat) :
    ∀ k, k < m.mu.length → ¬ m.IsInSubtree b k →
      m.bodyAcc md (fun i => if i = b then 1 else 0) k = 0 := by
  intro k
  induction k using Nat.strong_induction_on with
  | _ k ih =>
    intro hN hsub
    rcases Nat.eq_zero_or_pos k with h0 | h0
    · rw [h0, bodyAcc_zero]
    · have hlt := hwf.parent_lt k h0 hN
      rw [bodyAcc_pos hwf md _ h0 hN, ih (m.parent k) hlt (by omega)
        (fun h => hsub (isInSubtree_child h rfl))]
      have hkb : k ≠ b := fun h => hsub (by rw [h]; exact IsInSubtree.refl m b)
      simp [hkb]

theorem bodyAcc_unit_self {m : Model} (hwf : m.WellFormed) (md : ModelData) {b : Nat}
    (h0 : 0 < b) (hN : b < m.mu.length) :
    m.bodyAcc md (fun i => if i = b then 1 else 0) b = md.S b := by
  have hlt := hwf.parent_lt b h0 hN
  rw [bodyAcc_pos hwf md _ h0 hN, bodyAcc_unit_eq_zero hwf md b (m.parent b) (by omega)
    (fun h => by have := IsInSubtree.le hwf h; omega)]
  simp

/-- The force for a unit joint acceleration of `b` vanishes at every body whose
subtree does not meet the subtree of `b`. -/
theorem bodyForce_unit_eq_zero {m : Model} (hwf : m.WellFormed) (md : ModelData) (b : Nat) :
    ∀ k, k < m.mu.length → (∀ j, m.IsInSubtree k j → ¬ m.IsInSubtree b j) →
      m.bodyForce md (fun i => if i = b then 1 else 0) k = 0 := by
  apply induction_up hwf
  intro k hk ih hdisj
  rw [bodyForce_eq hwf, bodyAcc_unit_eq_zero hwf md b k hk (hdisj k (IsInSubtree.refl m k)),
    Finset.sum_eq_zero]
  · simp
  · intro c hc
    rw [ih c hc (fun j hj => hdisj j ?_)]
    · simp
    · obtain ⟨t, ht⟩ := hj
      exact ⟨t + 1, by rw [Function.iterate_succ_apply', ht, (mem_childSet.1 hc).2.2]⟩

theorem sum_mulVec_finset {ι : Type} (s : Finset ι) (A : ι → SpatialMatrix) (v : SpatialVector) :
    (∑ c in s, A c) *ᵥ v = ∑ c in s, A c *ᵥ v := by
  classical
  induction s using Finset.induction_on with
  | empty => simp
  | insert hc ih => rw [Finset.sum_insert hc, Finset.sum_insert hc, Matrix.add_mulVec, ih]

/-- Inside the subtree of `b`, the force for a unit joint acceleration of `b` is
the composite inertia applied to the acceleration. -/
theorem bodyForce_unit_subtree {m : Model} (hwf : m.WellFormed) (md : ModelData) (b : Nat) :
    ∀ k, k < m.mu.length → m.IsInSubtree b k →
      m.bodyForce md (fun i => if i = b then 1 else 0) k
        = m.compositeInertia md k *ᵥ m.bodyAcc md (fun i => if i = b then 1 else 0) k := by
  apply induction_up hwf
  intro k hk ih hsub
  rw [bodyForce_eq hwf, compositeInertia_eq hwf, Matrix.add_mulVec, sum_mulVec_finset]
  congr 1
  apply Finset.sum_congr rfl
  intro c hc
  obtain ⟨hcN, hc0, hcp⟩ := mem_childSet.1 hc
  have hcb : c ≠ b := by
    intro h
    have := IsInSubtree.le hwf hsub
    have := childSet_gt hwf hc
    omega
  rw [ih c hc (isInSubtree_child hsub hcp), bodyAcc_pos hwf md _ hc0 hcN, hcp]
  simp [hcb, Matrix.mulVec_mulVec, Matrix.mul_assoc]

theorem IsInSubtree.trans {m : Model} {a b j : Nat} (h1 : m.IsInSubtree a b)
    (h2 : m.IsInSubtree b j) : m.IsInSubtree a j := by
  obtain ⟨s, hs⟩ := h1
  obtain ⟨t, ht⟩ := h2
  exact ⟨s + t, by rw [Function.iterate_add_apply, ht, hs]⟩

/-- The bodies above a body form a chain. -/
theorem IsInSubtree.chain {m : Model} (hwf : m.WellFormed) {a b j : Nat}
    (h1 : m.IsInSubtree a j) (h2 : m.IsInSubtree b j) (hle : b ≤ a) : m.IsInSubtree b a := by
  obtain ⟨s, hs⟩ := h1
  obtain ⟨t, ht⟩ := h2
  by_cases hst : s ≤ t
  · obtain ⟨u, rfl⟩ : ∃ u, t = u + s := ⟨t - s, by omega⟩
    exact ⟨u, by rw [← hs, ← Function.iterate_add_apply, ht]⟩
  · obtain ⟨u, rfl⟩ : ∃ u, s = u + t := ⟨s - t, by omega⟩
    rw [Function.iterate_add_apply, ht] at hs
    have := iterate_parent_le m hwf u b
    have hab : a = b := by omega
    rw [hab]; exact IsInSubtree.refl m b

theorem dotProduct_finset_sum {ι : Type} (s : Finset ι) (v : SpatialVector)
    (w : ι → SpatialVector) : v ⬝ᵥ (∑ c in s, w c) = ∑ c in s, v ⬝ᵥ w c := by
  classical
  induction s using Finset.induction_on with
  | empty => simp
  | insert hc ih => rw [Finset.sum_insert hc, Finset.sum_insert hc, Matrix.dotProduct_add, ih]

theorem mulVec_finset_sum {ι : Type} (s : Finset ι) (A : SpatialMatrix)
    (w : ι → SpatialVector) : A *ᵥ (∑ c in s, w c) = ∑ c in s, A *ᵥ w c := by
  classical
  induction s using Finset.induction_on with
  | empty => simp
  | insert hc ih => rw [Finset.sum_insert hc, Finset.sum_insert hc, Matrix.mulVec_add, ih]

/-- Going up from a body `k` above `b` to its parent, the force for a unit
joint acceleration of `b` is transformed by the transposed transform of `k`. -/
theorem bodyForce_unit_parent {m : Model} (hwf : m.WellFormed) (md : ModelData) {b k : Nat}
    (hk0 : 0 < k) (hkN : k < m.mu.length) (hsub : m.IsInSubtree k b) :
    m.bodyForce md (fun i => if i = b then 1 else 0) (m.parent k)
      = (md.X_lambda k)ᵀ *ᵥ m.bodyForce md (fun i => if i = b then 1 else 0) k := by
  have hlt := hwf.parent_lt k hk0 hkN
  have hkb := IsInSubtree.le hwf hsub
  have hbN : b < m.mu.length := IsInSubtree.lt_size hwf hk0 hkN hsub
  rw [bodyForce_eq hwf, bodyAcc_unit_eq_zero hwf md b (m.parent k) (by omega)
    (fun h => by have := IsInSubtree.le hwf h; omega)]
  rw [Finset.sum_eq_single k]
  · simp
  · intro c hc hck
    obtain ⟨hcN, hc0, hcp⟩ := mem_childSet.1 hc
    rw [bodyForce_unit_eq_zero hwf md b c hcN]
    · simp
    · intro j hcj hbj
      exact subtree_disjoint hwf ⟨hc0, hcN⟩ ⟨hk0, hkN⟩ hcp hck hcj (hsub.trans hbj)
  · intro hk
    exact absurd (mem_childSet.2 ⟨hkN, hk0, rfl⟩) hk

/-- The acceleration of a body is linear in the joint accelerations. -/
theorem bodyAcc_linear {m : Model} (hwf : m.WellFormed) (md : ModelData) (x : Nat → Scalar) :
    ∀ k, k < m.mu.length →
      m.bodyAcc md x k
        = ∑ b in Finset.range m.mu.length,
            x b • m.bodyAcc md (fun i => if i = b then 1 else 0) k := by
  intro k
  induction k using Nat.strong_induction_on with
  | _ k ih =>
    intro hN
    rcases Nat.eq_zero_or_pos k with h0 | h0
    · subst h0
      simp [bodyAcc_zero]
    · have hlt := hwf.parent_lt k h0 hN
      rw [bodyAcc_pos hwf md x h0 hN, ih (m.parent k) hlt (by omega), mulVec_finset_sum]
      have : ∀ b ∈ Finset.range m.mu.length,
          x b • m.bodyAcc md (fun i => if i = b then 1 else 0) k
            = md.X_lambda k *ᵥ (x b • m.bodyAcc md (fun i => if i = b then 1 else 0) (m.parent k))
              + (if b = k then x k • md.S k else 0) := by
        intro b _
        rw [bodyAcc_pos hwf md _ h0 hN, smul_add, Matrix.mulVec_smul]
        by_cases hbk : b = k
        · subst hbk; simp
        · have hkb : ¬ k = b := fun h => hbk h.symm
          simp [hbk, hkb]
      rw [Finset.sum_congr rfl this, Finset.sum_add_distrib, Finset.sum_ite_eq']
      simp [hN]

/-- Power balance: the joint accelerations `x` against the joint forces for
`y` give the sum over the bodies of the accelerations for `x` against the
inertial forces for `y`. -/
theorem power_balance {m : Model} (hwf : m.WellFormed) (md : ModelData) (x y : Nat → Scalar) :
    (∑ a in (Finset.range m.mu.length).filter (fun a => 0 < a),
        x a * (md.S a ⬝ᵥ m.bodyForce md y a))
      = ∑ k in Finset.range m.mu.length,
          m.bodyAcc md x k ⬝ᵥ (md.I k *ᵥ m.bodyAcc md y k) := by
  have h1 : ∀ a ∈ (Finset.range m.mu.length).filter (fun a => 0 < a),
      x a * (md.S a ⬝ᵥ m.bodyForce md y a)
        = m.bodyAcc md x a ⬝ᵥ m.bodyForce md y a
          - m.bodyAcc md x (m.parent a) ⬝ᵥ ((md.X_lambda a)ᵀ *ᵥ m.bodyForce md y a) := by
    intro a ha
    rw [Finset.mem_filter, Finset.mem_range] at ha
    rw [bodyAcc_pos hwf md x ha.2 ha.1, Matrix.add_dotProduct, Matrix.smul_dotProduct,
      Matrix.dotProduct_mulVec _ (md.X_lambda a)ᵀ, Matrix.vecMul_transpose, smul_eq_mul]
    ring
  rw [Finset.sum_congr rfl h1, Finset.sum_sub_distrib]
  have h2 : (∑ a in (Finset.range m.mu.length).filter (fun a => 0 < a),
      m.bodyAcc md x (m.parent a) ⬝ᵥ ((md.X_lambda a)ᵀ *ᵥ m.bodyForce md y a))
      = ∑ p in Finset.range m.mu.length,
          m.bodyAcc md x p ⬝ᵥ (m.bodyForce md y p - md.I p *ᵥ m.bodyAcc md y p) := by
    rw [← Finset.sum_fiberwise_of_maps_to (t := Finset.range m.mu.length) (g := m.parent)]
    · apply Finset.sum_congr rfl
      intro p _
      rw [bodyForce_eq hwf md y p, add_sub_cancel_left, dotProduct_finset_sum]
      have hset : ((Finset.range m.mu.length).filter (fun a => 0 < a)).filter
          (fun a => m.parent a = p) = m.childSet p := by
        rw [childSet, Finset.filter_filter]
      rw [hset]
      apply Finset.sum_congr rfl
      intro c hc
      rw [(mem_childSet.1 hc).2.2]
    · intro a ha
      rw [Finset.mem_filter, Finset.mem_range] at ha
      rw [Finset.mem_range]
      have := hwf.parent_lt a ha.2 ha.1
      omega
  have h3 : (∑ a in (Finset.range m.mu.length).filter (fun a => 0 < a),
      m.bodyAcc md x a ⬝ᵥ m.bodyForce md y a)
      = ∑ a in Finset.range m.mu.length, m.bodyAcc md x a ⬝ᵥ m.bodyForce md y a := by
    rw [Finset.sum_filter]
    apply Finset.sum_congr rfl
    intro a _
    by_cases ha : 0 < a
    · rw [if_pos ha]
    · have : a = 0 := by omega
      rw [if_neg ha, this, bodyAcc_zero]; simp
  rw [h2, h3, ← Finset.sum_sub_distrib]
  apply Finset.sum_congr rfl
  intro k _
  rw [Matrix.dotProduct_sub]
  ring

theorem bodyAcc_unit_base {m : Model} (hwf : m.WellFormed) (md : ModelData) :
    ∀ k, k < m.mu.length → m.bodyAcc md (fun i => if i = 0 then 1 else 0) k = 0 := by
  intro k
  induction k using Nat.strong_induction_on with
  | _ k ih =>
    intro hN
    rcases Nat.eq_zero_or_pos k with h0 | h0
    · rw [h0, bodyAcc_zero]
    · have hlt := hwf.parent_lt k h0 hN
      rw [bodyAcc_pos hwf md _ h0 hN, ih (m.parent k) hlt (by omega)]
      have : k ≠ 0 := by omega
      simp [this]

/-- The entry for `a` and `b` is the sum over the bodies of the acceleration
for a unit joint acceleration of `a` against the inertial force for a unit
joint acceleration of `b`. -/
theorem massEntry_eq_energy {m : Model} (hwf : m.WellFormed) (md : ModelData) {a : Nat}
    (ha0 : 0 < a) (haN : a < m.mu.length) (y : Nat → Scalar) :
    md.S a ⬝ᵥ m.bodyForce md y a
      = ∑ k in Finset.range m.mu.length,
          m.bodyAcc md (fun i => if i = a then 1 else 0) k ⬝ᵥ (md.I k *ᵥ m.bodyAcc md y k) := by
  rw [← power_balance hwf md (fun i => if i = a then 1 else 0) y]
  rw [Finset.sum_eq_single a]
  · simp
  · intro b _ hba
    simp [hba]
  · intro h
    exact absurd (Finset.mem_filter.2 ⟨Finset.mem_range.2 haN, ha0⟩) h

theorem dotProduct_symm_mulVec (A : SpatialMatrix) (hA : Aᵀ = A) (u v : SpatialVector) :
    u ⬝ᵥ (A *ᵥ v) = v ⬝ᵥ (A *ᵥ u) := by
  rw [Matrix.dotProduct_mulVec, ← Matrix.mulVec_transpose, hA, Matrix.dotProduct_comm]

theorem massEntry_symm {m : Model} (hwf : m.WellFormed) (md : ModelData)
    (hI : ∀ k, (md.I k)ᵀ = md.I k) {a b : Nat}
    (ha0 : 0 < a) (haN : a < m.mu.length) (hb0 : 0 < b) (hbN : b < m.mu.length) :
    m.massEntry md a b = m.massEntry md b a := by
  unfold massEntry
  rw [massEntry_eq_energy hwf md ha0 haN, massEntry_eq_energy hwf md hb0 hbN]
  apply Finset.sum_congr rfl
  intro k _
  exact dotProduct_symm_mulVec _ (hI k) _ _

/-- The product of a row of the inertia matrix with joint accelerations `y` is
the joint force for `y`. -/
theorem massEntry_mulVec {m : Model} (hwf : m.WellFormed) (md : ModelData) {a : Nat}
    (ha0 : 0 < a) (haN : a < m.mu.length) (y : Nat → Scalar) :
    (∑ b in Finset.range m.mu.length, m.massEntry md a b * y b)
      = md.S a ⬝ᵥ m.bodyForce md y a := by
  rw [massEntry_eq_energy hwf md ha0 haN y]
  have h1 : ∀ b ∈ Finset.range m.mu.length,
      m.massEntry md a b * y b
        = ∑ k in Finset.range m.mu.length,
            m.bodyAcc md (fun i => if i = a then 1 else 0) k
              ⬝ᵥ (md.I k *ᵥ (y b • m.bodyAcc md (fun i => if i = b then 1 else 0) k)) := by
    intro b _
    unfold massEntry
    rw [massEntry_eq_energy hwf md ha0 haN, Finset.sum_mul]
    apply Finset.sum_congr rfl
    intro k _
    rw [Matrix.mulVec_smul, Matrix.dotProduct_smul, smul_eq_mul, mul_comm]
  rw [Finset.sum_congr rfl h1, Finset.sum_comm]
  apply Finset.sum_congr rfl
  intro k hk
  rw [← dotProduct_finset_sum, ← mulVec_finset_sum,
    ← bodyAcc_linear hwf md y k (Finset.mem_range.1 hk)]

/-- The entry for two bodies whose subtrees do not meet is zero. -/
theorem massEntry_eq_zero {m : Model} (hwf : m.WellFormed) (md : ModelData) {a b : Nat}
    (haN : a < m.mu.length) (h : ∀ j, m.IsInSubtree a j → ¬ m.IsInSubtree b j) :
    m.massEntry md a b = 0 := by
  unfold massEntry
  rw [bodyForce_unit_eq_zero hwf md b a haN h]
  simp

theorem isInSubtree_parent_of_ne {m : Model} {b j : Nat} (h : m.IsInSubtree b j) (hne : b ≠ j) :
    m.IsInSubtree b (m.parent j) := by
  obtain ⟨t, ht⟩ := h
  cases t with
  | zero => exact absurd ht.symm hne
  | succ t => exact ⟨t, by rw [← ht, Function.iterate_succ_apply]⟩

open Classical in
/-- The walk of the composite rigid-body algorithm from body `i`, arrived at
body `j` with the force for a unit joint acceleration of `i`: it writes the
entries of the pairs made of `i` and a body above `j`, and no other entry. -/
theorem crba_walk_spec {m : Model} (hwf : m.WellFormed) (hq : m.SingleDofJoints)
    (md : ModelData) (hI : ∀ k, (md.I k)ᵀ = md.I k) {i : Nat} (hi0 : 0 < i)
    (hiN : i < m.mu.length) :
    ∀ (fuel j : Nat) (F : SpatialVector) (H : Nat → Nat → Scalar), j ≤ fuel → 0 < j →
      m.IsInSubtree j i → F = m.bodyForce md (fun k => if k = i then 1 else 0) j →
      ∀ a b, 0 < a → a < m.mu.length → 0 < b → b < m.mu.length →
        CompositeRigidBodyAlgorithm.walk m md (i - 1) fuel F j H (a - 1) (b - 1)
          = if (a = i ∧ b < j ∧ m.IsInSubtree b i) ∨ (b = i ∧ a < j ∧ m.IsInSubtree a i)
            then m.massEntry md a b else H (a - 1) (b - 1) := by
  intro fuel
  induction fuel with
  | zero => intro j F H hj hj0; omega
  | succ fuel ih =>
    intro j F H hfuel hj0 hji hF a b ha0 haN hb0 hbN
    have hjN : j < m.mu.length := by have := IsInSubtree.le hwf hji; omega
    have hlt := hwf.parent_lt j hj0 hjN
    have hstrict : ∀ c, 0 < c → c < j → m.IsInSubtree c i →
        m.IsInSubtree c (m.parent j) := by
      intro c _ hcj hci
      exact isInSubtree_parent_of_ne (IsInSubtree.chain hwf hji hci (by omega)) (by omega)
    unfold CompositeRigidBodyAlgorithm.walk
    by_cases hp : m.parent j ≠ 0
    · rw [if_pos hp]
      have hp0 : 0 < m.parent j := Nat.pos_of_ne_zero hp
      have hpi : m.IsInSubtree (m.parent j) i := by
        obtain ⟨t, ht⟩ := hji
        exact ⟨t + 1, by rw [Function.iterate_succ_apply', ht]⟩
      have hF1 : (md.X_lambda j)ᵀ *ᵥ F
          = m.bodyForce md (fun k => if k = i then 1 else 0) (m.parent j) := by
        rw [hF, bodyForce_unit_parent hwf md hj0 hjN hji]
      have hv : ((md.X_lambda j)ᵀ *ᵥ F) ⬝ᵥ md.S (m.parent j)
          = m.massEntry md (m.parent j) i := by
        rw [hF1, Matrix.dotProduct_comm, massEntry]
      have hjle := IsInSubtree.le hwf hji
      have hH2 : ∀ x y,
          setEntry (setEntry H (i - 1) (m.q_index (m.parent j))
              (((md.X_lambda j)ᵀ *ᵥ F) ⬝ᵥ md.S (m.parent j)))
            (m.q_index (m.parent j)) (i - 1)
            (setEntry H (i - 1) (m.q_index (m.parent j))
              (((md.X_lambda j)ᵀ *ᵥ F) ⬝ᵥ md.S (m.parent j)) (i - 1)
              (m.q_index (m.parent j))) x y
          = if (x = i - 1 ∧ y = m.parent j - 1) ∨ (x = m.parent j - 1 ∧ y = i - 1)
            then m.massEntry md (m.parent j) i else H x y := by
        intro x y
        rw [hq.q_index_eq (m.parent j) hp0 (by omega), hv]
        unfold setEntry
        by_cases hx1 : x = m.parent j - 1 ∧ y = i - 1
        · rw [if_pos hx1, if_pos ⟨rfl, rfl⟩, if_pos (Or.inr hx1)]
        · rw [if_neg hx1]
          by_cases hx2 : x = i - 1 ∧ y = m.parent j - 1
          · rw [if_pos hx2, if_pos (Or.inl hx2)]
          · rw [if_neg hx2, if_neg (by tauto)]
      rw [ih (m.parent j) _ _ (by omega) hp0 hpi hF1 a b ha0 haN hb0 hbN, hH2]
      by_cases h1 : (a = i ∧ b < m.parent j ∧ m.IsInSubtree b i)
          ∨ (b = i ∧ a < m.parent j ∧ m.IsInSubtree a i)
      · rw [if_pos h1, if_pos]
        rcases h1 with ⟨h, h2, h3⟩ | ⟨h, h2, h3⟩
        · exact Or.inl ⟨h, by omega, h3⟩
        · exact Or.inr ⟨h, by omega, h3⟩
      · rw [if_neg h1]
        by_cases h2 : (a = i ∧ b < j ∧ m.IsInSubtree b i) ∨ (b = i ∧ a < j ∧ m.IsInSubtree a i)
        · rw [if_pos h2]
          rcases h2 with ⟨h, h2, h3⟩ | ⟨h, h2, h3⟩
          · have hbp : b = m.parent j := by
              have h4 := IsInSubtree.le hwf (hstrict b hb0 h2 h3)
              by_contra hne
              exact h1 (Or.inl ⟨h, by omega, h3⟩)
            rw [if_pos (Or.inl ⟨by omega, by omega⟩), h, hbp,
              massEntry_symm hwf md hI hi0 hiN hp0 (by omega)]
          · have hap : a = m.parent j := by
              have h4 := IsInSubtree.le hwf (hstrict a ha0 h2 h3)
              by_contra hne
              exact h1 (Or.inr ⟨h, by omega, h3⟩)
            rw [if_pos (Or.inr ⟨by omega, by omega⟩), h, hap]
        · rw [if_neg h2, if_neg]
          rintro (⟨h5, h6⟩ | ⟨h5, h6⟩)
          · exact h2 (Or.inl ⟨by omega, by omega, by
              have : b = m.parent j := by omega
              rw [this]; exact hpi⟩)
          · exact h2 (Or.inr ⟨by omega, by omega, by
              have : a = m.parent j := by omega
              rw [this]; exact hpi⟩)
    · rw [if_neg hp, if_neg]
      have hp0 : m.parent j = 0 := not_not.1 hp
      rintro (⟨-, h2, h3⟩ | ⟨-, h2, h3⟩)
      · have := IsInSubtree.le hwf (hstrict b hb0 h2 h3); omega
      · have := IsInSubtree.le hwf (hstrict a ha0 h2 h3); omega

end Model

/-- A loop over the bodies from the last one to the first: a property that
holds before the loop for "the bodies above `N - 1` are done" and is carried by
each step from `i` to `i - 1` holds after the loop for 0. -/
theorem foldl_bodies_down {σ : Type} (f : σ → Nat → σ) (P : Nat → σ → Prop) (N : Nat) (w0 : σ)
    (h0 : P (N - 1) w0)
    (hstep : ∀ i w, 0 < i → i < N → P i w → P (i - 1) (f w i)) :
    P 0 ((List.range' 1 (N - 1)).reverse.foldl f w0) := by
  have key : ∀ len s, 1 ≤ s → s + len = N →
      P (s - 1) ((List.range' s len).reverse.foldl f w0) := by
    intro len
    induction len with
    | zero =>
      intro s _ hs
      have : s = N := by omega
      subst this
      simpa using h0
    | succ len ih =>
      intro s hs1 hs
      rw [List.range'_succ, List.reverse_cons, List.foldl_append]
      simp only [List.foldl_cons, List.foldl_nil]
      have := ih (s + 1) (by omega) (by omega)
      rw [Nat.add_sub_cancel] at this
      exact hstep s _ (by omega) (by omega) this
  rcases Nat.eq_zero_or_pos N with hN | hN
  · subst hN; simpa using h0
  · have := key (N - 1) 1 (Nat.le_refl _) (by omega)
    simpa using this

/-- A loop over the bodies from the first one to the last. -/
theorem foldl_bodies_up {σ : Type} (f : σ → Nat → σ) (P : Nat → σ → Prop) :
    ∀ (len s : Nat) (w : σ), P s w →
      (∀ i w, s ≤ i → i < s + len → P i w → P (i + 1) (f w i)) →
      P (s + len) ((List.range' s len).foldl f w) := by
  intro len
  induction len with
  | zero => intro s w h _; simpa using h
  | succ len ih =>
    intro s w h hstep
    rw [List.range'_succ, List.foldl_cons]
    have h1 := hstep s w (Nat.le_refl _) (by omega) h
    have := ih (s + 1) (f w s) h1 (fun i w hi hlt => hstep i w (by omega) (by omega))
    rw [show s + (len + 1) = s + 1 + len by omega]
    exact this

theorem sum_filter_step {α : Type} [AddCommMonoid α] (s : Finset Nat) (g : Nat → α) (i : Nat)
    (hi : 0 < i) :
    (∑ c in s.filter (fun c => i - 1 < c), g c)
      = (if i ∈ s then g i else 0) + ∑ c in s.filter (fun c => i < c), g c := by
  by_cases his : i ∈ s
  · have hset : s.filter (fun c => i - 1 < c) = insert i (s.filter (fun c => i < c)) := by
      ext c
      simp only [Finset.mem_filter, Finset.mem_insert]
      constructor
      · rintro ⟨h1, h2⟩
        by_cases hci : c = i
        · exact Or.inl hci
        · exact Or.inr ⟨h1, by omega⟩
      · rintro (h | ⟨h1, h2⟩)
        · rw [h]; exact ⟨his, by omega⟩
        · exact ⟨h1, by omega⟩
    rw [hset, Finset.sum_insert (by simp), if_pos his]
  · have hset : s.filter (fun c => i - 1 < c) = s.filter (fun c => i < c) := by
      ext c
      simp only [Finset.mem_filter]
      constructor
      · rintro ⟨h1, h2⟩
        refine ⟨h1, ?_⟩
        have : c ≠ i := fun h => his (h ▸ h1)
        omega
      · rintro ⟨h1, h2⟩
        exact ⟨h1, by omega⟩
    rw [hset, if_neg his, zero_add]

namespace Model

theorem childSet_filter_gt {m : Model} (hwf : m.WellFormed) (k : Nat) :
    (m.childSet k).filter (fun c => k < c) = m.childSet k := by
  apply Finset.filter_true_of_mem
  intro c hc
  exact childSet_gt hwf hc

theorem bodyForce_unit_self {m : Model} (hwf : m.WellFormed) (md : ModelData) {i : Nat}
    (hi0 : 0 < i) (hiN : i < m.mu.length) :
    m.bodyForce md (fun k => if k = i then 1 else 0) i = m.compositeInertia md i *ᵥ md.S i := by
  rw [bodyForce_unit_subtree hwf md i i hiN (IsInSubtree.refl m i),
    bodyAcc_unit_self hwf md hi0 hiN]

/-- One step of the composite rigid-body algorithm carries its invariant from
`i` to `i - 1`. -/
theorem crba_body_step {m : Model} (hwf : m.WellFormed) (hq : m.SingleDofJoints)
    (md : ModelData) (hI : ∀ k, (md.I k)ᵀ = md.I k) (i : Nat)
    (st : (Nat → SpatialMatrix) × (Nat → Nat → Scalar)) (hi0 : 0 < i)
    (hiN : i < m.mu.length) (hinv : m.CrbaInvariant md i st) :
    m.CrbaInvariant md (i - 1) (CompositeRigidBodyAlgorithm.body m md st i) := by
  have hlt := hwf.parent_lt i hi0 hiN
  have hIci : st.1 i = m.compositeInertia md i := by
    rw [hinv.pending i hi0 (Nat.le_refl _), childSet_filter_gt hwf, ← compositeInertia_eq hwf]
  have hIc1 : ∀ k, (CompositeRigidBodyAlgorithm.body m md st i).1 k
      = if k = m.parent i ∧ m.parent i ≠ 0
        then st.1 k + (md.X_lambda i)ᵀ * m.compositeInertia md i * md.X_lambda i
        else st.1 k := by
    intro k
    unfold CompositeRigidBodyAlgorithm.body
    by_cases hp : m.parent i ≠ 0
    · simp only [if_pos hp, setAt]
      by_cases hk : k = m.parent i
      · rw [if_pos hk, if_pos ⟨hk, hp⟩, hIci, hk]
      · rw [if_neg hk, if_neg (fun h => hk h.1)]
    · simp only [if_neg hp]
      rw [if_neg (fun h => hp h.2)]
  refine ⟨?_, ?_, ?_⟩
  · intro k hk0 hki
    rw [hIc1 k, sum_filter_step _ _ i hi0, hinv.pending k hk0 (by omega)]
    by_cases hk : k = m.parent i
    · have hmem : i ∈ m.childSet k := mem_childSet.2 ⟨hiN, hi0, hk.symm⟩
      rw [if_pos ⟨hk, by omega⟩, if_pos hmem]
      abel
    · have hmem : i ∉ m.childSet k := fun h => hk (mem_childSet.1 h).2.2.symm
      rw [if_neg (fun h => hk h.1), if_neg hmem, zero_add]
  · intro k hki hkN
    rw [hIc1 k, if_neg (fun h => by omega)]
    by_cases hk : k = i
    · rw [hk, hIci]
    · exact hinv.done k (by omega) hkN
  · intro a b ha0 haN hb0 hbN
    have hF : (CompositeRigidBodyAlgorithm.body m md st i).1 i *ᵥ md.S i
        = m.bodyForce md (fun k => if k = i then 1 else 0) i := by
      rw [hIc1 i, if_neg (fun h => by omega), hIci, bodyForce_unit_self hwf md hi0 hiN]
    have hwalk := crba_walk_spec hwf hq md hI hi0 hiN i i
      ((CompositeRigidBodyAlgorithm.body m md st i).1 i *ᵥ md.S i)
      (setEntry st.2 (m.q_index i) (m.q_index i)
        (md.S i ⬝ᵥ ((CompositeRigidBodyAlgorithm.body m md st i).1 i *ᵥ md.S i)))
      (Nat.le_refl _) hi0 (IsInSubtree.refl m i) hF a b ha0 haN hb0 hbN
    have hbody : (CompositeRigidBodyAlgorithm.body m md st i).2 (a - 1) (b - 1)
        = CompositeRigidBodyAlgorithm.walk m md (i - 1) i
          ((CompositeRigidBodyAlgorithm.body m md st i).1 i *ᵥ md.S i) i
          (setEntry st.2 (m.q_index i) (m.q_index i)
            (md.S i ⬝ᵥ ((CompositeRigidBodyAlgorithm.body m md st i).1 i *ᵥ md.S i)))
          (a - 1) (b - 1) := by
      rw [← hq.q_index_eq i hi0 hiN]
      rfl
    rw [hbody, hwalk]
    have hentry := hinv.entries a b ha0 haN hb0 hbN
    by_cases hc : (a = i ∧ b < i ∧ m.IsInSubtree b i) ∨ (b = i ∧ a < i ∧ m.IsInSubtree a i)
    · rw [if_pos hc, if_pos]
      rcases hc with ⟨h1, h2, -⟩ | ⟨h1, h2, -⟩ <;> omega
    · rw [if_neg hc]
      unfold setEntry
      rw [hq.q_index_eq i hi0 hiN]
      by_cases hd : a - 1 = i - 1 ∧ b - 1 = i - 1
      · have hai : a = i := by omega
        have hbi : b = i := by omega
        rw [if_pos hd, if_pos (by omega), hF, hai, hbi]
        rfl
      · rw [if_neg hd, hentry]
        by_cases hmax : i < max a b
        · rw [if_pos hmax, if_pos (by omega)]
        · rw [if_neg hmax]
          by_cases hmax1 : i - 1 < max a b
          · rw [if_pos hmax1]
            have hle : max a b ≤ i := by omega
            have hab : a = i ∨ b = i := by
              rcases Nat.le_total a b with h | h
              · rw [Nat.max_eq_right h] at hmax1 hle; right; omega
              · rw [Nat.max_eq_left h] at hmax1 hle; left; omega
            symm
            apply massEntry_eq_zero hwf md haN
            intro j haj hbj
            rcases hab with h | h
            · have hbi : b < i := by
                have : b ≤ i := by
                  have := Nat.le_max_right a b
                  omega
                have : b ≠ i := fun hb => hd ⟨by omega, by omega⟩
                omega
              exact hc (Or.inl ⟨h, hbi, IsInSubtree.chain hwf (h ▸ haj) hbj (by omega)⟩)
            · have hai : a < i := by
                have : a ≤ i := by
                  have := Nat.le_max_left a b
                  omega
                have : a ≠ i := fun ha => hd ⟨by omega, by omega⟩
                omega
              exact hc (Or.inr ⟨h, hai, IsInSubtree.chain hwf (h ▸ hbj) haj (by omega)⟩)
          · rw [if_neg hmax1]

/-- The composite rigid-body algorithm computes, for every pair of movable
bodies, the joint force at the first for a unit joint acceleration of the
second. -/
theorem crba_entries {m : Model} (hwf : m.WellFormed) (hq : m.SingleDofJoints)
    (md : ModelData) (hI : ∀ k, (md.I k)ᵀ = md.I k) (a b : Nat)
    (ha0 : 0 < a) (haN : a < m.mu.length) (hb0 : 0 < b) (hbN : b < m.mu.length) :
    m.CompositeRigidBodyAlgorithm md (fun _ _ => 0) (a - 1) (b - 1) = m.massEntry md a b := by
  have h := foldl_bodies_down (CompositeRigidBodyAlgorithm.body m md)
    (fun i st => m.CrbaInvariant md i st) m.mu.length (md.I, fun _ _ => 0)
    ⟨fun k _ hk => by
        rw [Finset.filter_false_of_mem, Finset.sum_empty, add_zero]
        intro c hc
        have := (mem_childSet.1 hc).1
        omega,
      fun k hk hkN => by omega,
      fun a b _ haN _ hbN => by
        rw [if_neg]
        have := Nat.max_le.2 ⟨Nat.le_sub_one_of_lt haN, Nat.le_sub_one_of_lt hbN⟩
        omega⟩
    (fun i st hi0 hiN hinv => crba_body_step hwf hq md hI i st hi0 hiN hinv)
  have := h.entries a b ha0 haN hb0 hbN
  rw [if_pos (by have := Nat.le_max_left a b; omega)] at this
  exact this

end Model

/-- A loop over the distinct columns of a list in which the step for column `c`
changes only the entries of column `c`, as a function of that column: after
the loop each listed column holds its updated value and the others are
untouched. -/
theorem foldl_columns {α : Type} (step : (Nat → Nat → α) → Nat → (Nat → Nat → α))
    (G : Nat → (Nat → α) → Nat → α)
    (hstep : ∀ M c a b, step M c a b = if b = c then G c (fun a1 => M a1 c) a else M a b) :
    ∀ (L : List Nat), L.Nodup → ∀ M0 a b,
      (L.foldl step M0) a b = if b ∈ L then G b (fun a1 => M0 a1 b) a else M0 a b := by
  intro L
  induction L with
  | nil => intro _ M0 a b; simp
  | cons c L ih =>
    intro hnd M0 a b
    rw [List.nodup_cons] at hnd
    rw [List.foldl_cons, ih hnd.2]
    by_cases hb : b ∈ L
    · have hbc : b ≠ c := fun h => hnd.1 (h ▸ hb)
      rw [if_pos hb, if_pos (List.mem_cons_of_mem _ hb)]
      congr 1
      funext a1
      rw [hstep, if_neg hbc]
    · rw [if_neg hb, hstep]
      by_cases hbc : b = c
      · rw [if_pos hbc, if_pos (by rw [hbc]; exact List.mem_cons_self _ _), hbc]
      · rw [if_neg hbc, if_neg (by simp [hbc, hb])]

namespace Model

/-- The depth-first list of a body holds the coordinates of the bodies of its
subtree. -/
theorem mem_depthFirst {m : Model} (hwf : m.WellFormed) (hq : m.SingleDofJoints) :
    ∀ i, i < m.mu.length → 0 < i → ∀ q, q ∈ m.depthFirst m.mu.length i ↔
      m.IsInSubtree i (q + 1) := by
  apply induction_up hwf (fun i => 0 < i → ∀ q, q ∈ m.depthFirst m.mu.length i ↔
      m.IsInSubtree i (q + 1))
  intro i hiN ih hi0 q
  have hchild : ∀ c, c ∈ m.children i ↔ c ∈ m.childSet i := by
    intro c
    rw [hwf.mem_children i c hiN, mem_childSet]
    tauto
  rw [depthFirst_eq hwf i hiN, List.mem_cons, List.mem_flatMap, isInSubtree_iff hwf hi0 hiN,
    hq.q_index_eq i hi0 hiN]
  constructor
  · rintro (h | ⟨c, hc, hqc⟩)
    · left; omega
    · right
      have hc1 := (hchild c).1 hc
      exact ⟨c, hc, (ih c hc1 (mem_childSet.1 hc1).2.1 q).1 hqc⟩
  · rintro (h | ⟨c, hc, hqc⟩)
    · left; omega
    · right
      have hc1 := (hchild c).1 hc
      exact ⟨c, hc, (ih c hc1 (mem_childSet.1 hc1).2.1 q).2 hqc⟩

theorem nodup_depthFirst {m : Model} (hwf : m.WellFormed) (hq : m.SingleDofJoints) :
    ∀ i, i < m.mu.length → 0 < i → (m.depthFirst m.mu.length i).Nodup := by
  apply induction_up hwf (fun i => 0 < i → (m.depthFirst m.mu.length i).Nodup)
  intro i hiN ih hi0
  have hchild : ∀ c, c ∈ m.children i → c ∈ m.childSet i := by
    intro c hc
    rw [hwf.mem_children i c hiN] at hc
    exact mem_childSet.2 ⟨hc.2.1, hc.1, hc.2.2⟩
  rw [depthFirst_eq hwf i hiN, List.nodup_cons, List.nodup_flatMap]
  refine ⟨?_, ?_, ?_⟩
  · rw [List.mem_flatMap]
    rintro ⟨c, hc, hmem⟩
    have hc1 := hchild c hc
    rw [mem_depthFirst hwf hq c (mem_childSet.1 hc1).1 (mem_childSet.1 hc1).2.1,
      hq.q_index_eq i hi0 hiN, Nat.sub_add_cancel hi0] at hmem
    have := IsInSubtree.le hwf hmem
    have := childSet_gt hwf hc1
    omega
  · intro c hc
    have hc1 := hchild c hc
    exact ih c hc1 (mem_childSet.1 hc1).2.1
  · apply (hwf.nodup_children i hiN).pairwise_of_forall_ne
    intro c1 hc1 c2 hc2 hne
    have h1 := mem_childSet.1 (hchild c1 hc1)
    have h2 := mem_childSet.1 (hchild c2 hc2)
    show List.Disjoint (m.depthFirst m.mu.length c1) (m.depthFirst m.mu.length c2)
    intro q hq1 hq2
    rw [mem_depthFirst hwf hq c1 h1.1 h1.2.1] at hq1
    rw [mem_depthFirst hwf hq c2 h2.1 h2.2.1] at hq2
    exact subtree_disjoint hwf ⟨h1.2.1, h1.1⟩ ⟨h2.2.1, h2.1⟩ (h1.2.2.trans h2.2.2.symm) hne
      hq1 hq2

end Model

namespace Joints

/-- What the body of the backward pass of `massMatrixInverse` for body `i`
leaves in `U`, `d`, `IA`, `Minv` and `F`, entry by entry, when the subtree list
of `i` has no repetition. -/
theorem backwardBody_fields (m : Model) (hq : m.SingleDofJoints) (md : ModelData)
    (subTrees : List (List Nat)) (w : MinvWork) (i : Nat) (hi0 : 0 < i)
    (hiN : i < m.mu.length) (hpN : m.parent i < i)
    (hnd : (subTrees.getD (i - 1) []).Nodup) :
    (∀ k, (massMatrixInverse.backwardBody m md subTrees w i).U k
        = if k = i then w.IA i *ᵥ md.S i else w.U k) ∧
    (∀ k, (massMatrixInverse.backwardBody m md subTrees w i).d k
        = if k = i then md.S i ⬝ᵥ (w.IA i *ᵥ md.S i) else w.d k) ∧
    (∀ k, (massMatrixInverse.backwardBody m md subTrees w i).IA k
        = if k = m.parent i ∧ m.parent i ≠ 0
          then w.IA k + (md.X_lambda i)ᵀ
            * (w.IA i - Matrix.vecMulVec (w.IA i *ᵥ md.S i)
                (fun t => (w.IA i *ᵥ md.S i) t / (md.S i ⬝ᵥ (w.IA i *ᵥ md.S i))))
            * md.X_lambda i
          else w.IA k) ∧
    (∀ a b, (massMatrixInverse.backwardBody m md subTrees w i).Minv a b
        = if a = i - 1 ∧ b ∈ subTrees.getD (i - 1) []
          then (if b = i - 1 then 1 / (md.S i ⬝ᵥ (w.IA i *ᵥ md.S i)) else w.Minv a b)
            - 1 / (md.S i ⬝ᵥ (w.IA i *ᵥ md.S i)) * (md.S i ⬝ᵥ w.F (i - 1) b)
          else if a = i - 1 ∧ b = i - 1 then 1 / (md.S i ⬝ᵥ (w.IA i *ᵥ md.S i))
          else w.Minv a b) ∧
    (∀ a b, (massMatrixInverse.backwardBody m md subTrees w i).F a b
        = if m.parent i ≠ 0 ∧ b ∈ subTrees.getD (i - 1) [] then
            (if a = m.parent i - 1 then
              w.F a b + (md.X_lambda i)ᵀ *ᵥ (w.F (i - 1) b
                + (massMatrixInverse.backwardBody m md subTrees w i).Minv (i - 1) b
                  • (w.IA i *ᵥ md.S i))
            else if a = i - 1 then
              w.F a b + (massMatrixInverse.backwardBody m md subTrees w i).Minv (i - 1) b
                  • (w.IA i *ᵥ md.S i)
            else w.F a b)
          else w.F a b) := by
  have hqi := hq.q_index_eq i hi0 hiN
  have hMinv : ∀ a b, (massMatrixInverse.backwardBody m md subTrees w i).Minv a b
        = if a = i - 1 ∧ b ∈ subTrees.getD (i - 1) []
          then (if b = i - 1 then 1 / (md.S i ⬝ᵥ (w.IA i *ᵥ md.S i)) else w.Minv a b)
            - 1 / (md.S i ⬝ᵥ (w.IA i *ᵥ md.S i)) * (md.S i ⬝ᵥ w.F (i - 1) b)
          else if a = i - 1 ∧ b = i - 1 then 1 / (md.S i ⬝ᵥ (w.IA i *ᵥ md.S i))
          else w.Minv a b := by
    intro a b
    have hfold := foldl_columns
      (fun (M : Nat → Nat → Scalar) c => setEntry M (i - 1) c
        (M (i - 1) c - 1 / (md.S i ⬝ᵥ (w.IA i *ᵥ md.S i)) * (md.S i ⬝ᵥ w.F (i - 1) c)))
      (fun c col a1 => if a1 = i - 1
        then col (i - 1) - 1 / (md.S i ⬝ᵥ (w.IA i *ᵥ md.S i)) * (md.S i ⬝ᵥ w.F (i - 1) c)
        else col a1)
      (by
        intro M c a1 b1
        unfold setEntry
        beta_reduce
        by_cases hb : b1 = c <;> by_cases ha : a1 = i - 1 <;> simp [hb, ha])
      (subTrees.getD (i - 1) []) hnd
      (setEntry w.Minv (i - 1) (i - 1) (1 / (md.S i ⬝ᵥ (w.IA i *ᵥ md.S i)))) a b
    have hM : (massMatrixInverse.backwardBody m md subTrees w i).Minv
        = (subTrees.getD (i - 1) []).foldl
          (fun (M : Nat → Nat → Scalar) c => setEntry M (i - 1) c
            (M (i - 1) c - 1 / (md.S i ⬝ᵥ (w.IA i *ᵥ md.S i)) * (md.S i ⬝ᵥ w.F (i - 1) c)))
          (setEntry w.Minv (i - 1) (i - 1) (1 / (md.S i ⬝ᵥ (w.IA i *ᵥ md.S i)))) := by
      unfold massMatrixInverse.backwardBody
      simp only [hqi]
      split <;> rfl
    rw [hM, hfold]
    unfold setEntry
    beta_reduce
    by_cases hb : b ∈ subTrees.getD (i - 1) [] <;> by_cases ha : a = i - 1 <;>
      by_cases hbi : b = i - 1 <;> simp [hb, ha, hbi]
  refine ⟨?_, ?_, ?_, hMinv, ?_⟩
  · intro k
    unfold massMatrixInverse.backwardBody
    by_cases hp : m.parent i ≠ 0
    · simp only [if_pos hp, setAt]
    · simp only [if_neg hp, setAt]
  · intro k
    unfold massMatrixInverse.backwardBody
    by_cases hp : m.parent i ≠ 0
    · simp only [if_pos hp, setAt]
    · simp only [if_neg hp, setAt]
  · intro k
    unfold massMatrixInverse.backwardBody
    by_cases hp : m.parent i ≠ 0
    · simp only [if_pos hp, setAt]
      by_cases hk : k = m.parent i
      · rw [if_pos hk, if_pos ⟨hk, hp⟩, hk]
      · rw [if_neg hk, if_neg (fun h => hk h.1)]
    · simp only [if_neg hp]
      rw [if_neg (fun h => hp h.2)]
  · intro a b
    by_cases hp : m.parent i ≠ 0
    · have hqp := hq.q_index_eq (m.parent i) (Nat.pos_of_ne_zero hp) (by omega)
      have hpi : m.parent i - 1 ≠ i - 1 := by
        have := Nat.pos_of_ne_zero hp
        omega
      have hF : (massMatrixInverse.backwardBody m md subTrees w i).F
          = (subTrees.getD (i - 1) []).foldl
            (fun (F : Nat → Nat → SpatialVector) c =>
              setEntry (setEntry F (i - 1) c
                  (F (i - 1) c + (massMatrixInverse.backwardBody m md subTrees w i).Minv
                    (i - 1) c • (w.IA i *ᵥ md.S i)))
                (m.parent i - 1) c
                (setEntry F (i - 1) c
                  (F (i - 1) c + (massMatrixInverse.backwardBody m md subTrees w i).Minv
                    (i - 1) c • (w.IA i *ᵥ md.S i)) (m.parent i - 1) c
                  + (md.X_lambda i)ᵀ *ᵥ setEntry F (i - 1) c
                    (F (i - 1) c + (massMatrixInverse.backwardBody m md subTrees w i).Minv
                      (i - 1) c • (w.IA i *ᵥ md.S i)) (i - 1) c)) w.F := by
        unfold massMatrixInverse.backwardBody
        simp only [hqi, hqp, if_pos hp]
      have hfold := foldl_columns
        (fun (F : Nat → Nat → SpatialVector) c =>
          setEntry (setEntry F (i - 1) c
              (F (i - 1) c + (massMatrixInverse.backwardBody m md subTrees w i).Minv
                (i - 1) c • (w.IA i *ᵥ md.S i)))
            (m.parent i - 1) c
            (setEntry F (i - 1) c
              (F (i - 1) c + (massMatrixInverse.backwardBody m md subTrees w i).Minv
                (i - 1) c • (w.IA i *ᵥ md.S i)) (m.parent i - 1) c
              + (md.X_lambda i)ᵀ *ᵥ setEntry F (i - 1) c
                (F (i - 1) c + (massMatrixInverse.backwardBody m md subTrees w i).Minv
                  (i - 1) c • (w.IA i *ᵥ md.S i)) (i - 1) c))
        (fun c col a1 =>
          if a1 = m.parent i - 1 then
            col a1 + (md.X_lambda i)ᵀ *ᵥ (col (i - 1)
              + (massMatrixInverse.backwardBody m md subTrees w i).Minv (i - 1) c
                • (w.IA i *ᵥ md.S i))
          else if a1 = i - 1 then
            col a1 + (massMatrixInverse.backwardBody m md subTrees w i).Minv (i - 1) c
              • (w.IA i *ᵥ md.S i)
          else col a1)
        (by
          intro M c a1 b1
          unfold setEntry
          beta_reduce
          by_cases hb : b1 = c <;> by_cases ha : a1 = m.parent i - 1 <;>
            by_cases ha2 : a1 = i - 1 <;> simp [hb, ha, ha2, hpi, Ne.symm hpi])
        (subTrees.getD (i - 1) []) hnd w.F a b
      rw [hF, hfold]
      beta_reduce
      by_cases hb : b ∈ subTrees.getD (i - 1) [] <;> simp [hb, hp]
    · rw [if_neg (fun h => hp h.1)]
      unfold massMatrixInverse.backwardBody
      simp only [if_neg hp]

/-- One step of the backward pass of `massMatrixInverse` carries its invariant
from `i` to `i - 1`. -/
theorem backwardBody_step {m : Model} (hwf : m.WellFormed) (hq : m.SingleDofJoints)
    (md : ModelData) (subTrees : List (List Nat))
    (hsub : ∀ i, 0 < i → i < m.mu.length →
      subTrees.getD (i - 1) [] = m.depthFirst m.mu.length i)
    (i : Nat) (w : MinvWork) (hi0 : 0 < i) (hiN : i < m.mu.length)
    (hinv : m.BackwardInvariant md i w) :
    m.BackwardInvariant md (i - 1) (massMatrixInverse.backwardBody m md subTrees w i) := by
  have hlt := hwf.parent_lt i hi0 hiN
  have hnd : (subTrees.getD (i - 1) []).Nodup := by
    rw [hsub i hi0 hiN]
    exact Model.nodup_depthFirst hwf hq i hiN hi0
  have hmem : ∀ b, b ∈ subTrees.getD (i - 1) [] ↔ m.IsInSubtree i (b + 1) := by
    intro b
    rw [hsub i hi0 hiN]
    exact Model.mem_depthFirst hwf hq i hiN hi0 b
  obtain ⟨hU, hd, hIA, hMinv, hF⟩ := backwardBody_fields m hq md subTrees w i hi0 hiN hlt hnd
  generalize massMatrixInverse.backwardBody m md subTrees w i = W at hU hd hIA hMinv hF ⊢
  have hself : i - 1 ∈ subTrees.getD (i - 1) [] := by
    rw [hmem, Nat.sub_add_cancel hi0]
    exact Model.IsInSubtree.refl m i
  have hFi : ∀ b, w.F (i - 1) b = ∑ c in m.childSet i, (md.X_lambda c)ᵀ *ᵥ w.F (c - 1) b := by
    intro b
    rw [hinv.F_eq i b hi0 hiN, Model.childSet_filter_gt hwf,
      if_neg (fun h => Nat.lt_irrefl _ h.1), add_zero]
  have hUi : W.U i = w.IA i *ᵥ md.S i := by rw [hU i, if_pos rfl]
  have hdi : W.d i = md.S i ⬝ᵥ (w.IA i *ᵥ md.S i) := by rw [hd i, if_pos rfl]
  have hUc : ∀ c, c ≠ i → W.U c = w.U c := fun c hc => by rw [hU c, if_neg hc]
  have hdc : ∀ c, c ≠ i → W.d c = w.d c := fun c hc => by rw [hd c, if_neg hc]
  have hIAc : ∀ c, i ≤ c → W.IA c = w.IA c := fun c hc => by
    rw [hIA c, if_neg (fun h => by omega)]
  have hMc : ∀ c b, 0 < c → c ≠ i → W.Minv (c - 1) b = w.Minv (c - 1) b := fun c b hc0 hc => by
    rw [hMinv (c - 1) b, if_neg (fun h => by omega), if_neg (fun h => by omega)]
  have hMi : ∀ b, W.Minv (i - 1) b
      = ((if i - 1 = b then 1 else 0) - md.S i ⬝ᵥ w.F (i - 1) b) / W.d i := by
    intro b
    rw [hMinv (i - 1) b, hdi]
    by_cases hb : b ∈ subTrees.getD (i - 1) []
    · rw [if_pos ⟨rfl, hb⟩]
      by_cases hbi : b = i - 1
      · rw [if_pos hbi, if_pos hbi.symm]
        ring
      · rw [if_neg hbi, if_neg (fun h => hbi h.symm), hinv.Minv_pending i b hi0 (Nat.le_refl _)]
        ring
    · have hbi : b ≠ i - 1 := fun h => hb (h ▸ hself)
      rw [if_neg (fun h => hb h.2), if_neg (fun h => hbi h.2), if_neg (fun h => hbi h.symm),
        hinv.Minv_pending i b hi0 (Nat.le_refl _),
        hinv.F_zero i b hi0 hiN (fun h => hb ((hmem b).2 h))]
      simp
  have hFc : ∀ c b, 0 < c → c ≠ i → c ≠ m.parent i → W.F (c - 1) b = w.F (c - 1) b := by
    intro c b hc0 hci hcp
    rw [hF (c - 1) b]
    by_cases hcond : m.parent i ≠ 0 ∧ b ∈ subTrees.getD (i - 1) []
    · rw [if_pos hcond, if_neg (fun h => by have := hcond.1; omega), if_neg (fun h => by omega)]
    · rw [if_neg hcond]
  have hFi1 : ∀ b, W.F (i - 1) b
      = w.F (i - 1) b + if m.parent i ≠ 0 then W.Minv (i - 1) b • W.U i else 0 := by
    intro b
    rw [hF (i - 1) b, hUi]
    by_cases hp : m.parent i ≠ 0
    · rw [if_pos hp]
      by_cases hb : b ∈ subTrees.getD (i - 1) []
      · rw [if_pos ⟨hp, hb⟩, if_neg (fun h => by omega), if_pos rfl]
      · have hbi : b ≠ i - 1 := fun h => hb (h ▸ hself)
        rw [if_neg (fun h => hb h.2), hMinv (i - 1) b, if_neg (fun h => hb h.2),
          if_neg (fun h => hbi h.2), hinv.Minv_pending i b hi0 (Nat.le_refl _)]
        simp
    · rw [if_neg hp, if_neg (fun h => hp h.1), add_zero]
  have hFp : ∀ b, m.parent i ≠ 0 → W.F (m.parent i - 1) b
      = w.F (m.parent i - 1) b + (md.X_lambda i)ᵀ *ᵥ W.F (i - 1) b := by
    intro b hp
    rw [hFi1 b, if_pos hp, hF (m.parent i - 1) b, hUi]
    by_cases hb : b ∈ subTrees.getD (i - 1) []
    · rw [if_pos ⟨hp, hb⟩, if_pos rfl]
    · have hbi : b ≠ i - 1 := fun h => hb (h ▸ hself)
      rw [if_neg (fun h => hb h.2), hMinv (i - 1) b, if_neg (fun h => hb h.2),
        if_neg (fun h => hbi h.2), hinv.Minv_pending i b hi0 (Nat.le_refl _),
        hinv.F_zero i b hi0 hiN (fun h => hb ((hmem b).2 h))]
      simp
  refine ⟨?_, ?_, ?_, ?_, ?_, ?_, ?_⟩
  · intro k hk hkN
    rw [hIAc k (by omega)]
    by_cases hki : k = i
    · rw [hki, hUi]
    · rw [hUc k hki]
      exact hinv.U_eq k (by omega) hkN
  · intro k hk hkN
    by_cases hki : k = i
    · rw [hki, hdi, hUi]
    · rw [hdc k hki, hUc k hki]
      exact hinv.d_eq k (by omega) hkN
  · intro k hk0 hkN
    rw [hIA k, sum_filter_step _ _ i hi0, hinv.IA_eq k hk0 hkN]
    have hsum : ∑ c in (m.childSet k).filter (fun c => i < c),
        (md.X_lambda c)ᵀ * (W.IA c - Matrix.vecMulVec (W.U c) (fun t => W.U c t / W.d c))
          * md.X_lambda c
        = ∑ c in (m.childSet k).filter (fun c => i < c),
        (md.X_lambda c)ᵀ * (w.IA c - Matrix.vecMulVec (w.U c) (fun t => w.U c t / w.d c))
          * md.X_lambda c := by
      apply Finset.sum_congr rfl
      intro c hc
      have hic : i < c := (Finset.mem_filter.1 hc).2
      rw [hIAc c (by omega), hUc c (by omega), hdc c (by omega)]
    rw [hsum]
    by_cases hk : k = m.parent i
    · have hmem1 : i ∈ m.childSet k := Model.mem_childSet.2 ⟨hiN, hi0, hk.symm⟩
      rw [if_pos ⟨hk, by omega⟩, if_pos hmem1, hIAc i (Nat.le_refl _), hUi, hdi]
      abel
    · have hmem1 : i ∉ m.childSet k := fun h => hk (Model.mem_childSet.1 h).2.2.symm
      rw [if_neg (fun h => hk h.1), if_neg hmem1, zero_add]
  · intro k b hk0 hkN
    rw [sum_filter_step _ _ i hi0]
    have hsum : ∑ c in (m.childSet k).filter (fun c => i < c),
        (md.X_lambda c)ᵀ *ᵥ W.F (c - 1) b
        = ∑ c in (m.childSet k).filter (fun c => i < c),
        (md.X_lambda c)ᵀ *ᵥ w.F (c - 1) b := by
      apply Finset.sum_congr rfl
      intro c hc
      have hic : i < c := (Finset.mem_filter.1 hc).2
      rw [hFc c b (by omega) (by omega) (by omega)]
    rw [hsum]
    by_cases hki : k = i
    · subst hki
      have hmem1 : k ∉ m.childSet k := fun h => by
        have := Model.childSet_gt hwf h
        omega
      rw [hFi1 b, if_neg hmem1, zero_add, hinv.F_eq k b hi0 hiN,
        if_neg (fun h => Nat.lt_irrefl _ h.1), add_zero]
      by_cases hp : m.parent k ≠ 0
      · rw [if_pos hp, if_pos ⟨by omega, hp⟩]
      · rw [if_neg hp, if_neg (fun h => hp h.2)]
    · by_cases hk : k = m.parent i
      · have hmem1 : i ∈ m.childSet k := Model.mem_childSet.2 ⟨hiN, hi0, hk.symm⟩
        have hp : m.parent i ≠ 0 := by omega
        rw [if_pos hmem1, if_neg (fun h => by omega), add_zero, hk, hFp b hp,
          hinv.F_eq (m.parent i) b (by omega) (by omega),
          if_neg (fun h => by omega), add_zero]
        abel
      · have hmem1 : i ∉ m.childSet k := fun h => hk (Model.mem_childSet.1 h).2.2.symm
        rw [if_neg hmem1, zero_add, hFc k b hk0 hki hk, hinv.F_eq k b hk0 hkN,
          hMc k b hk0 hki, hUc k hki]
        by_cases hc : i < k ∧ m.parent k ≠ 0
        · rw [if_pos hc, if_pos ⟨by omega, hc.2⟩]
        · rw [if_neg hc, if_neg (fun h => hc ⟨by omega, h.2⟩)]
  · intro k b hk0 hkN hns
    by_cases hki : k = i
    · subst hki
      have hb : b ∉ subTrees.getD (k - 1) [] := fun h => hns ((hmem b).1 h)
      rw [hF (k - 1) b, if_neg (fun h => hb h.2)]
      exact hinv.F_zero k b hk0 hkN hns
    · by_cases hk : k = m.parent i
      · have hb : b ∉ subTrees.getD (i - 1) [] := fun h => by
          apply hns
          rw [hk]
          exact Model.IsInSubtree.trans ⟨1, rfl⟩ ((hmem b).1 h)
        rw [hF (k - 1) b, if_neg (fun h => hb h.2)]
        exact hinv.F_zero k b hk0 hkN hns
      · rw [hFc k b hk0 hki hk]
        exact hinv.F_zero k b hk0 hkN hns
  · intro k b hk hkN
    have hsum : ∑ c in m.childSet k, (md.X_lambda c)ᵀ *ᵥ W.F (c - 1) b
        = ∑ c in m.childSet k, (md.X_lambda c)ᵀ *ᵥ w.F (c - 1) b := by
      apply Finset.sum_congr rfl
      intro c hc
      have hkc := Model.childSet_gt hwf hc
      rw [hFc c b (by omega) (by omega) (by omega)]
    rw [hsum]
    by_cases hki : k = i
    · subst hki
      rw [hMi b, ← hFi b]
    · rw [hMc k b (by omega) hki, hdc k hki]
      exact hinv.Minv_eq k b (by omega) hkN
  · intro k b hk0 hki
    rw [hMc k b hk0 (by omega)]
    exact hinv.Minv_pending k b hk0 (by omega)

/-- The first forward pass of `massMatrixInverse` seeds the articulated inertia
of every movable body with its rigid-body inertia. -/
theorem firstPass_IA (m : Model) (md : ModelData) (k : Nat) (hk0 : 0 < k)
    (hkN : k < m.mu.length) :
    (List.range' 1 (m.mBodies_size - 1)).foldl (fun IA i => setAt IA i (md.I i)) md.IA k
      = md.I k := by
  have h := foldl_bodies_up (fun (IA : Nat → SpatialMatrix) i => setAt IA i (md.I i))
    (fun s IA => ∀ k, 1 ≤ k → k < s → IA k = md.I k) (m.mBodies_size - 1) 1 md.IA
    (fun k h1 h2 => by omega)
    (fun i IA _ _ hP k h1 h2 => by
      show (if k = i then md.I i else IA k) = md.I k
      by_cases hki : k = i
      · rw [if_pos hki, hki]
      · rw [if_neg hki]
        exact hP k h1 (by omega))
  apply h k hk0
  unfold Model.mBodies_size
  omega

/-- After the backward pass of `massMatrixInverse` the invariant holds with
every body visited. -/
theorem backward_pass {m : Model} (hwf : m.WellFormed) (hq : m.SingleDofJoints)
    (md : ModelData) (subTrees : List (List Nat))
    (hsub : ∀ i, 0 < i → i < m.mu.length →
      subTrees.getD (i - 1) [] = m.depthFirst m.mu.length i) :
    m.BackwardInvariant md 0
      ((List.range' 1 (m.mBodies_size - 1)).reverse.foldl
        (massMatrixInverse.backwardBody m md subTrees)
        ⟨fun _ _ => 0, fun _ _ => 0,
          (List.range' 1 (m.mBodies_size - 1)).foldl (fun IA i => setAt IA i (md.I i)) md.IA,
          md.U, md.d⟩) := by
  apply foldl_bodies_down (massMatrixInverse.backwardBody m md subTrees)
    (fun i w => m.BackwardInvariant md i w) m.mu.length
  · refine ⟨?_, ?_, ?_, ?_, ?_, ?_, ?_⟩
    · intro k h1 h2; omega
    · intro k h1 h2; omega
    · intro k hk0 hkN
      show (List.range' 1 (m.mBodies_size - 1)).foldl (fun IA i => setAt IA i (md.I i)) md.IA k
        = _
      rw [firstPass_IA m md k hk0 hkN, Finset.sum_eq_zero, add_zero]
      intro c hc
      have := (Model.mem_childSet.1 (Finset.mem_filter.1 hc).1).1
      have := (Finset.mem_filter.1 hc).2
      omega
    · intro k b hk0 hkN
      show (0 : SpatialVector) = _
      rw [if_neg (fun h => by omega), add_zero, Finset.sum_eq_zero]
      intro c hc
      show (md.X_lambda c)ᵀ *ᵥ (0 : SpatialVector) = 0
      rw [Matrix.mulVec_zero]
    · intro k b _ _ _
      rfl
    · intro k h1 h2; omega
    · intro k b _ _
      rfl
  · intro i w hi0 hiN hinv
    exact backwardBody_step hwf hq md subTrees hsub i w hi0 hiN hinv

end Joints

namespace Model

theorem abaAcc_zero (m : Model) (md : ModelData) (Minv1 : Nat → Nat → Scalar)
    (U : Nat → SpatialVector) (d : Nat → Scalar) (col : Nat) :
    m.abaAcc md Minv1 U d col 0 = 0 := by
  rw [abaAcc, dif_neg (by omega)]

theorem abaAcc_pos {m : Model} (hwf : m.WellFormed) (md : ModelData)
    (Minv1 : Nat → Nat → Scalar) (U : Nat → SpatialVector) (d : Nat → Scalar) (col : Nat)
    {k : Nat} (h0 : 0 < k) (hN : k < m.mu.length) :
    m.abaAcc md Minv1 U d col k
      = md.X_lambda k *ᵥ m.abaAcc md Minv1 U d col (m.parent k)
        + m.abaQdd md Minv1 U d col k • md.S k := by
  rw [abaAcc, dif_pos ⟨h0, hwf.parent_lt k h0 hN⟩]
  rfl

/-- The accelerations of the bodies for the joint accelerations of the forward
recursion are those of the recursion. -/
theorem bodyAcc_abaQdd (m : Model) (md : ModelData)
    (Minv1 : Nat → Nat → Scalar) (U : Nat → SpatialVector) (d : Nat → Scalar) (col : Nat) :
    ∀ k, m.bodyAcc md (fun j => m.abaQdd md Minv1 U d col j) k
      = m.abaAcc md Minv1 U d col k := by
  intro k
  induction k using Nat.strong_induction_on with
  | _ k ih =>
    rw [bodyAcc, abaAcc]
    by_cases h : 0 < k ∧ m.parent k < k
    · rw [dif_pos h, dif_pos h, ih (m.parent k) h.2]
      rfl
    · rw [dif_neg h, dif_neg h]

end Model

namespace Joints

/-- What the body of the second forward pass of `massMatrixInverse` for body
`i` leaves in `U`, `d`, `IA`, `Minv` and `F`, entry by entry. -/
theorem forwardBody_fields (m : Model) (hq : m.SingleDofJoints) (md : ModelData)
    (w : MinvWork) (i : Nat) (hi0 : 0 < i) (hiN : i < m.mu.length) (hpN : m.parent i < i) :
    (massMatrixInverse.forwardBody m md w i).U = w.U ∧
    (massMatrixInverse.forwardBody m md w i).d = w.d ∧
    (massMatrixInverse.forwardBody m md w i).IA = w.IA ∧
    (∀ a j, (massMatrixInverse.forwardBody m md w i).Minv a j
        = if m.parent i ≠ 0 ∧ a = i - 1 ∧ i - 1 ≤ j ∧ j < m.dof_count
          then w.Minv a j - 1 / w.d i * ((w.U i ᵥ* md.X_lambda i) ⬝ᵥ w.F (m.parent i - 1) j)
          else w.Minv a j) ∧
    (∀ a j, (massMatrixInverse.forwardBody m md w i).F a j
        = if a = i - 1 ∧ i - 1 ≤ j ∧ j < m.dof_count
          then (massMatrixInverse.forwardBody m md w i).Minv (i - 1) j • md.S i
            + (if m.parent i ≠ 0 then md.X_lambda i *ᵥ w.F (m.parent i - 1) j else 0)
          else w.F a j) := by
  have hqi := hq.q_index_eq i hi0 hiN
  have hcol : ∀ j, j ∈ List.range' (i - 1) (m.dof_count - (i - 1))
      ↔ i - 1 ≤ j ∧ j < m.dof_count := by
    intro j
    rw [List.mem_range'_1]
    omega
  have hnd : (List.range' (i - 1) (m.dof_count - (i - 1))).Nodup := List.nodup_range' _ _
  have hMinv : ∀ a j, (massMatrixInverse.forwardBody m md w i).Minv a j
        = if m.parent i ≠ 0 ∧ a = i - 1 ∧ i - 1 ≤ j ∧ j < m.dof_count
          then w.Minv a j - 1 / w.d i * ((w.U i ᵥ* md.X_lambda i) ⬝ᵥ w.F (m.parent i - 1) j)
          else w.Minv a j := by
    intro a j
    by_cases hp : m.parent i ≠ 0
    · have hqp := hq.q_index_eq (m.parent i) (Nat.pos_of_ne_zero hp) (by omega)
      have hM : (massMatrixInverse.forwardBody m md w i).Minv
          = (List.range' (i - 1) (m.dof_count - (i - 1))).foldl
            (fun (M : Nat → Nat → Scalar) j => setEntry M (i - 1) j
              (M (i - 1) j
                - 1 / w.d i * ((w.U i ᵥ* md.X_lambda i) ⬝ᵥ w.F (m.parent i - 1) j))) w.Minv := by
        unfold massMatrixInverse.forwardBody
        simp only [hqi, hqp, if_pos hp]
      have hfold := foldl_columns
        (fun (M : Nat → Nat → Scalar) j => setEntry M (i - 1) j
          (M (i - 1) j
            - 1 / w.d i * ((w.U i ᵥ* md.X_lambda i) ⬝ᵥ w.F (m.parent i - 1) j)))
        (fun c col a1 => if a1 = i - 1
          then col (i - 1)
            - 1 / w.d i * ((w.U i ᵥ* md.X_lambda i) ⬝ᵥ w.F (m.parent i - 1) c)
          else col a1)
        (by
          intro M c a1 b1
          unfold setEntry
          beta_reduce
          by_cases hb : b1 = c <;> by_cases ha : a1 = i - 1 <;> simp [hb, ha])
        (List.range' (i - 1) (m.dof_count - (i - 1))) hnd w.Minv a j
      rw [hM, hfold]
      beta_reduce
      by_cases hj : j ∈ List.range' (i - 1) (m.dof_count - (i - 1))
      · have hj1 := (hcol j).1 hj
        by_cases ha : a = i - 1
        · rw [if_pos hj, if_pos ha, if_pos ⟨hp, ha, hj1⟩, ha]
        · rw [if_pos hj, if_neg ha, if_neg (fun h => ha h.2.1)]
      · rw [if_neg hj, if_neg (fun h => hj ((hcol j).2 h.2.2))]
    · rw [if_neg (fun h => hp h.1)]
      unfold massMatrixInverse.forwardBody
      simp only [if_neg hp]
  refine ⟨rfl, rfl, rfl, hMinv, ?_⟩
  intro a j
  have hfold1 := foldl_columns
    (fun (F : Nat → Nat → SpatialVector) j => setEntry F (i - 1) j
      ((massMatrixInverse.forwardBody m md w i).Minv (i - 1) j • md.S i))
    (fun c col a1 => if a1 = i - 1
      then (massMatrixInverse.forwardBody m md w i).Minv (i - 1) c • md.S i
      else col a1)
    (by
      intro M c a1 b1
      unfold setEntry
      beta_reduce
      by_cases hb : b1 = c <;> by_cases ha : a1 = i - 1 <;> simp [hb, ha])
    (List.range' (i - 1) (m.dof_count - (i - 1))) hnd w.F
  by_cases hp : m.parent i ≠ 0
  · have hqp := hq.q_index_eq (m.parent i) (Nat.pos_of_ne_zero hp) (by omega)
    have hpi : m.parent i - 1 ≠ i - 1 := by
      have := Nat.pos_of_ne_zero hp
      omega
    have hF : (massMatrixInverse.forwardBody m md w i).F
        = (List.range' (i - 1) (m.dof_count - (i - 1))).foldl
          (fun (F : Nat → Nat → SpatialVector) j => setEntry F (i - 1) j
            (F (i - 1) j + md.X_lambda i *ᵥ F (m.parent i - 1) j))
          ((List.range' (i - 1) (m.dof_count - (i - 1))).foldl
            (fun (F : Nat → Nat → SpatialVector) j => setEntry F (i - 1) j
              ((massMatrixInverse.forwardBody m md w i).Minv (i - 1) j • md.S i)) w.F) := by
      unfold massMatrixInverse.forwardBody
      simp only [hqi, hqp, if_pos hp]
    have hfold2 := foldl_columns
      (fun (F : Nat → Nat → SpatialVector) j => setEntry F (i - 1) j
        (F (i - 1) j + md.X_lambda i *ᵥ F (m.parent i - 1) j))
      (fun _ col a1 => if a1 = i - 1
        then col (i - 1) + md.X_lambda i *ᵥ col (m.parent i - 1)
        else col a1)
      (by
        intro M c a1 b1
        unfold setEntry
        beta_reduce
        by_cases hb : b1 = c <;> by_cases ha : a1 = i - 1 <;> simp [hb, ha])
      (List.range' (i - 1) (m.dof_count - (i - 1))) hnd
      ((List.range' (i - 1) (m.dof_count - (i - 1))).foldl
        (fun (F : Nat → Nat → SpatialVector) j => setEntry F (i - 1) j
          ((massMatrixInverse.forwardBody m md w i).Minv (i - 1) j • md.S i)) w.F) a j
    rw [hF, hfold2]
    beta_reduce
    rw [hfold1 (i - 1) j, hfold1 (m.parent i - 1) j, hfold1 a j]
    beta_reduce
    by_cases hj : j ∈ List.range' (i - 1) (m.dof_count - (i - 1))
    · have hj1 := (hcol j).1 hj
      by_cases ha : a = i - 1
      · simp [hj, ha, hj1, hp, hpi]
      · simp [hj, ha]
    · have hj1 : ¬ (i - 1 ≤ j ∧ j < m.dof_count) := fun h => hj ((hcol j).2 h)
      simp only [if_neg hj]
      rw [if_neg (fun h => hj1 h.2)]
  · have hF : (massMatrixInverse.forwardBody m md w i).F
        = (List.range' (i - 1) (m.dof_count - (i - 1))).foldl
            (fun (F : Nat → Nat → SpatialVector) j => setEntry F (i - 1) j
              ((massMatrixInverse.forwardBody m md w i).Minv (i - 1) j • md.S i)) w.F := by
      unfold massMatrixInverse.forwardBody
      simp only [hqi, if_neg hp]
    rw [hF, hfold1 a j]
    beta_reduce
    by_cases hj : j ∈ List.range' (i - 1) (m.dof_count - (i - 1))
    · have hj1 := (hcol j).1 hj
      by_cases ha : a = i - 1
      · simp [hj, ha, hj1, hp]
      · simp [hj, ha]
    · have hj1 : ¬ (i - 1 ≤ j ∧ j < m.dof_count) := fun h => hj ((hcol j).2 h)
      simp only [if_neg hj]
      rw [if_neg (fun h => hj1 h.2)]

/-- One step of the second forward pass of `massMatrixInverse` carries its
invariant from `i` to `i + 1`. -/
theorem forwardBody_step {m : Model} (hwf : m.WellFormed) (hq : m.SingleDofJoints)
    (md : ModelData) (w1 : MinvWork) (i : Nat) (w : MinvWork) (hi0 : 0 < i)
    (hiN : i < m.mu.length) (hinv : m.ForwardInvariant md w1 i w) :
    m.ForwardInvariant md w1 (i + 1) (massMatrixInverse.forwardBody m md w i) := by
  have hlt := hwf.parent_lt i hi0 hiN
  obtain ⟨hU, hd, hIA, hMinv, hF⟩ := forwardBody_fields m hq md w i hi0 hiN hlt
  generalize massMatrixInverse.forwardBody m md w i = W at hU hd hIA hMinv hF ⊢
  have hMi : ∀ j, i - 1 ≤ j → j < m.dof_count →
      W.Minv (i - 1) j = m.abaQdd md w1.Minv w1.U w1.d j i := by
    intro j hj1 hj2
    rw [hMinv (i - 1) j]
    unfold Model.abaQdd
    by_cases hp : m.parent i ≠ 0
    · rw [if_pos ⟨hp, rfl, hj1, hj2⟩, hinv.pending i j (Nat.le_refl _), hinv.d_eq, hinv.U_eq,
        (hinv.done (m.parent i) j (Nat.pos_of_ne_zero hp) hlt (by omega) hj2).2,
        Matrix.dotProduct_mulVec]
    · have hp0 : m.parent i = 0 := not_not.1 hp
      rw [if_neg (fun h => hp h.1), hinv.pending i j (Nat.le_refl _), hp0, Model.abaAcc_zero,
        Matrix.mulVec_zero, Matrix.dotProduct_zero, mul_zero, sub_zero]
  refine ⟨hU.trans hinv.U_eq, hd.trans hinv.d_eq, hIA.trans hinv.IA_eq, ?_, ?_⟩
  · intro k j hk0 hki hj1 hj2
    by_cases hk : k = i
    · subst hk
      refine ⟨hMi j hj1 hj2, ?_⟩
      rw [hF (k - 1) j, if_pos ⟨rfl, hj1, hj2⟩, hMi j hj1 hj2,
        Model.abaAcc_pos hwf md w1.Minv w1.U w1.d j hi0 hiN]
      by_cases hp : m.parent k ≠ 0
      · rw [if_pos hp,
          (hinv.done (m.parent k) j (Nat.pos_of_ne_zero hp) hlt (by omega) hj2).2, add_comm]
      · have hp0 : m.parent k = 0 := not_not.1 hp
        rw [if_neg hp, hp0, Model.abaAcc_zero, Matrix.mulVec_zero, add_comm]
    · rw [hMinv (k - 1) j, if_neg (fun h => by omega), hF (k - 1) j, if_neg (fun h => by omega)]
      exact hinv.done k j hk0 (by omega) hj1 hj2
  · intro k j hk
    rw [hMinv (k - 1) j, if_neg (fun h => by omega)]
    exact hinv.pending k j (by omega)

/-- After the second forward pass of `massMatrixInverse`, every row of `Minv`
holds, from the diagonal on, the joint accelerations of the forward recursion
on the values left by the backward pass. -/
theorem forward_pass {m : Model} (hwf : m.WellFormed) (hq : m.SingleDofJoints)
    (md : ModelData) (w1 : MinvWork) :
    m.ForwardInvariant md w1 m.mu.length
      ((List.range' 1 (m.mBodies_size - 1)).foldl (massMatrixInverse.forwardBody m md) w1) := by
  have h := foldl_bodies_up (massMatrixInverse.forwardBody m md)
    (fun i w => m.ForwardInvariant md w1 i w) (m.mBodies_size - 1) 1 w1
    ⟨rfl, rfl, rfl, fun k j h1 h2 => by omega, fun _ _ _ => rfl⟩
    (fun i w h1 h2 hinv => forwardBody_step hwf hq md w1 i w (by omega)
      (by unfold Model.mBodies_size at h2; omega) hinv)
  have hN : 1 + (m.mBodies_size - 1) = m.mu.length := by
    have := hwf.size_pos
    unfold Model.mBodies_size
    omega
  rw [hN] at h
  exact h

/-- The last loop of `massMatrixInverse` leaves the upper triangle as it is and
copies it into the lower one. -/
theorem mirror_apply (n : Nat) (M : Nat → Nat → Scalar) (a b : Nat) :
    massMatrixInverse.mirror n M a b = if b < a ∧ a < n then M b a else M a b := by
  have inner : ∀ (j : Nat) (M0 : Nat → Nat → Scalar) (a b : Nat),
      (List.range n).foldl (fun M1 i => if j < i then setEntry M1 i j (M1 j i) else M1) M0 a b
        = if b = j ∧ j < a ∧ a < n then M0 j a else M0 a b := by
    intro j M0
    have h := foldl_bodies_up
      (fun (M1 : Nat → Nat → Scalar) i => if j < i then setEntry M1 i j (M1 j i) else M1)
      (fun s M1 => ∀ a b, M1 a b = if b = j ∧ j < a ∧ a < s then M0 j a else M0 a b)
      n 0 M0 (fun a b => (if_neg (fun h => Nat.not_lt_zero _ h.2.2)).symm)
      (fun i M1 _ _ hP a b => by
        show (if j < i then setEntry M1 i j (M1 j i) else M1) a b = _
        by_cases hji : j < i
        · rw [if_pos hji]
          have h1 : M1 j i = M0 j i := (hP j i).trans (if_neg (fun h => by omega))
          show (if a = i ∧ b = j then M1 j i else M1 a b) = _
          rw [h1, hP a b]
          by_cases hab : a = i ∧ b = j
          · rw [if_pos hab, if_pos ⟨hab.2, by omega, by omega⟩, hab.1]
          · rw [if_neg hab]
            by_cases hc : b = j ∧ j < a ∧ a < i
            · rw [if_pos hc, if_pos ⟨hc.1, hc.2.1, by omega⟩]
            · rw [if_neg hc, if_neg (fun h => by
                apply hc
                refine ⟨h.1, h.2.1, ?_⟩
                have : a ≠ i := fun hai => hab ⟨hai, h.1⟩
                omega)]
        · rw [if_neg hji, hP a b]
          by_cases hc : b = j ∧ j < a ∧ a < i
          · rw [if_pos hc, if_pos ⟨hc.1, hc.2.1, by omega⟩]
          · rw [if_neg hc, if_neg (fun h => hc ⟨h.1, h.2.1, by omega⟩)])
    rw [Nat.zero_add, ← List.range_eq_range'] at h
    exact h
  have outer := foldl_bodies_up
    (fun (M2 : Nat → Nat → Scalar) j =>
      (List.range n).foldl (fun M1 i => if j < i then setEntry M1 i j (M1 j i) else M1) M2)
    (fun t M2 => ∀ a b, M2 a b = if b < t ∧ b < a ∧ a < n then M b a else M a b)
    n 0 M (fun a b => (if_neg (fun h => Nat.not_lt_zero _ h.1)).symm)
    (fun j M2 _ _ hP a b => by
      show (List.range n).foldl
        (fun M1 i => if j < i then setEntry M1 i j (M1 j i) else M1) M2 a b = _
      rw [inner j M2 a b]
      by_cases hc : b = j ∧ j < a ∧ a < n
      · have h1 : M2 j a = M j a := (hP j a).trans (if_neg (fun h => by omega))
        rw [if_pos hc, h1, if_pos ⟨by omega, by omega, hc.2.2⟩, hc.1]
      · rw [if_neg hc, hP a b]
        by_cases hc2 : b < j ∧ b < a ∧ a < n
        · rw [if_pos hc2, if_pos ⟨by omega, hc2.2.1, hc2.2.2⟩]
        · rw [if_neg hc2, if_neg (fun h => by
            have hbj : b ≠ j := fun hbj => hc ⟨hbj, by omega, h.2.2⟩
            exact hc2 ⟨by omega, h.2.1, h.2.2⟩)])
  rw [Nat.zero_add, ← List.range_eq_range'] at outer
  unfold massMatrixInverse.mirror
  rw [outer a b]
  by_cases hc : b < a ∧ a < n
  · rw [if_pos hc, if_pos ⟨by omega, hc.1, hc.2⟩]
  · rw [if_neg hc, if_neg (fun h => hc ⟨h.2.1, h.2.2⟩)]

end Joints

/-! ### Symmetric positive semi-definite spatial matrices -/

theorem quadratic_form_expand (A : SpatialMatrix) (hA : Aᵀ = A) (a b : Scalar)
    (x y : SpatialVector) :
    (a • x + b • y) ⬝ᵥ (A *ᵥ (a • x + b • y))
      = a ^ 2 * (x ⬝ᵥ (A *ᵥ x)) + 2 * a * b * (x ⬝ᵥ (A *ᵥ y)) + b ^ 2 * (y ⬝ᵥ (A *ᵥ y)) := by
  simp only [Matrix.mulVec_add, Matrix.mulVec_smul, Matrix.add_dotProduct,
    Matrix.dotProduct_add, Matrix.smul_dotProduct, Matrix.dotProduct_smul, smul_eq_mul]
  rw [Model.dotProduct_symm_mulVec A hA y x]
  ring

theorem vecMulVec_mulVec_eq (U W v : SpatialVector) :
    Matrix.vecMulVec U W *ᵥ v = (W ⬝ᵥ v) • U := by
  ext i
  simp only [Matrix.mulVec, Matrix.dotProduct, Matrix.vecMulVec_apply, Pi.smul_apply,
    smul_eq_mul, Finset.sum_mul]
  apply Finset.sum_congr rfl
  intro j _
  ring

theorem div_dotProduct (U v : SpatialVector) (d : Scalar) :
    (fun t => U t / d) ⬝ᵥ v = (U ⬝ᵥ v) / d := by
  simp only [Matrix.dotProduct, Finset.sum_div]
  apply Finset.sum_congr rfl
  intro j _
  ring

namespace IsSpatialInertia

theorem inertia_zero : IsSpatialInertia 0 := by
  refine ⟨Matrix.transpose_zero, fun v => ?_⟩
  rw [Matrix.zero_mulVec, Matrix.dotProduct_zero]

theorem inertia_add {A B : SpatialMatrix} (hA : IsSpatialInertia A) (hB : IsSpatialInertia B) :
    IsSpatialInertia (A + B) := by
  refine ⟨?_, fun v => ?_⟩
  · rw [Matrix.transpose_add, hA.1, hB.1]
  · rw [Matrix.add_mulVec, Matrix.dotProduct_add]
    exact add_nonneg (hA.2 v) (hB.2 v)

theorem inertia_sum {ι : Type} (s : Finset ι) (f : ι → SpatialMatrix)
    (h : ∀ c ∈ s, IsSpatialInertia (f c)) : IsSpatialInertia (∑ c in s, f c) := by
  classical
  induction s using Finset.induction_on with
  | empty => simpa using inertia_zero
  | insert hc ih =>
    rw [Finset.sum_insert hc]
    exact inertia_add (h _ (Finset.mem_insert_self _ _))
      (ih (fun c hcs => h c (Finset.mem_insert_of_mem hcs)))

/-- The congruence `Xᵀ A X` of a symmetric positive semi-definite matrix. -/
theorem inertia_congr {B : SpatialMatrix} (h : IsSpatialInertia B) (X : SpatialMatrix) :
    IsSpatialInertia (Xᵀ * B * X) := by
  refine ⟨?_, fun v => ?_⟩
  · rw [Matrix.transpose_mul, Matrix.transpose_mul, Matrix.transpose_transpose, h.1,
      Matrix.mul_assoc]
  · rw [← Matrix.mulVec_mulVec, ← Matrix.mulVec_mulVec, Matrix.dotProduct_mulVec,
      Matrix.vecMul_transpose]
    exact h.2 (X *ᵥ v)

/-- A vector on which the quadratic form of a symmetric positive semi-definite
matrix vanishes is in the kernel of the matrix. -/
theorem inertia_kernel {A : SpatialMatrix} (h : IsSpatialInertia A) {S : SpatialVector}
    (h0 : S ⬝ᵥ (A *ᵥ S) = 0) : A *ᵥ S = 0 := by
  have hq := h.2 (((A *ᵥ S) ⬝ᵥ (A *ᵥ (A *ᵥ S)) + 1) • S + (-((A *ᵥ S) ⬝ᵥ (A *ᵥ S))) • (A *ᵥ S))
  rw [quadratic_form_expand A h.1, h0, Model.dotProduct_symm_mulVec A h.1 S (A *ᵥ S)] at hq
  have hc := h.2 (A *ᵥ S)
  have hn : ((A *ᵥ S) ⬝ᵥ (A *ᵥ S)) ^ 2 * ((A *ᵥ S) ⬝ᵥ (A *ᵥ (A *ᵥ S)) + 2) ≤ 0 := by
    nlinarith
  have hn2 : ((A *ᵥ S) ⬝ᵥ (A *ᵥ S)) ^ 2 = 0 := by
    apply le_antisymm _ (sq_nonneg _)
    by_contra hpos
    rw [not_le] at hpos
    have := mul_pos hpos (by linarith : 0 < (A *ᵥ S) ⬝ᵥ (A *ᵥ (A *ᵥ S)) + 2)
    linarith
  exact Matrix.dotProduct_self_eq_zero.1 (pow_eq_zero_iff (by norm_num) |>.1 hn2)

/-- The matrix `A - U Uᵀ / d` with `U = A S` and `d = S · U` handed to the
parent by the backward pass is symmetric positive semi-definite when `A` is. -/
theorem inertia_schur {A : SpatialMatrix} (h : IsSpatialInertia A) (S : SpatialVector) :
    IsSpatialInertia
      (A - Matrix.vecMulVec (A *ᵥ S) (fun t => (A *ᵥ S) t / (S ⬝ᵥ (A *ᵥ S)))) := by
  refine ⟨?_, fun v => ?_⟩
  · rw [Matrix.transpose_sub, h.1]
    congr 1
    ext i j
    simp only [Matrix.transpose_apply, Matrix.vecMulVec_apply]
    ring
  · rw [Matrix.sub_mulVec, Matrix.dotProduct_sub, vecMulVec_mulVec_eq, div_dotProduct,
      Matrix.dotProduct_smul, smul_eq_mul, sub_nonneg]
    by_cases hd : S ⬝ᵥ (A *ᵥ S) = 0
    · rw [hd, div_zero, zero_mul]
      exact h.2 v
    · have hdpos : 0 < S ⬝ᵥ (A *ᵥ S) := lt_of_le_of_ne (h.2 S) (Ne.symm hd)
      have hq := h.2 ((S ⬝ᵥ (A *ᵥ S)) • v + (-((A *ᵥ S) ⬝ᵥ v)) • S)
      rw [quadratic_form_expand A h.1, Matrix.dotProduct_comm v (A *ᵥ S)] at hq
      rw [Matrix.dotProduct_comm v (A *ᵥ S), div_mul_eq_mul_div, div_le_iff₀ hdpos]
      have hq2 : 0 ≤ (S ⬝ᵥ (A *ᵥ S))
          * (v ⬝ᵥ (A *ᵥ v) * (S ⬝ᵥ (A *ᵥ S)) - (A *ᵥ S) ⬝ᵥ v * ((A *ᵥ S) ⬝ᵥ v)) := by
        nlinarith
      have := nonneg_of_mul_nonneg_right hq2 hdpos
      linarith

end IsSpatialInertia

namespace Model

theorem childSet_filter_pos (m : Model) (k : Nat) :
    (m.childSet k).filter (fun c => 0 < c) = m.childSet k := by
  apply Finset.filter_true_of_mem
  intro c hc
  exact (mem_childSet.1 hc).2.1

/-- After the backward pass the articulated inertia of every movable body is
its inertia plus what its children hand over. -/
theorem BackwardInvariant.IA_children {m : Model} {md : ModelData} {w : MinvWork}
    (hinv : m.BackwardInvariant md 0 w) {k : Nat} (hk0 : 0 < k) (hkN : k < m.mu.length) :
    w.IA k = md.I k + ∑ c in m.childSet k,
      (md.X_lambda c)ᵀ
        * (w.IA c - Matrix.vecMulVec (w.IA c *ᵥ md.S c)
            (fun t => (w.IA c *ᵥ md.S c) t / (md.S c ⬝ᵥ (w.IA c *ᵥ md.S c))))
        * md.X_lambda c := by
  rw [hinv.IA_eq k hk0 hkN, childSet_filter_pos]
  congr 1
  apply Finset.sum_congr rfl
  intro c hc
  have hc1 := mem_childSet.1 hc
  rw [hinv.d_eq c hc1.2.1 hc1.1, hinv.U_eq c hc1.2.1 hc1.1]

/-- After the backward pass the articulated inertias are symmetric positive
semi-definite when the inertias of the bodies are. -/
theorem BackwardInvariant.isSpatialInertia_IA {m : Model} (hwf : m.WellFormed)
    {md : ModelData} (hI : ∀ k, IsSpatialInertia (md.I k)) {w : MinvWork}
    (hinv : m.BackwardInvariant md 0 w) :
    ∀ k, k < m.mu.length → 0 < k → IsSpatialInertia (w.IA k) := by
  apply induction_up hwf (fun k => 0 < k → IsSpatialInertia (w.IA k))
  intro k hkN ih hk0
  rw [hinv.IA_children hk0 hkN]
  apply IsSpatialInertia.inertia_add (hI k)
  apply IsSpatialInertia.inertia_sum
  intro c hc
  exact ((ih c hc (mem_childSet.1 hc).2.1).inertia_schur (md.S c)).inertia_congr (md.X_lambda c)

/-- The Newton-Euler force for the joint accelerations of the forward
recursion: the articulated inertia applied to the acceleration of the body,
plus a bias force `P` that collects what the children hand over. -/
theorem aba_force {m : Model} (hwf : m.WellFormed) (md : ModelData) {w : MinvWork}
    (hinv : m.BackwardInvariant md 0 w) (N1 : Nat → Nat → Scalar) (col : Nat)
    (P : Nat → SpatialVector)
    (hP : ∀ k, 0 < k → k < m.mu.length →
      P k = ∑ c in m.childSet k, (md.X_lambda c)ᵀ *ᵥ (P c + N1 (c - 1) col • w.U c)) :
    ∀ k, k < m.mu.length → 0 < k →
      m.bodyForce md (fun j => m.abaQdd md N1 w.U w.d col j) k
        = w.IA k *ᵥ m.abaAcc md N1 w.U w.d col k + P k := by
  apply induction_up hwf (fun k => 0 < k →
      m.bodyForce md (fun j => m.abaQdd md N1 w.U w.d col j) k
        = w.IA k *ᵥ m.abaAcc md N1 w.U w.d col k + P k)
  intro k hkN ih hk0
  rw [bodyForce_eq hwf, bodyAcc_abaQdd, hinv.IA_children hk0 hkN, hP k hk0 hkN,
    Matrix.add_mulVec, sum_mulVec_finset, add_assoc, ← Finset.sum_add_distrib]
  congr 1
  apply Finset.sum_congr rfl
  intro c hc
  have hc1 := mem_childSet.1 hc
  rw [ih c hc hc1.2.1, abaAcc_pos hwf md N1 w.U w.d col hc1.2.1 hc1.1, hc1.2.2,
    ← Matrix.mulVec_mulVec, ← Matrix.mulVec_mulVec]
  have hx : m.abaQdd md N1 w.U w.d col c
      = N1 (c - 1) col
        - (w.U c ⬝ᵥ (md.X_lambda c *ᵥ m.abaAcc md N1 w.U w.d col k)) / w.d c := by
    unfold abaQdd
    rw [hc1.2.2]
    ring
  have hin : w.IA c *ᵥ (md.X_lambda c *ᵥ m.abaAcc md N1 w.U w.d col k
        + m.abaQdd md N1 w.U w.d col c • md.S c) + P c
      = (w.IA c - Matrix.vecMulVec (w.IA c *ᵥ md.S c)
            (fun t => (w.IA c *ᵥ md.S c) t / (md.S c ⬝ᵥ (w.IA c *ᵥ md.S c))))
          *ᵥ (md.X_lambda c *ᵥ m.abaAcc md N1 w.U w.d col k)
        + (P c + N1 (c - 1) col • w.U c) := by
    rw [Matrix.sub_mulVec, vecMulVec_mulVec_eq, div_dotProduct, ← hinv.U_eq c hc1.2.1 hc1.1,
      ← hinv.d_eq c hc1.2.1 hc1.1, Matrix.mulVec_add, Matrix.mulVec_smul,
      ← hinv.U_eq c hc1.2.1 hc1.1, hx, sub_smul]
    abel
  rw [hin, Matrix.mulVec_add]

/-- The joint torque for the joint accelerations of the forward recursion. -/
theorem aba_torque {m : Model} (hwf : m.WellFormed) (md : ModelData)
    (hI : ∀ k, IsSpatialInertia (md.I k)) {w : MinvWork}
    (hinv : m.BackwardInvariant md 0 w) (N1 : Nat → Nat → Scalar) (col : Nat)
    (P : Nat → SpatialVector)
    (hP : ∀ k, 0 < k → k < m.mu.length →
      P k = ∑ c in m.childSet k, (md.X_lambda c)ᵀ *ᵥ (P c + N1 (c - 1) col • w.U c))
    (k : Nat) (hk0 : 0 < k) (hkN : k < m.mu.length) :
    md.S k ⬝ᵥ m.bodyForce md (fun j => m.abaQdd md N1 w.U w.d col j) k
      = w.U k ⬝ᵥ (md.X_lambda k *ᵥ m.abaAcc md N1 w.U w.d col (m.parent k))
        + m.abaQdd md N1 w.U w.d col k * w.d k + md.S k ⬝ᵥ P k := by
  rw [aba_force hwf md hinv N1 col P hP k hkN hk0, Matrix.dotProduct_add,
    dotProduct_symm_mulVec _ (hinv.isSpatialInertia_IA hwf hI k hkN hk0).1,
    ← hinv.U_eq k hk0 hkN, abaAcc_pos hwf md N1 w.U w.d col hk0 hkN, Matrix.add_dotProduct,
    Matrix.smul_dotProduct, smul_eq_mul, ← hinv.d_eq k hk0 hkN,
    Matrix.dotProduct_comm _ (w.U k)]

/-- After the backward pass, a body whose pivot `d` vanishes has `U = 0`. -/
theorem BackwardInvariant.U_eq_zero {m : Model} (hwf : m.WellFormed) {md : ModelData}
    (hI : ∀ k, IsSpatialInertia (md.I k)) {w : MinvWork} (hinv : m.BackwardInvariant md 0 w)
    {k : Nat} (hk0 : 0 < k) (hkN : k < m.mu.length) (hd : w.d k = 0) : w.U k = 0 := by
  rw [hinv.U_eq k hk0 hkN]
  apply (hinv.isSpatialInertia_IA hwf hI k hkN hk0).inertia_kernel
  rw [← hinv.U_eq k hk0 hkN, ← hinv.d_eq k hk0 hkN, hd]

/-- The columns the forward recursion builds on the values of the backward pass
are the columns of the inverse of the joint-space inertia matrix: row `a` of the
matrix times column `b` is 1 on the diagonal and 0 elsewhere. -/
theorem massEntry_abaQdd {m : Model} (hwf : m.WellFormed) (md : ModelData)
    (hI : ∀ k, IsSpatialInertia (md.I k)) {w : MinvWork}
    (hinv : m.BackwardInvariant md 0 w)
    (hd : ∀ k, 0 < k → k < m.mu.length → w.d k ≠ 0)
    (a b : Nat) (ha0 : 0 < a) (haN : a < m.mu.length) :
    (∑ k in Finset.range m.mu.length,
        m.massEntry md a k * m.abaQdd md w.Minv w.U w.d b k)
      = if a - 1 = b then 1 else 0 := by
  have hP : ∀ k, 0 < k → k < m.mu.length →
      (∑ c in m.childSet k, (md.X_lambda c)ᵀ *ᵥ w.F (c - 1) b)
        = ∑ c in m.childSet k, (md.X_lambda c)ᵀ *ᵥ
            ((∑ c1 in m.childSet c, (md.X_lambda c1)ᵀ *ᵥ w.F (c1 - 1) b)
              + w.Minv (c - 1) b • w.U c) := by
    intro k hk0 _
    apply Finset.sum_congr rfl
    intro c hc
    have hc1 := mem_childSet.1 hc
    rw [hinv.F_eq c b hc1.2.1 hc1.1, childSet_filter_pos,
      if_pos ⟨hc1.2.1, by rw [hc1.2.2]; omega⟩]
  rw [massEntry_mulVec hwf md ha0 haN,
    aba_torque hwf md hI hinv w.Minv b
      (fun k => ∑ c in m.childSet k, (md.X_lambda c)ᵀ *ᵥ w.F (c - 1) b) hP a ha0 haN]
  have hda := hd a ha0 haN
  have hM := hinv.Minv_eq a b ha0 haN
  unfold abaQdd
  rw [hM]
  field_simp

/-- After the backward pass no pivot `d` vanishes when the joint-space inertia
matrix has a trivial kernel. -/
theorem pivot_ne_zero {m : Model} (hwf : m.WellFormed) (md : ModelData)
    (hI : ∀ k, IsSpatialInertia (md.I k)) {w : MinvWork}
    (hinv : m.BackwardInvariant md 0 w)
    (hns : ∀ x : Nat → Scalar,
      (∀ a, 0 < a → a < m.mu.length →
        (∑ b in Finset.range m.mu.length, m.massEntry md a b * x b) = 0) →
      ∀ b, 0 < b → b < m.mu.length → x b = 0)
    (k : Nat) (hk0 : 0 < k) (hkN : k < m.mu.length) : w.d k ≠ 0 := by
  intro hdk
  have hUk := hinv.U_eq_zero hwf hI hk0 hkN hdk
  obtain ⟨N1, hN1⟩ : ∃ N1 : Nat → Nat → Scalar,
      ∀ a1 c1, N1 a1 c1 = if a1 = k - 1 then 1 else 0 := ⟨_, fun _ _ => rfl⟩
  obtain ⟨P, hP0⟩ : ∃ P : Nat → SpatialVector, ∀ k1, P k1 = 0 := ⟨fun _ => 0, fun _ => rfl⟩
  have hP : ∀ k1, 0 < k1 → k1 < m.mu.length →
      P k1 = ∑ c in m.childSet k1, (md.X_lambda c)ᵀ *ᵥ (P c + N1 (c - 1) 0 • w.U c) := by
    intro k1 _ _
    rw [hP0 k1]
    symm
    apply Finset.sum_eq_zero
    intro c hc
    have hc1 := mem_childSet.1 hc
    rw [hP0 c, hN1]
    by_cases hck : c - 1 = k - 1
    · have : c = k := by omega
      rw [this, hUk, smul_zero, add_zero, Matrix.mulVec_zero]
    · rw [if_neg hck, zero_smul, add_zero, Matrix.mulVec_zero]
  have htorque : ∀ a, 0 < a → a < m.mu.length →
      (∑ b in Finset.range m.mu.length,
        m.massEntry md a b * m.abaQdd md N1 w.U w.d 0 b) = 0 := by
    intro a ha0 haN
    rw [massEntry_mulVec hwf md ha0 haN,
      aba_torque hwf md hI hinv N1 0 P hP a ha0 haN, hP0 a, Matrix.dotProduct_zero,
      add_zero]
    by_cases hda : w.d a = 0
    · rw [hda, mul_zero, add_zero, hinv.U_eq_zero hwf hI ha0 haN hda, Matrix.zero_dotProduct]
    · have hak : a - 1 ≠ k - 1 := fun h => hda (by
        have : a = k := by omega
        rw [this]
        exact hdk)
      unfold abaQdd
      rw [hN1, if_neg hak]
      field_simp
  have hx := hns (fun j => m.abaQdd md N1 w.U w.d 0 j) htorque k hk0 hkN
  have hx1 : m.abaQdd md N1 w.U w.d 0 k = 1 := by
    unfold abaQdd
    rw [hN1, if_pos rfl, hdk, div_zero, zero_mul, sub_zero]
  exact one_ne_zero (hx1.symm.trans hx)

end Model

theorem list_range_map_sum (f : Nat → Scalar) (n : Nat) :
    ((List.range n).map f).sum = ∑ k in Finset.range n, f k := by
  induction n with
  | zero => simp
  | succ n ih =>
    rw [List.range_succ, List.map_append, List.sum_append, ih, Finset.sum_range_succ]
    simp

theorem getD_map_range (f : Nat → Scalar) (n k : Nat) (hk : k < n) :
    ((List.range n).map f).getD k 0 = f k := by
  rw [List.getD_eq_getElem?_getD, List.getElem?_map, List.getElem?_range hk]
  rfl

namespace Model

theorem massEntry_base {m : Model} (hwf : m.WellFormed) (md : ModelData) {a : Nat}
    (ha0 : 0 < a) (haN : a < m.mu.length) : m.massEntry md a 0 = 0 := by
  unfold massEntry
  rw [massEntry_eq_energy hwf md ha0 haN]
  apply Finset.sum_eq_zero
  intro k hk
  rw [bodyAcc_unit_base hwf md k (Finset.mem_range.1 hk), Matrix.mulVec_zero,
    Matrix.dotProduct_zero]

/-- The product of a row of the joint-space inertia matrix and a vector, over
the movable bodies only. -/
theorem massEntry_sum_shift {m : Model} (hwf : m.WellFormed) (md : ModelData) {a : Nat}
    (ha0 : 0 < a) (haN : a < m.mu.length) (x : Nat → Scalar) :
    (∑ k in Finset.range m.mu.length, m.massEntry md a k * x k)
      = ∑ k in Finset.range (m.mu.length - 1), m.massEntry md a (k + 1) * x (k + 1) := by
  have hN : m.mu.length = (m.mu.length - 1) + 1 := by omega
  rw [hN, Finset.sum_range_succ', massEntry_base hwf md ha0 (by omega), zero_mul, add_zero,
    ← hN]

/-- The matrix of the joint accelerations of the forward recursion is
symmetric: it is the inverse of a symmetric matrix. -/
theorem abaQdd_symm {m : Model} (hwf : m.WellFormed) (md : ModelData)
    (hI : ∀ k, IsSpatialInertia (md.I k)) {w : MinvWork}
    (hinv : m.BackwardInvariant md 0 w)
    (hd : ∀ k, 0 < k → k < m.mu.length → w.d k ≠ 0)
    (a b : Nat) (ha : a < m.mu.length - 1) (hb : b < m.mu.length - 1) :
    m.abaQdd md w.Minv w.U w.d b (a + 1) = m.abaQdd md w.Minv w.U w.d a (b + 1) := by
  obtain ⟨Mf, hMf⟩ : ∃ Mf : Matrix (Fin (m.mu.length - 1)) (Fin (m.mu.length - 1)) Scalar,
      ∀ r c, Mf r c = m.massEntry md (r.1 + 1) (c.1 + 1) := ⟨_, fun _ _ => rfl⟩
  obtain ⟨Af, hAf⟩ : ∃ Af : Matrix (Fin (m.mu.length - 1)) (Fin (m.mu.length - 1)) Scalar,
      ∀ r c, Af r c = m.abaQdd md w.Minv w.U w.d c.1 (r.1 + 1) := ⟨_, fun _ _ => rfl⟩
  have hprod : Mf * Af = 1 := by
    ext r c
    rw [Matrix.mul_apply, Matrix.one_apply]
    have h := massEntry_abaQdd hwf md hI hinv hd (r.1 + 1) c.1 (by omega) (by omega)
    rw [massEntry_sum_shift hwf md (by omega) (by omega), Nat.add_sub_cancel,
      Finset.sum_range] at h
    have hrc : (if r = c then (1 : Scalar) else 0) = if r.1 = c.1 then 1 else 0 := by
      by_cases hrc : r = c
      · rw [if_pos hrc, if_pos (congrArg Fin.val hrc)]
      · rw [if_neg hrc, if_neg (fun h => hrc (Fin.ext h))]
    rw [hrc, ← h]
    apply Finset.sum_congr rfl
    intro k _
    rw [hMf, hAf]
  have hsymM : Mfᵀ = Mf := by
    ext r c
    rw [Matrix.transpose_apply, hMf, hMf]
    exact massEntry_symm hwf md (fun k => (hI k).1) (by omega) (by omega) (by omega) (by omega)
  have hsymA : Afᵀ = Af := by
    have h1 : Afᵀ * Mf = 1 := by
      rw [← hsymM, ← Matrix.transpose_mul, hprod, Matrix.transpose_one]
    calc Afᵀ = Afᵀ * (Mf * Af) := by rw [hprod, Matrix.mul_one]
      _ = Af := by rw [← Matrix.mul_assoc, h1, Matrix.one_mul]
  have := congrFun (congrFun hsymA ⟨b, hb⟩) ⟨a, ha⟩
  rw [Matrix.transpose_apply, hAf, hAf] at this
  exact this

end Model

namespace Joints

/-- A non-singular mass matrix, as the composite rigid-body algorithm fills it,
has a trivial kernel as a matrix over the movable bodies. -/
theorem massEntry_kernel {m : Model} (hwf : m.WellFormed) (hq : m.SingleDofJoints)
    (md : ModelData) (hI : ∀ k, IsSpatialInertia (md.I k))
    (hns : DenseMatrix.IsNonsingular
      ⟨m.mu.length - 1, m.mu.length - 1, m.CompositeRigidBodyAlgorithm md (fun _ _ => 0)⟩)
    (x : Nat → Scalar)
    (hx : ∀ a, 0 < a → a < m.mu.length →
      (∑ b in Finset.range m.mu.length, m.massEntry md a b * x b) = 0)
    (b : Nat) (hb0 : 0 < b) (hbN : b < m.mu.length) : x b = 0 := by
  have h := hns ((List.range (m.mu.length - 1)).map (fun k => x (k + 1)))
    (by rw [List.length_map, List.length_range])
    (fun i hi => by
      have hi1 : i < m.mu.length - 1 := hi
      unfold DenseMatrix.mulVecAt
      rw [list_range_map_sum]
      refine Eq.trans ?_ (hx (i + 1) (by omega) (by omega))
      rw [Model.massEntry_sum_shift hwf md (by omega) (by omega)]
      apply Finset.sum_congr rfl
      intro k hk
      have hk1 : k < m.mu.length - 1 := Finset.mem_range.1 hk
      rw [getD_map_range _ _ _ hk1]
      have := Model.crba_entries hwf hq md (fun k => (hI k).1) (i + 1) (k + 1)
        (by omega) (by omega) (by omega) (by omega)
      rw [Nat.add_sub_cancel, Nat.add_sub_cancel] at this
      show m.CompositeRigidBodyAlgorithm md (fun _ _ => 0) i k * x (k + 1) = _
      rw [this])
    (b - 1) (by show b - 1 < m.mu.length - 1; omega)
  rw [getD_map_range _ _ _ (by omega), Nat.sub_add_cancel hb0] at h
  exact h

/-- The matrix left by the passes of `massMatrixInverse` is a right inverse of
the matrix of the composite rigid-body algorithm. -/
theorem passes_inverse {m : Model} (hwf : m.WellFormed) (hq : m.SingleDofJoints)
    (md : ModelData) (hI : ∀ k, IsSpatialInertia (md.I k)) (subTrees : List (List Nat))
    (hsub : ∀ i, 0 < i → i < m.mu.length →
      subTrees.getD (i - 1) [] = m.depthFirst m.mu.length i)
    (hns : DenseMatrix.IsNonsingular
      ⟨m.mu.length - 1, m.mu.length - 1, m.CompositeRigidBodyAlgorithm md (fun _ _ => 0)⟩)
    (a b : Nat) (ha : a < m.mu.length - 1) (hb : b < m.mu.length - 1) :
    (∑ k in Finset.range (m.mu.length - 1),
        m.CompositeRigidBodyAlgorithm md (fun _ _ => 0) a k
          * (massMatrixInverse.passes m md subTrees).Minv k b)
      = if a = b then 1 else 0 := by
  have hback := backward_pass hwf hq md subTrees hsub
  have hpass : (massMatrixInverse.passes m md subTrees).Minv
      = massMatrixInverse.mirror m.dof_count
        ((List.range' 1 (m.mBodies_size - 1)).foldl (massMatrixInverse.forwardBody m md)
          ((List.range' 1 (m.mBodies_size - 1)).reverse.foldl
            (massMatrixInverse.backwardBody m md subTrees)
            ⟨fun _ _ => 0, fun _ _ => 0,
              (List.range' 1 (m.mBodies_size - 1)).foldl
                (fun IA i => setAt IA i (md.I i)) md.IA,
              md.U, md.d⟩)).Minv := rfl
  generalize (List.range' 1 (m.mBodies_size - 1)).reverse.foldl
    (massMatrixInverse.backwardBody m md subTrees)
    ⟨fun _ _ => 0, fun _ _ => 0,
      (List.range' 1 (m.mBodies_size - 1)).foldl (fun IA i => setAt IA i (md.I i)) md.IA,
      md.U, md.d⟩ = w1 at hback hpass
  have hfwd := forward_pass hwf hq md w1
  generalize (List.range' 1 (m.mBodies_size - 1)).foldl (massMatrixInverse.forwardBody m md) w1
    = w2 at hfwd hpass
  have hd := Model.pivot_ne_zero hwf md hI hback (massEntry_kernel hwf hq md hI hns)
  have hentry : ∀ k, k < m.mu.length - 1 →
      (massMatrixInverse.passes m md subTrees).Minv k b
        = m.abaQdd md w1.Minv w1.U w1.d b (k + 1) := by
    intro k hk
    rw [hpass, mirror_apply, hq.dof_count_eq]
    by_cases hbk : b < k ∧ k < m.mu.length - 1
    · rw [if_pos hbk, Model.abaQdd_symm hwf md hI hback hd k b hk hb]
      have := (hfwd.done (b + 1) k (by omega) (by omega) (by omega)
        (by rw [hq.dof_count_eq]; exact hk)).1
      rw [Nat.add_sub_cancel] at this
      exact this
    · rw [if_neg hbk]
      have := (hfwd.done (k + 1) b (by omega) (by omega) (by omega)
        (by rw [hq.dof_count_eq]; exact hb)).1
      rw [Nat.add_sub_cancel] at this
      exact this
  have h := Model.massEntry_abaQdd hwf md hI hback hd (a + 1) b (by omega) (by omega)
  rw [Model.massEntry_sum_shift hwf md (by omega) (by omega), Nat.add_sub_cancel] at h
  refine Eq.trans ?_ h
  apply Finset.sum_congr rfl
  intro k hk
  have hk1 := Finset.mem_range.1 hk
  rw [hentry k hk1]
  have := Model.crba_entries hwf hq md (fun k => (hI k).1) (a + 1) (k + 1)
    (by omega) (by omega) (by omega) (by omega)
  rw [Nat.add_sub_cancel, Nat.add_sub_cancel] at this
  rw [this]

/-- With symmetric positive definite body inertias and non-zero motion
subspaces the mass matrix filled by the composite rigid-body algorithm is
non-singular. -/
theorem massMatrix_isNonsingular_of_posDef {m : Model} (hwf : m.WellFormed)
    (hq : m.SingleDofJoints) (md : ModelData) (hI : ∀ k, IsSpatialInertia (md.I k))
    (hpd : ∀ k v, v ⬝ᵥ (md.I k *ᵥ v) = 0 → v = 0)
    (hS : ∀ k, md.S k ≠ 0) :
    DenseMatrix.IsNonsingular
      ⟨m.mu.length - 1, m.mu.length - 1, m.CompositeRigidBodyAlgorithm md (fun _ _ => 0)⟩ := by
  intro x _ hx k hk
  have hk1 : k < m.mu.length - 1 := hk
  obtain ⟨y, hy⟩ : ∃ y : Nat → Scalar, ∀ i, y i = x.getD (i - 1) 0 := ⟨_, fun _ => rfl⟩
  have hrow : ∀ a, 0 < a → a < m.mu.length →
      md.S a ⬝ᵥ m.bodyForce md y a = 0 := by
    intro a ha0 haN
    rw [← Model.massEntry_mulVec hwf md ha0 haN,
      Model.massEntry_sum_shift hwf md ha0 haN]
    have h := hx (a - 1) (by show a - 1 < m.mu.length - 1; omega)
    unfold DenseMatrix.mulVecAt at h
    rw [list_range_map_sum] at h
    refine Eq.trans ?_ h
    apply Finset.sum_congr rfl
    intro c hc
    have hc1 : c < m.mu.length - 1 := Finset.mem_range.1 hc
    have := Model.crba_entries hwf hq md (fun k => (hI k).1) a (c + 1)
      ha0 haN (by omega) (by omega)
    rw [Nat.add_sub_cancel] at this
    show _ = m.CompositeRigidBodyAlgorithm md (fun _ _ => 0) (a - 1) c * x.getD c 0
    rw [this, hy, Nat.add_sub_cancel]
  have henergy : (∑ c in Finset.range m.mu.length,
      m.bodyAcc md y c ⬝ᵥ (md.I c *ᵥ m.bodyAcc md y c)) = 0 := by
    rw [← Model.power_balance hwf md y y]
    apply Finset.sum_eq_zero
    intro a ha
    have ha1 := Finset.mem_filter.1 ha
    rw [hrow a ha1.2 (Finset.mem_range.1 ha1.1), mul_zero]
  have hacc : ∀ c, c < m.mu.length → m.bodyAcc md y c = 0 := by
    intro c hc
    apply hpd c
    exact (Finset.sum_eq_zero_iff_of_nonneg (fun c _ => (hI c).2 _)).1 henergy c
      (Finset.mem_range.2 hc)
  have hyk : y (k + 1) • md.S (k + 1) = 0 := by
    have h1 := Model.bodyAcc_pos hwf md y (Nat.succ_pos k) (by omega : k + 1 < m.mu.length)
    rw [hacc (k + 1) (by omega),
      hacc (m.parent (k + 1)) (by
        have := hwf.parent_lt (k + 1) (Nat.succ_pos k) (by omega)
        omega),
      Matrix.mulVec_zero, zero_add] at h1
    exact h1.symm
  rcases smul_eq_zero.1 hyk with h | h
  · rw [hy, Nat.add_sub_cancel] at h
    exact h
  · exact absurd h (hS (k + 1))

end Joints

namespace Example4

theorem exampleTree_singleDofJoints : Model.exampleTree.SingleDofJoints where
  q_index_eq := by
    intro k h0 hN
    have hN5 : k < 5 := hN
    interval_cases k <;> decide
  dof_count_eq := by decide

theorem data_isSpatialInertia (k : Nat) : IsSpatialInertia (Example1.data.I k) := by
  refine ⟨Matrix.transpose_one, fun v => ?_⟩
  show 0 ≤ v ⬝ᵥ ((1 : SpatialMatrix) *ᵥ v)
  rw [Matrix.one_mulVec]
  exact Finset.sum_nonneg (fun i _ => mul_self_nonneg (v i))

theorem massMatrix_isNonsingular :
    (joints.massMatrix Example1.rbdl Model.exampleTree Example1.data [0, 0, 0, 0]
      true).1.IsNonsingular := by
  have h := Joints.massMatrix_isNonsingular_of_posDef Model.exampleTree_wellFormed
    exampleTree_singleDofJoints Example1.data data_isSpatialInertia
    (fun k v hv => by
      have hv1 : v ⬝ᵥ ((1 : SpatialMatrix) *ᵥ v) = 0 := hv
      rw [Matrix.one_mulVec] at hv1
      exact Matrix.dotProduct_self_eq_zero.1 hv1)
    (fun k h => by
      have h0 := congrFun h 0
      simp [Example1.data] at h0)
  exact h

end Example4

namespace Joints

/-- Inverse property where the two sizes agree: on a well-formed tree whose
joints each carry one degree of freedom and whose `nbQ ()` is the DoF count of
the inherited model, with symmetric positive semi-definite body inertias, for a `Q` of the right
size whose mass matrix `massMatrix(Q)` is non-singular, `massMatrixInverse(Q)`
returns a matrix (the recursion bound being at least the number of bodies) and
the product `massMatrix(Q) · massMatrixInverse(Q)` is the identity on every
entry, off-diagonal entries included. -/
theorem massMatrix_mul_massMatrixInverse (rbdl : Rbdl) (j : Joints) (m : Model)
    (md : ModelData) (Q : List Scalar) (updateKin : Bool) (fuel : Nat)
    (hwf : m.WellFormed) (hq : m.SingleDofJoints) (hnbQ : j.nbQ = m.dof_count)
    (hQ : Q.length = j.nbQ) (hfuel : m.mu.length ≤ fuel)
    (hI : ∀ k, IsSpatialInertia ((j.massMatrix rbdl m md Q updateKin).2.I k))
    (hns : (j.massMatrix rbdl m md Q updateKin).1.IsNonsingular) :
    ∃ Minv md', j.massMatrixInverse rbdl m md Q updateKin fuel = Except.ok (some (Minv, md')) ∧
      Minv.rows = j.nbQ ∧ Minv.cols = j.nbQ ∧
      ∀ a b, a < j.nbQ → b < j.nbQ →
        (j.massMatrix rbdl m md Q updateKin).1.mulAt Minv a b = if a = b then 1 else 0 := by
  obtain ⟨subTrees, hsome, -, hsub⟩ := Model.getDofSubTrees_eq_depthFirst hwf fuel hfuel
  have hn : j.nbQ = m.mu.length - 1 := hnbQ.trans hq.dof_count_eq
  have hM1 : (j.massMatrix rbdl m md Q updateKin).1
      = ⟨m.mu.length - 1, m.mu.length - 1,
        m.CompositeRigidBodyAlgorithm (j.massMatrix rbdl m md Q updateKin).2 (fun _ _ => 0)⟩ := by
    unfold massMatrix
    simp only [hn]
  have hres : j.massMatrixInverse rbdl m md Q updateKin fuel
      = Except.ok (some (⟨m.dof_count, m.dof_count,
          (massMatrixInverse.passes m (j.massMatrix rbdl m md Q updateKin).2 subTrees).Minv⟩,
        { (j.massMatrix rbdl m md Q updateKin).2 with
          IA := (massMatrixInverse.passes m (j.massMatrix rbdl m md Q updateKin).2 subTrees).IA
          U := (massMatrixInverse.passes m (j.massMatrix rbdl m md Q updateKin).2 subTrees).U
          d := (massMatrixInverse.passes m (j.massMatrix rbdl m md Q updateKin).2 subTrees).d })) := by
    unfold massMatrixInverse
    cases updateKin
    · simp [hsome, massMatrix, bind, Except.bind, pure, Except.pure]
    · simp [hsome, massMatrix, UpdateKinematicsCustom, checkGeneralizedDimensions, checkSize,
        Error.check, hQ, bind, Except.bind, pure, Except.pure]
  refine ⟨_, _, hres, hnbQ.symm, hnbQ.symm, ?_⟩
  intro a b ha hb
  rw [hM1] at hns ⊢
  unfold DenseMatrix.mulAt
  rw [list_range_map_sum]
  exact passes_inverse hwf hq _ hI subTrees hsub hns a b (by omega) (by omega)

/-- The inverse property on the branching tree with four movable bodies, one
translation each, unit inertias and identity transforms, whose 4×4 mass matrix is
non-singular. -/
theorem massMatrix_mul_massMatrixInverse_witness :
    ∃ Minv md', Example4.joints.massMatrixInverse Example1.rbdl Model.exampleTree
        Example1.data [0, 0, 0, 0] true 5 = Except.ok (some (Minv, md')) ∧
      Minv.rows = Example4.joints.nbQ ∧ Minv.cols = Example4.joints.nbQ ∧
      ∀ a b, a < Example4.joints.nbQ → b < Example4.joints.nbQ →
        (Example4.joints.massMatrix Example1.rbdl Model.exampleTree Example1.data
          [0, 0, 0, 0] true).1.mulAt Minv a b = if a = b then 1 else 0 :=
  massMatrix_mul_massMatrixInverse Example1.rbdl Example4.joints Model.exampleTree
    Example1.data [0, 0, 0, 0] true 5 Model.exampleTree_wellFormed
    Example4.exampleTree_singleDofJoints (by decide) (by decide) (by decide)
    (fun k => Example4.data_isSpatialInertia k) Example4.massMatrix_isNonsingular

end Joints

/-! ### Access to the segments -/

theorem toSizeT_toInt32 (k : Nat) (hk : k < 2 ^ 31) : toSizeT (toInt32 k) = k := by
  unfold toSizeT toInt32
  have h1 : k % 2 ^ 32 = k := Nat.mod_eq_of_lt (by omega)
  rw [h1, if_pos hk]
  omega

theorem toSizeT_neg_one : toSizeT (-1) = 2 ^ 64 - 1 := by decide

namespace Joints

/-- What the loop of `getBodyBiorbdId` returns: -1 when no remaining segment
has the name, and otherwise the index of the first one that has it. -/
theorem getBodyBiorbdId_loop_spec (name : String) :
    ∀ (l : List Segment) (i : Nat),
      ((∀ s ∈ l, s.name ≠ name) → getBodyBiorbdId.loop name l i = -1) ∧
      (∀ s, l.find? (fun s => s.name == name) = some s →
        ∃ k, k < l.length ∧ l[k]? = some s ∧
          getBodyBiorbdId.loop name l i = toInt32 (i + k)) := by
  intro l
  induction l with
  | nil =>
    intro i
    exact ⟨fun _ => rfl, fun s h => by simp at h⟩
  | cons a rest ih =>
    intro i
    constructor
    · intro hall
      have ha : a.name ≠ name := hall a (List.mem_cons_self _ _)
      unfold getBodyBiorbdId.loop
      rw [if_neg ha]
      exact (ih (i + 1)).1 (fun s hs => hall s (List.mem_cons_of_mem _ hs))
    · intro s hs
      unfold getBodyBiorbdId.loop
      by_cases ha : a.name = name
      · rw [if_pos ha]
        simp only [List.find?_cons, ha, beq_self_eq_true] at hs
        refine ⟨0, by simp, ?_, rfl⟩
        simpa using Option.some.inj hs
      · rw [if_neg ha]
        have hbeq : (a.name == name) = false := by simpa using ha
        simp only [List.find?_cons, hbeq] at hs
        obtain ⟨k, hk, hget, hloop⟩ := (ih (i + 1)).2 s hs
        refine ⟨k + 1, by simp; omega, by simpa using hget, ?_⟩
        rw [hloop]
        congr 1
        omega

theorem segment_of_lt (m : Joints) (idx : Nat) (s : Segment) (h : m.m_segments[idx]? = some s) :
    m.segment idx = Except.ok s := by
  have hlt : idx < m.m_segments.length := by
    by_contra hge
    rw [List.getElem?_eq_none (by omega)] at h
    exact Option.noConfusion h
  unfold segment
  rw [dif_pos hlt]
  congr 1
  rw [List.getElem?_eq_getElem hlt] at h
  exact Option.some.inj h

theorem segment_of_ge (m : Joints) (idx : Nat) (h : m.m_segments.length ≤ idx) :
    m.segment idx = Except.error "Asked for a wrong segment (out of range)" := by
  unfold segment
  rw [dif_neg (by omega)]

/-- C13: `segment (idx)` throws exactly when `idx ≥ nbSegment ()` and otherwise
returns the segment stored at `idx`; `segment (name)` throws exactly when no
segment has that name and otherwise returns the first segment of the list whose
name is `name` (the number of segments being below `2 ^ 31`, so that an index
fits in the `int` returned by `getBodyBiorbdId`). -/
theorem segment_fails_iff (m : Joints) (idx : Nat) (name : String)
    (hsize : m.nbSegment < 2 ^ 31) :
    ((∃ e, m.segment idx = Except.error e) ↔ m.nbSegment ≤ idx) ∧
    (∀ s, m.segments[idx]? = some s → m.segment idx = Except.ok s) ∧
    ((∃ e, m.segment_name name = Except.error e) ↔ ∀ s ∈ m.segments, s.name ≠ name) ∧
    (∀ s, m.segments.find? (fun s => s.name == name) = some s →
      m.segment_name name = Except.ok s) := by
  have hfound : ∀ s, m.m_segments.find? (fun s => s.name == name) = some s →
      m.segment_name name = Except.ok s := by
    intro s hs
    obtain ⟨k, hk, hget, hloop⟩ := (getBodyBiorbdId_loop_spec name m.m_segments 0).2 s hs
    unfold segment_name getBodyBiorbdId
    rw [hloop, Nat.zero_add, toSizeT_toInt32 k (by unfold nbSegment at hsize; omega)]
    exact segment_of_lt m k s hget
  refine ⟨⟨?_, ?_⟩, fun s hs => segment_of_lt m idx s hs, ⟨?_, ?_⟩, hfound⟩
  · rintro ⟨e, he⟩
    by_contra hlt
    unfold segment at he
    rw [dif_pos (by unfold nbSegment at hlt; omega)] at he
    exact Except.noConfusion he
  · intro hge
    exact ⟨_, segment_of_ge m idx hge⟩
  · rintro ⟨e, he⟩ s hs hname
    cases hfind : m.m_segments.find? (fun s => s.name == name) with
    | none =>
      rw [List.find?_eq_none] at hfind
      exact hfind s hs (by simpa using hname)
    | some s1 =>
      rw [hfound s1 hfind] at he
      exact Except.noConfusion he
  · intro hall
    refine ⟨"Asked for a wrong segment (out of range)", ?_⟩
    unfold segment_name getBodyBiorbdId
    rw [(getBodyBiorbdId_loop_spec name m.m_segments 0).1 hall, toSizeT_neg_one]
    exact segment_of_ge m _ (by unfold nbSegment at hsize; omega)

/-- Witness of C13: the model with one segment named `Pelvis`. -/
theorem segment_fails_iff_witness :
    ((∃ e, Example1.joints.segment 0 = Except.error e) ↔ Example1.joints.nbSegment ≤ 0) ∧
    (∀ s, Example1.joints.segments[0]? = some s → Example1.joints.segment 0 = Except.ok s) ∧
    ((∃ e, Example1.joints.segment_name "Pelvis" = Except.error e)
      ↔ ∀ s ∈ Example1.joints.segments, s.name ≠ "Pelvis") ∧
    (∀ s, Example1.joints.segments.find? (fun s => s.name == "Pelvis") = some s →
      Example1.joints.segment_name "Pelvis" = Except.ok s) :=
  segment_fails_iff Example1.joints 0 "Pelvis" (by decide)

end Joints

namespace Joints

/-! ### The value returned by `AddSegment`, and the root segments -/

/-- C14, evaluated: added to the model that already holds the segment `Pelvis`
(`nbSegment () = 1`), a second segment gets the return value 0 from both
overloads, not the index 1 at which it is stored. -/
theorem AddSegment_second_returns_zero :
    Example1.joints.nbSegment = 1 ∧
    (Example1.joints.AddSegment "Thorax" "Pelvis" ⟨1, 1, 1, 1, 1, false⟩ ⟨1⟩).1
      ≠ Example1.joints.nbSegment ∧
    (Example1.joints.AddSegment_seqR "Thorax" "Pelvis" ⟨0, 1, 1, 1, 1, false⟩ ⟨1⟩).1
      ≠ Example1.joints.nbSegment ∧
    (Example1.joints.AddSegment "Thorax" "Pelvis" ⟨1, 1, 1, 1, 1, false⟩ ⟨1⟩).2.segments[1]?
      = some ⟨"Thorax", "Pelvis", ⟨1, 1, 1, 1, 1, false⟩, ⟨1⟩⟩ := by
  refine ⟨by decide, by decide, by decide, ?_⟩
  have h := (AddSegment_effect Example1.joints "Thorax" "Pelvis" ⟨1, 1, 1, 1, 1, false⟩
    ⟨1⟩).2.2.2.2.2.2
  unfold segments
  rw [h]
  rfl

/-- C14, amended: both overloads of `AddSegment` return 0 in every state of the
model; this is the index of the appended segment exactly when the model held no
segment before the call. -/
theorem AddSegment_returns_zero (m : Joints) (n p : String) (d : SegmentDof)
    (c : SegmentCharacteristics) :
    (m.AddSegment n p d c).1 = 0 ∧ (m.AddSegment_seqR n p d c).1 = 0 ∧
    ((m.AddSegment n p d c).1 = m.nbSegment ↔ m.nbSegment = 0) ∧
    ((m.AddSegment_seqR n p d c).1 = m.nbSegment ↔ m.nbSegment = 0) := by
  have h1 : (m.AddSegment n p d c).1 = 0 := rfl
  have h2 : (m.AddSegment_seqR n p d c).1 = 0 := rfl
  refine ⟨h1, h2, ?_, ?_⟩
  · rw [h1]
    exact eq_comm
  · rw [h2]
    exact eq_comm

/-- The root count after either overload of `AddSegment`, in terms of the
lookup of the parent name that the code performs once the constructor of the
segment has run. -/
theorem AddSegment_nbRoot_lookup (m : Joints) (n p : String) (d : SegmentDof)
    (c : SegmentCharacteristics) :
    (m.AddSegment n p d c).2.nbRoot
      = (if (m.constructSegment n p d c).2.GetBodyId p = UINT_MAX
          then m.nbRoot + d.nbDof else m.nbRoot) ∧
    (m.AddSegment_seqR n p d c).2.nbRoot
      = (if (m.constructSegment n p d c).2.GetBodyId p = UINT_MAX
          then m.nbRoot + d.nbDof else m.nbRoot) := by
  constructor
  · unfold AddSegment
    by_cases h : (m.constructSegment n p d c).2.GetBodyId p = UINT_MAX
    · simp only [h, if_true]
      split <;> rfl
    · simp only [h, if_false]
      split <;> rfl
  · unfold AddSegment_seqR
    by_cases h : (m.constructSegment n p d c).2.GetBodyId p = UINT_MAX
    · simp only [h, if_true]
      rfl
    · simp only [h, if_false]
      rfl

/-- The parent name does not resolve, once the new segment is registered,
exactly when it is neither a registered body name nor the name of the new
segment (with fewer than `UINT_MAX` registered bodies). -/
theorem GetBodyId_constructSegment (m : Joints) (n p : String) (d : SegmentDof)
    (c : SegmentCharacteristics) (hlen : m.mBodyNameMap.length < UINT_MAX) :
    (m.constructSegment n p d c).2.GetBodyId p = UINT_MAX
      ↔ ¬ (p ∈ m.mBodyNameMap ∨ p = n) := by
  unfold GetBodyId constructSegment
  simp only [List.mem_append, List.mem_singleton]
  by_cases h : p ∈ m.mBodyNameMap ∨ p = n
  · rw [if_pos h]
    constructor
    · intro hidx
      have hmem : p ∈ m.mBodyNameMap ++ [n] := by
        simpa [List.mem_append] using h
      have := List.indexOf_lt_length.2 hmem
      rw [List.length_append, List.length_singleton] at this
      omega
    · intro hn
      exact absurd h hn
  · rw [if_neg h]
    exact ⟨fun _ => h, fun _ => rfl⟩

end Joints
namespace Joints

/-- C15, evaluated: on the model that holds the segment `Pelvis`, a segment
added under the parent name `Femur`, which is not a registered body, is
appended all the same: the call returns, and the segment list, the DoF count,
the root count and the total mass have changed. -/
theorem AddSegment_unresolved_parent_appends :
    "Femur" ∉ Example1.joints.mBodyNameMap ∧
    (Example1.joints.AddSegment "Thigh" "Femur" ⟨1, 1, 1, 1, 1, false⟩ ⟨1⟩).2.nbSegment
      ≠ Example1.joints.nbSegment ∧
    (Example1.joints.AddSegment "Thigh" "Femur" ⟨1, 1, 1, 1, 1, false⟩ ⟨1⟩).2.nbDof
      ≠ Example1.joints.nbDof ∧
    (Example1.joints.AddSegment "Thigh" "Femur" ⟨1, 1, 1, 1, 1, false⟩ ⟨1⟩).2.nbRoot
      = Example1.joints.nbRoot + 1 ∧
    (Example1.joints.AddSegment "Thigh" "Femur" ⟨1, 1, 1, 1, 1, false⟩ ⟨1⟩).2.mass
      ≠ Example1.joints.mass := by
  refine ⟨by decide, by decide, by decide, by decide, ?_⟩
  have h := (AddSegment_effect Example1.joints "Thigh" "Femur" ⟨1, 1, 1, 1, 1, false⟩
    ⟨1⟩).2.2.2.2.2.1
  rw [h]
  norm_num

/-- C15, amended: `AddSegment` has no failure of its own. A parent name that is
not the name of a registered body (nor the name of the new segment), whatever
that name is, makes the new segment a root segment: through both overloads the
segment is appended, `nbRoot ()` and `nbDof ()` grow by its number of DoFs and
the total mass by its mass. -/
theorem AddSegment_unresolved_parent_is_root (m : Joints) (n p : String) (d : SegmentDof)
    (c : SegmentCharacteristics) (hp : p ∉ m.mBodyNameMap) (hn : p ≠ n) :
    (m.AddSegment n p d c).2.nbRoot = m.nbRoot + d.nbDof ∧
    (m.AddSegment n p d c).2.nbDof = m.nbDof + d.nbDof ∧
    (m.AddSegment n p d c).2.mass = m.mass + c.mMass ∧
    (m.AddSegment n p d c).2.segments = m.segments ++ [⟨n, p, d, c⟩] ∧
    (m.AddSegment_seqR n p d c).2.nbRoot = m.nbRoot + d.nbDof ∧
    (m.AddSegment_seqR n p d c).2.nbDof = m.nbDof + d.nbDof ∧
    (m.AddSegment_seqR n p d c).2.mass = m.mass + c.mMass ∧
    (m.AddSegment_seqR n p d c).2.segments = m.segments ++ [⟨n, p, d, c⟩] := by
  have hlook : (m.constructSegment n p d c).2.GetBodyId p = UINT_MAX := by
    unfold GetBodyId constructSegment
    rw [if_neg]
    simp only [List.mem_append, List.mem_singleton]
    exact fun h => h.elim hp hn
  have h1 := AddSegment_effect m n p d c
  have h2 := AddSegment_seqR_effect m n p d c
  have h3 := AddSegment_nbRoot_lookup m n p d c
  rw [if_pos hlook] at h3
  exact ⟨h3.1, h1.1, h1.2.2.2.2.2.1, h1.2.2.2.2.2.2, h3.2, h2.1, h2.2.2.2.2.2.1,
    h2.2.2.2.2.2.2⟩

/-- Witness of C15: the segment `Thigh` added under the unregistered parent
name `Femur`. -/
theorem AddSegment_unresolved_parent_is_root_witness :
    (Example1.joints.AddSegment "Thigh" "Femur" ⟨1, 1, 1, 1, 1, false⟩ ⟨1⟩).2.nbRoot
      = Example1.joints.nbRoot + 1 ∧
    (Example1.joints.AddSegment_seqR "Thigh" "Femur" ⟨0, 1, 1, 1, 1, false⟩ ⟨1⟩).2.nbRoot
      = Example1.joints.nbRoot + 1 :=
  ⟨(AddSegment_unresolved_parent_is_root Example1.joints "Thigh" "Femur"
      ⟨1, 1, 1, 1, 1, false⟩ ⟨1⟩ (by decide) (by decide)).1,
    (AddSegment_unresolved_parent_is_root Example1.joints "Thigh" "Femur"
      ⟨0, 1, 1, 1, 1, false⟩ ⟨1⟩ (by decide) (by decide)).2.2.2.2.1⟩

/-- C16: through both overloads of `AddSegment`, `nbRoot ()` grows by the
number of DoFs of the new segment exactly when the parent name does not resolve
to a body (the lookup runs once the new segment is registered, so the
registered names are those before the call and the name of the new segment),
and is unchanged when it resolves; the model holds fewer than `UINT_MAX`
bodies. -/
theorem AddSegment_nbRoot (m : Joints) (n p : String) (d : SegmentDof)
    (c : SegmentCharacteristics) (hlen : m.mBodyNameMap.length < UINT_MAX) :
    (m.AddSegment n p d c).2.nbRoot
      = (if p ∈ m.mBodyNameMap ∨ p = n then m.nbRoot else m.nbRoot + d.nbDof) ∧
    (m.AddSegment_seqR n p d c).2.nbRoot
      = (if p ∈ m.mBodyNameMap ∨ p = n then m.nbRoot else m.nbRoot + d.nbDof) := by
  have h := AddSegment_nbRoot_lookup m n p d c
  have hiff := GetBodyId_constructSegment m n p d c hlen
  by_cases hres : p ∈ m.mBodyNameMap ∨ p = n
  · rw [if_neg (fun hl => (hiff.1 hl) hres)] at h
    rw [if_pos hres]
    exact h
  · rw [if_pos (hiff.2 hres)] at h
    rw [if_neg hres]
    exact h

/-- Witness of C16: on the model that holds `Pelvis`, a segment under the
parent `Pelvis` leaves the root count at 1 and a segment under an unregistered
parent name raises it to 2. -/
theorem AddSegment_nbRoot_witness :
    (Example1.joints.AddSegment "Thorax" "Pelvis" ⟨1, 1, 1, 1, 1, false⟩ ⟨1⟩).2.nbRoot = 1 ∧
    (Example1.joints.AddSegment "Thigh" "Femur" ⟨1, 1, 1, 1, 1, false⟩ ⟨1⟩).2.nbRoot = 2 :=
  ⟨(AddSegment_nbRoot Example1.joints "Thorax" "Pelvis" ⟨1, 1, 1, 1, 1, false⟩ ⟨1⟩
      (by decide)).1,
    (AddSegment_nbRoot Example1.joints "Thigh" "Femur" ⟨1, 1, 1, 1, 1, false⟩ ⟨1⟩
      (by decide)).1⟩

end Joints

/-! ### Centre of mass -/

/-- A loop that accumulates `g i` over the indices below `n`, started at 0. -/
theorem foldl_range_add (g : Nat → Vector3d) (n : Nat) :
    (List.range n).foldl (fun acc i => acc + g i) 0 = ∑ i in Finset.range n, g i := by
  induction n with
  | zero => rfl
  | succ n ih =>
    rw [List.range_succ, List.foldl_append, ih, Finset.sum_range_succ]
    rfl

/-- The sum over the indices, read on the two lists side by side. -/
theorem sum_range_eq_zipWith (segs : List Segment) :
    ∀ coms : List Vector3d, segs.length = coms.length →
      (∑ i in Finset.range coms.length,
          ((segs[i]?).map (fun s => s.characteristics.mMass)).getD 0 • coms.getD i 0)
        = (List.zipWith (fun s c => s.characteristics.mMass • c) segs coms).sum := by
  induction segs with
  | nil =>
    intro coms h
    have : coms = [] := List.length_eq_zero.1 h.symm
    subst this
    rfl
  | cons s segs ih =>
    intro coms h
    cases coms with
    | nil => simp at h
    | cons c coms =>
      have hlen : segs.length = coms.length := by simpa using h
      rw [List.length_cons, Finset.sum_range_succ', List.zipWith_cons_cons, List.sum_cons,
        ← ih coms hlen, add_comm]
      simp

namespace Joints

/-- The loop of `CoMbySegment` over indices that are all below the number of
segments returns, with one position appended per index. -/
theorem CoMbySegment_loop_ok (kin : RbdlKinematics) (m : Joints) (Q : List Scalar) :
    ∀ (idxs : List Nat), (∀ i ∈ idxs, i < m.m_segments.length) →
      ∀ (updateKin : Bool) (md : ModelData) (out : List Vector3d),
        ∃ coms md1, CoMbySegment.loop kin m Q idxs updateKin md out
            = (Except.ok (out ++ coms), md1) ∧ coms.length = idxs.length := by
  intro idxs
  induction idxs with
  | nil =>
    intro _ updateKin md out
    exact ⟨[], md, by simp [CoMbySegment.loop], rfl⟩
  | cons i rest ih =>
    intro hall updateKin md out
    have hi : i < m.m_segments.length := hall i (List.mem_cons_self _ _)
    obtain ⟨coms, md1, hloop, hlen⟩ := ih (fun k hk => hall k (List.mem_cons_of_mem _ hk))
      false (kin.CalcBodyToBaseCoordinates md Q (m.m_segments.get ⟨i, hi⟩) updateKin).2
      (out ++ [(kin.CalcBodyToBaseCoordinates md Q (m.m_segments.get ⟨i, hi⟩) updateKin).1])
    refine ⟨(kin.CalcBodyToBaseCoordinates md Q (m.m_segments.get ⟨i, hi⟩) updateKin).1 :: coms,
      md1, ?_, by simp [hlen]⟩
    unfold CoMbySegment.loop CoMbySegment_idx
    simp only [dif_pos hi]
    rw [hloop, List.append_assoc]
    rfl

/-- `CoMbySegment (Q, updateKin)` never throws: it returns one position per
segment. -/
theorem CoMbySegment_ok (kin : RbdlKinematics) (m : Joints) (md : ModelData)
    (Q : List Scalar) (updateKin : Bool) :
    ∃ coms md1, m.CoMbySegment kin md Q updateKin = (Except.ok coms, md1) ∧
      coms.length = m.nbSegment := by
  obtain ⟨coms, md1, hloop, hlen⟩ := CoMbySegment_loop_ok kin m Q
    (List.range m.m_segments.length) (fun i hi => List.mem_range.1 hi) updateKin md []
  refine ⟨coms, md1, ?_, ?_⟩
  · unfold CoMbySegment
    rw [hloop, List.nil_append]
  · rw [hlen, List.length_range]
    rfl

/-- What `CoM` returns, given what `CoMbySegment` returned. -/
theorem CoM_of_CoMbySegment (kin : RbdlKinematics) (m : Joints) (md : ModelData)
    (Q : List Scalar) (updateKin : Bool) (coms : List Vector3d) (md1 : ModelData)
    (h : m.CoMbySegment kin md Q updateKin = (Except.ok coms, md1))
    (hlen : coms.length = m.nbSegment) :
    m.CoM kin md Q updateKin
      = (Except.ok (fun k =>
          (List.zipWith (fun s c => s.characteristics.mMass • c) m.segments coms).sum k
            / m.mass), md1) := by
  unfold CoM
  rw [h]
  simp only
  rw [foldl_range_add (fun i => m.segmentMass i • coms.getD i 0) coms.length]
  have := sum_range_eq_zipWith m.m_segments coms hlen.symm
  unfold segmentMass
  rw [this]
  rfl

/-- C11: on a model whose total mass is not zero, `CoM (Q)` is the sum, over
the segments, of the mass of the segment times the position that
`CoMbySegment (Q)` returns for it, divided by `mass ()`; so `mass ()` times the
centre of mass is that sum. -/
theorem CoM_eq_weighted_sum (kin : RbdlKinematics) (m : Joints) (md : ModelData)
    (Q : List Scalar) (updateKin : Bool) (hmass : m.mass ≠ 0) :
    ∃ coms md1, m.CoMbySegment kin md Q updateKin = (Except.ok coms, md1) ∧
      coms.length = m.nbSegment ∧
      m.CoM kin md Q updateKin
        = (Except.ok (fun k =>
            (List.zipWith (fun s c => s.characteristics.mMass • c) m.segments coms).sum k
              / m.mass), md1) ∧
      ∀ v, (m.CoM kin md Q updateKin).1 = Except.ok v →
        m.mass • v = (List.zipWith (fun s c => s.characteristics.mMass • c) m.segments coms).sum
    := by
  obtain ⟨coms, md1, h, hlen⟩ := CoMbySegment_ok kin m md Q updateKin
  have hcom := CoM_of_CoMbySegment kin m md Q updateKin coms md1 h hlen
  refine ⟨coms, md1, h, hlen, hcom, ?_⟩
  intro v hv
  rw [hcom] at hv
  have hv1 := Except.ok.inj hv
  rw [← hv1]
  funext k
  simp only [Pi.smul_apply, smul_eq_mul]
  field_simp

end Joints
namespace Example1

theorem joints_mass : joints.mass = 1 := by
  have h := (Joints.AddSegment_effect Joints.new "Pelvis" "root" ⟨1, 1, 1, 1, 1, false⟩
    ⟨1⟩).2.2.2.2.2.1
  unfold joints
  rw [h]
  simp [Joints.mass, Joints.new]

theorem masslessJoints_mass : masslessJoints.mass = 0 := by
  have h := (Joints.AddSegment_effect Joints.new "Pelvis" "root" ⟨1, 1, 1, 1, 1, false⟩
    ⟨0⟩).2.2.2.2.2.1
  unfold masslessJoints
  rw [h]
  simp [Joints.mass, Joints.new]

end Example1

namespace Joints

/-- Witness of C11: the model with the segment `Pelvis` of mass 1. -/
theorem CoM_eq_weighted_sum_witness :
    ∃ coms md1, Example1.joints.CoMbySegment Example1.kinematics Example1.data [0] true
        = (Except.ok coms, md1) ∧
      coms.length = Example1.joints.nbSegment ∧
      Example1.joints.CoM Example1.kinematics Example1.data [0] true
        = (Except.ok (fun k =>
            (List.zipWith (fun s c => s.characteristics.mMass • c)
              Example1.joints.segments coms).sum k / Example1.joints.mass), md1) ∧
      ∀ v, (Example1.joints.CoM Example1.kinematics Example1.data [0] true).1 = Except.ok v →
        Example1.joints.mass • v
          = (List.zipWith (fun s c => s.characteristics.mMass • c)
              Example1.joints.segments coms).sum :=
  CoM_eq_weighted_sum Example1.kinematics Example1.joints Example1.data [0] true
    (by rw [Example1.joints_mass]; exact one_ne_zero)

/-- C12, evaluated: on the model whose only segment has no mass (total mass 0),
`CoM` does not throw: it returns a vector. -/
theorem CoM_zero_mass_returns :
    Example1.masslessJoints.mass = 0 ∧
    ∃ v, (Example1.masslessJoints.CoM Example1.kinematics Example1.data [0] true).1
      = Except.ok v := by
  refine ⟨Example1.masslessJoints_mass, ?_⟩
  obtain ⟨coms, md1, h, hlen⟩ := CoMbySegment_ok Example1.kinematics Example1.masslessJoints
    Example1.data [0] true
  exact ⟨_, congrArg Prod.fst (CoM_of_CoMbySegment Example1.kinematics
    Example1.masslessJoints Example1.data [0] true coms md1 h hlen)⟩

/-- C12, amended: `CoM` makes no check on the total mass and never throws:
whatever `mass ()` is, zero included, it returns the weighted sum of the
positions of the segments divided by `mass ()`. -/
theorem CoM_never_throws (kin : RbdlKinematics) (m : Joints) (md : ModelData)
    (Q : List Scalar) (updateKin : Bool) :
    (∃ v md1, m.CoM kin md Q updateKin = (Except.ok v, md1)) ∧
    ∀ e, (m.CoM kin md Q updateKin).1 ≠ Except.error e := by
  obtain ⟨coms, md1, h, hlen⟩ := CoMbySegment_ok kin m md Q updateKin
  have hcom := CoM_of_CoMbySegment kin m md Q updateKin coms md1 h hlen
  refine ⟨⟨_, md1, hcom⟩, ?_⟩
  intro e he
  rw [hcom] at he
  exact Except.noConfusion he

end Joints

namespace Joints

/-! ### Contact impulses -/

/-- C17: when the constraint set of the model has no contact,
`ComputeConstraintImpulsesDirect (Q, QDotPre)` returns `QDotPre` as it is, and
the members of the model are untouched, for every `Q` and `QDotPre`. -/
theorem ComputeConstraintImpulsesDirect_no_contact {CS : Type} (impulses : RbdlImpulses CS)
    (contacts : Contacts CS) (j : Joints) (md : ModelData) (Q QDotPre : List Scalar)
    (h : contacts.nbContacts contacts.getConstraints = 0) :
    j.ComputeConstraintImpulsesDirect impulses contacts md Q QDotPre = (QDotPre, md) := by
  unfold ComputeConstraintImpulsesDirect
  rw [if_pos h]

/-- Witness of C17: the example model, whose constraint set is empty. -/
theorem ComputeConstraintImpulsesDirect_no_contact_witness :
    Example1.joints.ComputeConstraintImpulsesDirect Example1.impulses Example1.contacts
      Example1.data [0] [7] = ([7], Example1.data) :=
  ComputeConstraintImpulsesDirect_no_contact Example1.impulses Example1.contacts
    Example1.joints Example1.data [0] [7] rfl

end Joints

namespace Joints

/-! ### The model without segment -/

theorem nbSegment_applyCall (m : Joints) (call : BuildCall) :
    m.nbSegment ≤ (m.applyCall call).nbSegment ∧
    (m.nbSegment = 0 → (m.applyCall call).nbSegment = 0 → m.applyCall call = m) := by
  cases call with
  | addSegment n p d c =>
    have h := (AddSegment_effect m n p d c).2.2.2.2.2.2
    have hlen : (m.applyCall (BuildCall.addSegment n p d c)).nbSegment = m.nbSegment + 1 := by
      show (m.AddSegment n p d c).2.m_segments.length = m.m_segments.length + 1
      rw [h, List.length_append, List.length_singleton]
    exact ⟨by omega, fun _ h0 => by omega⟩
  | addSegment_seqR n p d c =>
    have h := (AddSegment_seqR_effect m n p d c).2.2.2.2.2.2
    have hlen : (m.applyCall (BuildCall.addSegment_seqR n p d c)).nbSegment
        = m.nbSegment + 1 := by
      show (m.AddSegment_seqR n p d c).2.m_segments.length = m.m_segments.length + 1
      rw [h, List.length_append, List.length_singleton]
    exact ⟨by omega, fun _ h0 => by omega⟩
  | updateSegmentCharacteristics idx c =>
    by_cases h : idx < m.m_segments.length
    · have hcall : m.applyCall (BuildCall.updateSegmentCharacteristics idx c)
          = { m with m_segments := m.m_segments.modify (·.updateCharacteristics c) idx } := by
        simp only [applyCall, updateSegmentCharacteristics_effect m idx c h]
      rw [hcall]
      refine ⟨?_, fun h0 _ => ?_⟩
      · show m.m_segments.length ≤ (m.m_segments.modify (·.updateCharacteristics c) idx).length
        rw [List.length_modify]
      · unfold nbSegment at h0
        omega
    · have hcall : m.applyCall (BuildCall.updateSegmentCharacteristics idx c) = m := by
        simp [applyCall, updateSegmentCharacteristics, Error.check, h, bind, Except.bind]
      rw [hcall]
      exact ⟨Nat.le_refl _, fun _ _ => rfl⟩

theorem nbSegment_applyCalls_le (calls : List BuildCall) :
    ∀ m : Joints, m.nbSegment ≤ (m.applyCalls calls).nbSegment := by
  induction calls with
  | nil => intro m; exact Nat.le_refl _
  | cons call rest ih =>
    intro m
    show m.nbSegment ≤ ((m.applyCall call).applyCalls rest).nbSegment
    exact Nat.le_trans (nbSegment_applyCall m call).1 (ih (m.applyCall call))

/-- A model built from a fresh one that holds no segment is the fresh model:
no segment was ever added, and every update of characteristics failed. -/
theorem applyCalls_eq_new (calls : List BuildCall) :
    (Joints.new.applyCalls calls).nbSegment = 0 → Joints.new.applyCalls calls = Joints.new := by
  induction calls with
  | nil => intro _; rfl
  | cons call rest ih =>
    intro h0
    have hstep : (Joints.new.applyCall call).nbSegment = 0 := by
      have := nbSegment_applyCalls_le rest (Joints.new.applyCall call)
      have h1 : ((Joints.new.applyCall call).applyCalls rest).nbSegment = 0 := h0
      omega
    have heq : Joints.new.applyCall call = Joints.new :=
      (nbSegment_applyCall Joints.new call).2 rfl hstep
    show (Joints.new.applyCall call).applyCalls rest = Joints.new
    rw [heq]
    apply ih
    have h1 : ((Joints.new.applyCall call).applyCalls rest).nbSegment = 0 := h0
    rw [heq] at h1
    exact h1

end Joints
namespace Joints

/-- C18, evaluated: on the fresh model, which holds no segment,
`ForwardDynamicsFreeFloatingBase` called with empty vectors throws. -/
theorem empty_model_freeFloatingBase_throws :
    Joints.new.nbSegment = 0 ∧
    (Joints.new.ForwardDynamicsFreeFloatingBase Example1.rbdl Example1.solve Model.base
      Example1.data [] [] []).1
      = Except.error "Must have a least one degree of freedom on root." :=
  ⟨rfl, rfl⟩

/-- C18, amended: on a model built without any segment the three sizes are 0,
and called with empty vectors `massMatrix` and `massMatrixInverse` return a
0×0 matrix, `InverseDynamics` and `ForwardDynamics` return an empty vector,
none of them throwing, while `ForwardDynamicsFreeFloatingBase` throws
"Must have a least one degree of freedom on root." and leaves the members of
the model as they were. -/
theorem empty_model_dynamics (calls : List BuildCall) (j : Joints) (rbdl : Rbdl)
    (fd : RbdlForwardDynamics) (llt_solve : LinearSolver) (md : ModelData)
    (updateKin : Bool) (fuel : Nat)
    (hj : j = Joints.new.applyCalls calls) (h0 : j.nbSegment = 0) :
    (j.nbQ = 0 ∧ j.nbQdot = 0 ∧ j.nbQddot = 0) ∧
    ((j.massMatrix rbdl Model.base md [] updateKin).1.rows = 0 ∧
      (j.massMatrix rbdl Model.base md [] updateKin).1.cols = 0) ∧
    (∃ Minv md1, j.massMatrixInverse rbdl Model.base md [] updateKin fuel
        = Except.ok (some (Minv, md1)) ∧ Minv.rows = 0 ∧ Minv.cols = 0) ∧
    (∃ md1, j.InverseDynamics_noForces rbdl Model.base md [] [] [] = Except.ok ([], md1)) ∧
    (∃ md1, j.ForwardDynamics_noForces fd Model.base md [] [] [] = Except.ok ([], md1)) ∧
    j.ForwardDynamicsFreeFloatingBase rbdl llt_solve Model.base md [] [] []
      = (Except.error "Must have a least one degree of freedom on root.", md) := by
  have hnew : j = Joints.new := by
    rw [hj]
    apply applyCalls_eq_new
    rw [← hj]
    exact h0
  subst hnew
  refine ⟨⟨rfl, rfl, rfl⟩, ⟨rfl, rfl⟩, ?_, ⟨_, rfl⟩, ⟨_, rfl⟩, rfl⟩
  cases updateKin
  · exact ⟨_, _, rfl, rfl, rfl⟩
  · exact ⟨_, _, rfl, rfl, rfl⟩

/-- Witness of C18: the fresh model on which an update of the characteristics
of a segment was attempted. -/
theorem empty_model_dynamics_witness :
    (Joints.new.nbQ = 0 ∧ Joints.new.nbQdot = 0 ∧ Joints.new.nbQddot = 0) ∧
    ((Joints.new.massMatrix Example1.rbdl Model.base Example1.data [] true).1.rows = 0 ∧
      (Joints.new.massMatrix Example1.rbdl Model.base Example1.data [] true).1.cols = 0) ∧
    (∃ Minv md1, Joints.new.massMatrixInverse Example1.rbdl Model.base Example1.data [] true 0
        = Except.ok (some (Minv, md1)) ∧ Minv.rows = 0 ∧ Minv.cols = 0) ∧
    (∃ md1, Joints.new.InverseDynamics_noForces Example1.rbdl Model.base Example1.data
        [] [] [] = Except.ok ([], md1)) ∧
    (∃ md1, Joints.new.ForwardDynamics_noForces Example1.forwardDynamics Model.base
        Example1.data [] [] [] = Except.ok ([], md1)) ∧
    Joints.new.ForwardDynamicsFreeFloatingBase Example1.rbdl Example1.solve Model.base
        Example1.data [] [] []
      = (Except.error "Must have a least one degree of freedom on root.", Example1.data) :=
  empty_model_dynamics [BuildCall.updateSegmentCharacteristics 0 ⟨1⟩] Joints.new Example1.rbdl
    Example1.forwardDynamics Example1.solve Example1.data true 0 (by decide) rfl

end Joints

namespace Joints

/-! ### Failed checks and the state of the model -/

theorem UpdateKinematicsCustom_Q (rbdl : Rbdl) (j : Joints) (md : ModelData) (Q : List Scalar) :
    (Q.length = j.nbQ → j.UpdateKinematicsCustom rbdl md (some Q) none none
      = Except.ok (rbdl.UpdateKinematicsCustom md (some Q) none none)) ∧
    (Q.length ≠ j.nbQ → ∃ e, j.UpdateKinematicsCustom rbdl md (some Q) none none
      = Except.error e) := by
  constructor
  · intro h
    simp [UpdateKinematicsCustom, checkGeneralizedDimensions, checkSize, Error.check, h, bind,
      Except.bind, pure, Except.pure]
  · intro h
    refine ⟨"Wrong size for the Generalized Coordiates, " ++ "expected " ++ toString j.nbQ
      ++ " got " ++ toString Q.length, ?_⟩
    simp [UpdateKinematicsCustom, checkGeneralizedDimensions, checkSize, Error.check, h, bind,
      Except.bind]

/-- C19, evaluated: on the example model (`nbQ () = 1`, one marker),
`projectPoint ([5], [], updateKin = true)` throws on the number of points, and
the cached transform of body 1 is no longer the one before the call. -/
theorem projectPoint_failure_changes_kinematics :
    (Example1.joints.projectPoint Example1.rbdlMoving Example1.markers Example1.data [5] []
      true).1 = Except.error "Number of marker must be equal to number of Vector3d" ∧
    (Example1.joints.projectPoint Example1.rbdlMoving Example1.markers Example1.data [5] []
      true).2.X_lambda 1 0 0 ≠ Example1.data.X_lambda 1 0 0 := by
  have h := (UpdateKinematicsCustom_Q Example1.rbdlMoving Example1.joints Example1.data [5]).1
    (by decide)
  have hp : Example1.joints.projectPoint Example1.rbdlMoving Example1.markers Example1.data
      [5] [] true
      = (Except.error "Number of marker must be equal to number of Vector3d",
        Example1.rbdlMoving.UpdateKinematicsCustom Example1.data (some [5]) none none) := by
    unfold projectPoint
    simp only [if_true, h]
    rfl
  rw [hp]
  refine ⟨rfl, ?_⟩
  simp [Example1.rbdlMoving, Example1.data]

/-- C19, amended: a failed check aborts the call where the check stands, and
what the call did before it stays done. `projectPoint (Q, v, updateKin)` with a
number of points that differs from the number of markers throws; with
`updateKin = true` and `Q` of size `nbQ ()` the members of the model are then
those of the kinematics updated to `Q`; with `Q` of another size the dimension
check throws first and the members are unchanged, as they are with
`updateKin = false`. -/
theorem projectPoint_failed_check {N : Type} (rbdl : Rbdl) (marks : Markers N) (j : Joints)
    (md : ModelData) (Q : List Scalar) (v : List N) (hv : marks.nbMarkers ≠ v.length) :
    (Q.length = j.nbQ →
      j.projectPoint rbdl marks md Q v true
        = (Except.error "Number of marker must be equal to number of Vector3d",
          rbdl.UpdateKinematicsCustom md (some Q) none none)) ∧
    (Q.length ≠ j.nbQ → ∃ e, j.projectPoint rbdl marks md Q v true = (Except.error e, md)) ∧
    j.projectPoint rbdl marks md Q v false
      = (Except.error "Number of marker must be equal to number of Vector3d", md) := by
  have hcheck : Error.check (marks.nbMarkers == v.length)
      "Number of marker must be equal to number of Vector3d"
      = Except.error "Number of marker must be equal to number of Vector3d" := by
    simp [Error.check, hv]
  refine ⟨?_, ?_, ?_⟩
  · intro hQ
    unfold projectPoint
    simp only [if_true, (UpdateKinematicsCustom_Q rbdl j md Q).1 hQ, hcheck]
  · intro hQ
    obtain ⟨e, he⟩ := (UpdateKinematicsCustom_Q rbdl j md Q).2 hQ
    refine ⟨e, ?_⟩
    unfold projectPoint
    simp only [if_true, he]
  · unfold projectPoint
    simp only [Bool.false_eq_true, if_false, hcheck]

/-- Witness of C19: the example model with one marker and no point, with a `Q`
of the right size and with a `Q` of size 2. -/
theorem projectPoint_failed_check_witness :
    Example1.joints.projectPoint Example1.rbdlMoving Example1.markers Example1.data [5] []
        true
      = (Except.error "Number of marker must be equal to number of Vector3d",
        Example1.rbdlMoving.UpdateKinematicsCustom Example1.data (some [5]) none none) ∧
    (∃ e, Example1.joints.projectPoint Example1.rbdlMoving Example1.markers Example1.data
      [5, 6] [] true = (Except.error e, Example1.data)) ∧
    Example1.joints.projectPoint Example1.rbdlMoving Example1.markers Example1.data [5] []
        false
      = (Except.error "Number of marker must be equal to number of Vector3d", Example1.data) :=
  ⟨(projectPoint_failed_check Example1.rbdlMoving Example1.markers Example1.joints
      Example1.data [5] [] (by decide)).1 (by decide),
    (projectPoint_failed_check Example1.rbdlMoving Example1.markers Example1.joints
      Example1.data [5, 6] [] (by decide)).2.1 (by decide),
    (projectPoint_failed_check Example1.rbdlMoving Example1.markers Example1.joints
      Example1.data [5] [] (by decide)).2.2⟩

end Joints

namespace Joints

/-! ### Singular linear systems -/

/-- What `ForwardDynamicsFreeFloatingBase` returns when its two checks pass and
the root block exists: the vector the external solver gives for the root block
and the opposite of the first `nbRoot ()` bias torques, whatever the block. -/
theorem ForwardDynamicsFreeFloatingBase_run (rbdl : Rbdl) (llt_solve : LinearSolver)
    (j : Joints) (m : Model) (md : ModelData) (Q QDot QJointsDDot : List Scalar)
    (hsize : QJointsDDot.length + j.nbRoot = j.nbQddot) (hroot : 0 < j.nbRoot)
    (hle : j.nbRoot ≤ j.nbQ) :
    ∃ Mrr, (j.massMatrix rbdl m md Q true).1.block 0 0 j.nbRoot j.nbRoot = some Mrr ∧
      (j.ForwardDynamicsFreeFloatingBase rbdl llt_solve m md Q QDot QJointsDDot).1
        = Except.ok (some (llt_solve Mrr ((((List.range j.nbGeneralizedTorque).map
          (rbdl.InverseDynamics (j.massMatrix rbdl m md Q true).2 Q QDot
            (List.replicate j.nbRoot 0 ++ QJointsDDot)
            (List.replicate m.mBodies_size (fun _ => 0))).1).take j.nbRoot).map
              (fun x => -x)))) := by
  have hblock : (j.massMatrix rbdl m md Q true).1.block 0 0 j.nbRoot j.nbRoot
      = some ⟨j.nbRoot, j.nbRoot, fun a b =>
        (j.massMatrix rbdl m md Q true).1.coeff (0 + a) (0 + b)⟩ := by
    unfold DenseMatrix.block
    rw [if_pos]
    show 0 + j.nbRoot ≤ j.nbQ ∧ 0 + j.nbRoot ≤ j.nbQ
    omega
  refine ⟨_, hblock, ?_⟩
  have hle2 : j.nbRoot ≤ j.nbQddot := by omega
  have hcheck : QJointsDDot.length = sizeSub j.nbQddot j.nbRoot := by
    rw [sizeSub_of_le _ _ hle2]; omega
  have hset1 : setBlock (List.replicate j.nbQddot (0 : Scalar)) 0 (List.replicate j.nbRoot 0)
      = some (List.replicate j.nbRoot 0 ++ List.replicate (j.nbQddot - j.nbRoot) 0) := by
    unfold setBlock
    rw [if_pos (by simp; omega)]
    simp
  have hset2 : setBlock (List.replicate j.nbRoot (0 : Scalar)
        ++ List.replicate (j.nbQddot - j.nbRoot) 0) j.nbRoot QJointsDDot
      = some (List.replicate j.nbRoot 0 ++ QJointsDDot) := by
    unfold setBlock
    rw [if_pos (by simp; omega)]
    have h1 : List.take j.nbRoot (List.replicate j.nbRoot (0 : Scalar)
        ++ List.replicate (j.nbQddot - j.nbRoot) 0) = List.replicate j.nbRoot 0 :=
      List.take_left' (by simp)
    have h2 : List.drop (j.nbRoot + QJointsDDot.length) (List.replicate j.nbRoot (0 : Scalar)
        ++ List.replicate (j.nbQddot - j.nbRoot) 0) = [] := by
      apply List.drop_of_length_le
      simp; omega
    rw [h1, h2, List.append_nil]
  have hID := InverseDynamics_noForces_eq rbdl j m (j.massMatrix rbdl m md Q true).2 Q QDot
    (List.replicate j.nbRoot 0 ++ QJointsDDot)
  have hTaulen : ((List.range j.nbGeneralizedTorque).map
      (rbdl.InverseDynamics (j.massMatrix rbdl m md Q true).2 Q QDot
        (List.replicate j.nbRoot 0 ++ QJointsDDot)
        (List.replicate m.mBodies_size (fun _ => 0))).1).length = j.nbQddot := by
    simp [nbGeneralizedTorque]
  have hb := block_eq_some ((List.range j.nbGeneralizedTorque).map
      (rbdl.InverseDynamics (j.massMatrix rbdl m md Q true).2 Q QDot
        (List.replicate j.nbRoot 0 ++ QJointsDDot)
        (List.replicate m.mBodies_size (fun _ => 0))).1) 0 j.nbRoot (by rw [hTaulen]; omega)
  simp only [ForwardDynamicsFreeFloatingBase, Error.check, hcheck, beq_self_eq_true, if_true,
    gt_iff_lt, hroot, decide_True, ForwardDynamicsFreeFloatingBase.compute, hblock, hset1,
    hset2, hID, hb, List.drop_zero]

/-- What `bodyAngularVelocity` returns when the dimension check of the
kinematics update passes: the vector the QR solver gives. -/
theorem bodyAngularVelocity_run (rbdl : Rbdl) (calcCenterOfMass : RbdlCalcCenterOfMass)
    (alg : SpatialAlgebra) (qr_solve : QrSolver) (j : Joints) (m : Model) (md : ModelData)
    (Q Qdot : List Scalar) (updateKin : Bool) (hQ : updateKin = true → Q.length = j.nbQ) :
    ∃ body_inertia md2,
      j.bodyInertia rbdl alg m (calcCenterOfMass md Q Qdot none updateKin).2 Q updateKin
        = Except.ok (body_inertia, md2) ∧
      j.bodyAngularVelocity rbdl calcCenterOfMass alg qr_solve m md Q Qdot updateKin
        = (Except.ok (qr_solve body_inertia (calcCenterOfMass md Q Qdot none updateKin).1.2.2),
          md2) := by
  have hI : ∃ body_inertia md2,
      j.bodyInertia rbdl alg m (calcCenterOfMass md Q Qdot none updateKin).2 Q updateKin
        = Except.ok (body_inertia, md2) := by
    unfold bodyInertia
    cases updateKin
    · exact ⟨_, _, rfl⟩
    · have h := (UpdateKinematicsCustom_Q rbdl j (calcCenterOfMass md Q Qdot none true).2
        Q).1 (hQ rfl)
      simp only [if_true, h]
      exact ⟨_, _, rfl⟩
  obtain ⟨body_inertia, md2, h⟩ := hI
  refine ⟨body_inertia, md2, h, ?_⟩
  unfold bodyAngularVelocity
  rw [h]

end Joints
namespace Example1

theorem massMatrix_massless_coeff :
    (joints.massMatrix rbdl model dataMassless [0] true).1.coeff 0 0 = 0 := by
  simp [Joints.massMatrix, rbdl, Model.CompositeRigidBodyAlgorithm,
    Model.CompositeRigidBodyAlgorithm.body, Model.CompositeRigidBodyAlgorithm.walk,
    Model.mBodies_size, model, Model.parent, Model.q_index, dataMassless, List.range', setEntry]

theorem bodyInertia_massless :
    joints.bodyInertia rbdl algebra model dataMassless [0] true
      = Except.ok (0, dataMassless) := by
  have hup := (Joints.UpdateKinematicsCustom_Q rbdl joints dataMassless [0]).1 (by decide)
  unfold Joints.bodyInertia
  simp only [if_true, hup]
  have hr : List.range' 1 (model.mBodies_size - 1) = [1] := by decide
  rw [hr]
  simp [Joints.bodyInertia.body, rbdl, dataMassless, algebra, bind, Except.bind, pure,
    Except.pure, Model.parent, model]
  rfl

end Example1

namespace Joints

/-- C20, evaluated: on the example model with a body without inertia the root
block of the mass matrix is the singular 1×1 zero matrix, and
`ForwardDynamicsFreeFloatingBase` returns a vector all the same; the body
inertia is the zero 3×3 matrix, of determinant 0, and `bodyAngularVelocity`
returns a vector all the same. -/
theorem singular_root_block_returns :
    (∃ Mrr x,
      (Example1.joints.massMatrix Example1.rbdl Example1.model Example1.dataMassless [0]
        true).1.block 0 0 Example1.joints.nbRoot Example1.joints.nbRoot = some Mrr ∧
      ¬ Mrr.IsNonsingular ∧
      (Example1.joints.ForwardDynamicsFreeFloatingBase Example1.rbdl Example1.solve
        Example1.model Example1.dataMassless [0] [0] []).1 = Except.ok (some x)) ∧
    (∃ body_inertia md2 w,
      Example1.joints.bodyInertia Example1.rbdl Example1.algebra Example1.model
        Example1.dataMassless [0] true = Except.ok (body_inertia, md2) ∧
      body_inertia.det = 0 ∧
      (Example1.joints.bodyAngularVelocity Example1.rbdl Example1.calcCenterOfMass
        Example1.algebra Example1.qr_solve Example1.model Example1.dataMassless [0] [0]
        true).1 = Except.ok w) := by
  refine ⟨?_, ?_⟩
  swap
  · refine ⟨0, Example1.dataMassless, Example1.qr_solve 0 0, Example1.bodyInertia_massless,
      by simp, ?_⟩
    unfold bodyAngularVelocity
    have hc : (Example1.calcCenterOfMass Example1.dataMassless [0] [0] none true).2
        = Example1.dataMassless := rfl
    rw [hc, Example1.bodyInertia_massless]
    rfl
  obtain ⟨Mrr, hblock, hrun⟩ := ForwardDynamicsFreeFloatingBase_run Example1.rbdl
    Example1.solve Example1.joints Example1.model Example1.dataMassless [0] [0] []
    (by decide) (by decide) (by decide)
  refine ⟨Mrr, _, hblock, ?_, hrun⟩
  have hM : Mrr = ⟨1, 1, fun a b =>
      (Example1.joints.massMatrix Example1.rbdl Example1.model Example1.dataMassless [0]
        true).1.coeff (0 + a) (0 + b)⟩ := by
    unfold DenseMatrix.block at hblock
    rw [if_pos (by decide)] at hblock
    exact (Option.some.inj hblock).symm
  intro hns
  have h := hns [1] (by rw [hM]; rfl)
    (fun i hi => by
      have hi0 : i = 0 := by
        rw [hM] at hi
        have : i < 1 := hi
        omega
      subst hi0
      rw [hM]
      have hr : List.range 1 = [0] := rfl
      simp [DenseMatrix.mulVecAt, hr, Example1.massMatrix_massless_coeff])
    0 (by rw [hM]; decide)
  simp at h

/-- C20, amended: no numeric failure is reported. When its two checks pass,
`ForwardDynamicsFreeFloatingBase` returns the vector that the Cholesky solver
of the backend gives for the root block, singular or not; and
`bodyAngularVelocity` returns the vector that the QR solver gives for the body
inertia, singular or not, the only error it can throw being the dimension error
of the kinematics update. -/
theorem linear_solve_returns (rbdl : Rbdl) (llt_solve : LinearSolver)
    (calcCenterOfMass : RbdlCalcCenterOfMass) (alg : SpatialAlgebra) (qr_solve : QrSolver)
    (j : Joints) (m : Model) (md : ModelData) (Q QDot QJointsDDot : List Scalar)
    (updateKin : Bool)
    (hsize : QJointsDDot.length + j.nbRoot = j.nbQddot) (hroot : 0 < j.nbRoot)
    (hle : j.nbRoot ≤ j.nbQ) (hQ : updateKin = true → Q.length = j.nbQ) :
    (∃ Mrr b, (j.massMatrix rbdl m md Q true).1.block 0 0 j.nbRoot j.nbRoot = some Mrr ∧
      (j.ForwardDynamicsFreeFloatingBase rbdl llt_solve m md Q QDot QJointsDDot).1
        = Except.ok (some (llt_solve Mrr b))) ∧
    (∃ body_inertia angularMomentum md2,
      j.bodyAngularVelocity rbdl calcCenterOfMass alg qr_solve m md Q QDot updateKin
        = (Except.ok (qr_solve body_inertia angularMomentum), md2)) := by
  obtain ⟨Mrr, hblock, hrun⟩ := ForwardDynamicsFreeFloatingBase_run rbdl llt_solve j m md Q
    QDot QJointsDDot hsize hroot hle
  obtain ⟨body_inertia, md2, -, hrun2⟩ := bodyAngularVelocity_run rbdl calcCenterOfMass alg
    qr_solve j m md Q QDot updateKin hQ
  exact ⟨⟨Mrr, _, hblock, hrun⟩, ⟨body_inertia, _, md2, hrun2⟩⟩

/-- Witness of C20: the example model with a body without inertia, whose root
block is singular. -/
theorem linear_solve_returns_witness :
    (∃ Mrr b, (Example1.joints.massMatrix Example1.rbdl Example1.model Example1.dataMassless
        [0] true).1.block 0 0 Example1.joints.nbRoot Example1.joints.nbRoot = some Mrr ∧
      (Example1.joints.ForwardDynamicsFreeFloatingBase Example1.rbdl Example1.solve
        Example1.model Example1.dataMassless [0] [0] []).1
        = Except.ok (some (Example1.solve Mrr b))) ∧
    (∃ body_inertia angularMomentum md2,
      Example1.joints.bodyAngularVelocity Example1.rbdl Example1.calcCenterOfMass
          Example1.algebra Example1.qr_solve Example1.model Example1.dataMassless [0] [0] true
        = (Except.ok (Example1.qr_solve body_inertia angularMomentum), md2)) :=
  linear_solve_returns Example1.rbdl Example1.solve Example1.calcCenterOfMass Example1.algebra
    Example1.qr_solve Example1.joints Example1.model Example1.dataMassless [0] [0] [] true
    (by decide) (by decide) (by decide) (fun _ => by decide)

end Joints

namespace Joints

/-! ### Root coordinates and accelerations -/

/-- The first overload of `AddSegment` keeps `nbRoot () ≤ nbQddot ()` when the
segment has as many accelerations as DoFs: it adds the DoFs of a root segment
to `nbRoot ()` and the accelerations of every segment to `nbQddot ()`. -/
theorem AddSegment_nbRoot_le_nbQddot (m : Joints) (n p : String) (d : SegmentDof)
    (c : SegmentCharacteristics) (hd : d.nbDof = d.nbQddot) (h : m.nbRoot ≤ m.nbQddot) :
    (m.AddSegment n p d c).2.nbRoot ≤ (m.AddSegment n p d c).2.nbQddot := by
  have h1 := (AddSegment_nbRoot_lookup m n p d c).1
  have h2 := (AddSegment_effect m n p d c).2.2.2.1
  rw [h1, h2]
  split <;> omega

/-- C29, evaluated: a root segment with three DoFs and three accelerations
added to a fresh model through the overload that takes only a rotation sequence
gives `nbRoot () = 3` and `nbQddot () = 0`, so `nbRoot () ≤ nbQddot ()` fails
and the subtraction `nbQddot () - nbRoot ()` of
`ForwardDynamicsFreeFloatingBase` wraps around to `2 ^ 64 - 3`; through the
other overload the same segment gives 3 and 3. -/
theorem AddSegment_seqR_nbRoot_exceeds_nbQddot :
    (Joints.new.AddSegment_seqR "Pelvis" "root" ⟨0, 3, 3, 3, 3, false⟩ ⟨1⟩).2.nbRoot = 3 ∧
    (Joints.new.AddSegment_seqR "Pelvis" "root" ⟨0, 3, 3, 3, 3, false⟩ ⟨1⟩).2.nbQddot = 0 ∧
    ¬ ((Joints.new.AddSegment_seqR "Pelvis" "root" ⟨0, 3, 3, 3, 3, false⟩ ⟨1⟩).2.nbRoot
      ≤ (Joints.new.AddSegment_seqR "Pelvis" "root" ⟨0, 3, 3, 3, 3, false⟩ ⟨1⟩).2.nbQddot) ∧
    sizeSub (Joints.new.AddSegment_seqR "Pelvis" "root" ⟨0, 3, 3, 3, 3, false⟩ ⟨1⟩).2.nbQddot
      (Joints.new.AddSegment_seqR "Pelvis" "root" ⟨0, 3, 3, 3, 3, false⟩ ⟨1⟩).2.nbRoot
      = 2 ^ 64 - 3 ∧
    (Joints.new.AddSegment "Pelvis" "root" ⟨0, 3, 3, 3, 3, false⟩ ⟨1⟩).2.nbRoot = 3 ∧
    (Joints.new.AddSegment "Pelvis" "root" ⟨0, 3, 3, 3, 3, false⟩ ⟨1⟩).2.nbQddot = 3 := by
  refine ⟨by decide, by decide, by decide, by decide, by decide, by decide⟩

end Joints

namespace Joints

/-! ### Symmetry of the inverse of the mass matrix -/

theorem passes_Minv (m : Model) (md : ModelData) (subTrees : List (List Nat)) :
    (massMatrixInverse.passes m md subTrees).Minv
      = massMatrixInverse.mirror m.dof_count (massMatrixInverse.recursion m md subTrees).Minv :=
  rfl

/-- What `massMatrixInverse` returns once the kinematics update has passed and
`getDofSubTrees` has returned. -/
theorem massMatrixInverse_run (rbdl : Rbdl) (j : Joints) (m : Model) (md : ModelData)
    (Q : List Scalar) (updateKin : Bool) (fuel : Nat) (subTrees : List (List Nat))
    (hQ : updateKin = true → Q.length = j.nbQ) (hsub : m.getDofSubTrees fuel = some subTrees) :
    j.massMatrixInverse rbdl m md Q updateKin fuel
      = Except.ok (some (⟨m.dof_count, m.dof_count,
          (massMatrixInverse.passes m (j.massMatrix rbdl m md Q updateKin).2 subTrees).Minv⟩,
        { (j.massMatrix rbdl m md Q updateKin).2 with
          IA := (massMatrixInverse.passes m (j.massMatrix rbdl m md Q updateKin).2 subTrees).IA
          U := (massMatrixInverse.passes m (j.massMatrix rbdl m md Q updateKin).2 subTrees).U
          d := (massMatrixInverse.passes m (j.massMatrix rbdl m md Q updateKin).2 subTrees).d }))
    := by
  unfold massMatrixInverse massMatrix
  cases updateKin with
  | false => simp [hsub, bind, Except.bind, pure, Except.pure]
  | true =>
    simp [hsub, bind, Except.bind, pure, Except.pure,
      (UpdateKinematicsCustom_Q rbdl j md Q).1 (hQ rfl)]

/-- C24: on a well-formed tree (recursion bound of at least the number of
bodies, `Q` of size `nbQ ()` when the kinematics is updated),
`massMatrixInverse (Q)` returns a `dof_count`×`dof_count` matrix that is
symmetric, entry `(a, b)` being entry `(b, a)`; its upper triangle is the one
left by the recursion (the three passes) and its lower triangle is the copy of
that upper triangle. -/
theorem massMatrixInverse_symmetric (rbdl : Rbdl) (j : Joints) (m : Model) (md : ModelData)
    (Q : List Scalar) (updateKin : Bool) (fuel : Nat) (hwf : m.WellFormed)
    (hfuel : m.mu.length ≤ fuel) (hQ : updateKin = true → Q.length = j.nbQ) :
    ∃ Minv md1 subTrees, j.massMatrixInverse rbdl m md Q updateKin fuel
        = Except.ok (some (Minv, md1)) ∧
      m.getDofSubTrees fuel = some subTrees ∧
      Minv.rows = m.dof_count ∧ Minv.cols = m.dof_count ∧
      (∀ a b, a < Minv.rows → b < Minv.cols → Minv.coeff a b = Minv.coeff b a) ∧
      (∀ a b, a ≤ b → b < m.dof_count →
        Minv.coeff a b = (massMatrixInverse.recursion m
          (j.massMatrix rbdl m md Q updateKin).2 subTrees).Minv a b ∧
        Minv.coeff b a = (massMatrixInverse.recursion m
          (j.massMatrix rbdl m md Q updateKin).2 subTrees).Minv a b) := by
  obtain ⟨subTrees, hsub, -, -⟩ := Model.getDofSubTrees_eq_depthFirst hwf fuel hfuel
  refine ⟨_, _, subTrees, massMatrixInverse_run rbdl j m md Q updateKin fuel subTrees hQ hsub,
    hsub, rfl, rfl, ?_, ?_⟩
  · intro a b ha hb
    have ha1 : a < m.dof_count := ha
    have hb1 : b < m.dof_count := hb
    show (massMatrixInverse.passes m _ subTrees).Minv a b
      = (massMatrixInverse.passes m _ subTrees).Minv b a
    rw [passes_Minv, mirror_apply, mirror_apply]
    by_cases hab : b < a
    · rw [if_pos ⟨hab, ha1⟩, if_neg (fun h => by omega)]
    · by_cases hba : a < b
      · rw [if_neg (fun h => hab h.1), if_pos ⟨hba, hb1⟩]
      · have : a = b := by omega
        subst this
        rfl
  · intro a b hab hb
    constructor
    · show (massMatrixInverse.passes m _ subTrees).Minv a b = _
      rw [passes_Minv, mirror_apply, if_neg (fun h => by omega)]
    · show (massMatrixInverse.passes m _ subTrees).Minv b a = _
      rw [passes_Minv, mirror_apply]
      by_cases h : a < b
      · rw [if_pos ⟨h, hb⟩]
      · have : a = b := by omega
        subst this
        rw [if_neg (fun h1 => h h1.1)]

/-- Witness of C24: the branching tree with four degrees of freedom. -/
theorem massMatrixInverse_symmetric_witness :
    ∃ Minv md1 subTrees, Example4.joints.massMatrixInverse Example1.rbdl Model.exampleTree
        Example1.data [0, 0, 0, 0] true 5 = Except.ok (some (Minv, md1)) ∧
      Model.exampleTree.getDofSubTrees 5 = some subTrees ∧
      Minv.rows = Model.exampleTree.dof_count ∧ Minv.cols = Model.exampleTree.dof_count ∧
      (∀ a b, a < Minv.rows → b < Minv.cols → Minv.coeff a b = Minv.coeff b a) ∧
      (∀ a b, a ≤ b → b < Model.exampleTree.dof_count →
        Minv.coeff a b = (massMatrixInverse.recursion Model.exampleTree
          (Example4.joints.massMatrix Example1.rbdl Model.exampleTree Example1.data
            [0, 0, 0, 0] true).2 subTrees).Minv a b ∧
        Minv.coeff b a = (massMatrixInverse.recursion Model.exampleTree
          (Example4.joints.massMatrix Example1.rbdl Model.exampleTree Example1.data
            [0, 0, 0, 0] true).2 subTrees).Minv a b) :=
  massMatrixInverse_symmetric Example1.rbdl Example4.joints Model.exampleTree Example1.data
    [0, 0, 0, 0] true 5 Model.exampleTree_wellFormed (by decide) (fun _ => by decide)

end Joints

namespace Model

theorem getDofSubTrees_oneBody (q0 fuel : Nat) :
    (oneBody q0).getDofSubTrees (fuel + 1) = some [[0]] := by
  simp [getDofSubTrees, oneBody, getDofSubTrees.rootLoop, recursiveDofSubTrees,
    recursiveDofSubTrees.childLoop, getDofSubTrees.merge, parent, children, q_index,
    List.range', bind, Option.bind, pure, List.modify, List.range, List.range.loop,
    List.replicate, List.modifyTailIdx, List.modifyHead]

end Model

namespace Joints

theorem passes_oneBody (q0 : Nat) (md : ModelData) :
    (massMatrixInverse.passes (Model.oneBody q0) md [[0]]).Minv 0 0
      = 1 / (md.S 1 ⬝ᵥ (md.I 1 *ᵥ md.S 1)) := by
  rw [passes_Minv, mirror_apply, if_neg (fun h => Nat.lt_irrefl 0 h.1)]
  simp [massMatrixInverse.recursion, massMatrixInverse.backwardBody,
    massMatrixInverse.forwardBody, Model.oneBody, Model.mBodies_size, Model.parent,
    Model.q_index, List.range', setEntry, setAt]

/-- C27: on a model with one movable body, attached to the base by a joint with
one degree of freedom, of motion subspace `S` and rigid-body inertia `I` (those
of the current kinematics) with `Sᵀ I S ≠ 0`, `massMatrixInverse` returns the
1×1 matrix whose entry is `1 / (Sᵀ I S)`, the inverse of `Sᵀ I S`. -/
theorem massMatrixInverse_one_body (rbdl : Rbdl) (j : Joints) (md : ModelData)
    (Q : List Scalar) (updateKin : Bool) (fuel q0 : Nat) (hfuel : 0 < fuel)
    (hQ : updateKin = true → Q.length = j.nbQ)
    (hS : (j.massMatrix rbdl (Model.oneBody q0) md Q updateKin).2.S 1 ⬝ᵥ
      ((j.massMatrix rbdl (Model.oneBody q0) md Q updateKin).2.I 1 *ᵥ
        (j.massMatrix rbdl (Model.oneBody q0) md Q updateKin).2.S 1) ≠ 0) :
    ∃ Minv md1, j.massMatrixInverse rbdl (Model.oneBody q0) md Q updateKin fuel
        = Except.ok (some (Minv, md1)) ∧
      Minv.rows = 1 ∧ Minv.cols = 1 ∧
      Minv.coeff 0 0 = 1 / ((j.massMatrix rbdl (Model.oneBody q0) md Q updateKin).2.S 1 ⬝ᵥ
        ((j.massMatrix rbdl (Model.oneBody q0) md Q updateKin).2.I 1 *ᵥ
          (j.massMatrix rbdl (Model.oneBody q0) md Q updateKin).2.S 1)) ∧
      Minv.coeff 0 0 * ((j.massMatrix rbdl (Model.oneBody q0) md Q updateKin).2.S 1 ⬝ᵥ
        ((j.massMatrix rbdl (Model.oneBody q0) md Q updateKin).2.I 1 *ᵥ
          (j.massMatrix rbdl (Model.oneBody q0) md Q updateKin).2.S 1)) = 1 := by
  obtain ⟨f, rfl⟩ : ∃ f, fuel = f + 1 := ⟨fuel - 1, by omega⟩
  have hrun := massMatrixInverse_run rbdl j (Model.oneBody q0) md Q updateKin (f + 1) [[0]] hQ
    (Model.getDofSubTrees_oneBody q0 f)
  refine ⟨_, _, hrun, rfl, rfl, ?_, ?_⟩
  · exact passes_oneBody q0 _
  · show (massMatrixInverse.passes (Model.oneBody q0) _ [[0]]).Minv 0 0 * _ = 1
    rw [passes_oneBody]
    exact one_div_mul_cancel hS

/-- Witness of C27: the example with the unit motion subspace along the first
axis and the identity inertia, for which `Sᵀ I S = 1`. -/
theorem massMatrixInverse_one_body_witness :
    ∃ Minv md1, Example1.joints.massMatrixInverse Example1.rbdl (Model.oneBody 0)
        Example1.data [0] true 1 = Except.ok (some (Minv, md1)) ∧
      Minv.rows = 1 ∧ Minv.cols = 1 ∧
      Minv.coeff 0 0 = 1 / ((Example1.joints.massMatrix Example1.rbdl (Model.oneBody 0)
          Example1.data [0] true).2.S 1 ⬝ᵥ
        ((Example1.joints.massMatrix Example1.rbdl (Model.oneBody 0)
            Example1.data [0] true).2.I 1 *ᵥ
          (Example1.joints.massMatrix Example1.rbdl (Model.oneBody 0)
            Example1.data [0] true).2.S 1)) ∧
      Minv.coeff 0 0 * ((Example1.joints.massMatrix Example1.rbdl (Model.oneBody 0)
          Example1.data [0] true).2.S 1 ⬝ᵥ
        ((Example1.joints.massMatrix Example1.rbdl (Model.oneBody 0)
            Example1.data [0] true).2.I 1 *ᵥ
          (Example1.joints.massMatrix Example1.rbdl (Model.oneBody 0)
            Example1.data [0] true).2.S 1)) = 1 :=
  massMatrixInverse_one_body Example1.rbdl Example1.joints Example1.data [0] true 1 0
    (by decide) (fun _ => by decide)
    (by simp [Joints.massMatrix, Example1.rbdl, Example1.data])

end Joints

namespace Joints

/-! ### Projection of a list of points -/

/-- The loop of `projectPoint` appends one point per pair it visits, and the
point of `v` itself when the marker of that index has no axis to remove. -/
theorem projectPoint_loop_spec {N : Type} (marks : Markers N) (Q : List Scalar) :
    ∀ (l : List (Nat × N)) (md : ModelData) (out : List N),
      (projectPoint.loop marks Q l md out).1.length = out.length + l.length ∧
      (∀ k, k < out.length → (projectPoint.loop marks Q l md out).1[k]? = out[k]?) ∧
      (∀ k p, l[k]? = some p → marks.nbAxesToRemove (marks.marker p.1) = 0 →
        (projectPoint.loop marks Q l md out).1[out.length + k]? = some p.2) := by
  intro l
  induction l with
  | nil =>
    intro md out
    refine ⟨rfl, fun k _ => rfl, fun k p hp => ?_⟩
    simp at hp
  | cons a rest ih =>
    intro md out
    obtain ⟨i, vi⟩ := a
    by_cases hax : marks.nbAxesToRemove (marks.marker i) ≠ 0
    · have hstep : projectPoint.loop marks Q ((i, vi) :: rest) md out
          = projectPoint.loop marks Q rest
            (marks.marker_projected md Q (marks.applyRT_globalJCS md (marks.marker i) vi)
              false).2
            (out ++ [(marks.marker_projected md Q
              (marks.applyRT_globalJCS md (marks.marker i) vi) false).1]) := by
        rw [projectPoint.loop, if_pos hax]
      rw [hstep]
      obtain ⟨h1, h2, h3⟩ := ih
        (marks.marker_projected md Q (marks.applyRT_globalJCS md (marks.marker i) vi) false).2
        (out ++ [(marks.marker_projected md Q
          (marks.applyRT_globalJCS md (marks.marker i) vi) false).1])
      refine ⟨?_, ?_, ?_⟩
      · rw [h1, List.length_append, List.length_singleton, List.length_cons]
        omega
      · intro k hk
        rw [h2 k (by rw [List.length_append]; omega), List.getElem?_append_left hk]
      · intro k p hp hp0
        cases k with
        | zero =>
          simp only [List.getElem?_cons_zero, Option.some.injEq] at hp
          subst hp
          exact absurd hp0 hax
        | succ k =>
          simp only [List.getElem?_cons_succ] at hp
          have := h3 k p hp hp0
          rw [List.length_append, List.length_singleton] at this
          rw [← this]
          congr 1
          omega
    · have hstep : projectPoint.loop marks Q ((i, vi) :: rest) md out
          = projectPoint.loop marks Q rest md (out ++ [vi]) := by
        rw [projectPoint.loop, if_neg hax]
      rw [hstep]
      obtain ⟨h1, h2, h3⟩ := ih md (out ++ [vi])
      refine ⟨?_, ?_, ?_⟩
      · rw [h1, List.length_append, List.length_singleton, List.length_cons]
        omega
      · intro k hk
        rw [h2 k (by rw [List.length_append]; omega), List.getElem?_append_left hk]
      · intro k p hp hp0
        cases k with
        | zero =>
          simp only [List.getElem?_cons_zero, Option.some.injEq] at hp
          subst hp
          have hlt : out.length < (out ++ [vi]).length := by
            rw [List.length_append, List.length_singleton]
            omega
          rw [Nat.add_zero, h2 out.length hlt]
          simp
        | succ k =>
          simp only [List.getElem?_cons_succ] at hp
          have := h3 k p hp hp0
          rw [List.length_append, List.length_singleton] at this
          rw [← this]
          congr 1
          omega

/-- C22: for a list `v` with as many points as the model has markers,
`projectPoint (Q, v, updateKin)` returns a list of the same length (with `Q` of
size `nbQ ()` when the kinematics is updated) in which the output of every index
whose marker has no axis to remove is the point of `v` of that index; with
another number of points the call throws. -/
theorem projectPoint_unconstrained {N : Type} (rbdl : Rbdl) (marks : Markers N) (j : Joints)
    (md : ModelData) (Q : List Scalar) (v : List N) (updateKin : Bool) :
    (v.length = marks.nbMarkers → (updateKin = true → Q.length = j.nbQ) →
      ∃ out md1, j.projectPoint rbdl marks md Q v updateKin = (Except.ok out, md1) ∧
        out.length = v.length ∧
        ∀ i, i < marks.nbMarkers → marks.nbAxesToRemove (marks.marker i) = 0 →
          out[i]? = v[i]?) ∧
    (v.length ≠ marks.nbMarkers →
      ∃ e md1, j.projectPoint rbdl marks md Q v updateKin = (Except.error e, md1)) := by
  constructor
  · intro hv hQ
    have hup : (if updateKin = true then j.UpdateKinematicsCustom rbdl md (some Q) none none
        else Except.ok md)
        = Except.ok (if updateKin = true then rbdl.UpdateKinematicsCustom md (some Q) none none
          else md) := by
      cases updateKin with
      | false => rfl
      | true => simp only [if_true, (UpdateKinematicsCustom_Q rbdl j md Q).1 (hQ rfl)]
    have hcheck : Error.check (marks.nbMarkers == v.length)
        "Number of marker must be equal to number of Vector3d" = Except.ok () := by
      simp [Error.check, hv]
    obtain ⟨h1, -, h3⟩ := projectPoint_loop_spec marks Q ((List.range marks.nbMarkers).zip v)
      (if updateKin = true then rbdl.UpdateKinematicsCustom md (some Q) none none else md) []
    refine ⟨(projectPoint.loop marks Q ((List.range marks.nbMarkers).zip v)
        (if updateKin = true then rbdl.UpdateKinematicsCustom md (some Q) none none else md)
        []).1,
      (projectPoint.loop marks Q ((List.range marks.nbMarkers).zip v)
        (if updateKin = true then rbdl.UpdateKinematicsCustom md (some Q) none none else md)
        []).2, ?_, ?_, ?_⟩
    · unfold projectPoint
      simp only [hup, hcheck]
    · rw [h1, List.length_nil, Nat.zero_add, List.length_zip, List.length_range, hv,
        Nat.min_self]
    · intro i hi h0
      have hvi : i < v.length := by omega
      have := h3 i (i, v[i]) (by
        rw [List.getElem?_eq_getElem (by
          rw [List.length_zip, List.length_range]; omega)]
        simp) h0
      rw [List.length_nil, Nat.zero_add] at this
      rw [this, List.getElem?_eq_getElem hvi]
  · intro hv
    cases hupd : (if updateKin = true then j.UpdateKinematicsCustom rbdl md (some Q) none none
        else Except.ok md) with
    | error e =>
      refine ⟨e, md, ?_⟩
      unfold projectPoint
      simp only [hupd]
    | ok md1 =>
      have hcheck : Error.check (marks.nbMarkers == v.length)
          "Number of marker must be equal to number of Vector3d"
          = Except.error "Number of marker must be equal to number of Vector3d" := by
        simp [Error.check, Ne.symm hv]
      refine ⟨"Number of marker must be equal to number of Vector3d", md1, ?_⟩
      unfold projectPoint
      simp only [hupd, hcheck]

/-- Witness of C22: the example model with one marker without axis to remove,
with one point and with no point. -/
theorem projectPoint_unconstrained_witness :
    (∃ out md1, Example1.joints.projectPoint Example1.rbdl Example1.markers Example1.data [5]
        [![1, 2, 3]] true = (Except.ok out, md1) ∧
      out.length = [(![1, 2, 3] : Vector3d)].length ∧
      ∀ i, i < Example1.markers.nbMarkers →
        Example1.markers.nbAxesToRemove (Example1.markers.marker i) = 0 →
          out[i]? = [(![1, 2, 3] : Vector3d)][i]?) ∧
    (∃ e md1, Example1.joints.projectPoint Example1.rbdl Example1.markers Example1.data [5]
        [] true = (Except.error e, md1)) :=
  ⟨(projectPoint_unconstrained Example1.rbdl Example1.markers Example1.joints Example1.data
      [5] [![1, 2, 3]] true).1 (by decide) (fun _ => by decide),
    (projectPoint_unconstrained Example1.rbdl Example1.markers Example1.joints Example1.data
      [5] [] true).2 (by decide)⟩

end Joints

namespace Joints

/-! ### The work buffers of `massMatrixInverse` -/

/-- Two states of the passes of `massMatrixInverse` that hold the same `Minv`
and `F`, the same articulated inertia for every movable body, and the same `U`
and `d` for the bodies that satisfy `P`. -/
theorem backwardBody_agree (m : Model) (md md' : ModelData) (subTrees : List (List Nat))
    (hS : md.S = md'.S) (hX : md.X_lambda = md'.X_lambda) (P : Nat → Prop)
    (w w' : MinvWork) (i : Nat) (hi0 : 0 < i) (hiN : i < m.mu.length)
    (hM : w.Minv = w'.Minv) (hF : w.F = w'.F)
    (hIA : ∀ k, 0 < k → k < m.mu.length → w.IA k = w'.IA k)
    (hUd : ∀ k, P k → w.U k = w'.U k ∧ w.d k = w'.d k) :
    (massMatrixInverse.backwardBody m md subTrees w i).Minv
        = (massMatrixInverse.backwardBody m md' subTrees w' i).Minv ∧
      (massMatrixInverse.backwardBody m md subTrees w i).F
        = (massMatrixInverse.backwardBody m md' subTrees w' i).F ∧
      (∀ k, 0 < k → k < m.mu.length →
        (massMatrixInverse.backwardBody m md subTrees w i).IA k
          = (massMatrixInverse.backwardBody m md' subTrees w' i).IA k) ∧
      (∀ k, P k ∨ k = i →
        (massMatrixInverse.backwardBody m md subTrees w i).U k
            = (massMatrixInverse.backwardBody m md' subTrees w' i).U k ∧
          (massMatrixInverse.backwardBody m md subTrees w i).d k
            = (massMatrixInverse.backwardBody m md' subTrees w' i).d k) := by
  obtain ⟨Minv, F, IA, U, d⟩ := w
  obtain ⟨Minv', F', IA', U', d'⟩ := w'
  simp only at hM hF hIA hUd
  subst hM hF
  have hi : IA i = IA' i := hIA i hi0 hiN
  unfold massMatrixInverse.backwardBody
  simp only [← hS, ← hX, ← hi]
  by_cases hl : m.parent i ≠ 0
  · simp only [if_pos hl]
    refine ⟨trivial, trivial, ?_, ?_⟩
    · intro k hk0 hkN
      unfold setAt
      by_cases hk : k = m.parent i
      · simp only [if_pos hk]
        rw [← hk, hIA k hk0 hkN]
      · simp only [if_neg hk]
        exact hIA k hk0 hkN
    · intro k hk
      unfold setAt
      by_cases hki : k = i
      · simp only [if_pos hki, and_self]
      · simp only [if_neg hki]
        exact hUd k (hk.resolve_right hki)
  · simp only [if_neg hl]
    refine ⟨trivial, trivial, hIA, ?_⟩
    intro k hk
    unfold setAt
    by_cases hki : k = i
    · simp only [if_pos hki, and_self]
    · simp only [if_neg hki]
      exact hUd k (hk.resolve_right hki)

theorem backwardFold_agree (m : Model) (md md' : ModelData) (subTrees : List (List Nat))
    (hS : md.S = md'.S) (hX : md.X_lambda = md'.X_lambda) :
    ∀ (l : List Nat) (P : Nat → Prop) (w w' : MinvWork),
      (∀ i ∈ l, 0 < i ∧ i < m.mu.length) →
      w.Minv = w'.Minv → w.F = w'.F →
      (∀ k, 0 < k → k < m.mu.length → w.IA k = w'.IA k) →
      (∀ k, P k → w.U k = w'.U k ∧ w.d k = w'.d k) →
      (l.foldl (massMatrixInverse.backwardBody m md subTrees) w).Minv
          = (l.foldl (massMatrixInverse.backwardBody m md' subTrees) w').Minv ∧
        (l.foldl (massMatrixInverse.backwardBody m md subTrees) w).F
          = (l.foldl (massMatrixInverse.backwardBody m md' subTrees) w').F ∧
        (∀ k, P k ∨ k ∈ l →
          (l.foldl (massMatrixInverse.backwardBody m md subTrees) w).U k
              = (l.foldl (massMatrixInverse.backwardBody m md' subTrees) w').U k ∧
            (l.foldl (massMatrixInverse.backwardBody m md subTrees) w).d k
              = (l.foldl (massMatrixInverse.backwardBody m md' subTrees) w').d k) := by
  intro l
  induction l with
  | nil =>
    intro P w w' _ hM hF _ hUd
    exact ⟨hM, hF, fun k hk => hUd k (hk.resolve_right (List.not_mem_nil k))⟩
  | cons i rest ih =>
    intro P w w' hl hM hF hIA hUd
    obtain ⟨hi0, hiN⟩ := hl i (List.mem_cons_self i rest)
    obtain ⟨h1, h2, h3, h4⟩ := backwardBody_agree m md md' subTrees hS hX P w w' i hi0 hiN
      hM hF hIA hUd
    obtain ⟨g1, g2, g3⟩ := ih (fun k => P k ∨ k = i) _ _
      (fun k hk => hl k (List.mem_cons_of_mem i hk)) h1 h2 h3 h4
    refine ⟨g1, g2, fun k hk => g3 k ?_⟩
    rcases hk with hk | hk
    · exact Or.inl (Or.inl hk)
    · rcases List.mem_cons.1 hk with hk | hk
      · exact Or.inl (Or.inr hk)
      · exact Or.inr hk

theorem forwardFold_agree (m : Model) (md md' : ModelData)
    (hS : md.S = md'.S) (hX : md.X_lambda = md'.X_lambda) :
    ∀ (l : List Nat) (w w' : MinvWork),
      (∀ i ∈ l, 0 < i ∧ i < m.mu.length) →
      w.Minv = w'.Minv → w.F = w'.F →
      (∀ k, 0 < k → k < m.mu.length → w.U k = w'.U k ∧ w.d k = w'.d k) →
      (l.foldl (massMatrixInverse.forwardBody m md) w).Minv
        = (l.foldl (massMatrixInverse.forwardBody m md') w').Minv := by
  intro l
  induction l with
  | nil =>
    intro w w' _ hM _ _
    exact hM
  | cons i rest ih =>
    intro w w' hl hM hF hUd
    obtain ⟨hi0, hiN⟩ := hl i (List.mem_cons_self i rest)
    obtain ⟨Minv, F, IA, U, d⟩ := w
    obtain ⟨Minv', F', IA', U', d'⟩ := w'
    simp only at hM hF hUd
    subst hM hF
    have hU : U i = U' i := (hUd i hi0 hiN).1
    have hd : d i = d' i := (hUd i hi0 hiN).2
    refine ih _ _ (fun k hk => hl k (List.mem_cons_of_mem i hk)) ?_ ?_ ?_
    · unfold massMatrixInverse.forwardBody
      simp only [← hS, ← hX, ← hU, ← hd]
    · unfold massMatrixInverse.forwardBody
      simp only [← hS, ← hX, ← hU, ← hd]
    · intro k hk0 hkN
      exact hUd k hk0 hkN

/-- The matrix computed by the passes of `massMatrixInverse` depends on the
members of the model through `S`, `I` and `X_lambda` only. -/
theorem passes_agree (m : Model) (md md' : ModelData) (subTrees : List (List Nat))
    (hS : md.S = md'.S) (hI : md.I = md'.I) (hX : md.X_lambda = md'.X_lambda) :
    (massMatrixInverse.passes m md subTrees).Minv
      = (massMatrixInverse.passes m md' subTrees).Minv := by
  rw [passes_Minv, passes_Minv]
  suffices h : (massMatrixInverse.recursion m md subTrees).Minv
      = (massMatrixInverse.recursion m md' subTrees).Minv by
    rw [h]
  unfold massMatrixInverse.recursion
  have hmem : ∀ i ∈ List.range' 1 (m.mBodies_size - 1), 0 < i ∧ i < m.mu.length := by
    intro i hi
    rw [List.mem_range'_1] at hi
    unfold Model.mBodies_size at hi
    omega
  obtain ⟨g1, g2, g3⟩ := backwardFold_agree m md md' subTrees hS hX
    (List.range' 1 (m.mBodies_size - 1)).reverse (fun _ => False)
    ⟨fun _ _ => 0, fun _ _ => 0,
      (List.range' 1 (m.mBodies_size - 1)).foldl (fun IA i => setAt IA i (md.I i)) md.IA,
      md.U, md.d⟩
    ⟨fun _ _ => 0, fun _ _ => 0,
      (List.range' 1 (m.mBodies_size - 1)).foldl (fun IA i => setAt IA i (md'.I i)) md'.IA,
      md'.U, md'.d⟩
    (fun i hi => hmem i (List.mem_reverse.1 hi)) rfl rfl
    (fun k hk0 hkN => by
      show (List.range' 1 (m.mBodies_size - 1)).foldl (fun IA i => setAt IA i (md.I i)) md.IA k
        = (List.range' 1 (m.mBodies_size - 1)).foldl (fun IA i => setAt IA i (md'.I i))
          md'.IA k
      rw [firstPass_IA m md k hk0 hkN, firstPass_IA m md' k hk0 hkN, hI])
    (fun k hk => hk.elim)
  exact forwardFold_agree m md md' hS hX _ _ _ hmem g1 g2
    (fun k hk0 hkN => g3 k (Or.inr (List.mem_reverse.2 (by
      rw [List.mem_range'_1]
      unfold Model.mBodies_size
      omega))))

/-- C28: on a well-formed tree (recursion bound of at least the number of
bodies), `massMatrixInverse` called with `updateKin = false` returns a matrix
that does not depend on the contents of the buffers `IA`, `U` and `d` before
the call: the same matrix is returned from the same `S`, `I` and `X_lambda` with
any other buffers, and in particular by a second call made on the members left
by the first one. -/
theorem massMatrixInverse_buffers_irrelevant (rbdl : Rbdl) (j : Joints) (m : Model)
    (md : ModelData) (Q Q1 : List Scalar) (fuel : Nat) (hwf : m.WellFormed)
    (hfuel : m.mu.length ≤ fuel) :
    ∃ Minv md1 md2,
      j.massMatrixInverse rbdl m md Q false fuel = Except.ok (some (Minv, md1)) ∧
      j.massMatrixInverse rbdl m md1 Q1 false fuel = Except.ok (some (Minv, md2)) ∧
      ∀ (IA : Nat → SpatialMatrix) (U : Nat → SpatialVector) (d : Nat → Scalar),
        ∃ md3, j.massMatrixInverse rbdl m ⟨md.S, md.I, md.X_lambda, IA, U, d⟩ Q1 false fuel
          = Except.ok (some (Minv, md3)) := by
  obtain ⟨subTrees, hsub, -, -⟩ := Model.getDofSubTrees_eq_depthFirst hwf fuel hfuel
  have hrun : ∀ (x : ModelData) (q : List Scalar),
      j.massMatrixInverse rbdl m x q false fuel
        = Except.ok (some (⟨m.dof_count, m.dof_count,
            (massMatrixInverse.passes m x subTrees).Minv⟩,
          ⟨x.S, x.I, x.X_lambda, (massMatrixInverse.passes m x subTrees).IA,
            (massMatrixInverse.passes m x subTrees).U,
            (massMatrixInverse.passes m x subTrees).d⟩)) := fun x q =>
    massMatrixInverse_run rbdl j m x q false fuel subTrees (fun h => Bool.noConfusion h) hsub
  have h2 := hrun ⟨md.S, md.I, md.X_lambda, (massMatrixInverse.passes m md subTrees).IA,
    (massMatrixInverse.passes m md subTrees).U, (massMatrixInverse.passes m md subTrees).d⟩ Q1
  rw [passes_agree m ⟨md.S, md.I, md.X_lambda, (massMatrixInverse.passes m md subTrees).IA,
    (massMatrixInverse.passes m md subTrees).U, (massMatrixInverse.passes m md subTrees).d⟩
    md subTrees rfl rfl rfl] at h2
  refine ⟨_, _, _, hrun md Q, h2, ?_⟩
  intro IA U d
  have h3 := hrun ⟨md.S, md.I, md.X_lambda, IA, U, d⟩ Q1
  rw [passes_agree m ⟨md.S, md.I, md.X_lambda, IA, U, d⟩ md subTrees rfl rfl rfl] at h3
  exact ⟨_, h3⟩

/-- Witness of C28: the branching tree with four degrees of freedom. -/
theorem massMatrixInverse_buffers_irrelevant_witness :
    ∃ Minv md1 md2,
      Example4.joints.massMatrixInverse Example1.rbdl Model.exampleTree Example1.data
        [0, 0, 0, 0] false 5 = Except.ok (some (Minv, md1)) ∧
      Example4.joints.massMatrixInverse Example1.rbdl Model.exampleTree md1
        [1, 1, 1, 1] false 5 = Except.ok (some (Minv, md2)) ∧
      ∀ (IA : Nat → SpatialMatrix) (U : Nat → SpatialVector) (d : Nat → Scalar),
        ∃ md3, Example4.joints.massMatrixInverse Example1.rbdl Model.exampleTree
          ⟨Example1.data.S, Example1.data.I, Example1.data.X_lambda, IA, U, d⟩
          [1, 1, 1, 1] false 5 = Except.ok (some (Minv, md3)) :=
  massMatrixInverse_buffers_irrelevant Example1.rbdl Example4.joints Model.exampleTree
    Example1.data [0, 0, 0, 0] [1, 1, 1, 1] 5 Model.exampleTree_wellFormed (by decide)

end Joints

namespace Model

/-! ### Termination of the DoF subtrees -/

theorem bodyDepth_walk {m : Model} (hwf : m.WellFormed) :
    ∀ j, j < m.mu.length → ∀ f, j ≤ f → bodyDepth.walk m f j = m.bodyDepth j := by
  intro j
  induction j using Nat.strong_induction_on with
  | _ j ih =>
    intro hj f hf
    by_cases h0 : j = 0
    · subst h0
      cases f with
      | zero => rfl
      | succ f => simp [bodyDepth.walk, bodyDepth]
    · have hp := hwf.parent_lt j (by omega) hj
      obtain ⟨f1, rfl⟩ : ∃ f1, f = f1 + 1 := ⟨f - 1, by omega⟩
      obtain ⟨j1, hj1⟩ : ∃ j1, j = j1 + 1 := ⟨j - 1, by omega⟩
      have e1 : bodyDepth.walk m (f1 + 1) j = bodyDepth.walk m f1 (m.parent j) + 1 := by
        rw [bodyDepth.walk, if_neg h0]
      have e2 : m.bodyDepth j = bodyDepth.walk m j1 (m.parent j) + 1 := by
        unfold bodyDepth
        rw [hj1, bodyDepth.walk, if_neg (by omega)]
      rw [e1, e2, ih (m.parent j) hp (by omega) f1 (by omega),
        ih (m.parent j) hp (by omega) j1 (by omega)]

/-- A movable body is one step deeper than its parent. -/
theorem bodyDepth_succ {m : Model} (hwf : m.WellFormed) (j : Nat) (hj0 : 0 < j)
    (hj : j < m.mu.length) : m.bodyDepth j = m.bodyDepth (m.parent j) + 1 := by
  have hp := hwf.parent_lt j hj0 hj
  obtain ⟨j1, hj1⟩ : ∃ j1, j = j1 + 1 := ⟨j - 1, by omega⟩
  have e2 : m.bodyDepth j = bodyDepth.walk m j1 (m.parent j) + 1 := by
    unfold bodyDepth
    rw [hj1, bodyDepth.walk, if_neg (by omega)]
  rw [e2, bodyDepth_walk hwf (m.parent j) (by omega) j1 (by omega)]

theorem le_foldl_max (l : List Nat) : ∀ (a : Nat), a ≤ l.foldl max a ∧
    ∀ x ∈ l, x ≤ l.foldl max a := by
  induction l with
  | nil => intro a; exact ⟨Nat.le_refl a, fun x hx => absurd hx (List.not_mem_nil x)⟩
  | cons b rest ih =>
    intro a
    obtain ⟨h1, h2⟩ := ih (max a b)
    refine ⟨Nat.le_trans (Nat.le_max_left a b) h1, fun x hx => ?_⟩
    rcases List.mem_cons.1 hx with hx | hx
    · rw [hx]
      exact Nat.le_trans (Nat.le_max_right a b) h1
    · exact h2 x hx

theorem bodyDepth_le_treeDepth (m : Model) (j : Nat) (hj : j < m.mu.length) :
    m.bodyDepth j ≤ m.treeDepth :=
  (le_foldl_max _ 0).2 _ (List.mem_map.2 ⟨j, List.mem_range.2 hj, rfl⟩)

theorem childLoop_some (recurse : List (List Nat) → Nat → Option (List (List Nat)))
    (idx : Nat) : ∀ (cs : List Nat) (sf : List (List Nat)),
      (∀ c ∈ cs, ∀ st, ∃ r, recurse st c = some r ∧ r.length = st.length) →
      ∃ r, recursiveDofSubTrees.childLoop recurse idx cs sf = some r ∧ r.length = sf.length := by
  intro cs
  induction cs with
  | nil => intro sf _; exact ⟨sf, rfl, rfl⟩
  | cons c rest ih =>
    intro sf h
    obtain ⟨filled, hf, hlen⟩ := h c (List.mem_cons_self c rest) sf
    obtain ⟨r, hr, hrlen⟩ := ih (filled.modify (· ++ filled.getD c []) idx)
      (fun c1 hc1 => h c1 (List.mem_cons_of_mem c hc1))
    refine ⟨r, ?_, ?_⟩
    · rw [recursiveDofSubTrees.childLoop]
      simp only [hf, bind, Option.bind]
      exact hr
    · rw [hrlen, List.length_modify, hlen]

/-- The recursion `recursiveDofSubTrees` returns as soon as its bound covers
the levels of the tree from the body it starts at down to the deepest body. -/
theorem recursiveDofSubTrees_some {m : Model} (hwf : m.WellFormed) :
    ∀ (fuel idx : Nat) (st : List (List Nat)), 0 < idx → idx < m.mu.length →
      m.treeDepth < m.bodyDepth idx + fuel →
      ∃ r, m.recursiveDofSubTrees fuel st idx = some r ∧ r.length = st.length := by
  intro fuel
  induction fuel with
  | zero =>
    intro idx st _ hidx h
    have := bodyDepth_le_treeDepth m idx hidx
    omega
  | succ fuel ih =>
    intro idx st hidx0 hidx h
    rw [recursiveDofSubTrees]
    obtain ⟨r, hr, hlen⟩ := childLoop_some (m.recursiveDofSubTrees fuel) idx (m.children idx)
      (st.modify (· ++ [m.q_index idx]) idx)
      (fun c hc st1 => by
        obtain ⟨-, hcN, hc0, hpc⟩ := child_gt hwf hidx hc
        apply ih c st1 hc0 hcN
        rw [bodyDepth_succ hwf c hc0 hcN, hpc]
        omega)
    exact ⟨r, hr, by rw [hlen, List.length_modify]⟩

theorem rootLoop_some (m : Model) (fuel : Nat) : ∀ (roots : List Nat) (st : List (List Nat)),
    st.length = m.mu.length →
    (∀ r ∈ roots, ∀ st1, ∃ x, m.recursiveDofSubTrees fuel st1 r = some x ∧
      x.length = st1.length) →
    ∃ st1, getDofSubTrees.rootLoop m fuel roots st = some st1 ∧ st1.length = m.mu.length := by
  intro roots
  induction roots with
  | nil => intro st hst _; exact ⟨st, rfl, hst⟩
  | cons r rest ih =>
    intro st hst h
    obtain ⟨x, hx, -⟩ := h r (List.mem_cons_self r rest) (List.replicate m.mu.length [])
    obtain ⟨st1, h1, hlen⟩ := ih
      (getDofSubTrees.merge st x (List.replicate m.mu.length ([] : List Nat)).length)
      (by rw [(merge_spec st x _ (by rw [hst, List.length_replicate])).1,
        List.length_replicate])
      (fun r1 hr1 => h r1 (List.mem_cons_of_mem r hr1))
    refine ⟨st1, ?_, hlen⟩
    rw [getDofSubTrees.rootLoop]
    simp only [hx, bind, Option.bind]
    exact h1

/-- C25: on a model whose bodies form a finite tree (every movable body has a
parent of smaller id), `getDofSubTrees` with its helper `recursiveDofSubTrees`
terminates with a recursion depth of at most the depth of the tree: a bound of
that many nested calls is enough for it to return, and it returns exactly
`mu.size () - 1` lists. -/
theorem getDofSubTrees_terminates (m : Model) (hwf : m.WellFormed) (fuel : Nat)
    (hfuel : m.treeDepth ≤ fuel) :
    ∃ subTrees, m.getDofSubTrees fuel = some subTrees ∧
      subTrees.length = m.mu.length - 1 := by
  obtain ⟨st1, h1, hlen⟩ := rootLoop_some m fuel
    ((List.range' 1 (m.mu.length - 1)).filter (fun i => m.parent i = 0))
    (List.replicate m.mu.length []) (List.length_replicate _ _)
    (fun r hr st1 => by
      rw [List.mem_filter, List.mem_range'_1] at hr
      have hr0 : 0 < r := by omega
      have hrN : r < m.mu.length := by omega
      apply recursiveDofSubTrees_some hwf fuel r st1 hr0 hrN
      have := bodyDepth_succ hwf r hr0 hrN
      omega)
  refine ⟨st1.tail, ?_, by rw [List.length_tail, hlen]⟩
  unfold getDofSubTrees
  simp only [h1, bind, Option.bind, pure]

/-- Witness of C25: the branching tree with four movable bodies has depth 3;
three nested calls are enough, and two are not. -/
theorem getDofSubTrees_terminates_witness :
    exampleTree.treeDepth = 3 ∧ exampleTree.getDofSubTrees 2 = none ∧
    ∃ subTrees, exampleTree.getDofSubTrees 3 = some subTrees ∧
      subTrees.length = exampleTree.mu.length - 1 :=
  ⟨by decide, by decide,
    getDofSubTrees_terminates exampleTree exampleTree_wellFormed 3 (by decide)⟩

end Model

namespace Model

theorem sphericalChain_wellFormed : sphericalChain.WellFormed where
  size_eq := by decide
  size_pos := by decide
  parent_base := by decide
  parent_lt := by
    intro i h0 hi
    have hi3 : i < 3 := hi
    interval_cases i <;> decide
  mem_children := by
    intro i c hi
    have hi3 : i < 3 := hi
    interval_cases i
    · show c ∈ [1] ↔ _
      constructor
      · intro h
        rw [List.mem_singleton] at h
        subst h
        decide
      · rintro ⟨h0, hc, hp⟩
        have hc3 : c < 3 := hc
        interval_cases c
        · exact List.mem_singleton.2 rfl
        · exact absurd hp (by decide)
    · show c ∈ [2] ↔ _
      constructor
      · intro h
        rw [List.mem_singleton] at h
        subst h
        decide
      · rintro ⟨h0, hc, hp⟩
        have hc3 : c < 3 := hc
        interval_cases c
        · exact absurd hp (by decide)
        · exact List.mem_singleton.2 rfl
    · show c ∈ [] ↔ _
      constructor
      · intro h
        exact absurd h (List.not_mem_nil c)
      · rintro ⟨h0, hc, hp⟩
        have hc3 : c < 3 := hc
        interval_cases c <;> exact absurd hp (by decide)
  nodup_children := by
    intro i hi
    have hi3 : i < 3 := hi
    interval_cases i <;> decide

end Model

namespace Joints

/-! ### The subtree lists read by the backward pass -/

/-- C26, evaluated: on the chain whose first joint has three degrees of freedom
`getDofSubTrees` returns the two lists `[0, 3]` and `[3]`; body 2, whose subtree
is itself with coordinate index 3, reads the list of index 3, past the end of
the two lists, and not its own list `[3]`, which is stored at index 1. -/
theorem sub_tree_multiDof :
    Model.sphericalChain.WellFormed ∧
    Model.sphericalChain.getDofSubTrees 3 = some [[0, 3], [3]] ∧
    Model.sphericalChain.q_index 2 = 3 ∧
    (∀ b, Model.sphericalChain.IsInSubtree 2 b → b < 3 → b = 2) ∧
    massMatrixInverse.sub_tree Model.sphericalChain [[0, 3], [3]] 2 = [] ∧
    massMatrixInverse.sub_tree Model.sphericalChain [[0, 3], [3]] 2
      ≠ [Model.sphericalChain.q_index 2] := by
  refine ⟨Model.sphericalChain_wellFormed, by decide, by decide, ?_, by decide, by decide⟩
  intro b hsub hb
  have := Model.IsInSubtree.le Model.sphericalChain_wellFormed hsub
  omega

/-- C26, amended: on a well-formed tree whose joints each carry one degree of
freedom (body `i` moves coordinate `i - 1`), the list
`subTrees[mJoints[i].q_index]` over which the backward pass of
`massMatrixInverse` iterates for a movable body `i` holds, each once, the
coordinate indices of exactly the bodies of the subtree of `i`. -/
theorem sub_tree_is_subtree (m : Model) (hwf : m.WellFormed) (hq : m.SingleDofJoints)
    (fuel : Nat) (hfuel : m.mu.length ≤ fuel) :
    ∃ subTrees, m.getDofSubTrees fuel = some subTrees ∧
      ∀ i, 0 < i → i < m.mBodies_size →
        (massMatrixInverse.sub_tree m subTrees i).Nodup ∧
        ∀ q, q ∈ massMatrixInverse.sub_tree m subTrees i ↔
          ∃ b, m.IsInSubtree i b ∧ m.q_index b = q := by
  obtain ⟨subTrees, hsub, -, hdf⟩ := Model.getDofSubTrees_eq_depthFirst hwf fuel hfuel
  refine ⟨subTrees, hsub, ?_⟩
  intro i hi0 hiN
  have hiN1 : i < m.mu.length := hiN
  have hlist : massMatrixInverse.sub_tree m subTrees i = m.depthFirst m.mu.length i := by
    unfold massMatrixInverse.sub_tree
    rw [hq.q_index_eq i hi0 hiN1]
    exact hdf i hi0 hiN1
  rw [hlist]
  refine ⟨Model.nodup_depthFirst hwf hq i hiN1 hi0, fun q => ?_⟩
  rw [Model.mem_depthFirst hwf hq i hiN1 hi0 q]
  constructor
  · intro h
    have hN := Model.IsInSubtree.lt_size hwf hi0 hiN1 h
    exact ⟨q + 1, h, by rw [hq.q_index_eq (q + 1) (by omega) hN]; rfl⟩
  · rintro ⟨b, hb, hqb⟩
    have hN := Model.IsInSubtree.lt_size hwf hi0 hiN1 hb
    have hle := Model.IsInSubtree.le hwf hb
    rw [hq.q_index_eq b (by omega) hN] at hqb
    have : q + 1 = b := by omega
    rw [this]
    exact hb

/-- Witness of C26: the branching tree with four degrees of freedom. -/
theorem sub_tree_is_subtree_witness :
    ∃ subTrees, Model.exampleTree.getDofSubTrees 5 = some subTrees ∧
      ∀ i, 0 < i → i < Model.exampleTree.mBodies_size →
        (massMatrixInverse.sub_tree Model.exampleTree subTrees i).Nodup ∧
        ∀ q, q ∈ massMatrixInverse.sub_tree Model.exampleTree subTrees i ↔
          ∃ b, Model.exampleTree.IsInSubtree i b ∧ Model.exampleTree.q_index b = q :=
  sub_tree_is_subtree Model.exampleTree Model.exampleTree_wellFormed
    Example4.exampleTree_singleDofJoints 5 (by decide)

end Joints

namespace muscles

namespace StaticOptimization

/-! ### Static optimization: the solutions after `run` -/

/-- One pass of the loop of `run`: for a frame `i` whose data are present, with
the problems stored so far in frame order and either `i` problems stored or at
least one per frame, the step returns, keeps the frames and the flag, stores
one more problem and keeps the frame order. -/
theorem run_step_spec (app : IpoptApplication) (lin : Bool) (s : StaticOptimization) (i : Nat)
    (hi : i < s.m_allQ.length) (hQdot : s.m_allQ.length ≤ s.m_allQdot.length)
    (hTau : s.m_allQ.length ≤ s.m_allTauTarget.length)
    (hlen : s.m_staticOptimProblem.length = i ∨ s.m_allQ.length ≤ s.m_staticOptimProblem.length)
    (hord : s.FramesInOrder) :
    ∃ s1, run.step app lin s i = some s1 ∧ s1.m_allQ = s.m_allQ ∧
      s1.m_allQdot = s.m_allQdot ∧ s1.m_allTauTarget = s.m_allTauTarget ∧
      s1.m_alreadyRun = s.m_alreadyRun ∧
      s1.m_staticOptimProblem.length = s.m_staticOptimProblem.length + 1 ∧
      s1.FramesInOrder := by
  have h1 : s.m_allQ[i]? = some s.m_allQ[i] := List.getElem?_eq_getElem hi
  have hi2 : i < s.m_allQdot.length := by omega
  have hi3 : i < s.m_allTauTarget.length := by omega
  have h2 : s.m_allQdot[i]? = some s.m_allQdot[i] := List.getElem?_eq_getElem hi2
  have h3 : s.m_allTauTarget[i]? = some s.m_allTauTarget[i] := List.getElem?_eq_getElem hi3
  obtain ⟨problems, hproblems⟩ : ∃ P, P = s.m_staticOptimProblem ++
      [(⟨s.m_allQ[i], s.m_allQdot[i], s.m_allTauTarget[i], s.m_initialActivationGuess, lin,
        app.initialSolution⟩ : StaticOptimizationIpopt)] := ⟨_, rfl⟩
  have hplen : problems.length = s.m_staticOptimProblem.length + 1 := by
    rw [hproblems, List.length_append, List.length_singleton]
  have hil : i < problems.length := by omega
  have h4 : problems[i]? = some problems[i] := List.getElem?_eq_getElem hil
  have hframe : ∀ k q, k < s.m_allQ.length → problems[k]? = some q →
      s.m_allQ[k]? = some q.Q ∧ s.m_allQdot[k]? = some q.Qdot ∧
        s.m_allTauTarget[k]? = some q.tauTarget := by
    intro k q hk hq
    by_cases hkl : k < s.m_staticOptimProblem.length
    · rw [hproblems, List.getElem?_append_left hkl] at hq
      exact hord k q hk hq
    · have hkeq : k = s.m_staticOptimProblem.length := by
        have := (List.getElem?_eq_some.1 hq).1
        omega
      have hlen1 : s.m_staticOptimProblem.length = i := by omega
      rw [hproblems, hkeq, List.getElem?_concat_length] at hq
      have hq1 := Option.some.inj hq
      rw [hkeq, hlen1, ← hq1]
      exact ⟨h1, h2, h3⟩
  refine ⟨⟨s.m_allQ, s.m_allQdot, s.m_allTauTarget, app.OptimizeTNLP problems[i],
    problems.set i ⟨problems[i].Q, problems[i].Qdot, problems[i].tauTarget,
      problems[i].activationInit, problems[i].linearized, app.OptimizeTNLP problems[i]⟩,
    s.m_alreadyRun⟩, ?_, rfl, rfl, rfl, rfl, ?_, ?_⟩
  · unfold run.step
    simp only [h1, h2, h3, bind, Option.bind, pure, ← hproblems, h4]
  · simp only [List.length_set, hplen]
  · intro k p hk hp
    simp only at hk hp
    by_cases hki : i = k
    · subst hki
      rw [List.getElem?_set_self hil] at hp
      have hp1 := Option.some.inj hp
      rw [← hp1]
      exact hframe i problems[i] hk h4
    · rw [List.getElem?_set_ne hki] at hp
      exact hframe k p hk hp

theorem run_loop_spec (app : IpoptApplication) (lin : Bool) :
    ∀ (cnt k : Nat) (s : StaticOptimization), k + cnt = s.m_allQ.length →
      s.m_allQ.length ≤ s.m_allQdot.length → s.m_allQ.length ≤ s.m_allTauTarget.length →
      (s.m_staticOptimProblem.length = k ∨ s.m_allQ.length ≤ s.m_staticOptimProblem.length) →
      s.FramesInOrder →
      ∃ s1, (List.range' k cnt).foldlM (run.step app lin) s = some s1 ∧
        s1.m_allQ = s.m_allQ ∧ s1.m_allQdot = s.m_allQdot ∧
        s1.m_allTauTarget = s.m_allTauTarget ∧ s1.m_alreadyRun = s.m_alreadyRun ∧
        s.m_allQ.length ≤ s1.m_staticOptimProblem.length ∧ s1.FramesInOrder := by
  intro cnt
  induction cnt with
  | zero =>
    intro k s hk _ _ hlen hord
    exact ⟨s, rfl, rfl, rfl, rfl, rfl, by omega, hord⟩
  | succ cnt ih =>
    intro k s hk hQdot hTau hlen hord
    obtain ⟨s1, hs1, e1, e2, e3, e4, e5, hord1⟩ := run_step_spec app lin s k (by omega) hQdot
      hTau hlen hord
    obtain ⟨s2, hs2, f1, f2, f3, f4, f5, hord2⟩ := ih (k + 1) s1 (by rw [e1]; omega)
      (by rw [e1, e2]; exact hQdot) (by rw [e1, e3]; exact hTau)
      (by rw [e1, e5]; omega) hord1
    refine ⟨s2, ?_, f1.trans e1, f2.trans e2, f3.trans e3, f4.trans e4, ?_, hord2⟩
    · rw [List.range', List.foldlM_cons]
      simp only [hs1, bind, Option.bind]
      exact hs2
    · rw [← e1]
      exact f5

/-- What `run` does: it throws when the optimizer fails to initialize; when the
optimizer initializes it completes, keeps the frames, sets the flag and leaves
at least one problem per frame, in frame order. -/
theorem run_spec (app : IpoptApplication) (lin : Bool) (s : StaticOptimization)
    (hQdot : s.m_allQ.length ≤ s.m_allQdot.length)
    (hTau : s.m_allQ.length ≤ s.m_allTauTarget.length)
    (hlen : s.m_staticOptimProblem = [] ∨ s.m_allQ.length ≤ s.m_staticOptimProblem.length)
    (hord : s.FramesInOrder) :
    (app.Initialize = false → s.run app lin = Except.error "Ipopt initialization failed") ∧
    (app.Initialize = true → ∃ s1, s.run app lin = Except.ok (some s1) ∧
      s1.m_allQ = s.m_allQ ∧ s1.m_allQdot = s.m_allQdot ∧
      s1.m_allTauTarget = s.m_allTauTarget ∧ s1.m_alreadyRun = true ∧
      s.m_allQ.length ≤ s1.m_staticOptimProblem.length ∧ s1.FramesInOrder) := by
  constructor
  · intro h
    simp [run, Error.error, h, bind, Except.bind]
  · intro h
    obtain ⟨s1, hs1, e1, e2, e3, -, e5, hord1⟩ := run_loop_spec app lin s.m_allQ.length 0 s
      (by omega) hQdot hTau
      (hlen.elim (fun h0 => Or.inl (by rw [h0]; rfl)) Or.inr) hord
    refine ⟨{ s1 with m_alreadyRun := true }, ?_, e1, e2, e3, rfl, e5, hord1⟩
    simp [run, Error.error, h, bind, Except.bind, pure, Except.pure, List.range_eq_range', hs1]

theorem history_spec : ∀ (calls : List (IpoptApplication × Bool)) (s : StaticOptimization),
    s.m_allQ.length ≤ s.m_allQdot.length → s.m_allQ.length ≤ s.m_allTauTarget.length →
    (s.m_staticOptimProblem = [] ∨ s.m_allQ.length ≤ s.m_staticOptimProblem.length) →
    (s.m_alreadyRun = true → s.m_allQ.length ≤ s.m_staticOptimProblem.length) →
    s.FramesInOrder →
    ∃ s1 c, s.history calls = some (s1, c) ∧ s1.m_allQ = s.m_allQ ∧
      s1.m_allQdot = s.m_allQdot ∧ s1.m_allTauTarget = s.m_allTauTarget ∧
      s1.m_alreadyRun = (s.m_alreadyRun || c) ∧
      (s1.m_alreadyRun = true → s.m_allQ.length ≤ s1.m_staticOptimProblem.length) ∧
      s1.FramesInOrder := by
  intro calls
  induction calls with
  | nil =>
    intro s _ _ _ hrun hord
    exact ⟨s, false, rfl, rfl, rfl, rfl, by simp, hrun, hord⟩
  | cons call rest ih =>
    intro s hQdot hTau hlen hrun hord
    obtain ⟨app, lin⟩ := call
    obtain ⟨hfail, hok⟩ := run_spec app lin s hQdot hTau hlen hord
    cases hinit : app.Initialize with
    | false =>
      obtain ⟨s1, c, h1, e1, e2, e3, e4, e5, hord1⟩ := ih s hQdot hTau hlen hrun hord
      refine ⟨s1, c, ?_, e1, e2, e3, e4, e5, hord1⟩
      rw [history, hfail hinit]
      exact h1
    | true =>
      obtain ⟨s1, hs1, e1, e2, e3, e4, e5, hord1⟩ := hok hinit
      obtain ⟨s2, c, h2, f1, f2, f3, f4, f5, hord2⟩ := ih s1 (by rw [e1, e2]; exact hQdot)
        (by rw [e1, e3]; exact hTau) (Or.inr (by rw [e1]; exact e5))
        (fun _ => by rw [e1]; exact e5) hord1
      refine ⟨s2, true, ?_, f1.trans e1, f2.trans e2, f3.trans e3, ?_, ?_, hord2⟩
      · rw [history, hs1]
        simp only [h2, Option.map]
      · rw [f4, e4]
        simp
      · intro h
        rw [← e1]
        exact f5 h

theorem finalSolution_loop_spec (s : StaticOptimization) :
    ∀ (l : List Nat) (res : List (List Scalar)),
      (∀ i ∈ l, i < s.m_staticOptimProblem.length) →
      ∃ out, finalSolution.loop s l res = some out ∧ out.length = res.length + l.length ∧
        (∀ k, k < res.length → out[k]? = res[k]?) ∧
        ∀ k i, l[k]? = some i →
          out[res.length + k]? = (s.m_staticOptimProblem[i]?).map (fun p => p.m_finalSolution)
    := by
  intro l
  induction l with
  | nil =>
    intro res _
    exact ⟨res, rfl, rfl, fun _ _ => rfl, fun k i h => by simp at h⟩
  | cons i rest ih =>
    intro res h
    have hi := h i (List.mem_cons_self i rest)
    obtain ⟨out, h1, h2, h3, h4⟩ := ih (res ++ [s.m_staticOptimProblem[i].m_finalSolution])
      (fun k hk => h k (List.mem_cons_of_mem i hk))
    refine ⟨out, ?_, ?_, ?_, ?_⟩
    · rw [finalSolution.loop, List.getElem?_eq_getElem hi]
      exact h1
    · rw [h2, List.length_append, List.length_singleton, List.length_cons]
      omega
    · intro k hk
      rw [h3 k (by rw [List.length_append]; omega), List.getElem?_append_left hk]
    · intro k j hj
      cases k with
      | zero =>
        simp only [List.getElem?_cons_zero, Option.some.injEq] at hj
        subst hj
        have hlt : res.length < (res ++ [s.m_staticOptimProblem[i].m_finalSolution]).length := by
          rw [List.length_append, List.length_singleton]
          omega
        rw [Nat.add_zero, h3 res.length hlt, List.getElem?_concat_length,
          List.getElem?_eq_getElem hi]
        rfl
      | succ k =>
        simp only [List.getElem?_cons_succ] at hj
        have := h4 k j hj
        rw [List.length_append, List.length_singleton] at this
        rw [← this]
        congr 1
        omega

/-- C30: on an object as the constructors leave it (flag cleared, no problem
stored; each frame with its velocities and torques), after any sequence of
calls of `run`, `finalSolution ()` and `finalSolution (index)` throw exactly
when none of these calls has completed; once a call has completed,
`finalSolution ()` returns one vector per frame, the vector of index `i` being
the final solution of the problem constructed with the data of frame `i`. -/
theorem finalSolution_iff_run (s0 : StaticOptimization)
    (calls : List (IpoptApplication × Bool))
    (hfresh : s0.m_alreadyRun = false) (hempty : s0.m_staticOptimProblem = [])
    (hQdot : s0.m_allQ.length ≤ s0.m_allQdot.length)
    (hTau : s0.m_allQ.length ≤ s0.m_allTauTarget.length) :
    ∃ s c, s0.history calls = some (s, c) ∧
      ((∃ e, s.finalSolution = Except.error e) ↔ c = false) ∧
      (∀ index, (∃ e, s.finalSolution_index index = Except.error e) ↔ c = false) ∧
      (c = true → ∃ res, s.finalSolution = Except.ok (some res) ∧
        res.length = s0.m_allQ.length ∧
        ∀ i, i < s0.m_allQ.length → ∃ p, s.m_staticOptimProblem[i]? = some p ∧
          res[i]? = some p.m_finalSolution ∧ s0.m_allQ[i]? = some p.Q ∧
          s0.m_allQdot[i]? = some p.Qdot ∧ s0.m_allTauTarget[i]? = some p.tauTarget) := by
  have hord0 : s0.FramesInOrder := by
    intro i p _ hp
    rw [hempty] at hp
    simp at hp
  obtain ⟨s, c, hs, e1, e2, e3, e4, e5, hord⟩ := history_spec calls s0 hQdot hTau
    (Or.inl hempty) (fun h => by rw [hfresh] at h; exact Bool.noConfusion h) hord0
  rw [hfresh, Bool.false_or] at e4
  refine ⟨s, c, hs, ?_, ?_, ?_⟩
  · cases c with
    | false =>
      simp only [iff_true]
      refine ⟨"Problem has not been ran through the optimization process yet, " ++
        "you should optimize it first to get the optimized solution", ?_⟩
      simp [finalSolution, e4, Error.error, bind, Except.bind]
    | true =>
      simp only [Bool.true_eq_false, iff_false, not_exists]
      intro e he
      simp [finalSolution, e4, pure, Except.pure] at he
  · intro index
    cases c with
    | false =>
      simp only [iff_true]
      refine ⟨"Problem has not been ran through the optimization process yet, " ++
        "you should optimize it first to get the optimized solution", ?_⟩
      simp [finalSolution_index, e4, Error.error, bind, Except.bind]
    | true =>
      simp only [Bool.true_eq_false, iff_false, not_exists]
      intro e he
      simp [finalSolution_index, e4, pure, Except.pure] at he
  · intro hc
    subst hc
    have hlen := e5 e4
    obtain ⟨out, h1, h2, -, h4⟩ := finalSolution_loop_spec s (List.range s.m_allQ.length) []
      (fun i hi => by
        rw [List.mem_range, e1] at hi
        omega)
    refine ⟨out, ?_, ?_, ?_⟩
    · simp [finalSolution, e4, pure, Except.pure, h1]
    · rw [h2, List.length_nil, Nat.zero_add, List.length_range, e1]
    · intro i hi
      have hil : i < s.m_staticOptimProblem.length := by omega
      have hp : s.m_staticOptimProblem[i]? = some s.m_staticOptimProblem[i] :=
        List.getElem?_eq_getElem hil
      have hout := h4 i i (by
        rw [List.getElem?_eq_getElem (by rw [List.length_range, e1]; exact hi)]
        simp)
      rw [List.length_nil, Nat.zero_add, hp] at hout
      obtain ⟨f1, f2, f3⟩ := hord i _ (by rw [e1]; exact hi) hp
      rw [e1] at f1
      rw [e2] at f2
      rw [e3] at f3
      exact ⟨_, hp, hout, f1, f2, f3⟩

/-- Witness of C30: two frames, a call of `run` whose optimizer fails to
initialize, then a call that completes. -/
theorem finalSolution_iff_run_witness :
    ∃ s c, (new_all 2 [[1], [2]] [[0], [0]] [[3], [4]] []).history
        [(⟨false, fun _ => [], []⟩, false), (⟨true, fun p => p.Q, []⟩, true)] = some (s, c) ∧
      ((∃ e, s.finalSolution = Except.error e) ↔ c = false) ∧
      (∀ index, (∃ e, s.finalSolution_index index = Except.error e) ↔ c = false) ∧
      (c = true → ∃ res, s.finalSolution = Except.ok (some res) ∧
        res.length = (new_all 2 [[1], [2]] [[0], [0]] [[3], [4]] []).m_allQ.length ∧
        ∀ i, i < (new_all 2 [[1], [2]] [[0], [0]] [[3], [4]] []).m_allQ.length →
          ∃ p, s.m_staticOptimProblem[i]? = some p ∧
            res[i]? = some p.m_finalSolution ∧
            (new_all 2 [[1], [2]] [[0], [0]] [[3], [4]] []).m_allQ[i]? = some p.Q ∧
            (new_all 2 [[1], [2]] [[0], [0]] [[3], [4]] []).m_allQdot[i]? = some p.Qdot ∧
            (new_all 2 [[1], [2]] [[0], [0]] [[3], [4]] []).m_allTauTarget[i]?
              = some p.tauTarget) :=
  finalSolution_iff_run (new_all 2 [[1], [2]] [[0], [0]] [[3], [4]] [])
    [(⟨false, fun _ => [], []⟩, false), (⟨true, fun p => p.Q, []⟩, true)] rfl rfl
    (by decide) (by decide)

end StaticOptimization

end muscles

namespace JointsObject

/-! ### Deep copies -/

/-- The members that share the type of their cell point to different cells. -/
theorem sizeCells_ne {o : JointsObject} (h : o.cells.Nodup) :
    o.m_nbRoot ≠ o.m_nbDof ∧ o.m_nbRoot ≠ o.m_nbQ ∧ o.m_nbRoot ≠ o.m_nbQdot ∧
    o.m_nbRoot ≠ o.m_nbQddot ∧ o.m_nbRoot ≠ o.m_nRotAQuat ∧ o.m_nbDof ≠ o.m_nbQ ∧
    o.m_nbDof ≠ o.m_nbQdot ∧ o.m_nbDof ≠ o.m_nbQddot ∧ o.m_nbDof ≠ o.m_nRotAQuat ∧
    o.m_nbQ ≠ o.m_nbQdot ∧ o.m_nbQ ≠ o.m_nbQddot ∧ o.m_nbQ ≠ o.m_nRotAQuat ∧
    o.m_nbQdot ≠ o.m_nbQddot ∧ o.m_nbQdot ≠ o.m_nRotAQuat ∧ o.m_nbQddot ≠ o.m_nRotAQuat := by
  simp only [cells, List.nodup_cons, List.mem_cons, List.mem_singleton, not_or,
    List.not_mem_nil, not_false_eq_true, List.nodup_nil, and_true] at h
  obtain ⟨-, ⟨a1, a2, a3, a4, a5, -, -⟩, ⟨b1, b2, b3, b4, -, -⟩, ⟨c1, c2, c3, -, -⟩,
    ⟨d1, d2, -, -⟩, ⟨e1, -, -⟩, -⟩ := h
  exact ⟨a1, a2, a3, a4, a5, b1, b2, b3, b4, c1, c2, c3, d1, d2, e1⟩

/-- A build-time call on an object whose members have cells of their own does
to the values of the members what the call does to a model held by value. -/
theorem read_applyCall (h : Heap) (o : JointsObject) (hnd : o.cells.Nodup)
    (call : Joints.BuildCall) :
    read (o.applyCall h call).1 (o.applyCall h call).2 = (read h o).applyCall call := by
  obtain ⟨a1, a2, a3, a4, a5, b1, b2, b3, b4, c1, c2, c3, d1, d2, e1⟩ := sizeCells_ne hnd
  cases call with
  | addSegment n p d c =>
    simp only [applyCall, Joints.applyCall, AddSegment, Joints.AddSegment,
      Joints.constructSegment, GetBodyId, Joints.GetBodyId, read, Heap.setSize,
      Heap.setScalar, Heap.setSegments, Segment.nbDof, Segment.nbQ, Segment.nbQdot,
      Segment.nbQddot, Segment.isRotationAQuaternion]
    split_ifs <;>
      simp [setAt, a1, a2, a3, a4, a5, b1, b2, b3, b4, c1, c2, c3, d1, d2, e1, Ne.symm a1,
        Ne.symm a2, Ne.symm a3, Ne.symm a4, Ne.symm a5, Ne.symm b1, Ne.symm b2, Ne.symm b3,
        Ne.symm b4, Ne.symm c1, Ne.symm c2, Ne.symm c3, Ne.symm d1, Ne.symm d2, Ne.symm e1]
  | addSegment_seqR n p d c =>
    simp only [applyCall, Joints.applyCall, AddSegment_seqR, Joints.AddSegment_seqR,
      Joints.constructSegment, GetBodyId, Joints.GetBodyId, read, Heap.setSize,
      Heap.setScalar, Heap.setSegments, Segment.nbDof]
    split_ifs <;>
      simp [setAt, a1, a2, a3, a4, a5, b1, b2, b3, b4, c1, c2, c3, d1, d2, e1, Ne.symm a1,
        Ne.symm a2, Ne.symm a3, Ne.symm a4, Ne.symm a5, Ne.symm b1, Ne.symm b2, Ne.symm b3,
        Ne.symm b4, Ne.symm c1, Ne.symm c2, Ne.symm c3, Ne.symm d1, Ne.symm d2, Ne.symm e1]
  | updateSegmentCharacteristics idx c =>
    by_cases hidx : idx < (h.segmentCells o.m_segments).length
    · simp [applyCall, Joints.applyCall, updateSegmentCharacteristics,
        Joints.updateSegmentCharacteristics, Error.check, hidx, read, Heap.setSegments, setAt,
        bind, Except.bind, pure, Except.pure]
    · simp [applyCall, Joints.applyCall, updateSegmentCharacteristics,
        Joints.updateSegmentCharacteristics, Error.check, hidx, read, bind, Except.bind]

/-- A build-time call on an object keeps the addresses held by the object, and
changes no cell other than those of the object. -/
theorem applyCall_frame (h : Heap) (o : JointsObject) (call : Joints.BuildCall) :
    (o.applyCall h call).2.cells = o.cells ∧
    ∀ a, a ∉ o.cells →
      (o.applyCall h call).1.segmentCells a = h.segmentCells a ∧
      (o.applyCall h call).1.sizeCells a = h.sizeCells a ∧
      (o.applyCall h call).1.boolCells a = h.boolCells a ∧
      (o.applyCall h call).1.scalarCells a = h.scalarCells a := by
  refine ⟨?_, ?_⟩
  · cases call with
    | addSegment n p d c => rfl
    | addSegment_seqR n p d c => rfl
    | updateSegmentCharacteristics idx c =>
      simp only [applyCall]
      split <;> rfl
  · intro a ha
    simp only [cells, List.mem_cons, List.mem_singleton, not_or, List.not_mem_nil,
      not_false_eq_true, and_true] at ha
    obtain ⟨n1, n2, n3, n4, n5, n6, n7, n8, n9⟩ := ha
    cases call with
    | addSegment n p d c =>
      simp only [applyCall, AddSegment, Heap.setSize, Heap.setScalar, Heap.setSegments]
      split_ifs <;> simp [setAt, n1, n2, n3, n4, n5, n6, n7, n8, n9]
    | addSegment_seqR n p d c =>
      simp only [applyCall, AddSegment_seqR, Heap.setSize, Heap.setScalar, Heap.setSegments]
      split_ifs <;> simp [setAt, n1, n2, n3, n4, n5, n6, n7, n8, n9]
    | updateSegmentCharacteristics idx c =>
      by_cases hidx : idx < (h.segmentCells o.m_segments).length
      · simp [applyCall, updateSegmentCharacteristics, Error.check, hidx, Heap.setSegments,
          setAt, n1, bind, Except.bind, pure, Except.pure]
      · simp [applyCall, updateSegmentCharacteristics, Error.check, hidx, bind, Except.bind]

/-- The values read through an object depend on its own cells only. -/
theorem read_congr (h h1 : Heap) (o : JointsObject)
    (hc : ∀ a, a ∈ o.cells →
      h1.segmentCells a = h.segmentCells a ∧ h1.sizeCells a = h.sizeCells a ∧
      h1.boolCells a = h.boolCells a ∧ h1.scalarCells a = h.scalarCells a) :
    read h1 o = read h o := by
  unfold read
  rw [(hc o.m_segments (by simp [cells])).1, (hc o.m_nbRoot (by simp [cells])).2.1,
    (hc o.m_nbDof (by simp [cells])).2.1, (hc o.m_nbQ (by simp [cells])).2.1,
    (hc o.m_nbQdot (by simp [cells])).2.1, (hc o.m_nbQddot (by simp [cells])).2.1,
    (hc o.m_nRotAQuat (by simp [cells])).2.1,
    (hc o.m_isKinematicsComputed (by simp [cells])).2.2.1,
    (hc o.m_totalMass (by simp [cells])).2.2.2]

/-- The default constructor takes nine cells of its own and leaves the taken
cells as they were. -/
theorem new_frame (h : Heap) :
    (JointsObject.new h).1.cells.Nodup ∧
    (∀ a ∈ (JointsObject.new h).1.cells, h.next ≤ a ∧ a < (JointsObject.new h).2.next) ∧
    h.next ≤ (JointsObject.new h).2.next ∧
    ∀ a, a < h.next →
      (JointsObject.new h).2.segmentCells a = h.segmentCells a ∧
      (JointsObject.new h).2.sizeCells a = h.sizeCells a ∧
      (JointsObject.new h).2.boolCells a = h.boolCells a ∧
      (JointsObject.new h).2.scalarCells a = h.scalarCells a := by
  refine ⟨?_, ?_, ?_, ?_⟩
  · simp [JointsObject.new, cells]
  · intro a ha
    simp only [JointsObject.new, cells, List.mem_cons, List.mem_singleton, List.not_mem_nil,
      or_false] at ha ⊢
    omega
  · simp only [JointsObject.new]
    omega
  · intro a ha
    have e0 : a ≠ h.next := by omega
    have e1 : a ≠ h.next + 1 := by omega
    have e2 : a ≠ h.next + 2 := by omega
    have e3 : a ≠ h.next + 3 := by omega
    have e4 : a ≠ h.next + 4 := by omega
    have e5 : a ≠ h.next + 5 := by omega
    have e6 : a ≠ h.next + 6 := by omega
    have e7 : a ≠ h.next + 7 := by omega
    have e8 : a ≠ h.next + 8 := by omega
    simp [JointsObject.new, setAt, e0, e1, e2, e3, e4, e5, e6, e7, e8]

/-- The member-wise copy `DeepCopy (other)` into an object whose members have
cells of their own, none of them a cell of `other`: the object then holds the
values of `other`, keeps its addresses, and no other cell has changed. -/
theorem DeepCopy_from_spec (h : Heap) (this other : JointsObject) (hnd : this.cells.Nodup)
    (hdisj : ∀ x ∈ other.cells, x ∉ this.cells) :
    read (DeepCopy_from h this other).1 (DeepCopy_from h this other).2 = read h other ∧
    (DeepCopy_from h this other).2.cells = this.cells ∧
    (DeepCopy_from h this other).1.next = h.next ∧
    ∀ a, a ∉ this.cells →
      (DeepCopy_from h this other).1.segmentCells a = h.segmentCells a ∧
      (DeepCopy_from h this other).1.sizeCells a = h.sizeCells a ∧
      (DeepCopy_from h this other).1.boolCells a = h.boolCells a ∧
      (DeepCopy_from h this other).1.scalarCells a = h.scalarCells a := by
  obtain ⟨a1, a2, a3, a4, a5, b1, b2, b3, b4, c1, c2, c3, d1, d2, e1⟩ := sizeCells_ne hnd
  have x1 := hdisj other.m_nbRoot (by simp [cells])
  have x2 := hdisj other.m_nbDof (by simp [cells])
  have x3 := hdisj other.m_nbQ (by simp [cells])
  have x4 := hdisj other.m_nbQdot (by simp [cells])
  have x5 := hdisj other.m_nbQddot (by simp [cells])
  have x6 := hdisj other.m_nRotAQuat (by simp [cells])
  simp only [cells, List.mem_cons, List.mem_singleton, not_or, List.not_mem_nil,
    not_false_eq_true, and_true] at x1 x2 x3 x4 x5 x6
  refine ⟨?_, rfl, rfl, ?_⟩
  · simp [DeepCopy_from, read, Heap.setSize, Heap.setScalar, Heap.setSegments, Heap.setBool,
      setAt, Segment.DeepCopy, x1, x2, x3, x4, x5, x6, Ne.symm a1, Ne.symm a2, Ne.symm a3,
      Ne.symm a4, Ne.symm a5, Ne.symm b1, Ne.symm b2, Ne.symm b3, Ne.symm b4, Ne.symm c1,
      Ne.symm c2, Ne.symm c3, Ne.symm d1, Ne.symm d2, Ne.symm e1, a1, a2, a3, a4, a5, b1, b2,
      b3, b4, c1, c2, c3, d1, d2, e1]
    exact (List.map_congr_left (fun s _ => rfl)).trans (List.map_id _)
  · intro a ha
    simp only [cells, List.mem_cons, List.mem_singleton, not_or, List.not_mem_nil,
      not_false_eq_true, and_true] at ha
    obtain ⟨n1, n2, n3, n4, n5, n6, n7, n8, n9⟩ := ha
    simp [DeepCopy_from, Heap.setSize, Heap.setScalar, Heap.setSegments, Heap.setBool, setAt,
      n1, n2, n3, n4, n5, n6, n7, n8, n9]

/-- What `DeepCopy ()` returns on an object as the constructors make it: an
object with cells of its own, none of them a cell of the original, that holds
the values of the original; the original holds its values as before. -/
theorem DeepCopy_spec (h : Heap) (m : JointsObject) (hm : m.Allocated h) :
    read (m.DeepCopy h).2 (m.DeepCopy h).1 = read h m ∧
    read (m.DeepCopy h).2 m = read h m ∧
    (m.DeepCopy h).1.cells.Nodup ∧
    (∀ x ∈ m.cells, x ∉ (m.DeepCopy h).1.cells) := by
  obtain ⟨hnd, hlt⟩ := hm
  obtain ⟨n1, n2, -, n4⟩ := new_frame h
  have hdisj : ∀ x ∈ m.cells, x ∉ (JointsObject.new h).1.cells := by
    intro x hx hmem
    have := hlt x hx
    have := (n2 x hmem).1
    omega
  obtain ⟨s1, s2, -, s4⟩ := DeepCopy_from_spec (JointsObject.new h).2 (JointsObject.new h).1 m
    n1 hdisj
  have hread : read (JointsObject.new h).2 m = read h m :=
    read_congr h (JointsObject.new h).2 m (fun a ha => n4 a (hlt a ha))
  have hcopy : m.DeepCopy h
      = ((DeepCopy_from (JointsObject.new h).2 (JointsObject.new h).1 m).2,
        (DeepCopy_from (JointsObject.new h).2 (JointsObject.new h).1 m).1) := rfl
  rw [hcopy]
  refine ⟨s1.trans hread, ?_, ?_, ?_⟩
  · exact (read_congr (JointsObject.new h).2 _ m
      (fun a ha => s4 a (fun hmem => hdisj a ha hmem))).trans hread
  · rw [s2]
    exact n1
  · rw [s2]
    exact hdisj

end JointsObject

/-- Build-time calls made in any order on two objects that share no cell: each
object ends with the values it would have had alone, under the calls made on
it. -/
theorem applyCallsOnTwo_read : ∀ (calls : List (Bool × Joints.BuildCall)) (h : Heap)
    (a b : JointsObject), a.cells.Nodup → b.cells.Nodup → (∀ x ∈ a.cells, x ∉ b.cells) →
    JointsObject.read (applyCallsOnTwo (h, a, b) calls).1 (applyCallsOnTwo (h, a, b) calls).2.1
      = (JointsObject.read h a).applyCalls (callsOn true calls) ∧
    JointsObject.read (applyCallsOnTwo (h, a, b) calls).1 (applyCallsOnTwo (h, a, b) calls).2.2
      = (JointsObject.read h b).applyCalls (callsOn false calls) := by
  intro calls
  induction calls with
  | nil => intro h a b _ _ _; exact ⟨rfl, rfl⟩
  | cons tc rest ih =>
    intro h a b ha hb hdisj
    obtain ⟨side, call⟩ := tc
    cases side with
    | true =>
      obtain ⟨f1, f2⟩ := JointsObject.applyCall_frame h a call
      obtain ⟨i1, i2⟩ := ih (a.applyCall h call).1 (a.applyCall h call).2 b
        (by rw [f1]; exact ha) hb (by rw [f1]; exact hdisj)
      have hb1 : JointsObject.read (a.applyCall h call).1 b = JointsObject.read h b :=
        JointsObject.read_congr h _ b (fun x hx => f2 x (fun hmem => hdisj x hmem hx))
      rw [JointsObject.read_applyCall h a ha call] at i1
      rw [hb1] at i2
      exact ⟨i1, i2⟩
    | false =>
      obtain ⟨f1, f2⟩ := JointsObject.applyCall_frame h b call
      obtain ⟨i1, i2⟩ := ih (b.applyCall h call).1 a (b.applyCall h call).2 ha
        (by rw [f1]; exact hb) (by rw [f1]; exact hdisj)
      have ha1 : JointsObject.read (b.applyCall h call).1 a = JointsObject.read h a :=
        JointsObject.read_congr h _ a (fun x hx => f2 x (hdisj x hx))
      rw [JointsObject.read_applyCall h b hb call] at i2
      rw [ha1] at i1
      exact ⟨i1, i2⟩

namespace JointsObject

/-- An object made by the copy constructor shares the cells of the original: a
segment added to the original is a segment of the copy as well. -/
theorem copy_shares (h : Heap) (o : JointsObject) (n p : String) (d : SegmentDof)
    (c : SegmentCharacteristics) :
    (read (o.applyCall h (Joints.BuildCall.addSegment n p d c)).1 o.copy).nbSegment
      = (read h o.copy).nbSegment + 1 := by
  simp only [applyCall, AddSegment, read, copy, Joints.nbSegment, Heap.setSize,
    Heap.setScalar, Heap.setSegments]
  split_ifs <;> simp [setAt]

/-- C21: for every model `m` as the constructors make it, `c = m.DeepCopy ()`
holds the same values as `m` (`nbSegment`, `nbDof`, `nbQ`, `nbQdot`, `nbQddot`,
`nbRoot`, `nbQuat`, the mass and the segments), `m` holds its values as before,
and after any sequence of `AddSegment` and `updateSegmentCharacteristics` calls
made on `m` or on `c`, each of the two holds the values that the calls made on
it give to a model held by value: the calls made on the other one have changed
none of them. -/
theorem DeepCopy_independent (h : Heap) (m : JointsObject) (hm : m.Allocated h)
    (calls : List (Bool × Joints.BuildCall)) :
    read (m.DeepCopy h).2 (m.DeepCopy h).1 = read h m ∧
    read (m.DeepCopy h).2 m = read h m ∧
    read (applyCallsOnTwo ((m.DeepCopy h).2, m, (m.DeepCopy h).1) calls).1
        (applyCallsOnTwo ((m.DeepCopy h).2, m, (m.DeepCopy h).1) calls).2.1
      = (read h m).applyCalls (callsOn true calls) ∧
    read (applyCallsOnTwo ((m.DeepCopy h).2, m, (m.DeepCopy h).1) calls).1
        (applyCallsOnTwo ((m.DeepCopy h).2, m, (m.DeepCopy h).1) calls).2.2
      = (read h m).applyCalls (callsOn false calls) := by
  obtain ⟨d1, d2, d3, d4⟩ := DeepCopy_spec h m hm
  obtain ⟨i1, i2⟩ := applyCallsOnTwo_read calls (m.DeepCopy h).2 m (m.DeepCopy h).1 hm.1 d3 d4
  rw [d2] at i1
  rw [d1] at i2
  exact ⟨d1, d2, i1, i2⟩

/-- Witness of C21: the example model with the segment `Pelvis`, a segment
added to the original and the characteristics of `Pelvis` updated in the
copy. -/
theorem DeepCopy_independent_witness :
    read (Example1.object.2.DeepCopy Example1.object.1).2
        (Example1.object.2.DeepCopy Example1.object.1).1
      = read Example1.object.1 Example1.object.2 ∧
    read (Example1.object.2.DeepCopy Example1.object.1).2 Example1.object.2
      = read Example1.object.1 Example1.object.2 ∧
    read (applyCallsOnTwo ((Example1.object.2.DeepCopy Example1.object.1).2, Example1.object.2,
          (Example1.object.2.DeepCopy Example1.object.1).1)
          [(true, Joints.BuildCall.addSegment "Thorax" "Pelvis" ⟨1, 1, 1, 1, 1, false⟩ ⟨1⟩),
            (false, Joints.BuildCall.updateSegmentCharacteristics 0 ⟨2⟩)]).1
        (applyCallsOnTwo ((Example1.object.2.DeepCopy Example1.object.1).2, Example1.object.2,
          (Example1.object.2.DeepCopy Example1.object.1).1)
          [(true, Joints.BuildCall.addSegment "Thorax" "Pelvis" ⟨1, 1, 1, 1, 1, false⟩ ⟨1⟩),
            (false, Joints.BuildCall.updateSegmentCharacteristics 0 ⟨2⟩)]).2.1
      = (read Example1.object.1 Example1.object.2).applyCalls
        (callsOn true
          [(true, Joints.BuildCall.addSegment "Thorax" "Pelvis" ⟨1, 1, 1, 1, 1, false⟩ ⟨1⟩),
            (false, Joints.BuildCall.updateSegmentCharacteristics 0 ⟨2⟩)]) ∧
    read (applyCallsOnTwo ((Example1.object.2.DeepCopy Example1.object.1).2, Example1.object.2,
          (Example1.object.2.DeepCopy Example1.object.1).1)
          [(true, Joints.BuildCall.addSegment "Thorax" "Pelvis" ⟨1, 1, 1, 1, 1, false⟩ ⟨1⟩),
            (false, Joints.BuildCall.updateSegmentCharacteristics 0 ⟨2⟩)]).1
        (applyCallsOnTwo ((Example1.object.2.DeepCopy Example1.object.1).2, Example1.object.2,
          (Example1.object.2.DeepCopy Example1.object.1).1)
          [(true, Joints.BuildCall.addSegment "Thorax" "Pelvis" ⟨1, 1, 1, 1, 1, false⟩ ⟨1⟩),
            (false, Joints.BuildCall.updateSegmentCharacteristics 0 ⟨2⟩)]).2.2
      = (read Example1.object.1 Example1.object.2).applyCalls
        (callsOn false
          [(true, Joints.BuildCall.addSegment "Thorax" "Pelvis" ⟨1, 1, 1, 1, 1, false⟩ ⟨1⟩),
            (false, Joints.BuildCall.updateSegmentCharacteristics 0 ⟨2⟩)]) :=
  DeepCopy_independent Example1.object.1 Example1.object.2
    (by unfold Allocated; decide)
    [(true, Joints.BuildCall.addSegment "Thorax" "Pelvis" ⟨1, 1, 1, 1, 1, false⟩ ⟨1⟩),
      (false, Joints.BuildCall.updateSegmentCharacteristics 0 ⟨2⟩)]

end JointsObject

namespace Example1

theorem model_wellFormed : model.WellFormed where
  size_eq := by decide
  size_pos := by decide
  parent_base := by decide
  parent_lt := by
    intro i h0 hi
    have hi2 : i < 2 := hi
    interval_cases i
    decide
  mem_children := by
    intro i c hi
    have hi2 : i < 2 := hi
    interval_cases i
    · show c ∈ [1] ↔ _
      constructor
      · intro h
        rw [List.mem_singleton] at h
        subst h
        decide
      · rintro ⟨h0, hc, -⟩
        have hc2 : c < 2 := hc
        interval_cases c
        exact List.mem_singleton.2 rfl
    · show c ∈ [] ↔ _
      constructor
      · intro h
        exact absurd h (List.not_mem_nil c)
      · rintro ⟨h0, hc, hp⟩
        have hc2 : c < 2 := hc
        interval_cases c
        exact absurd hp (by decide)
  nodup_children := by
    intro i hi
    have hi2 : i < 2 := hi
    interval_cases i <;> decide

end Example1

/-! ### The Jacobian of the rotation matrix -/

theorem DenseMatrix.setBlock_spec (G G1 : DenseMatrix) (r0 c0 h w : Nat)
    (B : Fin h → Fin w → Scalar) (hset : G.setBlock r0 c0 h w B = some G1) :
    G1.rows = G.rows ∧ G1.cols = G.cols ∧
    ∀ i j, ¬ (c0 ≤ j ∧ j < c0 + w) → G1.coeff i j = G.coeff i j := by
  unfold DenseMatrix.setBlock at hset
  split at hset
  · have := Option.some.inj hset
    subst this
    refine ⟨rfl, rfl, fun i j hj => ?_⟩
    show (if h1 : r0 ≤ i ∧ i < r0 + h ∧ c0 ≤ j ∧ j < c0 + w then _ else G.coeff i j) = _
    rw [dif_neg (fun h1 => hj ⟨h1.2.2.1, h1.2.2.2⟩)]
  · exact Option.noConfusion hset

theorem DenseMatrix.setBlock_some (G : DenseMatrix) (r0 c0 h w : Nat)
    (B : Fin h → Fin w → Scalar) (hr : r0 + h ≤ G.rows) (hc : c0 + w ≤ G.cols) :
    ∃ G1, G.setBlock r0 c0 h w B = some G1 := by
  unfold DenseMatrix.setBlock
  rw [if_pos ⟨hr, hc⟩]
  exact ⟨_, rfl⟩

namespace Joints

/-- One step of the loop of `CalcMatRotJacobian`: for a joint that passes the
test a block of 3 rows and as many columns as the joint has DoFs (3 or 1) is
written, then the loop goes on from the parent. -/
theorem CalcMatRotJacobian_walk_succ (m : Model) (md : ModelData) (rm : RbdlRotation)
    (pt : SpatialTransform) (iAxes fuel j : Nat) (G : DenseMatrix) (hj : j ≠ 0) :
    ∃ (w : Nat) (B : Fin 3 → Fin w → Scalar), w = CalcMatRotJacobian.width rm j ∧
      CalcMatRotJacobian.walk m md rm pt iAxes (fuel + 1) j G
        = (if CalcMatRotJacobian.contributes md j then
            G.setBlock (iAxes * 3) (m.q_index j) 3 w B
          else some G).bind
          (CalcMatRotJacobian.walk m md rm pt iAxes fuel (m.parent j)) := by
  by_cases h3 : rm.mDoFCount j = 3
  · refine ⟨3, fun a b =>
        ((pt.mul (SpatialTransform.inverse ⟨(rm.X_base md j).E, 0⟩)).toMatrix
          * rm.multdof3_S j) (Fin.natAdd 3 a) b,
      by unfold CalcMatRotJacobian.width; rw [if_pos h3], ?_⟩
    rw [CalcMatRotJacobian.walk, if_neg hj]
    simp only [if_pos h3]
    by_cases hc : CalcMatRotJacobian.contributes md j
    · simp only [if_pos hc]
      split <;> rename_i heq <;> rw [heq] <;> rfl
    · simp only [if_neg hc]
      rfl
  · refine ⟨1, fun a _ =>
        pt.apply ((SpatialTransform.inverse ⟨(rm.X_base md j).E, 0⟩).apply (md.S j))
          (Fin.natAdd 3 a),
      by unfold CalcMatRotJacobian.width; rw [if_neg h3], ?_⟩
    rw [CalcMatRotJacobian.walk, if_neg hj]
    simp only [if_neg h3]
    by_cases hc : CalcMatRotJacobian.contributes md j
    · simp only [if_pos hc]
      split <;> rename_i heq <;> rw [heq] <;> rfl
    · simp only [if_neg hc]
      rfl

/-- The loop of `CalcMatRotJacobian` keeps the size of `G` and writes only in
the columns of the joints, between the starting body and the base, that pass
the test of line 1636. -/
theorem CalcMatRotJacobian_walk_spec (m : Model) (md : ModelData) (rm : RbdlRotation)
    (pt : SpatialTransform) (iAxes : Nat) :
    ∀ (fuel j : Nat) (G G1 : DenseMatrix),
      CalcMatRotJacobian.walk m md rm pt iAxes fuel j G = some G1 →
      G1.rows = G.rows ∧ G1.cols = G.cols ∧
      ∀ c, (∀ jb, jb ≠ 0 → m.IsInSubtree jb j → CalcMatRotJacobian.contributes md jb →
          ¬ (m.q_index jb ≤ c ∧ c < m.q_index jb + CalcMatRotJacobian.width rm jb)) →
        ∀ r, G1.coeff r c = G.coeff r c := by
  intro fuel
  induction fuel with
  | zero =>
    intro j G G1 h
    rw [CalcMatRotJacobian.walk] at h
    split at h
    · have := Option.some.inj h
      subst this
      exact ⟨rfl, rfl, fun _ _ _ => rfl⟩
    · exact Option.noConfusion h
  | succ fuel ih =>
    intro j G G1 h
    by_cases hj : j = 0
    · rw [CalcMatRotJacobian.walk, if_pos hj] at h
      have := Option.some.inj h
      subst this
      exact ⟨rfl, rfl, fun _ _ _ => rfl⟩
    · obtain ⟨w, B, hw, hstep⟩ := CalcMatRotJacobian_walk_succ m md rm pt iAxes fuel j G hj
      rw [hstep] at h
      by_cases hc : CalcMatRotJacobian.contributes md j
      · rw [if_pos hc] at h
        cases hset : G.setBlock (iAxes * 3) (m.q_index j) 3 w B with
        | none =>
          rw [hset] at h
          exact Option.noConfusion h
        | some G0 =>
          rw [hset] at h
          obtain ⟨s1, s2, s3⟩ := DenseMatrix.setBlock_spec G G0 _ _ _ _ _ hset
          obtain ⟨i1, i2, i3⟩ := ih (m.parent j) G0 G1 h
          refine ⟨i1.trans s1, i2.trans s2, fun c hcol r => ?_⟩
          rw [i3 c (fun jb hjb hsub => hcol jb hjb (Model.isInSubtree_child hsub rfl)) r]
          exact s3 r c (by rw [hw]; exact hcol j hj (Model.IsInSubtree.refl m j) hc)
      · rw [if_neg hc] at h
        obtain ⟨i1, i2, i3⟩ := ih (m.parent j) G G1 h
        exact ⟨i1, i2, fun c hcol r =>
          i3 c (fun jb hjb hsub => hcol jb hjb (Model.isInSubtree_child hsub rfl)) r⟩

/-- On a well-formed tree the loop of `CalcMatRotJacobian` returns when its
bound covers the starting body and the blocks it writes lie inside `G`. -/
theorem CalcMatRotJacobian_walk_some {m : Model} (hwf : m.WellFormed) (md : ModelData)
    (rm : RbdlRotation) (pt : SpatialTransform) (iAxes : Nat) :
    ∀ (fuel j : Nat) (G : DenseMatrix), j < m.mu.length → j ≤ fuel →
      iAxes * 3 + 3 ≤ G.rows →
      (∀ jb, jb ≠ 0 → m.IsInSubtree jb j → CalcMatRotJacobian.contributes md jb →
        m.q_index jb + CalcMatRotJacobian.width rm jb ≤ G.cols) →
      ∃ G1, CalcMatRotJacobian.walk m md rm pt iAxes fuel j G = some G1 := by
  intro fuel
  induction fuel with
  | zero =>
    intro j G _ hj _ _
    have : j = 0 := by omega
    subst this
    exact ⟨G, rfl⟩
  | succ fuel ih =>
    intro j G hjN hjf hrows hcols
    by_cases hj : j = 0
    · rw [CalcMatRotJacobian.walk, if_pos hj]
      exact ⟨G, rfl⟩
    · have hp := hwf.parent_lt j (by omega) hjN
      obtain ⟨w, B, hw, hstep⟩ := CalcMatRotJacobian_walk_succ m md rm pt iAxes fuel j G hj
      rw [hstep]
      by_cases hc : CalcMatRotJacobian.contributes md j
      · rw [if_pos hc]
        obtain ⟨G0, hset⟩ := DenseMatrix.setBlock_some G (iAxes * 3) (m.q_index j) 3
          w B hrows (by rw [hw]; exact hcols j hj (Model.IsInSubtree.refl m j) hc)
        rw [hset]
        obtain ⟨s1, s2, -⟩ := DenseMatrix.setBlock_spec G G0 _ _ _ _ _ hset
        exact ih (m.parent j) G0 (by omega) (by omega) (by rw [s1]; exact hrows)
          (fun jb hjb hsub hcb => by
            rw [s2]
            exact hcols jb hjb (Model.isInSubtree_child hsub rfl) hcb)
      · rw [if_neg hc]
        exact ih (m.parent j) G (by omega) (by omega) hrows
          (fun jb hjb hsub hcb => hcols jb hjb (Model.isInSubtree_child hsub rfl) hcb)

end Joints
namespace SpatialTransform

/-- A transform whose rotation is the identity leaves a motion vector without
angular part as it is. -/
theorem apply_translation (X : SpatialTransform) (v : SpatialVector) (hE : X.E = 1)
    (h0 : v 0 = 0) (h1 : v 1 = 0) (h2 : v 2 = 0) : X.apply v = v := by
  funext k
  fin_cases k <;> simp [apply, hE, h0, h1, h2, Matrix.one_apply]
  rfl

end SpatialTransform

namespace Example1

theorem dataOblique_contributes : Joints.CalcMatRotJacobian.contributes dataOblique 1 := by
  refine ⟨?_, ?_, ?_⟩
  · show ¬ ((0 : ℚ) = 1)
    norm_num
  · show ¬ ((3 : ℚ) / 5 = 1)
    norm_num
  · show ¬ ((4 : ℚ) / 5 = 1)
    norm_num

/-- On the example with the oblique translation the loop of
`CalcMatRotJacobian` writes the direction of the translation in the three rows
of the axis, in column 0. -/
theorem dataOblique_walk (pt : SpatialTransform) (hpt : pt.E = 1) (iAxes : Nat)
    (G : DenseMatrix) :
    Joints.CalcMatRotJacobian.walk model dataOblique rotation pt iAxes 2 1 G
      = G.setBlock (iAxes * 3) 0 3 1 (fun a _ => dataOblique.S 1 (Fin.natAdd 3 a)) := by
  have hS0 : dataOblique.S 1 0 = 0 := rfl
  have hS1 : dataOblique.S 1 1 = 0 := rfl
  have hS2 : dataOblique.S 1 2 = 0 := rfl
  have hinv : (SpatialTransform.inverse ⟨(rotation.X_base dataOblique 1).E, 0⟩).E = 1 := by
    simp [SpatialTransform.inverse, rotation]
  have happ : pt.apply ((SpatialTransform.inverse ⟨(rotation.X_base dataOblique 1).E, 0⟩).apply
      (dataOblique.S 1)) = dataOblique.S 1 := by
    rw [SpatialTransform.apply_translation _ _ hinv hS0 hS1 hS2,
      SpatialTransform.apply_translation _ _ hpt hS0 hS1 hS2]
  have h3 : ¬ rotation.mDoFCount 1 = 3 := by decide
  have hq : model.q_index 1 = 0 := by decide
  have hp : model.parent 1 = 0 := by decide
  rw [Joints.CalcMatRotJacobian.walk, if_neg (by decide)]
  simp only [if_pos dataOblique_contributes, if_neg h3, happ, hq, hp]
  cases G.setBlock (iAxes * 3) 0 3 1 (fun a _ => dataOblique.S 1 (Fin.natAdd 3 a)) with
  | none => rfl
  | some G1 =>
    show Joints.CalcMatRotJacobian.walk model dataOblique rotation pt iAxes 1 0 G1 = some G1
    rw [Joints.CalcMatRotJacobian.walk, if_pos rfl]

end Example1

namespace Joints

/-- Outside the motion subspaces that `Segment` builds: on the example whose
body slides along the direction `(0, 3/5, 4/5)` (no linear component equal to
1), the column of that
DoF in `JacobianSegmentRotMat` is not zero: its entry of row 1 is `3/5`. -/
theorem JacobianSegmentRotMat_oblique_translation :
    (Example1.dataOblique.S 1 0 = 0 ∧ Example1.dataOblique.S 1 1 = 0 ∧
      Example1.dataOblique.S 1 2 = 0) ∧
    Example1.model.q_index 1 = 0 ∧
    ∃ G md1, Example1.joints.JacobianSegmentRotMat Example1.rbdl Example1.rotation
        Example1.model Example1.dataOblique [0] 0 true 2 = Except.ok (some (G, md1)) ∧
      G.coeff 1 0 = 3 / 5 ∧ G.coeff 1 0 ≠ 0 := by
  refine ⟨⟨rfl, rfl, rfl⟩, by decide, ?_⟩
  have hup := (UpdateKinematicsCustom_Q Example1.rbdl Example1.joints Example1.dataOblique
    [0]).1 (by decide)
  have hseg : Example1.joints.getBodyBiorbdIdToRbdlId Example1.rotation (toInt32 0) = some 1 := by
    decide
  have hq : Example1.joints.nbQ = 1 := by decide
  have hk : Example1.rbdl.UpdateKinematicsCustom Example1.dataOblique (some [0]) none none
      = Example1.dataOblique := rfl
  have hax : ∀ (i : Fin 3) (G : DenseMatrix),
      CalcMatRotJacobian.axis Example1.model Example1.dataOblique Example1.rotation [0] 1 1 2 G i
        = G.setBlock (i.val * 3) 0 3 1
          (fun a _ => Example1.dataOblique.S 1 (Fin.natAdd 3 a)) := by
    intro i G
    unfold CalcMatRotJacobian.axis
    exact Example1.dataOblique_walk _ rfl _ G
  have hcall : Example1.joints.JacobianSegmentRotMat Example1.rbdl Example1.rotation
      Example1.model Example1.dataOblique [0] 0 true 2
      = Except.ok ((([0, 1, 2] : List (Fin 3)).foldlM
          (CalcMatRotJacobian.axis Example1.model Example1.dataOblique Example1.rotation
            [0] 1 1 2) ⟨9, 1, fun _ _ => 0⟩).map (fun G1 => (G1, Example1.dataOblique))) := by
    unfold JacobianSegmentRotMat
    rw [hseg]
    unfold CalcMatRotJacobian
    simp only [if_true, hup, hq, hk]
    rfl
  rw [hcall]
  simp only [List.foldlM_cons, List.foldlM_nil, hax]
  simp [DenseMatrix.setBlock, bind, Option.bind, pure, Example1.dataOblique]

end Joints
namespace Joints

/-- The pass of `CalcMatRotJacobian` for one axis, on a well-formed tree. -/
theorem CalcMatRotJacobian_axis_spec {m : Model} (hwf : m.WellFormed) (md : ModelData)
    (rm : RbdlRotation) (Q : List Scalar) (segmentIdx : Nat) (rotation : Matrix3d)
    (fuel : Nat) (G : DenseMatrix) (i : Fin 3)
    (href : CalcMatRotJacobian.reference_body_id rm segmentIdx < m.mu.length)
    (hfuel : m.mu.length ≤ fuel) (hrows : G.rows = 9)
    (hcols : ∀ jb, jb ≠ 0 →
      m.IsInSubtree jb (CalcMatRotJacobian.reference_body_id rm segmentIdx) →
      CalcMatRotJacobian.contributes md jb →
      m.q_index jb + CalcMatRotJacobian.width rm jb ≤ G.cols) :
    ∃ G1, CalcMatRotJacobian.axis m md rm Q segmentIdx rotation fuel G i = some G1 ∧
      G1.rows = 9 ∧ G1.cols = G.cols ∧
      ∀ c, (∀ jb, jb ≠ 0 →
          m.IsInSubtree jb (CalcMatRotJacobian.reference_body_id rm segmentIdx) →
          CalcMatRotJacobian.contributes md jb →
          ¬ (m.q_index jb ≤ c ∧ c < m.q_index jb + CalcMatRotJacobian.width rm jb)) →
        ∀ r, G1.coeff r c = G.coeff r c := by
  have hi := i.isLt
  obtain ⟨G1, h1⟩ := CalcMatRotJacobian_walk_some hwf md rm
    ⟨1, (((rm.CalcBodyWorldOrientation md Q segmentIdx)ᵀ * rotation) *ᵥ (Pi.single i 1))⟩
    i.val fuel (CalcMatRotJacobian.reference_body_id rm segmentIdx) G href (by omega)
    (by rw [hrows]; omega) hcols
  obtain ⟨s1, s2, s3⟩ := CalcMatRotJacobian_walk_spec m md rm _ i.val fuel _ G G1 h1
  exact ⟨G1, h1, s1.trans hrows, s2, s3⟩

/-- Columns left untouched: `JacobianSegmentRotMat (Q, segment)` returns a matrix of 9
rows and `nbQ ()` columns in which a column is zero in its 9 rows as soon as no
joint between the segment and the base that passes the test of the code (none
of the three linear components of its motion subspace equal to 1) has this
column among its own; so the column of a DoF whose motion subspace has a linear
component equal to 1 (a translation along an axis of the joint frame) is zero
when no other joint of the chain writes it, and for a segment whose chain to the
base has only such DoFs the whole result is zero. -/
theorem JacobianSegmentRotMat_unit_translation (rbdl : Rbdl) (rm : RbdlRotation) (j : Joints)
    (m : Model) (md : ModelData) (Q : List Scalar) (idx : Nat) (updateKin : Bool) (fuel : Nat)
    (s : Segment) (hwf : m.WellFormed) (hseg : j.segments[idx]? = some s)
    (hidx : idx < 2 ^ 31)
    (href : CalcMatRotJacobian.reference_body_id rm (rm.segment_id s) < m.mBodies_size)
    (hfuel : m.mBodies_size ≤ fuel) (hQ : updateKin = true → Q.length = j.nbQ)
    (hsize : rm.qdot_size = j.nbQ)
    (hcols : ∀ jb, jb ≠ 0 →
      m.IsInSubtree jb (CalcMatRotJacobian.reference_body_id rm (rm.segment_id s)) →
      CalcMatRotJacobian.contributes (kinematics rbdl md Q updateKin) jb →
      m.q_index jb + CalcMatRotJacobian.width rm jb ≤ j.nbQ) :
    ∃ G md1, j.JacobianSegmentRotMat rbdl rm m md Q idx updateKin fuel
        = Except.ok (some (G, md1)) ∧
      G.rows = 9 ∧ G.cols = j.nbQ ∧
      (∀ c, (∀ jb, jb ≠ 0 →
          m.IsInSubtree jb (CalcMatRotJacobian.reference_body_id rm (rm.segment_id s)) →
          CalcMatRotJacobian.contributes (kinematics rbdl md Q updateKin) jb →
          ¬ (m.q_index jb ≤ c ∧ c < m.q_index jb + CalcMatRotJacobian.width rm jb)) →
        ∀ r, G.coeff r c = 0) ∧
      ((∀ jb, jb ≠ 0 →
          m.IsInSubtree jb (CalcMatRotJacobian.reference_body_id rm (rm.segment_id s)) →
          ¬ CalcMatRotJacobian.contributes (kinematics rbdl md Q updateKin) jb) →
        ∀ r c, G.coeff r c = 0) := by
  have hid : j.getBodyBiorbdIdToRbdlId rm (toInt32 idx) = some (rm.segment_id s) := by
    unfold getBodyBiorbdIdToRbdlId
    rw [toSizeT_toInt32 idx hidx]
    unfold segments at hseg
    rw [hseg]
    rfl
  obtain ⟨G1, a1, r1, c1, p1⟩ := CalcMatRotJacobian_axis_spec hwf (kinematics rbdl md Q updateKin)
    rm Q (rm.segment_id s) 1 fuel ⟨9, j.nbQ, fun _ _ => 0⟩ 0 href hfuel rfl hcols
  obtain ⟨G2, a2, r2, c2, p2⟩ := CalcMatRotJacobian_axis_spec hwf (kinematics rbdl md Q updateKin)
    rm Q (rm.segment_id s) 1 fuel G1 1 href hfuel r1 (by rw [c1]; exact hcols)
  obtain ⟨G3, a3, r3, c3, p3⟩ := CalcMatRotJacobian_axis_spec hwf (kinematics rbdl md Q updateKin)
    rm Q (rm.segment_id s) 1 fuel G2 2 href hfuel r2 (by rw [c2, c1]; exact hcols)
  have hcall : j.JacobianSegmentRotMat rbdl rm m md Q idx updateKin fuel
      = Except.ok (some (G3, kinematics rbdl md Q updateKin)) := by
    have hfold : ([0, 1, 2] : List (Fin 3)).foldlM
        (CalcMatRotJacobian.axis m (kinematics rbdl md Q updateKin) rm Q (rm.segment_id s) 1
          fuel) ⟨9, j.nbQ, fun _ _ => 0⟩ = some G3 := by
      simp only [List.foldlM_cons, List.foldlM_nil, a1, a2, a3, bind, Option.bind, pure]
    unfold JacobianSegmentRotMat
    rw [hid]
    unfold CalcMatRotJacobian
    cases updateKin with
    | false =>
      have hk : kinematics rbdl md Q false = md := rfl
      rw [hk] at hfold
      simp [bind, Except.bind, pure, Except.pure, hsize, hfold, hk]
    | true =>
      have hk : kinematics rbdl md Q true
          = rbdl.UpdateKinematicsCustom md (some Q) none none := rfl
      rw [hk] at hfold
      simp [bind, Except.bind, pure, Except.pure, hsize, hfold, hk,
        (UpdateKinematicsCustom_Q rbdl j md Q).1 (hQ rfl)]
  have hzero : ∀ c, (∀ jb, jb ≠ 0 →
      m.IsInSubtree jb (CalcMatRotJacobian.reference_body_id rm (rm.segment_id s)) →
      CalcMatRotJacobian.contributes (kinematics rbdl md Q updateKin) jb →
      ¬ (m.q_index jb ≤ c ∧ c < m.q_index jb + CalcMatRotJacobian.width rm jb)) →
      ∀ r, G3.coeff r c = 0 := by
    intro c hc r
    rw [p3 c hc r, p2 c hc r, p1 c hc r]
  refine ⟨G3, _, hcall, r3, by rw [c3, c2, c1], hzero, ?_⟩
  intro hnone r c
  exact hzero c (fun jb hjb hsub hcb => absurd hcb (hnone jb hjb hsub)) r

/-- The example whose body slides along the first axis of its joint frame: the
whole matrix is zero. -/
theorem JacobianSegmentRotMat_unit_translation_witness :
    ∃ G md1, Example1.joints.JacobianSegmentRotMat Example1.rbdl Example1.rotation
        Example1.model Example1.dataTranslation [0] 0 true 2 = Except.ok (some (G, md1)) ∧
      G.rows = 9 ∧ G.cols = Example1.joints.nbQ ∧ ∀ r c, G.coeff r c = 0 := by
  have hnone : ∀ jb, jb ≠ 0 →
      Example1.model.IsInSubtree jb (CalcMatRotJacobian.reference_body_id Example1.rotation
        (Example1.rotation.segment_id ⟨"Pelvis", "root", ⟨1, 1, 1, 1, 1, false⟩, ⟨1⟩⟩)) →
      ¬ CalcMatRotJacobian.contributes
        (kinematics Example1.rbdl Example1.dataTranslation [0] true) jb := by
    intro jb _ _ h
    exact h.1 (by simp [kinematics, Example1.rbdl, Example1.dataTranslation])
  obtain ⟨G, md1, h1, h2, h3, -, h5⟩ := JacobianSegmentRotMat_unit_translation Example1.rbdl
    Example1.rotation Example1.joints Example1.model Example1.dataTranslation [0] 0 true 2
    ⟨"Pelvis", "root", ⟨1, 1, 1, 1, 1, false⟩, ⟨1⟩⟩ Example1.model_wellFormed
    (by
      have h := (AddSegment_effect Joints.new "Pelvis" "root" ⟨1, 1, 1, 1, 1, false⟩
        ⟨1⟩).2.2.2.2.2.2
      show (Joints.new.AddSegment "Pelvis" "root" ⟨1, 1, 1, 1, 1, false⟩ ⟨1⟩).2.m_segments[0]?
        = _
      rw [h]
      rfl)
    (by decide) (by decide) (by decide) (fun _ => by decide) (by decide)
    (fun jb hjb hsub hcb => absurd hcb (hnone jb hjb hsub))
  exact ⟨G, md1, h1, h2, h3, h5 hnone⟩

end Joints

/-! ### The sizes of the mass matrix and of its inverse -/

namespace Example2

theorem joints_nbQ : joints.nbQ = 1 := by decide

theorem getDofSubTrees_model : model.getDofSubTrees 3 = some [[0, 1], [1]] := by decide

theorem massMatrix_entry :
    (joints.massMatrix Example1.rbdl model Example1.data [0] true).1.coeff 0 0 = 2 := by
  simp [Joints.massMatrix, Example1.rbdl, Model.CompositeRigidBodyAlgorithm,
    Model.CompositeRigidBodyAlgorithm.body, Model.CompositeRigidBodyAlgorithm.walk,
    Model.mBodies_size, model, Model.parent, Model.q_index, Example1.data, List.range',
    setEntry, setAt]
  norm_num

theorem passes_entry :
    (Joints.massMatrixInverse.passes model Example1.data [[0, 1], [1]]).Minv 0 0 = 1 := by
  rw [Joints.passes_Minv, Joints.mirror_apply, if_neg (fun h => Nat.lt_irrefl 0 h.1)]
  simp [Joints.massMatrixInverse.recursion, Joints.massMatrixInverse.backwardBody,
    Joints.massMatrixInverse.forwardBody, model, Model.mBodies_size, Model.parent,
    Model.q_index, List.range', setEntry, setAt, Example1.data, Matrix.vecMulVec_apply]

end Example2

namespace Joints

/-- C1, evaluated: on the model with two segments of one DoF each, the second
added through the rotation-only overload of `AddSegment`, `nbQ () = 1` while the
inherited model has 2 DoFs. With unit inertias and `Q` of size `nbQ ()`,
`massMatrix (Q)` is the non-singular 1×1 matrix of entry 2 and
`massMatrixInverse (Q)` is a 2×2 matrix of first entry 1: the two matrices do
not have the same size, and entry (0, 0) of their product is 2, not 1. -/
theorem massMatrix_massMatrixInverse_sizes_differ :
    Example2.joints.nbQ = 1 ∧ Example2.model.dof_count = 2 ∧
    (Example2.joints.massMatrix Example1.rbdl Example2.model Example1.data [0] true).1.rows
      = 1 ∧
    (Example2.joints.massMatrix Example1.rbdl Example2.model Example1.data [0] true).1.cols
      = 1 ∧
    (Example2.joints.massMatrix Example1.rbdl Example2.model Example1.data [0]
      true).1.IsNonsingular ∧
    ∃ Minv md1, Example2.joints.massMatrixInverse Example1.rbdl Example2.model Example1.data
        [0] true 3 = Except.ok (some (Minv, md1)) ∧
      Minv.rows = 2 ∧ Minv.cols = 2 ∧
      (Example2.joints.massMatrix Example1.rbdl Example2.model Example1.data [0]
        true).1.mulAt Minv 0 0 = 2 ∧
      (Example2.joints.massMatrix Example1.rbdl Example2.model Example1.data [0]
        true).1.mulAt Minv 0 0 ≠ 1 := by
  have hrows : (Example2.joints.massMatrix Example1.rbdl Example2.model Example1.data [0]
      true).1.rows = 1 := Example2.joints_nbQ
  have hcols : (Example2.joints.massMatrix Example1.rbdl Example2.model Example1.data [0]
      true).1.cols = 1 := Example2.joints_nbQ
  have hrun := massMatrixInverse_run Example1.rbdl Example2.joints Example2.model
    Example1.data [0] true 3 [[0, 1], [1]] (fun _ => by decide) Example2.getDofSubTrees_model
  have hmul : ∀ Minv : DenseMatrix, Minv.coeff 0 0 = 1 →
      (Example2.joints.massMatrix Example1.rbdl Example2.model Example1.data [0]
        true).1.mulAt Minv 0 0 = 2 := by
    intro Minv h
    unfold DenseMatrix.mulAt
    rw [hcols]
    have hr : List.range 1 = [0] := rfl
    rw [hr]
    simp [Example2.massMatrix_entry, h]
  refine ⟨Example2.joints_nbQ, rfl, hrows, hcols, ?_, _, _, hrun, rfl, rfl, ?_, ?_⟩
  · intro x hx hzero k hk
    rw [hcols] at hx hk
    have h0 := hzero 0 (by rw [hrows]; decide)
    unfold DenseMatrix.mulVecAt at h0
    rw [hcols] at h0
    have hr : List.range 1 = [0] := rfl
    rw [hr] at h0
    simp [Example2.massMatrix_entry] at h0
    have hk0 : k = 0 := by omega
    rw [hk0]
    simpa using h0
  · exact hmul _ Example2.passes_entry
  · rw [hmul _ Example2.passes_entry]
    norm_num

end Joints

/-! ### The columns of the translations -/

namespace Joints

end Joints

end biorbd
